import Mathlib


/-!
# FlowVersion merge kernel: canonicalizer, graph adapter, merge engine, validator

A shallow embedding of

* `flowversion-conformance/src/canonicalize.js` (the reference canonicalizer), and
* `workflow-graph-adapter/src/workflow-adapter.js` (graph normalizer, merge, validate),

followed by theorems about them.

## Conventions of the embedding

* A JavaScript string is a Lean `String` (a sequence of Unicode scalar values, i.e. a
  well-formed JavaScript string).  JavaScript orders strings by UTF-16 code units; this
  order is `strLt` below.
* A JavaScript number is a `JSNumber`: `NaN`, the two infinities, or a finite number given
  by its exact rational value.  Numbers are identified up to `===`, so there is one zero.
* A JavaScript object is the list of its own enumerable string-keyed properties in
  enumeration order (`Object.keys` order): array-index keys first in ascending numeric
  order, then the remaining keys in creation order.  `setProp` is property assignment.
  Values are plain data: an object has the standard prototype, which is not represented, and
  a property read (`getProp`) is a read of an own property.  `canonicalizeObject` replaces
  the prototype of its result when its input has the own key `__proto__`; that prototype is
  recorded apart, by `assignedPrototype`.
* `throw new Error(..)` is `Except.error`.
* Engine or platform services the code calls but does not define (`localeCompare`, SHA-1,
  SHA-256) are fields of `Platform`.  `Date`, `JSON.stringify` and `JSON.parse` are modelled
  after ECMAScript as implemented by V8, the engine of Node.js.
-/

namespace FlowVersion

/-! ## JavaScript strings -/

/-- UTF-16 code units of one Unicode scalar value (a surrogate pair above the BMP). -/
def utf16Char (c : Char) : List Nat :=
  if c.toNat < 0x10000 then [c.toNat]
  else [0xD800 + (c.toNat - 0x10000) / 0x400, 0xDC00 + (c.toNat - 0x10000) % 0x400]

/-- UTF-16 code units of a list of characters. -/
def utf16List : List Char → List Nat
  | [] => []
  | c :: cs => utf16Char c ++ utf16List cs

/-- The UTF-16 code units of a string, the representation JavaScript compares. -/
def utf16Units (s : String) : List Nat := utf16List s.toList

/-- Lexicographic "less than" on code-unit sequences. -/
def unitsLt : List Nat → List Nat → Bool
  | [], [] => false
  | [], _ :: _ => true
  | _ :: _, [] => false
  | a :: as, b :: bs => decide (a < b) || (a == b && unitsLt as bs)

/-- JavaScript `a < b` on strings: code-unit-wise lexicographic comparison. -/
def strLt (a b : String) : Bool := unitsLt (utf16Units a) (utf16Units b)

/-- The relation "a may stand before b" of the default `Array.prototype.sort()` on strings:
the default comparator puts `b` first only when `b < a`. -/
def strLe (a b : String) : Prop := strLt b a = false

instance : DecidableRel strLe := fun a b => inferInstanceAs (Decidable (strLt b a = false))

/-- Code-point order on strings (the order the specification names). -/
def codePointLt (a b : String) : Bool :=
  unitsLt (a.toList.map Char.toNat) (b.toList.map Char.toNat)

/-- `Array.prototype.sort()` with the default comparator, on an array of strings.  The sort is
stable; it is computed here by insertion. -/
def sortStrings (ks : List String) : List String := ks.insertionSort strLe

/-- `Array.prototype.sort(cmp)` with a comparator returning a number: `a` may stand before `b`
when `cmp(a,b) ≤ 0`; the sort is stable. -/
def sortWith {α : Type} (cmp : α → α → Int) (xs : List α) : List α :=
  xs.insertionSort (fun a b => cmp a b ≤ 0)

/-- `\d` of a JavaScript regular expression: an ASCII digit. -/
def isDigit (c : Char) : Bool := decide (48 ≤ c.toNat) && decide (c.toNat ≤ 57)

/-- The character class `[0-9a-fA-F]`. -/
def isHexDigit (c : Char) : Bool :=
  isDigit c || (decide (97 ≤ c.toNat) && decide (c.toNat ≤ 102))
    || (decide (65 ≤ c.toNat) && decide (c.toNat ≤ 70))

/-- `String.prototype.toLowerCase` on one character, for the ASCII letters (the code applies it
only to strings of hexadecimal digits and hyphens). -/
def lowerChar (c : Char) : Char :=
  if 65 ≤ c.toNat ∧ c.toNat ≤ 90 then Char.ofNat (c.toNat + 32) else c

/-- `s.toLowerCase()`. -/
def toLowerCase (s : String) : String := String.mk (s.toList.map lowerChar)

/-- Match a fixed-length pattern given as one character class per position (`^...$`). -/
def matchShape : List (Char → Bool) → List Char → Bool
  | [], [] => true
  | p :: ps, c :: cs => p c && matchShape ps cs
  | _, _ => false

/-- The class of the literal hyphen. -/
def isHyphen (c : Char) : Bool := c == '-'

/-- `/^[0-9a-fA-F]{8}-[0-9a-fA-F]{4}-[0-9a-fA-F]{4}-[0-9a-fA-F]{4}-[0-9a-fA-F]{12}$/`. -/
def uuidShape : List (Char → Bool) :=
  List.replicate 8 isHexDigit ++ [isHyphen] ++ List.replicate 4 isHexDigit ++ [isHyphen]
    ++ List.replicate 4 isHexDigit ++ [isHyphen] ++ List.replicate 4 isHexDigit ++ [isHyphen]
    ++ List.replicate 12 isHexDigit

/-- `uuidPattern.test(s)`. -/
def uuidPatternTest (s : String) : Bool := matchShape uuidShape s.toList

/-- `hashPattern.test(s)` for `/^[0-9a-fA-F]{64}$/`. -/
def hashPatternTest (s : String) : Bool := matchShape (List.replicate 64 isHexDigit) s.toList

/-! ## Timestamps: the ISO-8601 pattern and `Date` -/

/-- Value of a decimal digit character. -/
def digitVal (c : Char) : Nat := c.toNat - 48

/-- The decimal digit character of `d < 10`. -/
def digitChar (d : Nat) : Char := Char.ofNat (48 + d)

/-- Read exactly `n` decimal digits (`\d{n}`) and return their value and the rest. -/
def readDigits : Nat → List Char → Option (Nat × List Char)
  | 0, cs => some (0, cs)
  | _ + 1, [] => none
  | n + 1, c :: cs =>
    if isDigit c then
      match readDigits n cs with
      | some (v, rest) => some (digitVal c * 10 ^ n + v, rest)
      | none => none
    else none

/-- Expect one literal character. -/
def expectChar (c : Char) : List Char → Option (List Char)
  | [] => none
  | d :: cs => if d = c then some cs else none

/-- The leading run of digits of a character list, and what follows it. -/
def spanDigits : List Char → List Char × List Char
  | [] => ([], [])
  | c :: cs => if isDigit c then ((spanDigits cs).1.cons c, (spanDigits cs).2) else ([], c :: cs)

/-- The pieces of a string matching the timestamp pattern. -/
structure IsoFields where
  year : Nat
  month : Nat
  day : Nat
  hour : Nat
  minute : Nat
  second : Nat
  /-- The digits of the optional group `(\.\d+)?`, empty when the group is absent. -/
  fraction : List Char
  /-- Is the zone designator a numeric offset (as opposed to `Z`). -/
  hasOffset : Bool
  /-- Is the numeric offset negative. -/
  offsetNegative : Bool
  offsetHour : Nat
  offsetMinute : Nat
deriving DecidableEq, Repr

/-- The zone designator `(Z|[+-]\d{2}:\d{2})$`. -/
def isoZone : List Char → Option (Bool × Bool × Nat × Nat)
  | ['Z'] => some (false, false, 0, 0)
  | sign :: rest =>
    if sign = '+' ∨ sign = '-' then
      match readDigits 2 rest with
      | some (oh, r1) =>
        match expectChar ':' r1 with
        | some r2 =>
          match readDigits 2 r2 with
          | some (om, []) => some (true, decide (sign = '-'), oh, om)
          | _ => none
        | none => none
      | none => none
    else none
  | [] => none

/-- The optional fraction `(\.\d+)?` followed by the zone designator. -/
def isoFractionZone (cs : List Char) : Option (List Char × Bool × Bool × Nat × Nat) :=
  match cs with
  | '.' :: rest =>
    match spanDigits rest with
    | ([], _) => none
    | (ds, r) => (isoZone r).map (fun z => (ds, z))
  | _ => (isoZone cs).map (fun z => ([], z))

/-- Read `\d{2}` after the literal character `c`. -/
def readSep2 (c : Char) (cs : List Char) : Option (Nat × List Char) :=
  match expectChar c cs with
  | some r => readDigits 2 r
  | none => none

/-- The date part `\d{4}-\d{2}-\d{2}` of the timestamp pattern. -/
def isoDate (cs : List Char) : Option ((Nat × Nat × Nat) × List Char) :=
  match readDigits 4 cs with
  | some (y, r1) =>
    match readSep2 '-' r1 with
    | some (mo, r2) =>
      match readSep2 '-' r2 with
      | some (d, r3) => some ((y, mo, d), r3)
      | none => none
    | none => none
  | none => none

/-- The time part `T\d{2}:\d{2}:\d{2}` of the timestamp pattern. -/
def isoTime (cs : List Char) : Option ((Nat × Nat × Nat) × List Char) :=
  match readSep2 'T' cs with
  | some (h, r1) =>
    match readSep2 ':' r1 with
    | some (mi, r2) =>
      match readSep2 ':' r2 with
      | some (s, r3) => some ((h, mi, s), r3)
      | none => none
    | none => none
  | none => none

/-- Match `/^\d{4}-\d{2}-\d{2}T\d{2}:\d{2}:\d{2}(\.\d+)?(Z|[+-]\d{2}:\d{2})$/` against a
character list, returning the matched pieces. -/
def isoFields (cs : List Char) : Option IsoFields :=
  match isoDate cs with
  | some (ymd, r1) =>
    match isoTime r1 with
    | some (hms, r2) =>
      match isoFractionZone r2 with
      | some (fr, z) =>
        some { year := ymd.1, month := ymd.2.1, day := ymd.2.2,
               hour := hms.1, minute := hms.2.1, second := hms.2.2,
               fraction := fr, hasOffset := z.1, offsetNegative := z.2.1,
               offsetHour := z.2.2.1, offsetMinute := z.2.2.2 }
      | none => none
    | none => none
  | none => none

/-- `isoPattern.test(s)`. -/
def isoPatternTest (s : String) : Bool := (isoFields s.toList).isSome

/-- ECMAScript `DayFromYear(y)`: the day number of 1 January of year `y`. -/
def dayFromYear (y : Int) : Int :=
  365 * (y - 1970) + (y - 1969) / 4 - (y - 1901) / 100 + (y - 1601) / 400

/-- ECMAScript leap-year test (`DaysInYear(y) = 366`). -/
def isLeapYear (y : Int) : Bool :=
  if y % 4 ≠ 0 then false else if y % 100 ≠ 0 then true else if y % 400 ≠ 0 then false else true

/-- Days of the year before the first of month `m` (1-based). -/
def daysBeforeMonth (leap : Bool) (m : Nat) : Int :=
  let extra : Int := if leap then 1 else 0
  match m with
  | 1 => 0
  | 2 => 31
  | 3 => 59 + extra
  | 4 => 90 + extra
  | 5 => 120 + extra
  | 6 => 151 + extra
  | 7 => 181 + extra
  | 8 => 212 + extra
  | 9 => 243 + extra
  | 10 => 273 + extra
  | 11 => 304 + extra
  | _ => 334 + extra

/-- ECMAScript `MakeDay(year, month - 1, day)` for a month in 1..12: the day number of the
first of the month plus `day - 1` (a day beyond the end of the month rolls over). -/
def makeDay (y : Int) (m d : Nat) : Int :=
  dayFromYear y + daysBeforeMonth (isLeapYear y) m + (d : Int) - 1

/-- The value V8's date tokenizer gives a run of digits (`ReadUnsignedNumeral`): the leading
zeros are skipped, then at most nine digits build the value and the digits after them are
ignored. -/
def readUnsignedNumeral (ds : List Char) : Nat :=
  ((ds.dropWhile (fun c => c == '0')).take 9).foldl (fun n c => n * 10 + digitVal c) 0

/-- Milliseconds of the fraction digits (V8 `ReadMilliseconds` on the numeral token of the
fraction, whose length counts every digit): one or two digits are padded with zeros on the
right, and above three digits the value is divided by `10 ^ (length - 3)`, the length capped at
nine.  For up to nine digits these are the first three digits of the fraction. -/
def fractionMillis (ds : List Char) : Nat :=
  let number := readUnsignedNumeral ds
  let length := ds.length
  if length = 1 then number * 100
  else if length = 2 then number * 10
  else if length > 3 then number / 10 ^ (min length 9 - 3)
  else number

/-- The time value of `new Date(s)` for a string matching the timestamp pattern, `none` for an
invalid date (`NaN`), as V8 parses it.  Accepted are month 1..12, day 1..31 whatever the month,
minute and second 0..59, offset hour 0..23 and offset minute 0..59, and hour 0..23 or the hour
24 with minute 0, second 0 and a fraction whose numeral is 0 (the parser tests the numeral of
the fraction, not its milliseconds, so `24:00:00.0001` is invalid). -/
def dateTimeValue (f : IsoFields) : Option Int :=
  let ms := fractionMillis f.fraction
  let fieldsOk : Bool :=
    decide (1 ≤ f.month) && decide (f.month ≤ 12) && decide (1 ≤ f.day) && decide (f.day ≤ 31)
      && ((decide (f.hour ≤ 23) && decide (f.minute ≤ 59) && decide (f.second ≤ 59))
          || (f.hour == 24 && f.minute == 0 && f.second == 0
              && readUnsignedNumeral f.fraction == 0))
      && decide (f.offsetHour ≤ 23) && decide (f.offsetMinute ≤ 59)
  if fieldsOk then
    let localMs : Int :=
      makeDay f.year f.month f.day * 86400000
        + (f.hour : Int) * 3600000 + (f.minute : Int) * 60000 + (f.second : Int) * 1000 + ms
    let offsetMs : Int := (f.offsetHour : Int) * 3600000 + (f.offsetMinute : Int) * 60000
    some (if f.hasOffset then
            (if f.offsetNegative then localMs + offsetMs else localMs - offsetMs)
          else localMs)
  else none

/-- `new Date(s).getTime()` for a string matching the timestamp pattern. -/
def dateParse (s : String) : Option Int :=
  match isoFields s.toList with
  | some f => dateTimeValue f
  | none => none

/-- ECMAScript `YearFromTime`: the year containing day number `z`. -/
def yearFromDay (z : Int) : Int :=
  let y := 1970 + (400 * z) / 146097
  if z < dayFromYear y then y - 1
  else if dayFromYear (y + 1) ≤ z then y + 1
  else y

/-- ECMAScript `MonthFromTime` (1-based) from the day within the year. -/
def monthFromDayInYear (leap : Bool) (n : Int) : Nat :=
  if n < daysBeforeMonth leap 2 then 1
  else if n < daysBeforeMonth leap 3 then 2
  else if n < daysBeforeMonth leap 4 then 3
  else if n < daysBeforeMonth leap 5 then 4
  else if n < daysBeforeMonth leap 6 then 5
  else if n < daysBeforeMonth leap 7 then 6
  else if n < daysBeforeMonth leap 8 then 7
  else if n < daysBeforeMonth leap 9 then 8
  else if n < daysBeforeMonth leap 10 then 9
  else if n < daysBeforeMonth leap 11 then 10
  else if n < daysBeforeMonth leap 12 then 11
  else 12

/-- Decimal digits of `n`, exactly `w` of them (`padStart(w, "0")` of a number below `10^w`). -/
def padDigits : Nat → Nat → List Char
  | 0, _ => []
  | w + 1, n => digitChar (n / 10 ^ w % 10) :: padDigits w n

/-- The UTC calendar fields of a time value: ECMAScript `YearFromTime`, `MonthFromTime` + 1,
`DateFromTime`, `HourFromTime`, `MinFromTime`, `SecFromTime`, `msFromTime`. -/
structure UtcFields where
  year : Int
  month : Nat
  day : Nat
  hour : Nat
  minute : Nat
  second : Nat
  ms : Nat

/-- The UTC calendar fields of the time value `t` (milliseconds since the epoch). -/
def utcFields (t : Int) : UtcFields :=
  let day := t / 86400000
  let msInDay := (t % 86400000).toNat
  let y := yearFromDay day
  let n := day - dayFromYear y
  let m := monthFromDayInYear (isLeapYear y) n
  { year := y, month := m, day := (n - daysBeforeMonth (isLeapYear y) m + 1).toNat,
    hour := msInDay / 3600000, minute := msInDay / 60000 % 60, second := msInDay / 1000 % 60,
    ms := msInDay % 1000 }

/-- The year of `toISOString`: four digits, or a sign and six digits outside 0..9999. -/
def isoYearDigits (y : Int) : List Char :=
  if 0 ≤ y ∧ y ≤ 9999 then padDigits 4 y.toNat
  else if y < 0 then '-' :: padDigits 6 (-y).toNat
  else '+' :: padDigits 6 y.toNat

/-- The text `YYYY-MM-DDTHH:mm:ss` of `toISOString`. -/
def isoSecondsText (f : UtcFields) : List Char :=
  isoYearDigits f.year ++ '-' :: padDigits 2 f.month ++ '-' :: padDigits 2 f.day
    ++ 'T' :: padDigits 2 f.hour ++ ':' :: padDigits 2 f.minute ++ ':' :: padDigits 2 f.second

/-- `Date.prototype.toISOString` for the time value `t`: `YYYY-MM-DDTHH:mm:ss.sssZ`. -/
def toISOString (t : Int) : String :=
  String.mk (isoSecondsText (utcFields t) ++ '.' :: padDigits 3 (utcFields t).ms ++ ['Z'])

/-- ECMAScript `getUTCMilliseconds()`. -/
def utcMilliseconds (t : Int) : Int := t % 1000

/-- Is `p` a leading segment of `cs`. -/
def startsWith : List Char → List Char → Bool
  | [], _ => true
  | _ :: _, [] => false
  | a :: p, c :: cs => a == c && startsWith p cs

/-- `String.prototype.replace(pat, rep)` with a string pattern: the first occurrence only. -/
def replaceFirst (pat rep : List Char) : List Char → List Char
  | [] => if pat.isEmpty then rep else []
  | c :: cs =>
    if startsWith pat (c :: cs) then rep ++ (c :: cs).drop pat.length
    else c :: replaceFirst pat rep cs

/-! ## Values -/

/-- A JavaScript number, up to `===`. -/
inductive JSNumber where
  | nan
  | posInf
  | negInf
  /-- A finite number, by its exact value. -/
  | finite (q : ℚ)
deriving DecidableEq

/-- A JavaScript value as the canonicalizer sees it: plain data, as `JSON.parse` and object
literals build it.  An object is represented by its own enumerable properties and stands for an
object with the standard prototype, for which reading a data key is reading an own property.
The prototype is not part of the representation: the one place where the code gives an object
another prototype, the assignment to the key `__proto__` in `canonicalizeObject`, is recorded
apart by `assignedPrototype`, and a property read on such an object is outside of what `getProp`
describes. -/
inductive Value where
  | null
  | undefined
  | bool (b : Bool)
  | num (n : JSNumber)
  | str (s : String)
  /-- An array (`Array.isArray`), by its elements. -/
  | arr (items : List Value)
  /-- Any other value with `typeof` equal to `"object"`, by its own enumerable properties in
  enumeration order. -/
  | obj (props : List (String × Value))
  /-- A value of another type (`function`, `symbol`, `bigint`), by its `typeof`. -/
  | unsupported (typeName : String)

/-- The own properties of an object, in enumeration order. -/
abbrev Props := List (String × Value)

/-- The errors thrown by the canonicalizer and the adapter, one constructor per `throw`. -/
inductive JSError where
  /-- `Undefined is not valid in canonical form. Use null or omit the key.` -/
  | undefinedValue
  /-- `Non-finite numbers not allowed in canonical form` -/
  | nonFiniteNumber (n : JSNumber)
  /-- `Non-integer numbers are not allowed in canonical form` -/
  | nonIntegerNumber (n : JSNumber)
  /-- `Unsafe integer (exceeds MAX_SAFE_INTEGER) not allowed in canonical form` -/
  | unsafeInteger (n : JSNumber)
  /-- `Invalid timestamp` -/
  | invalidTimestamp (s : String)
  /-- `Unsupported type` -/
  | unsupportedType (typeName : String)
  /-- `Node must be an object` / `Edge must be an object` -/
  | mustBeObject (what : String)
  /-- `Expected string for <field>` -/
  | expectedString (field : String)
  /-- `Invalid UUID` -/
  | invalidUuid (s : String)
  /-- `RangeError: Maximum call stack size exceeded`; in the embedding, a traversal that used up
  its step budget. -/
  | stackOverflow
  /-- `SyntaxError` of `JSON.parse`. -/
  | syntaxError
deriving DecidableEq

/-! ## Canonicalizer (`canonicalize.js`) -/

/-- `Number.isFinite(n)`. -/
def JSNumber.isFinite : JSNumber → Bool
  | .finite _ => true
  | _ => false

/-- `Number.isInteger(n)`. -/
def JSNumber.isInteger : JSNumber → Bool
  | .finite q => q.den == 1
  | _ => false

/-- `Number.MAX_SAFE_INTEGER`, `2^53 - 1`. -/
def maxSafeInteger : Nat := 9007199254740991

/-- `Number.isSafeInteger(n)`. -/
def JSNumber.isSafeInteger : JSNumber → Bool
  | .finite q => q.den == 1 && decide (q.num.natAbs ≤ maxSafeInteger)
  | _ => false

/-- `canonicalizeNumber(n)`. -/
def canonicalizeNumber (n : JSNumber) : Except JSError JSNumber :=
  if !n.isFinite then .error (.nonFiniteNumber n)
  else if !n.isInteger then .error (.nonIntegerNumber n)
  else if !n.isSafeInteger then .error (.unsafeInteger n)
  else .ok n

/-- `normalizeTimestamp(s)`. -/
def normalizeTimestamp (s : String) : Except JSError String :=
  match dateParse s with
  | none => .error (.invalidTimestamp s)
  | some t =>
    if utcMilliseconds t = 0 then
      .ok (String.mk (replaceFirst ".000Z".toList "Z".toList (toISOString t).toList))
    else .ok (toISOString t)

/-- The canonical text of the instant `t` (the specification's "UTC, milliseconds kept only
when non-zero"): `YYYY-MM-DDTHH:mm:ssZ` or `YYYY-MM-DDTHH:mm:ss.sssZ`. -/
def timestampText (t : Int) : String :=
  if utcMilliseconds t = 0 then String.mk (isoSecondsText (utcFields t) ++ ['Z'])
  else toISOString t

/-- `canonicalizeString(s)`. -/
def canonicalizeString (s : String) : Except JSError String :=
  if uuidPatternTest s then .ok (toLowerCase s)
  else if isoPatternTest s then normalizeTimestamp s
  else if hashPatternTest s then .ok (toLowerCase s)
  else .ok s

/-- The array index denoted by a property key, if it is one: a canonical numeric string
(no leading zero) of value at most `2^32 - 2`. -/
def arrayIndex? (k : String) : Option Nat :=
  match k.toList with
  | [] => none
  | c :: cs =>
    if (c :: cs).all isDigit && (c != '0' || cs.isEmpty) then
      let n := (c :: cs).foldl (fun a d => 10 * a + digitVal d) 0
      if n ≤ 4294967294 then some n else none
    else none

/-- `obj[key]` for an own property: the value of the first entry with that key. -/
def lookupProp {β : Type} (k : String) : List (String × β) → Option β
  | [] => none
  | (k', v) :: ps => if k' = k then some v else lookupProp k ps

/-- Does the object have the own property `k`. -/
def hasProp {β : Type} (k : String) (ps : List (String × β)) : Bool := (lookupProp k ps).isSome

/-- Create the array-index property `n`: it goes before the first property that is not an
array index or has a larger index. -/
def insertIndexProp (n : Nat) (kv : String × Value) : Props → Props
  | [] => [kv]
  | p :: ps =>
    match arrayIndex? p.1 with
    | some m => if n < m then kv :: p :: ps else p :: insertIndexProp n kv ps
    | none => kv :: p :: ps

/-- Overwrite the value of the existing own property `k`. -/
def replaceProp {β : Type} (k : String) (v : β) : List (String × β) → List (String × β)
  | [] => []
  | p :: ps => if p.1 = k then (k, v) :: ps else p :: replaceProp k v ps

/-- The own properties after `result[key] = value` on an ordinary object with own properties
`o`.  Assigning to `__proto__` runs the setter inherited from `Object.prototype`: it creates no
own property, so the own properties stay as they are, and it replaces the prototype of `result`
when `value` is an object, which the list of own properties does not show (see
`assignedPrototype`).  An existing property keeps its place; a new array-index key is enumerated
in numeric order before all other keys; any other new key goes last. -/
def setProp (o : Props) (k : String) (v : Value) : Props :=
  if k = "__proto__" then o
  else if hasProp k o then replaceProp k v o
  else match arrayIndex? k with
    | some n => insertIndexProp n (k, v) o
    | none => o ++ [(k, v)]

/-- The test `value !== undefined` negated. -/
def isUndefined : Value → Bool
  | .undefined => true
  | _ => false

/-- The loop of `canonicalizeObject`: for each key in sorted order read `obj[key]`, skip it when
undefined, otherwise assign `canonicalize(value)` to `result[key]`.  An entry holds, for one own
property, `none` when its value is undefined and `canonicalize` of its value otherwise. -/
def canonicalizeObjectLoop (entries : List (String × Option (Except JSError Value))) :
    List String → Props → Except JSError Props
  | [], result => .ok result
  | key :: keys, result =>
    match lookupProp key entries with
    | none => canonicalizeObjectLoop entries keys result
    | some none => canonicalizeObjectLoop entries keys result
    | some (some (.error e)) => .error e
    | some (some (.ok v)) => canonicalizeObjectLoop entries keys (setProp result key v)

/-- Wrap the canonical own properties as an object. -/
def okObj : Except JSError Props → Except JSError Value
  | .ok ps => .ok (.obj ps)
  | .error e => .error e

/-- Wrap the canonical elements as an array. -/
def okArr : Except JSError (List Value) → Except JSError Value
  | .ok xs => .ok (.arr xs)
  | .error e => .error e

/-- Wrap a canonical number. -/
def okNum : Except JSError JSNumber → Except JSError Value
  | .ok n => .ok (.num n)
  | .error e => .error e

/-- Wrap a canonical string. -/
def okStr : Except JSError String → Except JSError Value
  | .ok s => .ok (.str s)
  | .error e => .error e

mutual
/-- `canonicalize(value)`. -/
def canonicalize : Value → Except JSError Value
  | .null => .ok .null
  | .undefined => .error .undefinedValue
  | .bool b => .ok (.bool b)
  | .num n => okNum (canonicalizeNumber n)
  | .str s => okStr (canonicalizeString s)
  | .arr items => okArr (canonicalizeArray items)
  | .obj props =>
    okObj (canonicalizeObjectLoop (canonicalizeEntries props) (sortStrings (props.map Prod.fst)) [])
  | .unsupported t => .error (.unsupportedType t)
/-- `canonicalizeArray(arr)`: `arr.map(item => canonicalize(item))`, left to right. -/
def canonicalizeArray : List Value → Except JSError (List Value)
  | [] => .ok []
  | x :: xs =>
    match canonicalize x with
    | .error e => .error e
    | .ok y =>
      match canonicalizeArray xs with
      | .error e => .error e
      | .ok ys => .ok (y :: ys)
/-- For each own property, what the loop of `canonicalizeObject` does when it reaches its key:
nothing for an undefined value, `canonicalize(value)` otherwise (`canonicalize` has no side
effect, so the result may be computed ahead of the loop). -/
def canonicalizeEntries : List (String × Value) → List (String × Option (Except JSError Value))
  | [] => []
  | (k, v) :: ps =>
    (k, if isUndefined v then none else some (canonicalize v)) :: canonicalizeEntries ps
end

/-- The prototype that a call `canonicalizeObject(value)` which returns has given its result:
`result` starts as `{}`, and for the own property `__proto__` of the input the assignment
`result['__proto__'] = canonicalize(value['__proto__'])` goes to the setter of
`Object.prototype`, which makes an object, an array or `null` the prototype of `result` and
ignores every other value.  `none` when `result` keeps the standard prototype.  The object is
given by its own properties; its own prototype is `assignedPrototype` of the property value. -/
def assignedPrototype (value : Value) : Option Value :=
  match value with
  | .obj props =>
    match lookupProp "__proto__" props with
    | some .undefined => none
    | some p =>
      match canonicalize p with
      | .ok (.obj q) => some (.obj q)
      | .ok (.arr q) => some (.arr q)
      | .ok .null => some .null
      | _ => none
    | none => none
  | _ => none

/-- `canonicalizeObject(obj)` on the own properties of `obj`. -/
def canonicalizeObject (props : Props) : Except JSError Props :=
  canonicalizeObjectLoop (canonicalizeEntries props) (sortStrings (props.map Prod.fst)) []

/-- Assign the listed properties one after the other: `r[k1] = v1; r[k2] = v2; ...`. -/
def assignAll (r : Props) (kvs : List (String × Value)) : Props :=
  kvs.foldl (fun acc kv => setProp acc kv.1 kv.2) r

/-- The assignments the loop of `canonicalizeObject` performs for the given keys, in order: one
for each key whose value is defined and canonicalizes, `__proto__` apart (assigning to it
creates no property). -/
def loopAssignments (entries : List (String × Option (Except JSError Value))) :
    List String → List (String × Value)
  | [] => []
  | k :: ks =>
    match lookupProp k entries with
    | some (some (.ok v)) =>
      if k = "__proto__" then loopAssignments entries ks else (k, v) :: loopAssignments entries ks
    | _ => loopAssignments entries ks

/-- Canonicalize the defined property values in list order, dropping the undefined ones: what
`canonicalizeObject` returns for an object literal whose keys are written in sorted order. -/
def canonicalizeFields : Props → Except JSError Props
  | [] => .ok []
  | (k, v) :: ps =>
    if isUndefined v then canonicalizeFields ps
    else
      match canonicalize v with
      | .error e => .error e
      | .ok y =>
        match canonicalizeFields ps with
        | .error e => .error e
        | .ok r => .ok ((k, y) :: r)

/-- A key that is neither an array index nor `__proto__`: assigning it to an object that lacks
it appends the property. -/
def plainKey (k : String) : Bool := k != "__proto__" && (arrayIndex? k).isNone

/-! ## `JSON.stringify` -/

/-- Decimal digits of a natural number, most significant first. -/
def natDigits (n : Nat) : List Char := (Nat.toDigits 10 n)

/-- Lower-case hexadecimal digit of `d < 16`. -/
def hexDigitChar (d : Nat) : Char := if d < 10 then Char.ofNat (48 + d) else Char.ofNat (87 + d)

/-- `Number::toString` as `JSON.stringify` prints a number: `null` for a non-finite number and
the decimal digits of an integer (exact below `10^21`, so for every safe integer).  The digits
the engine prints for a non-integer are outside this embedding (no canonical value has one);
such a number is rendered as `numerator/denominator`. -/
def numberToJson : JSNumber → List Char
  | .finite q =>
    if q.den = 1 then
      (if q.num < 0 then '-' :: natDigits q.num.natAbs else natDigits q.num.natAbs)
    else (if q.num < 0 then '-' :: natDigits q.num.natAbs else natDigits q.num.natAbs)
      ++ '/' :: natDigits q.den
  | _ => "null".toList

/-- ECMAScript `QuoteJSONString` on one character. -/
def quoteJsonChar (c : Char) : List Char :=
  if c = '"' then ['\\', '"']
  else if c = '\\' then ['\\', '\\']
  else if c.toNat = 8 then ['\\', 'b']
  else if c.toNat = 9 then ['\\', 't']
  else if c.toNat = 10 then ['\\', 'n']
  else if c.toNat = 12 then ['\\', 'f']
  else if c.toNat = 13 then ['\\', 'r']
  else if c.toNat < 32 then
    ['\\', 'u', '0', '0', hexDigitChar (c.toNat / 16), hexDigitChar (c.toNat % 16)]
  else [c]

/-- Quote every character of a string body. -/
def quoteJsonChars : List Char → List Char
  | [] => []
  | c :: cs => quoteJsonChar c ++ quoteJsonChars cs

/-- ECMAScript `QuoteJSONString`. -/
def quoteJsonString (s : String) : List Char := '"' :: quoteJsonChars s.toList ++ ['"']

/-- Join the pieces with commas. -/
def joinComma : List (List Char) → List Char
  | [] => []
  | [x] => x
  | x :: y :: rest => x ++ ',' :: joinComma (y :: rest)

mutual
/-- `JSON.stringify(value)` without indentation; `none` when the result is `undefined` (an
undefined value, a function or a symbol).  A `bigint` would make `JSON.stringify` throw; the
code never prints one, because `canonicalize` rejects it first. -/
def stringifyValue : Value → Option (List Char)
  | .null => some "null".toList
  | .undefined => none
  | .bool b => some (if b then "true".toList else "false".toList)
  | .num n => some (numberToJson n)
  | .str s => some (quoteJsonString s)
  | .arr items => some ('[' :: joinComma (stringifyItems items) ++ [']'])
  | .obj props => some ('{' :: joinComma (stringifyMembers props) ++ ['}'])
  | .unsupported _ => none
/-- The elements of an array; an element without a JSON text is printed as `null`. -/
def stringifyItems : List Value → List (List Char)
  | [] => []
  | x :: xs =>
    (match stringifyValue x with
      | some t => t
      | none => "null".toList) :: stringifyItems xs
/-- The members of an object in enumeration order; a member without a JSON text is omitted. -/
def stringifyMembers : List (String × Value) → List (List Char)
  | [] => []
  | (k, v) :: ps =>
    match stringifyValue v with
    | some t => (quoteJsonString k ++ ':' :: t) :: stringifyMembers ps
    | none => stringifyMembers ps
end

/-- `JSON.stringify(value)` as a string; a template literal prints `undefined` when there is no
JSON text. -/
def jsonStringify (v : Value) : String :=
  match stringifyValue v with
  | some t => String.mk t
  | none => "undefined"

/-! ## `TextEncoder` and `TextDecoder` -/

/-- The UTF-8 bytes of one character. -/
def utf8EncodeChar (c : Char) : List Nat :=
  if c.toNat < 0x80 then [c.toNat]
  else if c.toNat < 0x800 then [0xC0 + c.toNat / 64, 0x80 + c.toNat % 64]
  else if c.toNat < 0x10000 then
    [0xE0 + c.toNat / 4096, 0x80 + c.toNat / 64 % 64, 0x80 + c.toNat % 64]
  else
    [0xF0 + c.toNat / 262144, 0x80 + c.toNat / 4096 % 64, 0x80 + c.toNat / 64 % 64,
      0x80 + c.toNat % 64]

/-- UTF-8 bytes of a string (`TextEncoder.encode`). -/
def utf8Bytes (s : String) : List Nat := s.toList.flatMap utf8EncodeChar

/-- The character U+FFFD that the decoder emits for a malformed sequence. -/
def replacementChar : Char := Char.ofNat 0xFFFD

/-- The UTF-8 decoder of the Encoding Standard as a loop over the bytes.  The state is the
number of continuation bytes still needed, the code point collected so far, and the bounds of
the next continuation byte.  A byte that cannot continue the sequence ends it with U+FFFD and
is then read as the start of a new sequence. -/
def utf8DecodeLoop : List Nat → Nat → Nat → Nat → Nat → List Char
  | [], needed, _, _, _ => if needed = 0 then [] else [replacementChar]
  | b :: rest, needed, cp, lo, hi =>
    if needed ≠ 0 ∧ lo ≤ b ∧ b ≤ hi then
      if needed = 1 then Char.ofNat (cp * 64 + b % 64) :: utf8DecodeLoop rest 0 0 0x80 0xBF
      else utf8DecodeLoop rest (needed - 1) (cp * 64 + b % 64) 0x80 0xBF
    else
      (if needed ≠ 0 then [replacementChar] else []) ++
        (if b < 0x80 then Char.ofNat b :: utf8DecodeLoop rest 0 0 0x80 0xBF
         else if 0xC2 ≤ b ∧ b ≤ 0xDF then utf8DecodeLoop rest 1 (b % 32) 0x80 0xBF
         else if 0xE0 ≤ b ∧ b ≤ 0xEF then
           utf8DecodeLoop rest 2 (b % 16) (if b = 0xE0 then 0xA0 else 0x80)
             (if b = 0xED then 0x9F else 0xBF)
         else if 0xF0 ≤ b ∧ b ≤ 0xF4 then
           utf8DecodeLoop rest 3 (b % 8) (if b = 0xF0 then 0x90 else 0x80)
             (if b = 0xF4 then 0x8F else 0xBF)
         else replacementChar :: utf8DecodeLoop rest 0 0 0x80 0xBF)

/-- `new TextDecoder().decode(bytes)`: a leading byte order mark is dropped. -/
def textDecode (bytes : List Nat) : String :=
  match bytes with
  | 0xEF :: 0xBB :: 0xBF :: rest => String.mk (utf8DecodeLoop rest 0 0 0x80 0xBF)
  | _ => String.mk (utf8DecodeLoop bytes 0 0 0x80 0xBF)

/-! ## `JSON.parse` -/

/-- JSON white space. -/
def isJsonWhitespace (c : Char) : Bool := c = ' ' || c = '\t' || c = '\n' || c = '\r'

/-- Drop leading white space. -/
def skipWhitespace : List Char → List Char
  | [] => []
  | c :: cs => if isJsonWhitespace c then skipWhitespace cs else c :: cs

/-- Expect the given characters. -/
def expectChars : List Char → List Char → Option (List Char)
  | [], cs => some cs
  | _ :: _, [] => none
  | p :: ps, c :: cs => if c = p then expectChars ps cs else none

/-- The value of a run of decimal digits. -/
def digitsValue (ds : List Char) : Nat := ds.foldl (fun a d => 10 * a + digitVal d) 0

/-- Round to the nearest integer, ties to even. -/
def roundHalfEven (q : ℚ) : Int :=
  if q - ⌊q⌋ < 1 / 2 then ⌊q⌋
  else if 1 / 2 < q - ⌊q⌋ then ⌊q⌋ + 1
  else if ⌊q⌋ % 2 = 0 then ⌊q⌋ else ⌊q⌋ + 1

/-- The Number value for a mathematical value: the nearest double, ties to even, infinite from
`2^1024` on.  An integer of magnitude at most `2^53` is a double, so it is returned at once.
The embedding has no negative zero: `-0` is `0`. -/
def doubleOfRat (q : ℚ) : JSNumber :=
  if q.den = 1 ∧ q.num.natAbs ≤ 2 ^ 53 then .finite q
  else
    let e : Int := max (Int.log 2 |q|) (-1022)
    let quantum : ℚ := 2 ^ (e - 52)
    let r : ℚ := roundHalfEven (|q| / quantum) * quantum
    if 2 ^ 1024 ≤ r then (if q < 0 then .negInf else .posInf)
    else .finite (if q < 0 then -r else r)

/-- The optional fraction of a JSON number: its digits and the rest. -/
def parseFraction (cs : List Char) : Option (List Char × List Char) :=
  match cs with
  | '.' :: r => if (spanDigits r).1.isEmpty then none else some (spanDigits r)
  | _ => some ([], cs)

/-- The optional exponent of a JSON number: its value and the rest. -/
def parseExponent (cs : List Char) : Option (Int × List Char) :=
  match cs with
  | [] => some (0, [])
  | c :: r =>
    if c = 'e' || c = 'E' then
      match r with
      | '-' :: r1 =>
        if (spanDigits r1).1.isEmpty then none
        else some (-(digitsValue (spanDigits r1).1 : Int), (spanDigits r1).2)
      | '+' :: r1 =>
        if (spanDigits r1).1.isEmpty then none
        else some ((digitsValue (spanDigits r1).1 : Int), (spanDigits r1).2)
      | _ =>
        if (spanDigits r).1.isEmpty then none
        else some ((digitsValue (spanDigits r).1 : Int), (spanDigits r).2)
    else some (0, c :: r)

/-- The integer part of a JSON number: `0`, or a run of digits that does not start with `0`. -/
def parseIntegerPart (cs : List Char) : Option (List Char × List Char) :=
  match cs with
  | [] => none
  | c :: r =>
    if c = '0' then some (['0'], r)
    else if isDigit c then some (spanDigits (c :: r))
    else none

/-- A JSON number without its sign: the mathematical value and the rest. -/
def parseUnsigned (cs : List Char) : Option (ℚ × List Char) :=
  match parseIntegerPart cs with
  | none => none
  | some (ds, r) =>
    match parseFraction r with
    | none => none
    | some (fs, r1) =>
      match parseExponent r1 with
      | none => none
      | some (e, r2) => some ((digitsValue (ds ++ fs) : ℚ) * 10 ^ (e - fs.length), r2)

/-- A JSON number. -/
def parseNumber (cs : List Char) : Option (JSNumber × List Char) :=
  match cs with
  | '-' :: r => (parseUnsigned r).map (fun x => (doubleOfRat (-x.1), x.2))
  | _ => (parseUnsigned cs).map (fun x => (doubleOfRat x.1, x.2))

/-- The character of a one-letter escape. -/
def escapeChar (e : Char) : Option Char :=
  if e = '"' then some '"'
  else if e = '\\' then some '\\'
  else if e = '/' then some '/'
  else if e = 'b' then some (Char.ofNat 8)
  else if e = 'f' then some (Char.ofNat 12)
  else if e = 'n' then some (Char.ofNat 10)
  else if e = 'r' then some (Char.ofNat 13)
  else if e = 't' then some (Char.ofNat 9)
  else none

/-- Value of a hexadecimal digit. -/
def hexVal (c : Char) : Nat :=
  if isDigit c then c.toNat - 48
  else if 97 ≤ c.toNat then c.toNat - 87
  else c.toNat - 55

/-- The code unit of four hexadecimal digits. -/
def hex4 (a b c d : Char) : Option Nat :=
  if isHexDigit a && isHexDigit b && isHexDigit c && isHexDigit d then
    some (((hexVal a * 16 + hexVal b) * 16 + hexVal c) * 16 + hexVal d)
  else none

/-- Put a character in front of a parsed string body. -/
def consChar (c : Char) : Option (List Char × List Char) → Option (List Char × List Char)
  | some (s, r) => some (c :: s, r)
  | none => none

/-- The low surrogate escape that must follow the high surrogate `n`, and the character of
the pair. -/
def readLowSurrogate (n : Nat) (cs : List Char) : Option (Option Char × List Char) :=
  match expectChars ['\\', 'u'] cs with
  | none => none
  | some r =>
    match r with
    | a :: b :: c :: d :: rest =>
      match hex4 a b c d with
      | none => none
      | some m =>
        if 0xDC00 ≤ m ∧ m ≤ 0xDFFF then
          some (some (Char.ofNat (0x10000 + (n - 0xD800) * 1024 + (m - 0xDC00))), rest)
        else none
    | _ => none

/-- The character of a `\u` escape, after the `u`.  The escape of a high surrogate followed by
one of a low surrogate is one character; the strings of the embedding hold no lone surrogate,
so a text with a lone surrogate escape has no parse here. -/
def readUnicodeEscape (cs : List Char) : Option (Option Char × List Char) :=
  match cs with
  | a :: b :: c :: d :: rest =>
    match hex4 a b c d with
    | none => none
    | some n =>
      if 0xD800 ≤ n ∧ n ≤ 0xDBFF then readLowSurrogate n rest
      else if 0xDC00 ≤ n ∧ n ≤ 0xDFFF then none
      else some (some (Char.ofNat n), rest)
  | _ => none

/-- The next piece of a JSON string body: the closing quote (no character) or one character,
escaped or not; and the rest. -/
def nextStringChar : List Char → Option (Option Char × List Char)
  | [] => none
  | c :: rest =>
    if c = '"' then some (none, rest)
    else if c = '\\' then
      match rest with
      | [] => none
      | e :: rest1 =>
        if e = 'u' then readUnicodeEscape rest1
        else
          match escapeChar e with
          | none => none
          | some x => some (some x, rest1)
    else if c.toNat < 32 then none
    else some (some c, rest)

/-- The loop over the pieces of a string body; the counter bounds the number of pieces. -/
def parseStringLoop : Nat → List Char → Option (List Char × List Char)
  | 0, _ => none
  | n + 1, cs =>
    match nextStringChar cs with
    | none => none
    | some (none, rest) => some ([], rest)
    | some (some c, rest) => consChar c (parseStringLoop n rest)

/-- The body of a JSON string after the opening quote, and what follows the closing quote.
There are no more pieces than characters. -/
def parseStringChars (cs : List Char) : Option (List Char × List Char) :=
  parseStringLoop cs.length cs

/-- `CreateDataProperty(obj, key, value)`: like an assignment, but `__proto__` is a key like
any other. -/
def defineProp (o : Props) (k : String) (v : Value) : Props :=
  if hasProp k o then replaceProp k v o
  else match arrayIndex? k with
    | some n => insertIndexProp n (k, v) o
    | none => o ++ [(k, v)]

mutual
/-- A JSON value, with a bound on the number of nested calls; the value and the rest. -/
def parseValue : Nat → List Char → Option (Value × List Char)
  | 0, _ => none
  | fuel + 1, cs =>
    match skipWhitespace cs with
    | [] => none
    | c :: rest =>
      if c = 'n' then (expectChars ['u', 'l', 'l'] rest).map (fun r => (Value.null, r))
      else if c = 't' then (expectChars ['r', 'u', 'e'] rest).map (fun r => (Value.bool true, r))
      else if c = 'f' then
        (expectChars ['a', 'l', 's', 'e'] rest).map (fun r => (Value.bool false, r))
      else if c = '"' then
        (parseStringChars rest).map (fun x => (Value.str (String.mk x.1), x.2))
      else if c = '[' then
        match skipWhitespace rest with
        | [] => none
        | d :: rest1 =>
          if d = ']' then some (.arr [], rest1)
          else (parseElements fuel (d :: rest1)).map (fun x => (Value.arr x.1, x.2))
      else if c = '{' then
        match skipWhitespace rest with
        | [] => none
        | d :: rest1 =>
          if d = '}' then some (.obj [], rest1)
          else (parseMembers fuel (d :: rest1) []).map (fun x => (Value.obj x.1, x.2))
      else (parseNumber (c :: rest)).map (fun x => (Value.num x.1, x.2))
/-- The elements of a non-empty array up to the closing bracket. -/
def parseElements : Nat → List Char → Option (List Value × List Char)
  | 0, _ => none
  | fuel + 1, cs =>
    match parseValue fuel cs with
    | none => none
    | some (v, r) =>
      match skipWhitespace r with
      | [] => none
      | d :: r1 =>
        if d = ',' then (parseElements fuel r1).map (fun x => (v :: x.1, x.2))
        else if d = ']' then some ([v], r1)
        else none
/-- The members of a non-empty object up to the closing brace, defined one after the other on
the object built so far. -/
def parseMembers : Nat → List Char → Props → Option (Props × List Char)
  | 0, _, _ => none
  | fuel + 1, cs, acc =>
    match skipWhitespace cs with
    | [] => none
    | q :: r =>
      if q = '"' then
        match parseStringChars r with
        | none => none
        | some (k, r1) =>
          match skipWhitespace r1 with
          | [] => none
          | colon :: r2 =>
            if colon = ':' then
              match parseValue fuel r2 with
              | none => none
              | some (v, r3) =>
                match skipWhitespace r3 with
                | [] => none
                | d :: r4 =>
                  if d = ',' then parseMembers fuel r4 (defineProp acc (String.mk k) v)
                  else if d = '}' then some (defineProp acc (String.mk k) v, r4)
                  else none
            else none
      else none
end

/-- `JSON.parse(text)`; `none` is a `SyntaxError`.  The bound on nested calls exceeds what any
text of that length can use. -/
def jsonParse (text : String) : Option Value :=
  match parseValue (2 * text.length + 2) text.toList with
  | none => none
  | some (v, rest) => if (skipWhitespace rest).isEmpty then some v else none

/-! ## `serialize` and `deserialize` -/

/-- `serialize(value)`; `TextEncoder.encode(undefined)` is empty. -/
def serialize (value : Value) : List Nat :=
  match stringifyValue value with
  | some t => utf8Bytes (String.mk t)
  | none => []

/-- `deserialize(bytes)`. -/
def deserialize (bytes : List Nat) : Except JSError Value :=
  match jsonParse (textDecode bytes) with
  | none => .error .syntaxError
  | some value => canonicalize value

/-! ## Platform services -/

/-- Services of the engine and of `node:crypto` that the code calls. -/
structure Platform where
  /-- `a.localeCompare(b)`: negative, zero or positive. -/
  localeCompare : String → String → Int
  /-- The SHA-1 digest (a byte sequence) of a byte sequence. -/
  sha1 : List Nat → List Nat
  /-- The SHA-256 digest (a byte sequence) of the UTF-8 encoding of a string. -/
  sha256 : String → List Nat

/-- `b.toString(16).padStart(2, "0")` for a byte `b`. -/
def byteHex (b : Nat) : List Char := [hexDigitChar (b % 256 / 16), hexDigitChar (b % 16)]

/-- `digest("hex")` of a byte sequence. -/
def hexOfBytes : List Nat → List Char
  | [] => []
  | b :: bs => byteHex b ++ hexOfBytes bs

/-- `sha256HexString(s)`. -/
def sha256HexString (P : Platform) (s : String) : String := String.mk (hexOfBytes (P.sha256 s))

/-! ## `hashCanonical`, `canonicalEqual`, `hashValueOrAbsent` -/

/-- `hashCanonical(value)`: the SHA-256 digest of `serialize(canonicalize(value))` in hexadecimal
digits (`sha256` of the platform takes the text whose UTF-8 bytes are hashed). -/
def hashCanonical (P : Platform) (value : Value) : Except JSError String :=
  match canonicalize value with
  | .error e => .error e
  | .ok canonical => .ok (String.mk (hexOfBytes (P.sha256 (jsonStringify canonical))))

/-- `canonicalEqual(a, b)`. -/
def canonicalEqual (a b : Value) : Except JSError Bool :=
  match canonicalize a with
  | .error e => .error e
  | .ok ca =>
    match canonicalize b with
    | .error e => .error e
    | .ok cb => .ok (jsonStringify ca == jsonStringify cb)

/-- The object `{ __fv_absent: true }` that is hashed for `ABSENT`. -/
def absentSentinel : Value := .obj [("__fv_absent", .bool true)]

/-- `hashValueOrAbsent(value)`; `none` is the symbol `ABSENT`. -/
def hashValueOrAbsent (P : Platform) (value : Option Value) : Except JSError String :=
  match value with
  | none => hashCanonical P absentSentinel
  | some v => hashCanonical P v

/-! ## Adapter (`workflow-adapter.js`): identifiers -/

/-- `UUID_NAMESPACE_DNS`. -/
def UUID_NAMESPACE_DNS : String := "6ba7b810-9dad-11d1-80b4-00c04fd430c8"

/-- Pairs of hexadecimal digits to bytes: `parseInt(hex.slice(2i, 2i+2), 16)`. -/
def hexPairs : List Char → List Nat
  | a :: b :: rest => (hexVal a * 16 + hexVal b) :: hexPairs rest
  | _ => []

/-- `uuidToBytes(uuid)`. -/
def uuidToBytes (uuid : String) : Except JSError (List Nat) :=
  let hex := (uuid.toList.filter (fun c => c != '-')).map lowerChar
  if matchShape (List.replicate 32 (fun c => isDigit c || (decide (97 ≤ c.toNat) && decide (c.toNat ≤ 102)))) hex
  then .ok (hexPairs hex)
  else .error (.invalidUuid uuid)

/-- `bytesToUuid(bytes)`: the hex digits in groups of 8, 4, 4, 4 and 12, joined by hyphens. -/
def bytesToUuid (bytes : List Nat) : String :=
  let hex := hexOfBytes bytes
  String.mk ((hex.take 8) ++ '-' :: ((hex.drop 8).take 4) ++ '-' :: ((hex.drop 12).take 4)
    ++ '-' :: ((hex.drop 16).take 4) ++ '-' :: ((hex.drop 20).take 12))

/-- Assignment `bytes[i] = f(bytes[i])` on a typed array: ignored when `i` is out of range. -/
def updateByte (i : Nat) (f : Nat → Nat) (bytes : List Nat) : List Nat :=
  match bytes.get? i with
  | some b => bytes.set i (f b % 256)
  | none => bytes

/-- `uuidV5(name)` with the default namespace. -/
def uuidV5 (P : Platform) (name : String) : Except JSError String :=
  match uuidToBytes UUID_NAMESPACE_DNS with
  | .error e => .error e
  | .ok ns =>
    let hash := P.sha1 (ns ++ utf8Bytes name)
    let bytes := (hash.take 16).map (fun b => b % 256)
    let bytes := updateByte 6 (fun b => (b &&& 0x0f) ||| 0x50) bytes
    let bytes := updateByte 8 (fun b => (b &&& 0x3f) ||| 0x80) bytes
    .ok (bytesToUuid bytes)

/-- `stableUUID(prefix, obj)`. -/
def stableUUID (P : Platform) (pre : String) (obj : Value) : Except JSError String :=
  match canonicalize obj with
  | .error e => .error e
  | .ok c => uuidV5 P (pre ++ ":" ++ jsonStringify c)

/-! ## Adapter: graph normalizer -/

/-- `x.key` for a value that is not `null` or `undefined` and has the standard prototype: the
own property, `undefined` when there is none (no key the code reads is defined on
`Object.prototype`).  On an object whose prototype `canonicalizeObject` has replaced
(`assignedPrototype`), the code's read goes on to that prototype when there is no own property;
this function does not describe such a read. -/
def getProp (x : Value) (k : String) : Value :=
  match x with
  | .obj props =>
    match lookupProp k props with
    | some v => v
    | none => .undefined
  | _ => .undefined

/-- `isPlainObject(x)`. -/
def isPlainObject : Value → Bool
  | .obj _ => true
  | _ => false

/-- `Array.isArray(x)`. -/
def isArray : Value → Bool
  | .arr _ => true
  | _ => false

/-- White space and line terminators, the characters `String.prototype.trim` removes. -/
def isJsWhitespace (c : Char) : Bool :=
  let n := c.toNat
  n == 9 || n == 10 || n == 11 || n == 12 || n == 13 || n == 32 || n == 160 || n == 0x1680
    || (decide (0x2000 ≤ n) && decide (n ≤ 0x200A)) || n == 0x2028 || n == 0x2029 || n == 0x202F
    || n == 0x205F || n == 0x3000 || n == 0xFEFF

/-- `s.trim()`. -/
def trim (s : String) : String :=
  String.mk ((s.toList.dropWhile isJsWhitespace).reverse.dropWhile isJsWhitespace).reverse

/-- `asString(x, { field })`. -/
def asString (x : Value) (field : String) : Except JSError String :=
  match x with
  | .str s => .ok s
  | _ => .error (.expectedString field)

/-- The expression `(typeof x === "string" && x.trim()) ? x.trim() : dflt`. -/
def trimmedOr (x : Value) (dflt : String) : String :=
  match x with
  | .str s => if trim s = "" then dflt else trim s
  | _ => dflt

/-- The expression `(typeof x === "string") ? x : undefined`. -/
def stringOrUndefined : Value → Value
  | .str s => .str s
  | _ => .undefined

/-- The expression `isPlainObject(x) ? x : undefined`. -/
def objectOrUndefined : Value → Value
  | .obj ps => .obj ps
  | _ => .undefined

/-- `normalizeNode(node)`. -/
def normalizeNode (node : Value) : Except JSError Value :=
  if !isPlainObject node then .error (.mustBeObject "Node")
  else
    match asString (getProp node "id") "node.id" with
    | .error e => .error e
    | .ok id =>
      let type := trimmedOr (getProp node "type") "task"
      let label := stringOrUndefined (getProp node "label")
      let config := if isPlainObject (getProp node "config") then getProp node "config" else .obj []
      let meta := objectOrUndefined (getProp node "meta")
      canonicalize (.obj [("config", config), ("id", .str id), ("label", label), ("meta", meta),
        ("type", .str type)])

/-- `normalizeEdge(edge)`. -/
def normalizeEdge (edge : Value) : Except JSError Value :=
  if !isPlainObject edge then .error (.mustBeObject "Edge")
  else
    match asString (getProp edge "from") "edge.from" with
    | .error e => .error e
    | .ok fromId =>
      match asString (getProp edge "to") "edge.to" with
      | .error e => .error e
      | .ok toId =>
        let id := trimmedOr (getProp edge "id") (fromId ++ "->" ++ toId)
        let label := stringOrUndefined (getProp edge "label")
        let type := trimmedOr (getProp edge "type") "flow"
        let condition := objectOrUndefined (getProp edge "condition")
        let meta := objectOrUndefined (getProp edge "meta")
        canonicalize (.obj [("condition", condition), ("from", .str fromId), ("id", .str id),
          ("label", label), ("meta", meta), ("to", .str toId), ("type", .str type)])

/-- `arr.map(f)` for a function that may throw: left to right, the first error wins. -/
def mapM' (f : Value → Except JSError Value) : List Value → Except JSError (List Value)
  | [] => .ok []
  | x :: xs =>
    match f x with
    | .error e => .error e
    | .ok y =>
      match mapM' f xs with
      | .error e => .error e
      | .ok ys => .ok (y :: ys)

/-- The string `x.key` where the code has made sure it is a string (the `id` of a normalized
node or edge, `from`, `to`, `type`); the empty string stands for any other value. -/
def propString (x : Value) (k : String) : String :=
  match getProp x k with
  | .str s => s
  | _ => ""

/-- The elements of `x.key` when it is an array, no elements otherwise
(`Array.isArray(x.key) ? x.key : []`). -/
def propItems (x : Value) (k : String) : List Value :=
  match getProp x k with
  | .arr items => items
  | _ => []

/-- The comparator `(a, b) => a.id.localeCompare(b.id)`. -/
def compareById (P : Platform) (a b : Value) : Int :=
  P.localeCompare (propString a "id") (propString b "id")

/-- `normalizeGraph(graph)`. -/
def normalizeGraph (P : Platform) (graph : Value) : Except JSError Value :=
  match mapM' normalizeNode (propItems graph "nodes") with
  | .error e => .error e
  | .ok nodes0 =>
    let nodes := sortWith (compareById P) nodes0
    match mapM' normalizeEdge (propItems graph "edges") with
    | .error e => .error e
    | .ok edges0 =>
      let edges := sortWith (compareById P) edges0
      let meta := objectOrUndefined (getProp graph "meta")
      let name := stringOrUndefined (getProp graph "name")
      canonicalize (.obj [("edges", .arr edges), ("kind", .str "workflow_graph@1"),
        ("meta", meta), ("name", name), ("nodes", .arr nodes)])

/-- `looksLikeGraph(value)`. -/
def looksLikeGraph (value : Value) : Bool :=
  isPlainObject value && (isArray (getProp value "nodes") || isArray (getProp value "edges")
    || (match getProp value "kind" with
        | .str k => k == "workflow_graph@1"
        | _ => false))

/-- `canonicalizeDomain(value)`. -/
def canonicalizeDomain (P : Platform) (value : Value) : Except JSError Value :=
  if looksLikeGraph value then normalizeGraph P value else canonicalize value

/-! ## Adapter: merge engine -/

/-- JavaScript truthiness (`if (x)`, `x ? a : b`, `!x`). -/
def truthy : Value → Bool
  | .null => false
  | .undefined => false
  | .bool b => b
  | .num (.finite q) => q != 0
  | .num .nan => false
  | .num _ => true
  | .str s => s != ""
  | _ => true

/-- `a ?? b`. -/
def nullish (a b : Value) : Value :=
  match a with
  | .null => b
  | .undefined => b
  | _ => a

/-- An array of strings as a value. -/
def strArray (xs : List String) : Value := .arr (xs.map .str)

/-- The first argument of `makeConflict`, an object literal with the keys `type`, `selector`,
`severity`, `reason`, `allowed_resolutions` and, for `add_add` only, `default_resolution`. -/
structure ConflictSpec where
  type : String
  selector : String
  severity : String
  reason : String
  allowed_resolutions : List String
  default_resolution : Option String

/-- The object literal of a conflict spec, keys in source order. -/
def ConflictSpec.toValue (spec : ConflictSpec) : Value :=
  .obj ([("type", .str spec.type), ("selector", .str spec.selector),
    ("severity", .str spec.severity), ("reason", .str spec.reason),
    ("allowed_resolutions", strArray spec.allowed_resolutions)]
    ++ (match spec.default_resolution with
        | some d => [("default_resolution", .str d)]
        | none => []))

/-- `makeConflict(spec, baseVal, leftVal, rightVal)`. -/
def makeConflict (P : Platform) (spec : ConflictSpec) (baseVal leftVal rightVal : Value) :
    Except JSError Value :=
  let payload : Value := .obj [("spec", spec.toValue), ("base", nullish baseVal .null),
    ("left", nullish leftVal .null), ("right", nullish rightVal .null)]
  match stableUUID P "conflict" payload with
  | .error e => .error e
  | .ok conflict_id =>
    canonicalize (.obj [("allowed_resolutions", strArray spec.allowed_resolutions),
      ("conflict_id", .str conflict_id),
      ("default_resolution", (match spec.default_resolution with
                              | some d => .str d
                              | none => .undefined)),
      ("reason", .str spec.reason), ("selector", .str spec.selector),
      ("severity", .str spec.severity), ("type", .str spec.type)])

/-- The result `{ value, conflict }` of `threeWayAtomMerge`; `conflict` is `null` when there
is none. -/
structure AtomMerge where
  value : Value
  conflict : Value

/-- `x ? JSON.stringify(x) : null`. -/
def jsonOrNull (x : Value) : Option String := if truthy x then some (jsonStringify x) else none

/-- `threeWayAtomMerge({ base, left, right, selector })`. -/
def threeWayAtomMerge (P : Platform) (base left right : Value) (selector : String) :
    Except JSError AtomMerge :=
  let jb := jsonOrNull base
  let jl := jsonOrNull left
  let jr := jsonOrNull right
  let eqBL := jb == jl
  let eqBR := jb == jr
  let eqLR := jl == jr
  if !truthy base && !truthy left && !truthy right then .ok ⟨.null, .null⟩
  else if !truthy base && truthy left && truthy right then
    if eqLR then .ok ⟨left, .null⟩
    else
      match makeConflict P
        { type := "add_add", selector := selector, severity := "warning",
          reason := "Both sides added the atom differently",
          allowed_resolutions := ["take_left", "take_right", "manual"],
          default_resolution := some "take_left" } base left right with
      | .error e => .error e
      | .ok conflict => .ok ⟨left, conflict⟩
  else if truthy base && !truthy left && !truthy right then .ok ⟨.null, .null⟩
  else if truthy base && !truthy left && truthy right then
    if eqBR then .ok ⟨.null, .null⟩
    else
      match makeConflict P
        { type := "delete_edit", selector := selector, severity := "error",
          reason := "Left deleted the atom while right edited it",
          allowed_resolutions := ["take_delete", "take_right", "take_base", "manual"],
          default_resolution := none } base left right with
      | .error e => .error e
      | .ok conflict => .ok ⟨base, conflict⟩
  else if truthy base && truthy left && !truthy right then
    if eqBL then .ok ⟨.null, .null⟩
    else
      match makeConflict P
        { type := "edit_delete", selector := selector, severity := "error",
          reason := "Right deleted the atom while left edited it",
          allowed_resolutions := ["take_delete", "take_left", "take_base", "manual"],
          default_resolution := none } base left right with
      | .error e => .error e
      | .ok conflict => .ok ⟨base, conflict⟩
  else if truthy base && truthy left && truthy right then
    if eqLR then .ok ⟨left, .null⟩
    else if eqBL then .ok ⟨right, .null⟩
    else if eqBR then .ok ⟨left, .null⟩
    else
      match makeConflict P
        { type := "edit_edit", selector := selector, severity := "error",
          reason := "Both sides edited the atom differently",
          allowed_resolutions := ["take_left", "take_right", "take_base", "manual"],
          default_resolution := none } base left right with
      | .error e => .error e
      | .ok conflict => .ok ⟨base, conflict⟩
  else .ok ⟨nullish left (nullish right (nullish base .null)), .null⟩

/-- `map.set(k, v)` on a `Map` with string keys, kept as its entries in insertion order. -/
def mapSet {β : Type} (m : List (String × β)) (k : String) (v : β) : List (String × β) :=
  if hasProp k m then replaceProp k v m else m ++ [(k, v)]

/-- `new Map(atoms.map((n) => [n.id, n]))`. -/
def mapById (atoms : List Value) : List (String × Value) :=
  atoms.foldl (fun m n => mapSet m (propString n "id") n) []

/-- `map.get(k)`. -/
def mapGet (m : List (String × Value)) (k : String) : Value :=
  match lookupProp k m with
  | some v => v
  | none => .undefined

/-- `set.add(k)` on a `Set` of strings, kept as its elements in insertion order. -/
def setAdd (s : List String) (k : String) : List String := if k ∈ s then s else s ++ [k]

/-- `Array.from(new Set(keys))`. -/
def setOf (keys : List String) : List String := keys.foldl setAdd []

/-- The loop `for (const id of ids) { ... threeWayAtomMerge ... }` of `merge`, for the atoms of
one kind (`node` or `edge`): the values pushed to the merged array and the conflicts pushed. -/
def mergeAtoms (P : Platform) (kind : String) (b l r : List (String × Value)) :
    List String → Except JSError (List Value × List Value)
  | [] => .ok ([], [])
  | id :: ids =>
    match threeWayAtomMerge P (mapGet b id) (mapGet l id) (mapGet r id) (kind ++ ":" ++ id) with
    | .error e => .error e
    | .ok res =>
      match mergeAtoms P kind b l r ids with
      | .error e => .error e
      | .ok (values, conflicts) =>
        .ok ((if truthy res.value then res.value :: values else values),
             (if truthy res.conflict then res.conflict :: conflicts else conflicts))

/-- The own properties of a value (`{ ...x }`). -/
def ownProps : Value → Props
  | .obj ps => ps
  | _ => []

/-- The branch of `merge` for inputs that are not all graphs. -/
def mergeOpaque (P : Platform) (base left right : Value) : Except JSError Value :=
  if jsonStringify left != jsonStringify right then
    if jsonStringify base != jsonStringify left && jsonStringify base != jsonStringify right then
      match makeConflict P
        { type := "edit_edit", selector := "value:root", severity := "error",
          reason := "Both sides edited value:root differently",
          allowed_resolutions := ["take_left", "take_right", "take_base"],
          default_resolution := none } base left right with
      | .error e => .error e
      | .ok conflict => canonicalize (.obj [("merged", base), ("conflicts", .arr [conflict])])
    else if jsonStringify base == jsonStringify left then
      canonicalize (.obj [("merged", right), ("conflicts", .arr [])])
    else canonicalize (.obj [("merged", left), ("conflicts", .arr [])])
  else canonicalize (.obj [("merged", left), ("conflicts", .arr [])])

/-- The ids of all three maps, each once, sorted: `Array.from(new Set([...])).sort()`. -/
def atomIds (b l r : List (String × Value)) : List String :=
  sortStrings (setOf (b.map Prod.fst ++ l.map Prod.fst ++ r.map Prod.fst))

/-- The branch of `merge` for three normalized graphs. -/
def mergeGraphs (P : Platform) (base left right : Value) : Except JSError Value :=
  let bNodes := mapById (propItems base "nodes")
  let lNodes := mapById (propItems left "nodes")
  let rNodes := mapById (propItems right "nodes")
  match mergeAtoms P "node" bNodes lNodes rNodes (atomIds bNodes lNodes rNodes) with
  | .error e => .error e
  | .ok (nodes, nodeConflicts) =>
    let bEdges := mapById (propItems base "edges")
    let lEdges := mapById (propItems left "edges")
    let rEdges := mapById (propItems right "edges")
    match mergeAtoms P "edge" bEdges lEdges rEdges (atomIds bEdges lEdges rEdges) with
    | .error e => .error e
    | .ok (edges, edgeConflicts) =>
      let merged : Value :=
        .obj (setProp (setProp (ownProps base) "nodes" (.arr nodes)) "edges" (.arr edges))
      match canonicalizeDomain P merged with
      | .error e => .error e
      | .ok mergedCanon =>
        canonicalize (.obj [("merged", mergedCanon),
          ("conflicts", .arr (nodeConflicts ++ edgeConflicts))])

/-- `merge(baseState, leftState, rightState)`. -/
def merge (P : Platform) (baseState leftState rightState : Value) : Except JSError Value :=
  match canonicalizeDomain P baseState with
  | .error e => .error e
  | .ok base =>
    match canonicalizeDomain P leftState with
    | .error e => .error e
    | .ok left =>
      match canonicalizeDomain P rightState with
      | .error e => .error e
      | .ok right =>
        if !looksLikeGraph base || !looksLikeGraph left || !looksLikeGraph right then
          mergeOpaque P base left right
        else mergeGraphs P base left right

/-! ## Adapter: diff -/

/-- An element of the array `ops` of `diff`: an object literal with the keys `op`, `atom` and,
where given, `before` and `after`, in this order. -/
structure DiffOp where
  op : String
  atom : String
  before : Option Value
  after : Option Value

/-- The object literal of an op, keys in source order. -/
def DiffOp.toValue (o : DiffOp) : Value :=
  .obj ([("op", .str o.op), ("atom", .str o.atom)]
    ++ (match o.before with
        | some v => [("before", v)]
        | none => [])
    ++ (match o.after with
        | some v => [("after", v)]
        | none => []))

/-- The loop `for (const id of nodeIds) { ... }` of `diff` (and the one for edges): the ops
pushed, in order, given the names of the three ops of the kind. -/
def diffAtoms (kind addOp removeOp updateOp : String) (fromMap toMap : List (String × Value)) :
    List String → List DiffOp
  | [] => []
  | id :: ids =>
    let a := mapGet fromMap id
    let b := mapGet toMap id
    let atom := kind ++ ":" ++ id
    let rest := diffAtoms kind addOp removeOp updateOp fromMap toMap ids
    if !truthy a && truthy b then
      { op := addOp, atom := atom, before := none, after := some b } :: rest
    else if truthy a && !truthy b then
      { op := removeOp, atom := atom, before := some a, after := none } :: rest
    else if truthy a && truthy b then
      if jsonStringify a != jsonStringify b then
        { op := updateOp, atom := atom, before := some a, after := some b } :: rest
      else rest
    else rest

/-- The ids of both maps, each once, sorted: `Array.from(new Set([...])).sort()`. -/
def diffIds (a b : List (String × Value)) : List String :=
  sortStrings (setOf (a.map Prod.fst ++ b.map Prod.fst))

/-- The comparator of `ops.sort(...)`: by atom, then by op, both with `localeCompare`. -/
def compareOps (P : Platform) (x y : DiffOp) : Int :=
  if x.atom != y.atom then P.localeCompare x.atom y.atom else P.localeCompare x.op y.op

/-- The array `ops` of `diff` on two normalized graphs, before it is sorted. -/
def graphOps (fromG toG : Value) : List DiffOp :=
  let fromNodes := mapById (propItems fromG "nodes")
  let toNodes := mapById (propItems toG "nodes")
  let fromEdges := mapById (propItems fromG "edges")
  let toEdges := mapById (propItems toG "edges")
  diffAtoms "node" "add_node" "remove_node" "update_node" fromNodes toNodes
      (diffIds fromNodes toNodes)
    ++ diffAtoms "edge" "add_edge" "remove_edge" "update_edge" fromEdges toEdges
      (diffIds fromEdges toEdges)

/-- `diff(fromState, toState)`. -/
def diff (P : Platform) (fromState toState : Value) : Except JSError Value :=
  match canonicalizeDomain P fromState with
  | .error e => .error e
  | .ok fromG =>
    match canonicalizeDomain P toState with
    | .error e => .error e
    | .ok toG =>
      if !looksLikeGraph fromG || !looksLikeGraph toG then
        canonicalize (.arr [DiffOp.toValue
          { op := "replace", atom := "value:root", before := some fromG, after := some toG }])
      else
        canonicalize (.arr ((sortWith (compareOps P) (graphOps fromG toG)).map DiffOp.toValue))

/-! ## Adapter: validator -/

/-- The argument of `makeIssue`; `anchors` is never passed. -/
structure IssueSpec where
  code : String
  message : String
  severity : String
  atoms : List String
  region_hint : Option String
  suggested_fix : Option Value

/-- An optional string as a property value. -/
def optStr : Option String → Value
  | some s => .str s
  | none => .undefined

/-- An optional value as a property value. -/
def optVal : Option Value → Value
  | some v => v
  | none => .undefined

/-- `makeIssue({ code, message, severity, atoms, anchors, region_hint, suggested_fix })`. -/
def makeIssue (P : Platform) (i : IssueSpec) : Except JSError Value :=
  let issuePayload : Value := .obj [("code", .str i.code), ("message", .str i.message),
    ("severity", .str i.severity), ("atoms", strArray i.atoms), ("anchors", .undefined),
    ("region_hint", optStr i.region_hint), ("suggested_fix", optVal i.suggested_fix)]
  match stableUUID P "issue" issuePayload with
  | .error e => .error e
  | .ok issue_id =>
    canonicalize (.obj [("anchors", .undefined), ("atoms", strArray i.atoms),
      ("code", .str i.code), ("issue_id", .str issue_id), ("message", .str i.message),
      ("region_hint", optStr i.region_hint), ("severity", .str i.severity),
      ("suggested_fix", optVal i.suggested_fix)])

/-- The pairs `(e.from, e.to)` of the edges, in order. -/
def edgePairs (edges : List Value) : List (String × String) :=
  edges.map (fun e => (propString e "from", propString e "to"))

/-- The list `adj.get(u) || []` of `reachableFrom`: the targets of the edges leaving `u`, in
edge order. -/
def targetsOf (edges : List (String × String)) (u : String) : List String :=
  (edges.filter (fun e => e.1 == u)).map Prod.snd

/-- The list `adj.get(u) || []` of `findCycle`, whose `adj` has a key for each node id only. -/
def successors (ids : List String) (edges : List (String × String)) (u : String) : List String :=
  if u ∈ ids then targetsOf edges u else []

/-- The `while (stack.length)` loop of `reachableFrom`; the head of the list is the top of the
stack.  `none` when the step budget runs out. -/
def reachableLoop (edges : List (String × String)) :
    Nat → List String → List String → Option (List String)
  | _, [], seen => some seen
  | 0, _ :: _, _ => none
  | n + 1, cur :: stack, seen =>
    if cur ∈ seen then reachableLoop edges n stack seen
    else reachableLoop edges n ((targetsOf edges cur).reverse ++ stack) (seen ++ [cur])

/-- `reachableFrom(startId, edges)`: the set `seen`, in insertion order.  Every iteration lowers
the number of stack entries plus edges leaving unseen nodes, which starts at `edges.length + 1`. -/
def reachableFrom (startId : String) (edges : List (String × String)) : Option (List String) :=
  reachableLoop edges (edges.length + 1) [startId] []

/-- The loop of `reconstructCycle`; the counter is the number of `push` calls left before
`path.length > 10000` breaks the loop. -/
def reconstructLoop (start : String) (parent : List (String × String)) :
    Nat → Option String → List String → List String
  | 0, _, path => path
  | n + 1, cur, path =>
    match cur with
    | none => path
    | some c =>
      if c = start then path
      else reconstructLoop start parent n (lookupProp c parent) (path ++ [c])

/-- `reconstructCycle(start, end, parentMap)`. -/
def reconstructCycle (start stop : String) (parent : List (String × String)) : List String :=
  (reconstructLoop start parent 10000 (some stop) [start]).reverse ++ [start]

/-- The sets `visiting` and `visited` (in insertion order) and the map `parent` of `findCycle`. -/
structure DfsState where
  visiting : List String
  visited : List String
  parent : List (String × String)

/-- The `for (const v of adj.get(u) || [])` loop of `dfs(u)`, given the recursive call. -/
def dfsNeighbours (recurse : String → DfsState → Option (DfsState × Option (List String)))
    (u : String) : List String → DfsState → Option (DfsState × Option (List String))
  | [], st => some (st, none)
  | v :: vs, st =>
    if v ∈ st.visited then dfsNeighbours recurse u vs st
    else if v ∈ st.visiting then
      let parent := mapSet st.parent v u
      some ({ st with parent := parent }, some (reconstructCycle v u parent))
    else
      match recurse v { st with parent := mapSet st.parent v u } with
      | none => none
      | some (st1, some cycle) => some (st1, some cycle)
      | some (st1, none) => dfsNeighbours recurse u vs st1

/-- `dfs(u)` of `findCycle` with a bound on the recursion depth; `none` when the bound is hit. -/
def dfs (succ : String → List String) :
    Nat → String → DfsState → Option (DfsState × Option (List String))
  | 0, _, _ => none
  | fuel + 1, u, st =>
    match dfsNeighbours (fun v s => dfs succ fuel v s) u (succ u)
        { st with visiting := setAdd st.visiting u } with
    | none => none
    | some (st1, some cycle) => some (st1, some cycle)
    | some (st1, none) =>
      some ({ st1 with visiting := st1.visiting.erase u, visited := setAdd st1.visited u }, none)

/-- The final loop `for (const id of nodesById.keys())` of `findCycle`. -/
def findCycleLoop (succ : String → List String) (fuel : Nat) :
    List String → DfsState → Option (Option (List String))
  | [], _ => some none
  | id :: ids, st =>
    if id ∈ st.visited then findCycleLoop succ fuel ids st
    else
      match dfs succ fuel id st with
      | none => none
      | some (_, some cycle) => some (some cycle)
      | some (st1, none) => findCycleLoop succ fuel ids st1

/-- `findCycle(nodesById, edges)` on the keys of `nodesById`: `some none` is `null`, `some (some
path)` a path, `none` an exhausted depth bound.  The recursion is never deeper than the number
of distinct ids among the nodes and the edge targets. -/
def findCycle (ids : List String) (edges : List (String × String)) :
    Option (Option (List String)) :=
  findCycleLoop (successors ids edges) (ids.length + edges.length + 1) ids ⟨[], [], []⟩

/-- The loop of `dfsNeighbours` with a log: next to the state and the cycle it returns the
nodes `dfs` was called on, in the order of the calls.  The log is a ghost of the embedding, no
variable of the source; the rest is `dfsNeighbours`. -/
def dfsNeighboursLog
    (recurse : String → DfsState → Option (DfsState × Option (List String) × List String))
    (u : String) : List String → DfsState → Option (DfsState × Option (List String) × List String)
  | [], st => some (st, none, [])
  | v :: vs, st =>
    if v ∈ st.visited then dfsNeighboursLog recurse u vs st
    else if v ∈ st.visiting then
      let parent := mapSet st.parent v u
      some ({ st with parent := parent }, some (reconstructCycle v u parent), [])
    else
      match recurse v { st with parent := mapSet st.parent v u } with
      | none => none
      | some (st1, some cycle, log) => some (st1, some cycle, log)
      | some (st1, none, log) =>
        match dfsNeighboursLog recurse u vs st1 with
        | none => none
        | some (st2, res, log2) => some (st2, res, log ++ log2)

/-- The function `dfs` with the log of its calls: a call on `u` logs `u`, then what the calls
below it log. -/
def dfsLog (succ : String → List String) :
    Nat → String → DfsState → Option (DfsState × Option (List String) × List String)
  | 0, _, _ => none
  | fuel + 1, u, st =>
    match dfsNeighboursLog (fun v s => dfsLog succ fuel v s) u (succ u)
        { st with visiting := setAdd st.visiting u } with
    | none => none
    | some (st1, some cycle, log) => some (st1, some cycle, u :: log)
    | some (st1, none, log) =>
      some ({ st1 with visiting := st1.visiting.erase u, visited := setAdd st1.visited u }, none,
        u :: log)

/-- The final loop of `findCycle` with the log of the calls of `dfs`. -/
def findCycleLoopLog (succ : String → List String) (fuel : Nat) :
    List String → DfsState → Option (Option (List String) × List String)
  | [], _ => some (none, [])
  | id :: ids, st =>
    if id ∈ st.visited then findCycleLoopLog succ fuel ids st
    else
      match dfsLog succ fuel id st with
      | none => none
      | some (_, some cycle, log) => some (some cycle, log)
      | some (st1, none, log) =>
        match findCycleLoopLog succ fuel ids st1 with
        | none => none
        | some (res, log2) => some (res, log ++ log2)

/-- The function `findCycle` with the log of the calls of `dfs`. -/
def findCycleLog (ids : List String) (edges : List (String × String)) :
    Option (Option (List String) × List String) :=
  findCycleLoopLog (successors ids edges) (ids.length + edges.length + 1) ids ⟨[], [], []⟩

/-- Is `x.key` strictly equal to the string `s`. -/
def propIs (x : Value) (k s : String) : Bool :=
  match getProp x k with
  | .str t => t == s
  | _ => false

/-- `nodes.map((n) => "node:" + n.id)` and the like. -/
def selectors (kind : String) (ids : List String) : List String := ids.map (fun id => kind ++ ":" ++ id)

/-- The issue of the rule "exactly one start node". -/
def startIssues (nodes : List Value) : List IssueSpec :=
  let startNodes := nodes.filter (fun n => propIs n "type" "start")
  if startNodes.length != 1 then
    [{ code := "MISSING_OR_AMBIGUOUS_START_NODE",
       message := "Expected exactly 1 start node, found " ++ String.mk (natDigits startNodes.length),
       severity := "error",
       atoms := if startNodes.length != 0
                then selectors "node" (startNodes.map (fun n => propString n "id"))
                else ["workflow:root"],
       region_hint := none, suggested_fix := none }]
  else []

/-- The issue of the rule "at least one end node". -/
def endIssues (nodes : List Value) : List IssueSpec :=
  if (nodes.filter (fun n => propIs n "type" "end")).length < 1 then
    [{ code := "MISSING_END_NODE", message := "Expected at least 1 end node", severity := "error",
       atoms := ["workflow:root"], region_hint := none, suggested_fix := none }]
  else []

/-- `arr.join(sep)` on strings. -/
def joinWith (sep : String) : List String → String
  | [] => ""
  | [x] => x
  | x :: y :: rest => x ++ sep ++ joinWith sep (y :: rest)

/-- The issues of the rule "edges reference existing nodes". -/
def orphanIssues (ids : List String) : List Value → List IssueSpec
  | [] => []
  | e :: es =>
    let fromOk := decide (propString e "from" ∈ ids)
    let toOk := decide (propString e "to" ∈ ids)
    if !fromOk || !toOk then
      let missing := (if !fromOk then ["node:" ++ propString e "from"] else [])
        ++ (if !toOk then ["node:" ++ propString e "to"] else [])
      { code := "ORPHAN_EDGE",
        message := "Edge references missing node(s): " ++ joinWith ", " missing,
        severity := "error",
        atoms := ("edge:" ++ propString e "id") :: missing,
        region_hint := none, suggested_fix := none } :: orphanIssues ids es
    else orphanIssues ids es

/-- The expression `n.config && typeof n.config.task_key === "string" ? n.config.task_key :
null`, followed by the test `!taskKey`. -/
def lacksTaskKey (n : Value) : Bool :=
  if truthy (getProp n "config") then
    match getProp (getProp n "config") "task_key" with
    | .str s => s == ""
    | _ => true
  else true

/-- The issues of the rule "task nodes require config.task_key". -/
def taskIssues : List Value → List IssueSpec
  | [] => []
  | n :: ns =>
    if propIs n "type" "task" && lacksTaskKey n then
      { code := "MISSING_REQUIRED_FIELD", message := "Task node requires config.task_key",
        severity := "error", atoms := ["node:" ++ propString n "id"],
        region_hint := some "node.config.task_key",
        suggested_fix := some (.obj [("set", .obj [("config.task_key", .str "<task_key>")])]) }
        :: taskIssues ns
    else taskIssues ns

/-- The issue of the rule "detect cycles", given the result of `findCycle`. -/
def cycleIssues : Option (List String) → List IssueSpec
  | none => []
  | some cycle =>
    [{ code := "CYCLE_DETECTED", message := "Cycle detected: " ++ joinWith " -> " cycle,
       severity := "error",
       atoms := if (selectors "node" cycle).length != 0 then selectors "node" cycle
                else ["workflow:root"],
       region_hint := none, suggested_fix := none }]

/-- The issues of the rule "reachability from start", given the set of reachable ids. -/
def unreachableIssues (reachable : List String) : List String → List IssueSpec
  | [] => []
  | id :: ids =>
    if id ∈ reachable then unreachableIssues reachable ids
    else
      { code := "UNREACHABLE_NODE", message := "Node is not reachable from start: " ++ id,
        severity := "warning", atoms := ["node:" ++ id],
        region_hint := none, suggested_fix := none } :: unreachableIssues reachable ids

/-- The issues of the block `if (startNodes.length === 1) { ... }`; `none` when the traversal
exhausts its budget. -/
def reachabilityIssues (startNodes : List Value) (edges : List (String × String))
    (ids : List String) : Option (List IssueSpec) :=
  match startNodes with
  | [s] =>
    (reachableFrom (propString s "id") edges).map
      (fun reachable => unreachableIssues reachable ids)
  | _ => some []

/-- The arguments of all `makeIssue` calls of `validate` on the normalized graph `g`, in call
order; `none` when a traversal exhausts its budget. -/
def graphIssues (g : Value) : Option (List IssueSpec) :=
  let nodes := propItems g "nodes"
  let edges := propItems g "edges"
  let ids := (mapById nodes).map Prod.fst
  match findCycle ids (edgePairs edges) with
  | none => none
  | some cycle =>
    let startNodes := nodes.filter (fun n => propIs n "type" "start")
    match reachabilityIssues startNodes (edgePairs edges) ids with
    | none => none
    | some unreachable =>
      some (startIssues nodes ++ endIssues nodes ++ orphanIssues ids edges ++ taskIssues nodes
        ++ cycleIssues cycle ++ unreachable)

/-- `issues.push(makeIssue(..))` for each argument in turn. -/
def makeIssues (P : Platform) : List IssueSpec → Except JSError (List Value)
  | [] => .ok []
  | i :: is =>
    match makeIssue P i with
    | .error e => .error e
    | .ok x =>
      match makeIssues P is with
      | .error e => .error e
      | .ok xs => .ok (x :: xs)

/-- A natural number as a value. -/
def natValue (n : Nat) : Value := .num (.finite n)

/-- `validate(state)`. -/
def validate (P : Platform) (state : Value) : Except JSError Value :=
  match canonicalizeDomain P state with
  | .error e => .error e
  | .ok g =>
    let state_hash := toLowerCase (sha256HexString P (jsonStringify g))
    if !looksLikeGraph g then
      canonicalize (.obj [("v", natValue 1), ("valid", .bool true), ("issues", .arr []),
        ("state_hash", .str state_hash)])
    else
      match graphIssues g with
      | none => .error .stackOverflow
      | some specs =>
        match makeIssues P specs with
        | .error e => .error e
        | .ok issues =>
          let valid := issues.all (fun i => !propIs i "severity" "error")
          canonicalize (.obj [("v", natValue 1), ("valid", .bool valid), ("issues", .arr issues),
            ("state_hash", .str state_hash)])

/-! ## Notions used in the statements -/

/-- A string that `canonicalizeString` returns unchanged. -/
def PlainString (s : String) : Prop := canonicalizeString s = .ok s

/-- A value that is its own canonical form. -/
def Canonical (v : Value) : Prop := canonicalize v = .ok v

/-- A conflict spec all of whose strings are returned unchanged by `canonicalizeString`. -/
def ConflictSpec.Plain (spec : ConflictSpec) : Prop :=
  PlainString spec.type ∧ PlainString spec.selector ∧ PlainString spec.severity ∧
    PlainString spec.reason ∧ (∀ s ∈ spec.allowed_resolutions, PlainString s) ∧
    (∀ d, spec.default_resolution = some d → PlainString d)

/-- The conflict record `makeConflict` builds from a spec and a conflict id. -/
def conflictRecord (spec : ConflictSpec) (conflict_id : String) : Value :=
  .obj ([("allowed_resolutions", strArray spec.allowed_resolutions),
      ("conflict_id", .str conflict_id)]
    ++ (match spec.default_resolution with
        | some d => [("default_resolution", .str d)]
        | none => [])
    ++ [("reason", .str spec.reason), ("selector", .str spec.selector),
      ("severity", .str spec.severity), ("type", .str spec.type)])

/-- The strings of an issue spec are plain and its suggested fix, if any, is canonical. -/
def IssueSpec.Plain (i : IssueSpec) : Prop :=
  PlainString i.code ∧ PlainString i.message ∧ PlainString i.severity ∧
    (∀ s ∈ i.atoms, PlainString s) ∧ (∀ h, i.region_hint = some h → PlainString h) ∧
    (∀ v, i.suggested_fix = some v → Canonical v)

/-- The issue record `makeIssue` builds from a spec and an issue id. -/
def issueRecord (i : IssueSpec) (issue_id : String) : Value :=
  .obj ([("atoms", strArray i.atoms), ("code", .str i.code), ("issue_id", .str issue_id),
      ("message", .str i.message)]
    ++ (match i.region_hint with
        | some h => [("region_hint", .str h)]
        | none => [])
    ++ [("severity", .str i.severity)]
    ++ (match i.suggested_fix with
        | some v => [("suggested_fix", v)]
        | none => []))

/-- The keys of `nodesById`, in insertion order. -/
def nodeIds (g : Value) : List String := (mapById (propItems g "nodes")).map Prod.fst

/-- The graph has an edge from `a` to `b`. -/
def Edge (g : Value) (a b : String) : Prop := (a, b) ∈ edgePairs (propItems g "edges")

/-- The graph has a directed cycle: some id reaches itself along one or more edges. -/
def HasCycle (g : Value) : Prop := ∃ x, Relation.TransGen (Edge g) x x

/-- One step along the adjacency lists. -/
def Step (succ : String → List String) (a b : String) : Prop := b ∈ succ a

/-- What holds of the sets of `findCycle` between two calls of `dfs`: the finished ids are
closed under the adjacency lists, none of them lies on a cycle, and none is in progress. -/
structure DfsInv (succ : String → List String) (st : DfsState) : Prop where
  closed : ∀ a ∈ st.visited, ∀ b ∈ succ a, b ∈ st.visited
  nocycle : ∀ a ∈ st.visited, ¬ Relation.TransGen (Step succ) a a
  disjoint : ∀ a ∈ st.visiting, a ∉ st.visited

/-- The number of ids of `U` that `findCycle` has not reached yet. -/
def unvisited (U : List String) (st : DfsState) : Nat :=
  (U.toFinset.filter (fun x => x ∉ st.visiting ∧ x ∉ st.visited)).card

/-- What a call `dfs(u)` does when at most `n` ids of `U` are unreached: it returns; if it
returns a cycle the graph has one; if not, `u` and all ids finished before are finished, the
ids in progress are the same, and the invariant holds again. -/
def DfsSpec (succ : String → List String) (U : List String) (n : Nat)
    (call : String → DfsState → Option (DfsState × Option (List String))) : Prop :=
  ∀ u st, DfsInv succ st → u ∉ st.visited → u ∉ st.visiting → u ∈ U →
    (∀ w ∈ st.visiting, Relation.ReflTransGen (Step succ) w u) → unvisited U st ≤ n →
    ∃ st1 res, call u st = some (st1, res) ∧
      ((∃ c, res = some c) → ∃ x, Relation.TransGen (Step succ) x x) ∧
      (res = none → DfsInv succ st1 ∧ st1.visiting = st.visiting ∧
        (∀ a ∈ st.visited, a ∈ st1.visited) ∧ u ∈ st1.visited)

/-- A string element of an array; the empty string stands for any other value. -/
def strOf : Value → String
  | .str s => s
  | _ => ""

/-- The atoms of an issue record. -/
def issueAtoms (x : Value) : List String := (propItems x "atoms").map strOf

/-- The issues with the given code, each as its severity and its atoms, in order. -/
def issuesWith (code : String) (issues : List Value) : List (String × List String) :=
  (issues.filter (fun x => propIs x "code" code)).map
    (fun x => (propString x "severity", issueAtoms x))

/-- There is a directed path of edges, possibly empty, from `a` to `b`. -/
def Reaches (g : Value) (a b : String) : Prop := Relation.ReflTransGen (Edge g) a b

/-- The arguments of the `makeIssue` calls of `validate`, rule by rule, given the result of
`findCycle` and the issues of the reachability rule. -/
def issueSpecs (g : Value) (cycle : Option (List String)) (un : List IssueSpec) :
    List IssueSpec :=
  startIssues (propItems g "nodes") ++ endIssues (propItems g "nodes")
    ++ orphanIssues (nodeIds g) (propItems g "edges") ++ taskIssues (propItems g "nodes")
    ++ cycleIssues cycle ++ un

/-- The nodes of type `start`. -/
def startNodes (g : Value) : List Value :=
  (propItems g "nodes").filter (fun n => propIs n "type" "start")

/-- The op record the final `canonicalize` of `diff` makes of an op: the keys in sorted order. -/
def opRecord (o : DiffOp) : Value :=
  .obj ((match o.after with
        | some v => [("after", v)]
        | none => [])
    ++ [("atom", .str o.atom)]
    ++ (match o.before with
        | some v => [("before", v)]
        | none => [])
    ++ [("op", .str o.op)])

/-- The errors of the graph normalizer about the shape of its input. -/
def JSError.isInputShape : JSError → Bool
  | .mustBeObject _ => true
  | .expectedString _ => true
  | _ => false

/-- A string without white space at its ends. -/
def Trimmed (s : String) : Prop := trim s = s

/-- The spec of the `add_add` conflict of `threeWayAtomMerge`. -/
def addAddSpec (selector : String) : ConflictSpec :=
  { type := "add_add", selector := selector, severity := "warning",
    reason := "Both sides added the atom differently",
    allowed_resolutions := ["take_left", "take_right", "manual"],
    default_resolution := some "take_left" }

/-- The spec of the `delete_edit` conflict of `threeWayAtomMerge`. -/
def deleteEditSpec (selector : String) : ConflictSpec :=
  { type := "delete_edit", selector := selector, severity := "error",
    reason := "Left deleted the atom while right edited it",
    allowed_resolutions := ["take_delete", "take_right", "take_base", "manual"],
    default_resolution := none }

/-- The spec of the `edit_delete` conflict of `threeWayAtomMerge`. -/
def editDeleteSpec (selector : String) : ConflictSpec :=
  { type := "edit_delete", selector := selector, severity := "error",
    reason := "Right deleted the atom while left edited it",
    allowed_resolutions := ["take_delete", "take_left", "take_base", "manual"],
    default_resolution := none }

/-- The spec of the `edit_edit` conflict of `threeWayAtomMerge`. -/
def editEditSpec (selector : String) : ConflictSpec :=
  { type := "edit_edit", selector := selector, severity := "error",
    reason := "Both sides edited the atom differently",
    allowed_resolutions := ["take_left", "take_right", "take_base", "manual"],
    default_resolution := none }

/-- The spec of the conflict of `merge` on values that are not all graphs. -/
def rootSpec : ConflictSpec :=
  { type := "edit_edit", selector := "value:root", severity := "error",
    reason := "Both sides edited value:root differently",
    allowed_resolutions := ["take_left", "take_right", "take_base"],
    default_resolution := none }

/-- The specs `merge` passes to `makeConflict`: the four of `threeWayAtomMerge`, with the
selector of a node or of an edge, and the one for values that are not all graphs. -/
def IsMergeSpec (spec : ConflictSpec) : Prop :=
  (∃ kind id, (kind = "node" ∨ kind = "edge") ∧
    (spec = addAddSpec (kind ++ ":" ++ id) ∨ spec = deleteEditSpec (kind ++ ":" ++ id)
      ∨ spec = editDeleteSpec (kind ++ ":" ++ id) ∨ spec = editEditSpec (kind ++ ":" ++ id)))
  ∨ spec = rootSpec

mutual
/-- The two values hold the same data and differ at most in the order in which their objects,
at any depth, list their keys; the keys of an object are distinct. -/
def SameContent : Value → Value → Prop
  | .arr xs, b => ∃ ys, b = .arr ys ∧ SameItems xs ys
  | .obj ps, b => ∃ qs, b = .obj qs ∧ (ps.map Prod.fst).Nodup ∧ (qs.map Prod.fst).Nodup ∧
      qs.length = ps.length ∧ SameProps ps qs
  | .null, b => b = .null
  | .undefined, b => b = .undefined
  | .bool x, b => b = .bool x
  | .num n, b => b = .num n
  | .str s, b => b = .str s
  | .unsupported t, b => b = .unsupported t
/-- The two arrays have the same length and elements with the same content. -/
def SameItems : List Value → List Value → Prop
  | [], ys => ys = []
  | x :: xs, ys => ∃ y ys', ys = y :: ys' ∧ SameContent x y ∧ SameItems xs ys'
/-- Every property of the first list is a property of the second, with the same content. -/
def SameProps : List (String × Value) → List (String × Value) → Prop
  | [], _ => True
  | (k, v) :: ps, qs => (∃ w, lookupProp k qs = some w ∧ SameContent v w) ∧ SameProps ps qs
end

/-- The ids of the list are ascending in code-point order. -/
def CodePointSorted (ids : List String) : Prop :=
  ids.Pairwise (fun a b => codePointLt b a = false)

/-- May the key `a` come before the key `b` in the enumeration of an object: array indices
come first, in ascending order, and no key comes twice. -/
def keyBefore (a b : String) : Prop :=
  a ≠ b ∧
    match arrayIndex? a, arrayIndex? b with
    | some n, some m => n ≤ m
    | some _, none => True
    | none, some _ => False
    | none, none => True

mutual
/-- A value that `JSON.stringify` prints and `JSON.parse` reads back: no undefined value, every
number a safe integer, every object with its keys in enumeration order. -/
def IsJson : Value → Prop
  | .null => True
  | .bool _ => True
  | .num n => n.isSafeInteger = true
  | .str _ => True
  | .arr items => AllJson items
  | .obj props => AllJsonProps props ∧ (props.map Prod.fst).Pairwise keyBefore
  | _ => False
/-- Every element is such a value. -/
def AllJson : List Value → Prop
  | [] => True
  | x :: xs => IsJson x ∧ AllJson xs
/-- Every property value is such a value. -/
def AllJsonProps : List (String × Value) → Prop
  | [] => True
  | (_, v) :: ps => IsJson v ∧ AllJsonProps ps
end

/-- The character class `[0-9a-f]`. -/
def isLowerHex (c : Char) : Bool :=
  isDigit c || (decide (97 ≤ c.toNat) && decide (c.toNat ≤ 102))

/-- The pattern of a UUID in lower case: groups of 8, 4, 4, 4 and 12 digits of `[0-9a-f]`,
separated by hyphens. -/
def lowerUuidShape : List (Char → Bool) :=
  List.replicate 8 isLowerHex ++ [isHyphen] ++ List.replicate 4 isLowerHex ++ [isHyphen]
    ++ List.replicate 4 isLowerHex ++ [isHyphen] ++ List.replicate 4 isLowerHex ++ [isHyphen]
    ++ List.replicate 12 isLowerHex

/-- The byte of a version-5 UUID at index `i`, from the byte `h` of the digest at that index:
the high nibble of byte 6 is 5, the top two bits of byte 8 are `10`, every other bit is that
of the digest. -/
def uuidV5Byte (i h : Nat) : Nat :=
  if i = 6 then 0x50 + h % 16 else if i = 8 then 0x80 + h % 64 else h % 256

/-- The shape of a normalized node: a canonical object whose `id` and `type` are strings, the
type without white space at its ends. -/
def NodeOut (m : Value) : Prop :=
  isPlainObject m = true ∧ Canonical m ∧ (∃ s, getProp m "id" = .str s) ∧
    (∃ t, getProp m "type" = .str t ∧ Trimmed t)

/-- The shape of a normalized edge: a canonical object whose `from`, `to`, `id` and `type` are
strings, the type without white space at its ends and the id either so or with a `>` in it
(the default id `from->to`). -/
def EdgeOut (m : Value) : Prop :=
  isPlainObject m = true ∧ Canonical m ∧ (∃ f, getProp m "from" = .str f) ∧
    (∃ t, getProp m "to" = .str t) ∧
    (∃ s, getProp m "id" = .str s ∧ (Trimmed s ∨ '>' ∈ s.toList)) ∧
    (∃ t, getProp m "type" = .str t ∧ Trimmed t)

/-- The shape of a normalized graph: a canonical object with the kind of a graph whose `nodes`
and `edges` are arrays of normalized nodes and edges, whose `name`, if any, is a string and
whose `meta`, if any, is an object. -/
def GraphOut (g : Value) : Prop :=
  isPlainObject g = true ∧ Canonical g ∧ getProp g "kind" = .str "workflow_graph@1" ∧
    (∃ ns, getProp g "nodes" = .arr ns ∧ ∀ n ∈ ns, NodeOut n) ∧
    (∃ es, getProp g "edges" = .arr es ∧ ∀ e ∈ es, EdgeOut e) ∧
    (getProp g "name" = .undefined ∨ ∃ s, getProp g "name" = .str s) ∧
    (getProp g "meta" = .undefined ∨ ∃ ps, getProp g "meta" = .obj ps)

/-- The ops of a list of op records at one atom. -/
def opsAt (atom : String) (ops : List Value) : List Value :=
  ops.filter (fun o => propIs o "atom" atom)

/-- What `diff` reports for the atoms of one kind (`node` or `edge`), given the atoms `xs` of
the normalized `from` and `ys` of the normalized `to`: at an id only in `to` the one op
`add_<kind>` with the atom of `to` as `after`, at an id only in `from` the one op
`remove_<kind>` with the atom of `from` as `before`, at an id of both sides the one op
`update_<kind>` with both atoms when their canonical bytes differ, and no op when they are
the same. -/
def DiffOpsFor (kind : String) (xs ys ops : List Value) : Prop :=
  ∀ id : String,
    (∀ y ∈ ys, propString y "id" = id → (∀ x ∈ xs, propString x "id" ≠ id) →
      opsAt (kind ++ ":" ++ id) ops
        = [opRecord ⟨"add_" ++ kind, kind ++ ":" ++ id, none, some y⟩]) ∧
    (∀ x ∈ xs, propString x "id" = id → (∀ y ∈ ys, propString y "id" ≠ id) →
      opsAt (kind ++ ":" ++ id) ops
        = [opRecord ⟨"remove_" ++ kind, kind ++ ":" ++ id, some x, none⟩]) ∧
    (∀ x ∈ xs, ∀ y ∈ ys, propString x "id" = id → propString y "id" = id →
      (serialize x ≠ serialize y →
        opsAt (kind ++ ":" ++ id) ops
          = [opRecord ⟨"update_" ++ kind, kind ++ ":" ++ id, some x, some y⟩]) ∧
      (serialize x = serialize y → opsAt (kind ++ ":" ++ id) ops = []))

/-- The type of a conflict seen from the other side: `delete_edit` and `edit_delete` change
places. -/
def swapType (t : String) : String :=
  if t = "delete_edit" then "edit_delete" else if t = "edit_delete" then "delete_edit" else t

/-- The conflicts `cs2` are those of `cs1` seen from the other side: the same selectors in the
same order, with the types `delete_edit` and `edit_delete` swapped. -/
def ConflictsMirror (cs1 cs2 : List Value) : Prop :=
  cs2.map (fun c => (propString c "selector", propString c "type"))
    = cs1.map (fun c => (propString c "selector", swapType (propString c "type")))

/-- The parents from `cur` lead to `start` along the nodes `chain`, `cur` first and `start`
not among them: the walk of `reconstructCycle` from `cur` without its bound. -/
def ParentChain (parent : List (String × String)) (start : String) :
    String → List String → Prop
  | cur, [] => cur = start
  | cur, c :: rest =>
    cur ≠ start ∧ c = cur ∧ ∃ next, lookupProp cur parent = some next ∧
      ParentChain parent start next rest

/-- What holds of the sets and the parent map of `findCycle` while calls of `dfs` are open: the
ids in progress are distinct, none of them is finished, and each of them but the first was
entered over an edge from the one before it, which is its parent. -/
structure StackInv (succ : String → List String) (st : DfsState) : Prop where
  nodup : st.visiting.Nodup
  disjoint : ∀ a ∈ st.visiting, a ∉ st.visited
  links : List.Chain' (fun b a => Step succ a b ∧ lookupProp b st.parent = some a)
    st.visiting.reverse

/-- The path `c` comes from a back edge `stop -> start` of `findCycle`: it is
`reconstructCycle(start, stop, parent)`, the parents lead from `stop` to `start` along `walk`,
the ids of `walk` and `start` are distinct, and each id of `walk` is reached over an edge from
the next one, the last from `start`, and `start` from the first. -/
def WalkOut (succ : String → List String) (c : List String) : Prop :=
  ∃ (start stop : String) (parent : List (String × String)) (walk : List String),
    c = reconstructCycle start stop parent ∧ ParentChain parent start stop walk ∧
    (start :: walk).Nodup ∧ List.Chain (fun a b => Step succ b a) start (walk ++ [start])

/-- What a call `dfs(u)` that returns has done, given that `u` is new and entered from the last
id in progress: the calls it logs are distinct and of new ids; a returned path comes from a back
edge; without a path the ids in progress are as before, the finished ids are those of before
and the logged ones, and the ids in progress keep their parents. -/
def DfsLogSpec (succ : String → List String)
    (call : String → DfsState → Option (DfsState × Option (List String) × List String)) : Prop :=
  ∀ u st st1 res log, call u st = some (st1, res, log) → u ∉ st.visiting →
    StackInv succ { st with visiting := st.visiting ++ [u] } →
    log.Nodup ∧ (∀ x ∈ log, x ∉ st.visited ∧ x ∉ st.visiting) ∧
    (∀ c, res = some c → WalkOut succ c) ∧
    (res = none → st1.visiting = st.visiting ∧
      (∀ a, a ∈ st1.visited ↔ a ∈ st.visited ∨ a ∈ log) ∧
      ∀ b ∈ st.visiting, lookupProp b st1.parent = lookupProp b st.parent)

/-- The number of days of month `m` of year `y` in the Gregorian calendar. -/
def daysInMonth (y : Int) (m : Nat) : Nat :=
  match m with
  | 2 => if y % 4 = 0 ∧ (y % 100 ≠ 0 ∨ y % 400 = 0) then 29 else 28
  | 4 => 30
  | 6 => 30
  | 9 => 30
  | 11 => 30
  | _ => 31

/-- The fields of a date and time of the calendar with an offset in range: a month, a day of
that month, an hour up to 23, minute and second up to 59. -/
def CalendarFields (f : IsoFields) : Prop :=
  1 ≤ f.month ∧ f.month ≤ 12 ∧ 1 ≤ f.day ∧ f.day ≤ daysInMonth f.year f.month ∧
    f.hour ≤ 23 ∧ f.minute ≤ 59 ∧ f.second ≤ 59 ∧ f.offsetHour ≤ 23 ∧ f.offsetMinute ≤ 59

/-- The fields of a timestamp text within the ranges of `new Date`: month 1..12, day 1..31
whatever the month, hour up to 23 with minute and second up to 59, or the time `24:00:00` with
no fraction digit other than `0`, and an offset of at most `23:59`. -/
def DateFieldsInRange (f : IsoFields) : Prop :=
  1 ≤ f.month ∧ f.month ≤ 12 ∧ 1 ≤ f.day ∧ f.day ≤ 31 ∧
    ((f.hour ≤ 23 ∧ f.minute ≤ 59 ∧ f.second ≤ 59) ∨
      (f.hour = 24 ∧ f.minute = 0 ∧ f.second = 0 ∧ ∀ c ∈ f.fraction, c = '0')) ∧
    f.offsetHour ≤ 23 ∧ f.offsetMinute ≤ 59

/-- The milliseconds that the digits of a fraction of a second denote, cut after the third
digit. -/
def firstThreeDigits : List Char → Nat
  | [] => 0
  | [a] => digitVal a * 100
  | [a, b] => digitVal a * 100 + digitVal b * 10
  | a :: b :: c :: _ => digitVal a * 100 + digitVal b * 10 + digitVal c

/-- The time of the fields on the clock of their zone, in milliseconds: the day number of the
first of the month plus the days, hours, minutes, seconds and milliseconds after it (ECMAScript
`MakeDate(MakeDay, MakeTime)`). -/
def civilTimeValue (f : IsoFields) : Int :=
  makeDay f.year f.month f.day * 86400000 + (f.hour : Int) * 3600000
    + (f.minute : Int) * 60000 + (f.second : Int) * 1000 + (fractionMillis f.fraction : Int)

/-- The offset of the zone of the fields from UTC in milliseconds, positive east of
Greenwich. -/
def zoneOffsetMs (f : IsoFields) : Int :=
  if f.hasOffset then
    (if f.offsetNegative then
      -((f.offsetHour : Int) * 3600000 + (f.offsetMinute : Int) * 60000)
    else (f.offsetHour : Int) * 3600000 + (f.offsetMinute : Int) * 60000)
  else 0

/-! ## Sample inputs -/

/-- An object with an upper-case UUID, a timestamp with an offset, an undefined property,
unsorted keys and a nested array. -/
def sampleValue : Value :=
  .obj [("when", .str "2024-01-15T10:00:00-08:00"), ("gone", .undefined),
    ("id", .str "A1B2C3D4-E5F6-7890-ABCD-EF1234567890"),
    ("items", .arr [.num (.finite 3), .obj [("z", .null), ("a", .bool true)]])]

/-- The canonical form of `sampleValue`. -/
def sampleCanonical : Value :=
  .obj [("id", .str "a1b2c3d4-e5f6-7890-abcd-ef1234567890"),
    ("items", .arr [.num (.finite 3), .obj [("a", .bool true), ("z", .null)]]),
    ("when", .str "2024-01-15T18:00:00Z")]

/-- A platform for examples: `localeCompare` compares code units, the digests are constant. -/
def samplePlatform : Platform where
  localeCompare := fun a b => if strLt a b then -1 else if strLt b a then 1 else 0
  sha1 := fun _ => List.replicate 20 0
  sha256 := fun _ => List.replicate 32 0

/-- The normalized node `A` with a label. -/
def sampleNode (label : String) : Value :=
  .obj [("config", .obj []), ("id", .str "A"), ("label", .str label), ("type", .str "task")]

/-- A graph whose only edge has no id and a `from` that starts with a space. -/
def untrimmedGraph : Value :=
  .obj [("nodes", .arr []), ("edges", .arr [.obj [("from", .str " a"), ("to", .str "b")]])]

/-- The edge of `untrimmedGraph` after normalization, with the given id and label. -/
def untrimmedEdge (id : String) (label : Value) : Value :=
  .obj ([("from", .str " a"), ("id", .str id)]
    ++ (match label with
        | .str s => [("label", .str s)]
        | _ => [])
    ++ [("to", .str "b"), ("type", .str "flow")])

/-- A normalized graph without nodes and with the given edges. -/
def edgesOnly (edges : List Value) : Value :=
  .obj [("edges", .arr edges), ("kind", .str "workflow_graph@1"), ("nodes", .arr [])]

/-- The graph `untrimmedGraph` with a label on its edge. -/
def untrimmedLabelled (label : String) : Value :=
  .obj [("nodes", .arr []),
    ("edges", .arr [.obj [("from", .str " a"), ("to", .str "b"), ("label", .str label)]])]

/-- The graph without nodes and edges. -/
def emptyGraph : Value := .obj [("nodes", .arr []), ("edges", .arr [])]

/-- A graph with the edge `a->b` given twice: once with an explicit id, once with a default
id that starts with a space. -/
def twoEdgeGraph : Value :=
  .obj [("nodes", .arr []), ("edges", .arr [
    .obj [("id", .str "a->b"), ("from", .str " a"), ("to", .str "b")],
    .obj [("from", .str " a"), ("to", .str "b")]])]

/-- The graph with the nodes `A` and `B` and the edges `A->B` and `B->A`. -/
def cycleGraph : Value :=
  .obj [("nodes", .arr [.obj [("id", .str "A")], .obj [("id", .str "B")]]),
    ("edges", .arr [.obj [("from", .str "A"), ("to", .str "B")],
      .obj [("from", .str "B"), ("to", .str "A")]])]

/-- The normalized `cycleGraph`. -/
def cycleGraphNormal : Value :=
  .obj [("edges", .arr [
      .obj [("from", .str "A"), ("id", .str "A->B"), ("to", .str "B"), ("type", .str "flow")],
      .obj [("from", .str "B"), ("id", .str "B->A"), ("to", .str "A"), ("type", .str "flow")]]),
    ("kind", .str "workflow_graph@1"),
    ("nodes", .arr [
      .obj [("config", .obj []), ("id", .str "A"), ("type", .str "task")],
      .obj [("config", .obj []), ("id", .str "B"), ("type", .str "task")]])]

/-- A graph with a start node, a task `A` with a task key, a task `B` without one that no edge
reaches, and an edge to a node that does not exist. -/
def flowGraph : Value :=
  .obj [("nodes", .arr [
      .obj [("id", .str "S"), ("type", .str "start")],
      .obj [("id", .str "A"), ("config", .obj [("task_key", .str "k")])],
      .obj [("id", .str "B")]]),
    ("edges", .arr [
      .obj [("from", .str "S"), ("to", .str "A")],
      .obj [("from", .str "A"), ("to", .str "Z")]])]

/-- The normalized `flowGraph`. -/
def flowGraphNormal : Value :=
  .obj [("edges", .arr [
      .obj [("from", .str "A"), ("id", .str "A->Z"), ("to", .str "Z"), ("type", .str "flow")],
      .obj [("from", .str "S"), ("id", .str "S->A"), ("to", .str "A"), ("type", .str "flow")]]),
    ("kind", .str "workflow_graph@1"),
    ("nodes", .arr [
      .obj [("config", .obj [("task_key", .str "k")]), ("id", .str "A"), ("type", .str "task")],
      .obj [("config", .obj []), ("id", .str "B"), ("type", .str "task")],
      .obj [("config", .obj []), ("id", .str "S"), ("type", .str "start")]])]

/-- A platform for examples whose `localeCompare` ignores the case of ASCII letters first and
puts a lower-case letter before its upper-case form, as the collation of the engine does. -/
def collatingPlatform : Platform where
  localeCompare := fun a b =>
    if strLt (toLowerCase a) (toLowerCase b) then -1
    else if strLt (toLowerCase b) (toLowerCase a) then 1
    else if strLt b a then -1 else if strLt a b then 1 else 0
  sha1 := fun _ => List.replicate 20 0
  sha256 := fun _ => List.replicate 32 0

/-- A normalized graph without edges whose nodes have the given ids and no other data. -/
def nodesOnly (ids : List String) : Value :=
  .obj [("edges", .arr []), ("kind", .str "workflow_graph@1"),
    ("nodes", .arr (ids.map (fun id =>
      .obj [("config", .obj []), ("id", .str id), ("type", .str "task")])))]

/-- A graph without edges whose nodes are given by their ids. -/
def rawNodes (ids : List String) : Value :=
  .obj [("nodes", .arr (ids.map (fun id => .obj [("id", .str id)])))]

/-- A graph with a start node and an end node that no edge joins. -/
def looseGraph : Value :=
  .obj [("nodes", .arr [
      .obj [("id", .str "S"), ("type", .str "start")],
      .obj [("id", .str "E"), ("type", .str "end")]])]

/-- The normalized `looseGraph`. -/
def looseGraphNormal : Value :=
  .obj [("edges", .arr []), ("kind", .str "workflow_graph@1"),
    ("nodes", .arr [
      .obj [("config", .obj []), ("id", .str "E"), ("type", .str "end")],
      .obj [("config", .obj []), ("id", .str "S"), ("type", .str "start")]])]

/-- The result of `validate` on `looseGraph` with the sample platform. -/
def looseGraphResult : Value :=
  .obj [("issues", .arr [
      .obj [("atoms", .arr [.str "node:E"]), ("code", .str "UNREACHABLE_NODE"),
        ("issue_id", .str "00000000-0000-5000-8000-000000000000"),
        ("message", .str "Node is not reachable from start: E"),
        ("severity", .str "warning")]]),
    ("state_hash", .str "0000000000000000000000000000000000000000000000000000000000000000"),
    ("v", natValue 1), ("valid", .bool true)]

/-- A graph whose only edge has no id and an upper-case UUID as `from`. -/
def uuidEdgeGraph : Value :=
  .obj [("edges", .arr [
    .obj [("from", .str "A1B2C3D4-E5F6-7890-ABCD-EF1234567890"), ("to", .str "b")]])]

/-- The normalized `uuidEdgeGraph`. -/
def uuidEdgeGraphNormal : Value :=
  .obj [("edges", .arr [
      .obj [("from", .str "a1b2c3d4-e5f6-7890-abcd-ef1234567890"),
        ("id", .str "A1B2C3D4-E5F6-7890-ABCD-EF1234567890->b"), ("to", .str "b"),
        ("type", .str "flow")]]),
    ("kind", .str "workflow_graph@1"), ("nodes", .arr [])]

/-- A graph whose first node holds the number 0.5 and whose second node has a number as id. -/
def fractionGraph : Value :=
  .obj [("nodes", .arr [
    .obj [("id", .str "a"), ("config", .obj [("x", .num (.finite (1 / 2)))])],
    .obj [("id", .num (.finite 5))]])]

/-- A graph whose only node has a number as id. -/
def numberIdGraph : Value := .obj [("nodes", .arr [.obj [("id", .num (.finite 5))]])]

/-- The value of `JSON.parse` of an object whose only own property is `__proto__`, holding the
graph without nodes and edges. -/
def protoGraphInput : Value := .obj [("__proto__", emptyGraph)]

/-- The value of `JSON.parse` of an object whose only own property is `__proto__`, holding a
graph whose only node has a number as id. -/
def protoNumberIdInput : Value := .obj [("__proto__", numberIdGraph)]

/-- Put a character in front of a text in which the letter `e` followed by the combining
acute accent U+0301 is written as the one letter U+00E9, its canonically equivalent form. -/
def composeStep (c : Char) (acc : List Char) : List Char :=
  match acc with
  | d :: rest =>
    if c = 'e' ∧ d = Char.ofNat 0x301 then Char.ofNat 0xE9 :: rest else c :: acc
  | [] => [c]

/-- Write every `e` followed by U+0301 as U+00E9. -/
def composeAcute (cs : List Char) : List Char := cs.foldr composeStep []

/-- A platform for examples whose `localeCompare` takes canonically equivalent spellings of
the letter e with an acute accent as equal, as the collation of the engine does, and compares code units otherwise. -/
def equivalencePlatform : Platform where
  localeCompare := fun a b =>
    if strLt (String.mk (composeAcute a.toList)) (String.mk (composeAcute b.toList)) then -1
    else if strLt (String.mk (composeAcute b.toList)) (String.mk (composeAcute a.toList)) then 1
    else 0
  sha1 := fun _ => List.replicate 20 0
  sha256 := fun _ => List.replicate 32 0

/-- The id of the node `i` of a ring: the letter `n` written `i + 1` times. -/
def ringName (i : Nat) : String := String.mk (List.replicate (i + 1) 'n')

/-- The ids of the ring of `n` nodes. -/
def ringIds (n : Nat) : List String := (List.range n).map ringName

/-- The edges of the ring of `n` nodes: from each node to the next, from the last to the
first. -/
def ringEdges (n : Nat) : List (String × String) :=
  (List.range n).map (fun i => (ringName i, ringName ((i + 1) % n)))

/-- The value `sampleValue` with the keys of its objects in another order. -/
def sampleValueReordered : Value :=
  .obj [("items", .arr [.num (.finite 3), .obj [("a", .bool true), ("z", .null)]]),
    ("id", .str "A1B2C3D4-E5F6-7890-ABCD-EF1234567890"),
    ("when", .str "2024-01-15T10:00:00-08:00"), ("gone", .undefined)]

/-- The value `sampleCanonical` with another letter case in its UUID and another offset in its
timestamp. -/
def sampleValueRespelled : Value :=
  .obj [("when", .str "2024-01-15T19:00:00+01:00"),
    ("id", .str "a1b2c3d4-E5F6-7890-abcd-EF1234567890"),
    ("items", .arr [.num (.finite 3), .obj [("z", .null), ("a", .bool true)]])]

end FlowVersion


namespace FlowVersion

/-! ## The order of JavaScript strings -/

theorem unitsLt_irrefl (a : List Nat) : unitsLt a a = false := by
  induction a with
  | nil => rfl
  | cons x xs ih => simp [unitsLt, ih]

theorem unitsLt_trans {a b c : List Nat} (h1 : unitsLt a b = true) (h2 : unitsLt b c = true) :
    unitsLt a c = true := by
  induction a generalizing b c with
  | nil =>
    cases b with
    | nil => simp [unitsLt] at h1
    | cons y ys =>
      cases c with
      | nil => simp [unitsLt] at h2
      | cons z zs => simp [unitsLt]
  | cons x xs ih =>
    cases b with
    | nil => simp [unitsLt] at h1
    | cons y ys =>
      cases c with
      | nil => simp [unitsLt] at h2
      | cons z zs =>
        simp only [unitsLt, Bool.or_eq_true, decide_eq_true_eq, Bool.and_eq_true, beq_iff_eq] at h1 h2 ⊢
        rcases h1 with h1 | ⟨h1, h1'⟩
        · rcases h2 with h2 | ⟨h2, _⟩
          · left; omega
          · left; omega
        · rcases h2 with h2 | ⟨h2, h2'⟩
          · left; omega
          · right; exact ⟨by omega, ih h1' h2'⟩

theorem unitsLt_trichotomy (a b : List Nat) :
    unitsLt a b = true ∨ a = b ∨ unitsLt b a = true := by
  induction a generalizing b with
  | nil =>
    cases b with
    | nil => simp
    | cons y ys => simp [unitsLt]
  | cons x xs ih =>
    cases b with
    | nil => simp [unitsLt]
    | cons y ys =>
      simp only [unitsLt, Bool.or_eq_true, decide_eq_true_eq, Bool.and_eq_true, beq_iff_eq,
        List.cons.injEq]
      rcases Nat.lt_trichotomy x y with h | h | h
      · left; left; exact h
      · rcases ih ys with h' | h' | h'
        · left; right; exact ⟨h, h'⟩
        · right; left; exact ⟨h, h'⟩
        · right; right; right; exact ⟨h.symm, h'⟩
      · right; right; left; exact h

theorem unitsLt_asymm {a b : List Nat} (h : unitsLt a b = true) : unitsLt b a = false := by
  cases h' : unitsLt b a with
  | false => rfl
  | true =>
    have := unitsLt_trans h h'
    rw [unitsLt_irrefl] at this
    exact absurd this (by simp)

theorem char_toNat_valid (c : Char) : c.toNat < 0xD800 ∨ (0xDFFF < c.toNat ∧ c.toNat < 0x110000) := by
  have h := c.valid
  simp only [UInt32.isValidChar, Nat.isValidChar] at h
  exact h

theorem char_eq_of_toNat_eq {c d : Char} (h : c.toNat = d.toNat) : c = d := by
  apply Char.ext
  apply UInt32.ext
  exact h

theorem utf16List_injective : ∀ (cs ds : List Char), utf16List cs = utf16List ds → cs = ds := by
  intro cs
  induction cs with
  | nil =>
    intro ds h
    cases ds with
    | nil => rfl
    | cons d ds =>
      simp only [utf16List, utf16Char] at h
      split at h <;> simp at h
  | cons c cs ih =>
    intro ds h
    cases ds with
    | nil =>
      simp only [utf16List, utf16Char] at h
      split at h <;> simp at h
    | cons d ds =>
      have hc := char_toNat_valid c
      have hd := char_toNat_valid d
      simp only [utf16List, utf16Char] at h
      split at h <;> split at h
      · simp only [List.singleton_append, List.cons.injEq] at h
        rw [char_eq_of_toNat_eq h.1, ih ds h.2]
      · simp only [List.singleton_append, List.cons_append, List.nil_append, List.cons.injEq] at h
        omega
      · simp only [List.singleton_append, List.cons_append, List.nil_append, List.cons.injEq] at h
        omega
      · simp only [List.cons_append, List.nil_append, List.cons.injEq] at h
        have : c.toNat = d.toNat := by omega
        rw [char_eq_of_toNat_eq this, ih ds h.2.2]

theorem utf16Units_injective {a b : String} (h : utf16Units a = utf16Units b) : a = b := by
  have := utf16List_injective _ _ h
  exact String.ext this

theorem strLt_irrefl (a : String) : strLt a a = false := unitsLt_irrefl _

theorem strLt_trans {a b c : String} (h1 : strLt a b = true) (h2 : strLt b c = true) :
    strLt a c = true := unitsLt_trans h1 h2

theorem strLt_asymm {a b : String} (h : strLt a b = true) : strLt b a = false := unitsLt_asymm h

theorem strLt_trichotomy (a b : String) : strLt a b = true ∨ a = b ∨ strLt b a = true := by
  rcases unitsLt_trichotomy (utf16Units a) (utf16Units b) with h | h | h
  · exact Or.inl h
  · exact Or.inr (Or.inl (utf16Units_injective h))
  · exact Or.inr (Or.inr h)

instance strLe_isTotal : IsTotal String strLe where
  total a b := by
    unfold strLe
    cases h : strLt b a with
    | false => exact Or.inl rfl
    | true => exact Or.inr (strLt_asymm h)

instance strLe_isTrans : IsTrans String strLe where
  trans a b c h1 h2 := by
    unfold strLe at *
    cases h : strLt c a with
    | false => rfl
    | true =>
      rcases strLt_trichotomy a b with h' | h' | h'
      · rw [strLt_trans h h'] at h2; exact absurd h2 (by simp)
      · subst h'; rw [h] at h2; exact absurd h2 (by simp)
      · rw [h'] at h1; exact absurd h1 (by simp)

instance strLe_isAntisymm : IsAntisymm String strLe where
  antisymm a b h1 h2 := by
    unfold strLe at *
    rcases strLt_trichotomy a b with h' | h' | h'
    · rw [h'] at h2; exact absurd h2 (by simp)
    · exact h'
    · rw [h'] at h1; exact absurd h1 (by simp)

theorem strLe_refl (a : String) : strLe a a := strLt_irrefl a

theorem sortStrings_sorted (ks : List String) : (sortStrings ks).Sorted strLe :=
  List.sorted_insertionSort strLe ks

theorem sortStrings_perm (ks : List String) : (sortStrings ks).Perm ks :=
  List.perm_insertionSort strLe ks

theorem sortStrings_eq_of_perm_sorted {ks ls : List String} (hp : ks.Perm ls)
    (hs : ls.Sorted strLe) : sortStrings ks = ls :=
  List.eq_of_perm_of_sorted ((sortStrings_perm ks).trans hp) (sortStrings_sorted ks) hs

theorem sortStrings_of_sorted {ks : List String} (hs : ks.Sorted strLe) : sortStrings ks = ks :=
  sortStrings_eq_of_perm_sorted (List.Perm.refl _) hs

theorem mem_sortStrings {k : String} {ks : List String} : k ∈ sortStrings ks ↔ k ∈ ks :=
  (sortStrings_perm ks).mem_iff

end FlowVersion


namespace FlowVersion

/-! ## Characters, digits and fixed-shape patterns -/

theorem toNat_ofNat_small {n : Nat} (h : n < 0xD800) : (Char.ofNat n).toNat = n := by
  have hv : n.isValidChar := Or.inl h
  simp only [Char.ofNat, hv, dite_true]
  rfl

theorem digitChar_toNat {d : Nat} (h : d < 10) : (digitChar d).toNat = 48 + d := by
  unfold digitChar
  exact toNat_ofNat_small (by omega)

theorem isDigit_digitChar {d : Nat} (h : d < 10) : isDigit (digitChar d) = true := by
  simp [isDigit, digitChar_toNat h]
  omega

theorem digitVal_digitChar {d : Nat} (h : d < 10) : digitVal (digitChar d) = d := by
  simp [digitVal, digitChar_toNat h]

theorem isDigit_iff {c : Char} : isDigit c = true ↔ 48 ≤ c.toNat ∧ c.toNat ≤ 57 := by
  simp [isDigit]

theorem isHexDigit_of_isDigit {c : Char} (h : isDigit c = true) : isHexDigit c = true := by
  simp [isHexDigit, h]

theorem isHexDigit_iff {c : Char} : isHexDigit c = true ↔
    (48 ≤ c.toNat ∧ c.toNat ≤ 57) ∨ (97 ≤ c.toNat ∧ c.toNat ≤ 102) ∨ (65 ≤ c.toNat ∧ c.toNat ≤ 70) := by
  simp [isHexDigit, isDigit, or_assoc]

theorem padDigits_length (w n : Nat) : (padDigits w n).length = w := by
  induction w with
  | zero => rfl
  | succ w ih => simp [padDigits, ih]

theorem padDigits_mod (w n : Nat) : padDigits w (n % 10 ^ w) = padDigits w n := by
  induction w generalizing n with
  | zero => rfl
  | succ v ihv =>
    simp only [padDigits]
    congr 1
    · congr 1
      rw [pow_succ, Nat.mod_mul_right_div_self, Nat.mod_mod]
    · rw [← ihv n, ← ihv (n % 10 ^ (v + 1))]
      congr 1
      rw [pow_succ, Nat.mod_mul_right_mod]

theorem readDigits_padDigits (w n : Nat) (rest : List Char) (h : n < 10 ^ w) :
    readDigits w (padDigits w n ++ rest) = some (n, rest) := by
  induction w generalizing n with
  | zero =>
    simp at h
    simp [readDigits, padDigits, h]
  | succ w ih =>
    have hlt : n / 10 ^ w % 10 < 10 := Nat.mod_lt _ (by norm_num)
    have hrest : n % 10 ^ w < 10 ^ w := Nat.mod_lt _ (by positivity)
    show readDigits (w + 1) (digitChar (n / 10 ^ w % 10) :: (padDigits w n ++ rest)) = _
    rw [readDigits, if_pos (isDigit_digitChar hlt), ← padDigits_mod w n, ih _ hrest,
      digitVal_digitChar hlt]
    have hq : n / 10 ^ w < 10 := by
      rw [pow_succ] at h
      exact Nat.div_lt_of_lt_mul (by linarith)
    rw [Nat.mod_eq_of_lt hq]
    have := Nat.div_add_mod n (10 ^ w)
    simp only [Option.some.injEq, Prod.mk.injEq, and_true]
    linarith [Nat.mul_comm (10 ^ w) (n / 10 ^ w)]

theorem padDigits_all_digit (w n : Nat) : ∀ c ∈ padDigits w n, isDigit c = true := by
  induction w with
  | zero => simp [padDigits]
  | succ w ih =>
    intro c hc
    simp only [padDigits, List.mem_cons] at hc
    rcases hc with rfl | hc
    · exact isDigit_digitChar (Nat.mod_lt _ (by norm_num))
    · exact ih c hc

theorem matchShape_length {shape : List (Char → Bool)} {cs : List Char}
    (h : matchShape shape cs = true) : cs.length = shape.length := by
  induction shape generalizing cs with
  | nil =>
    cases cs with
    | nil => rfl
    | cons c cs => simp [matchShape] at h
  | cons p ps ih =>
    cases cs with
    | nil => simp [matchShape] at h
    | cons c cs =>
      simp only [matchShape, Bool.and_eq_true] at h
      simp [ih h.2]

theorem matchShape_map {shape : List (Char → Bool)} {cs : List Char} (f : Char → Char)
    (hf : ∀ p ∈ shape, ∀ c, p c = true → p (f c) = true)
    (h : matchShape shape cs = true) : matchShape shape (cs.map f) = true := by
  induction shape generalizing cs with
  | nil =>
    cases cs with
    | nil => rfl
    | cons c cs => simp [matchShape] at h
  | cons p ps ih =>
    cases cs with
    | nil => simp [matchShape] at h
    | cons c cs =>
      simp only [matchShape, Bool.and_eq_true, List.map_cons] at h ⊢
      exact ⟨hf p (List.mem_cons_self _ _) c h.1,
        ih (fun q hq => hf q (List.mem_cons_of_mem _ hq)) h.2⟩

theorem lowerChar_toNat (c : Char) :
    (lowerChar c).toNat = if 65 ≤ c.toNat ∧ c.toNat ≤ 90 then c.toNat + 32 else c.toNat := by
  unfold lowerChar
  split
  · next h => exact toNat_ofNat_small (by omega)
  · rfl

theorem lowerChar_idem (c : Char) : lowerChar (lowerChar c) = lowerChar c := by
  apply char_eq_of_toNat_eq
  rw [lowerChar_toNat (lowerChar c), lowerChar_toNat c]
  split_ifs <;> omega

theorem isHexDigit_lowerChar {c : Char} (h : isHexDigit c = true) :
    isHexDigit (lowerChar c) = true := by
  rw [isHexDigit_iff] at h ⊢
  rw [lowerChar_toNat]
  split_ifs <;> omega

theorem isHyphen_lowerChar {c : Char} (h : isHyphen c = true) : isHyphen (lowerChar c) = true := by
  simp only [isHyphen, beq_iff_eq] at h
  subst h
  decide

theorem toLowerCase_idem (s : String) : toLowerCase (toLowerCase s) = toLowerCase s := by
  unfold toLowerCase
  show String.mk (List.map lowerChar (List.map lowerChar s.toList)) = _
  rw [List.map_map]
  congr 1
  apply List.map_congr_left
  intro c _
  exact lowerChar_idem c

theorem toLowerCase_toList (s : String) : (toLowerCase s).toList = s.toList.map lowerChar := rfl

theorem mem_replicate_eq {α : Type} {n : Nat} {a b : α} (h : b ∈ List.replicate n a) : b = a :=
  (List.mem_replicate.mp h).2

theorem uuidShape_closed : ∀ p ∈ uuidShape, ∀ c, p c = true → p (lowerChar c) = true := by
  intro p hp c hc
  simp only [uuidShape, List.mem_append, List.mem_replicate, List.mem_singleton] at hp
  have : p = isHexDigit ∨ p = isHyphen := by
    rcases hp with ((((((((h | h) | h) | h) | h) | h) | h) | h) | h)
    all_goals first
      | exact Or.inl h.2
      | exact Or.inr h
  rcases this with rfl | rfl
  · exact isHexDigit_lowerChar hc
  · exact isHyphen_lowerChar hc

theorem uuidPatternTest_toLowerCase {s : String} (h : uuidPatternTest s = true) :
    uuidPatternTest (toLowerCase s) = true := by
  unfold uuidPatternTest at *
  rw [toLowerCase_toList]
  exact matchShape_map lowerChar uuidShape_closed h

theorem hashPatternTest_toLowerCase {s : String} (h : hashPatternTest s = true) :
    hashPatternTest (toLowerCase s) = true := by
  unfold hashPatternTest at *
  rw [toLowerCase_toList]
  refine matchShape_map lowerChar ?_ h
  intro p hp c hc
  rw [mem_replicate_eq hp] at hc ⊢
  exact isHexDigit_lowerChar hc

theorem uuidShape_length : uuidShape.length = 36 := by decide

end FlowVersion


namespace FlowVersion

/-! ## Calendar arithmetic and the round trip of `Date` -/

theorem dayFromYear_bounds (y : Int) :
    146097 * (y - 1970) - 506 ≤ 400 * dayFromYear y ∧
      400 * dayFromYear y ≤ 146097 * (y - 1970) + 589 := by
  unfold dayFromYear
  omega

theorem isLeapYear_iff (y : Int) :
    isLeapYear y = true ↔ (y % 4 = 0 ∧ (y % 100 ≠ 0 ∨ y % 400 = 0)) := by
  have h100 : y % 400 % 100 = y % 100 := Int.emod_emod_of_dvd y (by norm_num)
  unfold isLeapYear
  split_ifs with h1 h2 h3 <;> simp <;> omega

theorem dayFromYear_succ (y : Int) :
    dayFromYear (y + 1) = dayFromYear y + (if isLeapYear y then 366 else 365) := by
  have h4 : y % 100 % 4 = y % 4 := Int.emod_emod_of_dvd y (by norm_num)
  have h100 : y % 400 % 100 = y % 100 := Int.emod_emod_of_dvd y (by norm_num)
  have e1 : (y + 1 - 1969) / 4 = (y - 1969) / 4 + (if y % 4 = 0 then 1 else 0) := by
    split_ifs <;> omega
  have e2 : (y + 1 - 1901) / 100 = (y - 1901) / 100 + (if y % 100 = 0 then 1 else 0) := by
    split_ifs <;> omega
  have e3 : (y + 1 - 1601) / 400 = (y - 1601) / 400 + (if y % 400 = 0 then 1 else 0) := by
    split_ifs <;> omega
  have hl := isLeapYear_iff y
  unfold dayFromYear
  rw [e1, e2, e3]
  by_cases hleap : isLeapYear y = true
  · rw [if_pos hleap]
    have := hl.mp hleap
    split_ifs <;> omega
  · rw [if_neg hleap]
    have := mt hl.mpr hleap
    split_ifs <;> omega

theorem yearFromDay_spec (z : Int) :
    dayFromYear (yearFromDay z) ≤ z ∧ z < dayFromYear (yearFromDay z + 1) := by
  have hest : 146097 * ((400 * z) / 146097) ≤ 400 * z ∧
      400 * z < 146097 * ((400 * z) / 146097) + 146097 := by omega
  generalize hq : (400 * z) / 146097 = q at hest
  have b1 := dayFromYear_bounds (1970 + q - 1)
  have b2 := dayFromYear_bounds (1970 + q + 1 + 1)
  unfold yearFromDay
  simp only [hq]
  split_ifs with h1 h2
  · refine ⟨by omega, ?_⟩
    rw [sub_add_cancel]
    exact h1
  · exact ⟨h2, by omega⟩
  · exact ⟨by omega, by omega⟩

theorem daysBeforeMonth_values (leap : Bool) :
    ∃ x : Int, (x = 0 ∨ x = 1) ∧ (if leap then (366 : Int) else 365) = 365 + x ∧
    daysBeforeMonth leap 1 = 0 ∧ daysBeforeMonth leap 2 = 31 ∧
    daysBeforeMonth leap 3 = 59 + x ∧ daysBeforeMonth leap 4 = 90 + x ∧
    daysBeforeMonth leap 5 = 120 + x ∧ daysBeforeMonth leap 6 = 151 + x ∧
    daysBeforeMonth leap 7 = 181 + x ∧ daysBeforeMonth leap 8 = 212 + x ∧
    daysBeforeMonth leap 9 = 243 + x ∧ daysBeforeMonth leap 10 = 273 + x ∧
    daysBeforeMonth leap 11 = 304 + x ∧ daysBeforeMonth leap 12 = 334 + x := by
  cases leap
  · exact ⟨0, Or.inl rfl, rfl, rfl, rfl, rfl, rfl, rfl, rfl, rfl, rfl, rfl, rfl, rfl, rfl⟩
  · exact ⟨1, Or.inr rfl, rfl, rfl, rfl, rfl, rfl, rfl, rfl, rfl, rfl, rfl, rfl, rfl, rfl⟩

theorem monthFromDayInYear_spec (leap : Bool) (n : Int) (h0 : 0 ≤ n)
    (h1 : n < if leap then 366 else 365) :
    ∃ m dbm, monthFromDayInYear leap n = m ∧ daysBeforeMonth leap m = dbm ∧
      1 ≤ m ∧ m ≤ 12 ∧ dbm ≤ n ∧ n - dbm + 1 ≤ 31 := by
  obtain ⟨x, hx, hlen, d1, d2, d3, d4, d5, d6, d7, d8, d9, d10, d11, d12⟩ :=
    daysBeforeMonth_values leap
  rw [hlen] at h1
  clear hlen
  have hx0 : 0 ≤ x := by omega
  have hx1 : x ≤ 1 := by omega
  clear hx
  unfold monthFromDayInYear
  rw [d2, d3, d4, d5, d6, d7, d8, d9, d10, d11, d12]
  by_cases c2 : n < 31
  · rw [if_pos c2]
    refine ⟨1, _, rfl, d1, ?_, ?_, ?_, ?_⟩ <;> (clear d1 d2 d3 d4 d5 d6 d7 d8 d9 d10 d11 d12; omega)
  rw [if_neg c2]
  by_cases c3 : n < 59 + x
  · rw [if_pos c3]
    refine ⟨2, _, rfl, d2, ?_, ?_, ?_, ?_⟩ <;> (clear d1 d2 d3 d4 d5 d6 d7 d8 d9 d10 d11 d12; omega)
  rw [if_neg c3]
  by_cases c4 : n < 90 + x
  · rw [if_pos c4]
    refine ⟨3, _, rfl, d3, ?_, ?_, ?_, ?_⟩ <;> (clear d1 d2 d3 d4 d5 d6 d7 d8 d9 d10 d11 d12; omega)
  rw [if_neg c4]
  by_cases c5 : n < 120 + x
  · rw [if_pos c5]
    refine ⟨4, _, rfl, d4, ?_, ?_, ?_, ?_⟩ <;> (clear d1 d2 d3 d4 d5 d6 d7 d8 d9 d10 d11 d12; omega)
  rw [if_neg c5]
  by_cases c6 : n < 151 + x
  · rw [if_pos c6]
    refine ⟨5, _, rfl, d5, ?_, ?_, ?_, ?_⟩ <;> (clear d1 d2 d3 d4 d5 d6 d7 d8 d9 d10 d11 d12; omega)
  rw [if_neg c6]
  by_cases c7 : n < 181 + x
  · rw [if_pos c7]
    refine ⟨6, _, rfl, d6, ?_, ?_, ?_, ?_⟩ <;> (clear d1 d2 d3 d4 d5 d6 d7 d8 d9 d10 d11 d12; omega)
  rw [if_neg c7]
  by_cases c8 : n < 212 + x
  · rw [if_pos c8]
    refine ⟨7, _, rfl, d7, ?_, ?_, ?_, ?_⟩ <;> (clear d1 d2 d3 d4 d5 d6 d7 d8 d9 d10 d11 d12; omega)
  rw [if_neg c8]
  by_cases c9 : n < 243 + x
  · rw [if_pos c9]
    refine ⟨8, _, rfl, d8, ?_, ?_, ?_, ?_⟩ <;> (clear d1 d2 d3 d4 d5 d6 d7 d8 d9 d10 d11 d12; omega)
  rw [if_neg c9]
  by_cases c10 : n < 273 + x
  · rw [if_pos c10]
    refine ⟨9, _, rfl, d9, ?_, ?_, ?_, ?_⟩ <;> (clear d1 d2 d3 d4 d5 d6 d7 d8 d9 d10 d11 d12; omega)
  rw [if_neg c10]
  by_cases c11 : n < 304 + x
  · rw [if_pos c11]
    refine ⟨10, _, rfl, d10, ?_, ?_, ?_, ?_⟩ <;> (clear d1 d2 d3 d4 d5 d6 d7 d8 d9 d10 d11 d12; omega)
  rw [if_neg c11]
  by_cases c12 : n < 334 + x
  · rw [if_pos c12]
    refine ⟨11, _, rfl, d11, ?_, ?_, ?_, ?_⟩ <;> (clear d1 d2 d3 d4 d5 d6 d7 d8 d9 d10 d11 d12; omega)
  rw [if_neg c12]
  refine ⟨12, _, rfl, d12, ?_, ?_, ?_, ?_⟩ <;> (clear d1 d2 d3 d4 d5 d6 d7 d8 d9 d10 d11 d12; omega)

theorem utcFields_spec (t : Int) :
    1 ≤ (utcFields t).month ∧ (utcFields t).month ≤ 12 ∧ 1 ≤ (utcFields t).day ∧
      (utcFields t).day ≤ 31 ∧ (utcFields t).hour ≤ 23 ∧ (utcFields t).minute ≤ 59 ∧
      (utcFields t).second ≤ 59 ∧ (utcFields t).ms ≤ 999 ∧
      makeDay (utcFields t).year (utcFields t).month (utcFields t).day * 86400000
        + ((utcFields t).hour : Int) * 3600000 + ((utcFields t).minute : Int) * 60000
        + ((utcFields t).second : Int) * 1000 + ((utcFields t).ms : Int) = t := by
  have hy := yearFromDay_spec (t / 86400000)
  have hs := dayFromYear_succ (yearFromDay (t / 86400000))
  have hn0 : 0 ≤ t / 86400000 - dayFromYear (yearFromDay (t / 86400000)) := by omega
  have hn1 : t / 86400000 - dayFromYear (yearFromDay (t / 86400000))
      < if isLeapYear (yearFromDay (t / 86400000)) then 366 else 365 := by
    split_ifs at hs ⊢ <;> omega
  obtain ⟨m, dbm, hm, hdbm, hm1, hm12, hlo, hhi⟩ := monthFromDayInYear_spec _ _ hn0 hn1
  have hms0 : 0 ≤ t % 86400000 := Int.emod_nonneg _ (by norm_num)
  have hms1 : t % 86400000 < 86400000 := Int.emod_lt_of_pos _ (by norm_num)
  have hdm := Int.ediv_add_emod t 86400000
  simp only [utcFields, makeDay, hm, hdbm]
  generalize dayFromYear (yearFromDay (t / 86400000)) = dfy at *
  refine ⟨hm1, hm12, by omega, by omega, by omega, by omega, by omega, by omega, ?_⟩
  omega

end FlowVersion


namespace FlowVersion

/-! ## Re-reading the text written by `toISOString` -/

theorem isoDate_text (y m d : Nat) (rest : List Char) (hy : y < 10000) (hm : m < 100)
    (hd : d < 100) :
    isoDate (padDigits 4 y ++ ('-' :: (padDigits 2 m ++ ('-' :: (padDigits 2 d ++ rest)))))
      = some ((y, m, d), rest) := by
  unfold isoDate
  rw [readDigits_padDigits 4 y _ (by norm_num; exact hy)]
  simp only [readSep2, expectChar, if_true]
  rw [readDigits_padDigits 2 m _ (by norm_num; exact hm)]
  simp only [readSep2, expectChar, if_true]
  rw [readDigits_padDigits 2 d _ (by norm_num; exact hd)]

theorem isoTime_text (h m s : Nat) (rest : List Char) (hh : h < 100) (hm : m < 100)
    (hs : s < 100) :
    isoTime ('T' :: (padDigits 2 h ++ (':' :: (padDigits 2 m ++ (':' :: (padDigits 2 s ++ rest))))))
      = some ((h, m, s), rest) := by
  unfold isoTime
  simp only [readSep2, expectChar, if_true]
  rw [readDigits_padDigits 2 h _ (by norm_num; exact hh)]
  simp only [readSep2, expectChar, if_true]
  rw [readDigits_padDigits 2 m _ (by norm_num; exact hm)]
  simp only [readSep2, expectChar, if_true]
  rw [readDigits_padDigits 2 s _ (by norm_num; exact hs)]

theorem spanDigits_append (ds : List Char) (c : Char) (r : List Char)
    (hds : ∀ x ∈ ds, isDigit x = true) (hc : isDigit c = false) :
    spanDigits (ds ++ c :: r) = (ds, c :: r) := by
  induction ds with
  | nil => simp [spanDigits, hc]
  | cons x xs ih =>
    have hx := hds x (List.mem_cons_self _ _)
    have := ih (fun y hy => hds y (List.mem_cons_of_mem _ hy))
    simp [spanDigits, hx, this]

/-- Skipping the leading zeros does not change the value of a numeral. -/
theorem foldl_dropWhile_zero (ds : List Char) :
    (ds.dropWhile (fun c => c == '0')).foldl (fun n c => n * 10 + digitVal c) 0
      = ds.foldl (fun n c => n * 10 + digitVal c) 0 := by
  induction ds with
  | nil => rfl
  | cons c cs ih =>
    by_cases h : c = '0'
    · subst h
      rw [List.dropWhile_cons_of_pos (by rfl), ih]
      rfl
    · rw [List.dropWhile_cons_of_neg (by simpa using h)]

/-- A numeral of at most nine digits has the value of its digits. -/
theorem readUnsignedNumeral_short (ds : List Char) (h : ds.length ≤ 9) :
    readUnsignedNumeral ds = ds.foldl (fun n c => n * 10 + digitVal c) 0 := by
  unfold readUnsignedNumeral
  rw [List.take_of_length_le, foldl_dropWhile_zero]
  exact le_trans (List.dropWhile_sublist _).length_le h

theorem fractionMillis_pad (ms : Nat) (h : ms < 1000) : fractionMillis (padDigits 3 ms) = ms := by
  have hl : (padDigits 3 ms).length = 3 := rfl
  unfold fractionMillis
  simp only [hl]
  rw [readUnsignedNumeral_short _ (by rw [hl]; norm_num)]
  simp only [padDigits, List.foldl_cons, List.foldl_nil]
  rw [digitVal_digitChar (Nat.mod_lt _ (by norm_num)), digitVal_digitChar (Nat.mod_lt _ (by norm_num)),
    digitVal_digitChar (Nat.mod_lt _ (by norm_num))]
  norm_num
  omega

theorem isoFractionZone_millis (ms : Nat) :
    isoFractionZone ('.' :: (padDigits 3 ms ++ ['Z'])) = some (padDigits 3 ms, false, false, 0, 0) := by
  unfold isoFractionZone
  simp only
  rw [spanDigits_append _ 'Z' [] (padDigits_all_digit 3 ms) (by decide)]
  simp [padDigits, isoZone]

theorem isoFractionZone_zulu : isoFractionZone ['Z'] = some ([], false, false, 0, 0) := by
  decide

/-- The fields read back from the text of `toISOString`. -/
theorem isoFields_text (f : UtcFields) (fr : List Char) (tail : List Char)
    (hy0 : 0 ≤ f.year) (hy1 : f.year ≤ 9999) (hm : f.month < 100) (hd : f.day < 100)
    (hh : f.hour < 100) (hmi : f.minute < 100) (hs : f.second < 100)
    (htail : isoFractionZone tail = some (fr, false, false, 0, 0)) :
    isoFields (isoSecondsText f ++ tail) =
      some { year := f.year.toNat, month := f.month, day := f.day, hour := f.hour,
             minute := f.minute, second := f.second, fraction := fr, hasOffset := false,
             offsetNegative := false, offsetHour := 0, offsetMinute := 0 } := by
  have hyd : isoYearDigits f.year = padDigits 4 f.year.toNat := by
    unfold isoYearDigits
    rw [if_pos ⟨hy0, hy1⟩]
  unfold isoFields isoSecondsText
  rw [hyd]
  simp only [List.append_assoc, List.cons_append]
  rw [isoDate_text _ _ _ _ (by omega) hm hd]
  simp only
  rw [isoTime_text _ _ _ _ hh hmi hs]
  simp only [htail]

end FlowVersion


namespace FlowVersion

theorem dateTimeValue_utcFields (t : Int) (fr : List Char)
    (hfr : fractionMillis fr = (utcFields t).ms) (hy0 : 0 ≤ (utcFields t).year) :
    dateTimeValue { year := (utcFields t).year.toNat, month := (utcFields t).month,
                    day := (utcFields t).day, hour := (utcFields t).hour,
                    minute := (utcFields t).minute, second := (utcFields t).second,
                    fraction := fr, hasOffset := false, offsetNegative := false,
                    offsetHour := 0, offsetMinute := 0 } = some t := by
  obtain ⟨h1, h2, h3, h4, h5, h6, h7, h8, h9⟩ := utcFields_spec t
  unfold dateTimeValue
  simp only [hfr, Int.toNat_of_nonneg hy0]
  have hok : (decide (1 ≤ (utcFields t).month) && decide ((utcFields t).month ≤ 12)
      && decide (1 ≤ (utcFields t).day) && decide ((utcFields t).day ≤ 31)
      && ((decide ((utcFields t).hour ≤ 23) && decide ((utcFields t).minute ≤ 59)
            && decide ((utcFields t).second ≤ 59))
          || ((utcFields t).hour == 24 && (utcFields t).minute == 0 && (utcFields t).second == 0
            && readUnsignedNumeral fr == 0))
      && decide (0 ≤ 23) && decide (0 ≤ 59)) = true := by
    simp [h1, h2, h3, h4, h5, h6, h7]
  rw [if_pos hok]
  simp only [Bool.false_eq_true, if_false]
  exact congrArg some h9

theorem replaceFirst_suffix (pre : List Char) (p : Char) (pat rep : List Char)
    (hpre : ∀ c ∈ pre, c ≠ p) :
    replaceFirst (p :: pat) rep (pre ++ p :: pat) = pre ++ rep := by
  induction pre with
  | nil =>
    have hs : ∀ l : List Char, startsWith l l = true := by
      intro l
      induction l with
      | nil => rfl
      | cons a l ih => simp [startsWith, ih]
    simp [replaceFirst, hs]
  | cons c cs ih =>
    have hc : c ≠ p := hpre c (List.mem_cons_self _ _)
    have hne : (p == c) = false := by
      simp only [beq_eq_false_iff_ne, ne_eq]
      exact fun h => hc h.symm
    simp only [List.cons_append, replaceFirst, startsWith, hne, Bool.false_and, Bool.false_eq_true,
      if_false, List.append_eq]
    rw [ih (fun x hx => hpre x (List.mem_cons_of_mem _ hx))]

theorem isDigit_ne_dot {c : Char} (h : isDigit c = true) : c ≠ '.' := by
  intro hc
  subst hc
  exact absurd h (by decide)

theorem isoYearDigits_no_dot (y : Int) : ∀ c ∈ isoYearDigits y, c ≠ '.' := by
  intro c hc
  unfold isoYearDigits at hc
  split_ifs at hc
  · exact isDigit_ne_dot (padDigits_all_digit _ _ c hc)
  · rcases List.mem_cons.mp hc with rfl | hc
    · decide
    · exact isDigit_ne_dot (padDigits_all_digit _ _ c hc)
  · rcases List.mem_cons.mp hc with rfl | hc
    · decide
    · exact isDigit_ne_dot (padDigits_all_digit _ _ c hc)

theorem isoSecondsText_no_dot (f : UtcFields) : ∀ c ∈ isoSecondsText f, c ≠ '.' := by
  intro c hc
  unfold isoSecondsText at hc
  simp only [List.mem_append, List.mem_cons, or_assoc] at hc
  have hd : ∀ w n, c ∈ padDigits w n → c ≠ '.' :=
    fun w n h => isDigit_ne_dot (padDigits_all_digit w n c h)
  rcases hc with h | h | h | h | h | h | h | h | h | h | h
  · exact isoYearDigits_no_dot _ c h
  · subst h; decide
  · exact hd _ _ h
  · subst h; decide
  · exact hd _ _ h
  · subst h; decide
  · exact hd _ _ h
  · subst h; decide
  · exact hd _ _ h
  · subst h; decide
  · exact hd _ _ h

/-- The text `normalizeTimestamp` returns for a string denoting the time value `t`. -/
theorem normalizeTimestamp_of_dateParse (s : String) (t : Int) (hp : dateParse s = some t) :
    normalizeTimestamp s = .ok (timestampText t) := by
  unfold normalizeTimestamp timestampText
  simp only [hp]
  by_cases hms : utcMilliseconds t = 0
  · rw [if_pos hms, if_pos hms]
    have h0 : (utcFields t).ms = 0 := by
      simp only [utcFields]
      unfold utcMilliseconds at hms
      omega
    have hpad : padDigits 3 0 = ['0', '0', '0'] := by decide
    have : (toISOString t).toList = isoSecondsText (utcFields t) ++ '.' :: ['0', '0', '0', 'Z'] := by
      simp only [toISOString, h0, hpad, List.append_assoc]
      rfl
    rw [this, show ".000Z".toList = '.' :: ['0', '0', '0', 'Z'] from rfl,
      replaceFirst_suffix _ _ _ _ (isoSecondsText_no_dot _)]
    rfl
  · rw [if_neg hms, if_neg hms]

theorem normalizeTimestamp_text (s s' : String) (h : normalizeTimestamp s = .ok s') :
    ∃ t : Int, dateParse s = some t ∧ s' = timestampText t := by
  cases hp : dateParse s with
  | none => simp [normalizeTimestamp, hp] at h
  | some t =>
    rw [normalizeTimestamp_of_dateParse s t hp] at h
    injection h with h
    exact ⟨t, rfl, h.symm⟩

end FlowVersion


namespace FlowVersion

/-! ## `canonicalizeString` is idempotent -/

theorem uuidShape_fifth {a b c d e : Char} {rest : List Char}
    (h : matchShape uuidShape (a :: b :: c :: d :: e :: rest) = true) : isHexDigit e = true := by
  simp only [uuidShape, List.replicate, List.cons_append, List.nil_append, matchShape,
    Bool.and_eq_true] at h
  exact h.2.2.2.2.1

theorem uuidShape_first {a : Char} {rest : List Char}
    (h : matchShape uuidShape (a :: rest) = true) : isHexDigit a = true := by
  simp only [uuidShape, List.replicate, List.cons_append, List.nil_append, matchShape,
    Bool.and_eq_true] at h
  exact h.1

theorem hashShape_fifth {a b c d e : Char} {rest : List Char}
    (h : matchShape (List.replicate 64 isHexDigit) (a :: b :: c :: d :: e :: rest) = true) :
    isHexDigit e = true := by
  simp only [List.replicate, matchShape, Bool.and_eq_true] at h
  exact h.2.2.2.2.1

theorem hashShape_first {a : Char} {rest : List Char}
    (h : matchShape (List.replicate 64 isHexDigit) (a :: rest) = true) : isHexDigit a = true := by
  simp only [List.replicate, matchShape, Bool.and_eq_true] at h
  exact h.1

theorem isoFields_first {a : Char} {rest : List Char} {f : IsoFields}
    (h : isoFields (a :: rest) = some f) : isDigit a = true := by
  by_cases hd : isDigit a = true
  · exact hd
  · simp [isoFields, isoDate, readDigits, hd] at h

theorem readDigits_some_length {n : Nat} {cs : List Char} {v : Nat} {rest : List Char}
    (h : readDigits n cs = some (v, rest)) : cs = cs.take n ++ rest ∧ (cs.take n).length = n := by
  induction n generalizing cs v rest with
  | zero =>
    simp only [readDigits, Option.some.injEq, Prod.mk.injEq] at h
    simp [h.2]
  | succ n ih =>
    cases cs with
    | nil => simp [readDigits] at h
    | cons c cs =>
      simp only [readDigits] at h
      split at h
      · cases hr : readDigits n cs with
        | none => simp [hr] at h
        | some p =>
          obtain ⟨v', rest'⟩ := p
          simp only [hr, Option.some.injEq, Prod.mk.injEq] at h
          obtain ⟨h1, h2⟩ := ih hr
          rw [← h.2]
          simp only [List.take_succ_cons, List.cons_append, List.length_cons, h2, and_true]
          rw [← h1]
      · simp at h

theorem isoFields_fifth {a b c d e : Char} {rest : List Char} {f : IsoFields}
    (h : isoFields (a :: b :: c :: d :: e :: rest) = some f) : e = '-' := by
  unfold isoFields isoDate at h
  cases hr : readDigits 4 (a :: b :: c :: d :: e :: rest) with
  | none => simp [hr] at h
  | some p =>
    obtain ⟨v, r⟩ := p
    obtain ⟨h1, _⟩ := readDigits_some_length hr
    simp only [List.take_succ_cons, List.take_zero, List.cons_append, List.nil_append,
      List.cons.injEq, true_and] at h1
    subst h1
    simp only [hr, readSep2, expectChar] at h
    by_contra hne
    simp [hne] at h

theorem isHexDigit_hyphen : isHexDigit '-' = false := by decide

/-- Strings starting with a character that is not a hexadecimal digit are left alone. -/
theorem canonicalizeString_of_first (s : String) (a : Char) (rest : List Char)
    (hs : s.toList = a :: rest) (ha : isHexDigit a = false) : canonicalizeString s = .ok s := by
  have h1 : uuidPatternTest s = false := by
    unfold uuidPatternTest
    rw [hs]
    cases h : matchShape uuidShape (a :: rest) with
    | false => rfl
    | true => rw [uuidShape_first h] at ha; exact absurd ha (by simp)
  have h2 : isoPatternTest s = false := by
    unfold isoPatternTest
    rw [hs]
    cases h : isoFields (a :: rest) with
    | none => rfl
    | some f =>
      rw [isHexDigit_of_isDigit (isoFields_first h)] at ha
      exact absurd ha (by simp)
  have h3 : hashPatternTest s = false := by
    unfold hashPatternTest
    rw [hs]
    cases h : matchShape (List.replicate 64 isHexDigit) (a :: rest) with
    | false => rfl
    | true => rw [hashShape_first h] at ha; exact absurd ha (by simp)
  simp [canonicalizeString, h1, h2, h3]

theorem padDigits_four (n : Nat) : ∃ a b c d, padDigits 4 n = [a, b, c, d] :=
  ⟨_, _, _, _, rfl⟩

theorem isoSecondsText_shape (f : UtcFields) :
    (∃ a rest, isoSecondsText f = a :: rest ∧ isHexDigit a = false) ∨
    (0 ≤ f.year ∧ f.year ≤ 9999 ∧ ∃ a b c d rest, isoSecondsText f = a :: b :: c :: d :: '-' :: rest) := by
  unfold isoSecondsText isoYearDigits
  split_ifs with h1 h2
  · right
    obtain ⟨a, b, c, d, hp⟩ := padDigits_four f.year.toNat
    rw [hp]
    simp only [List.append_assoc, List.cons_append, List.nil_append]
    exact ⟨h1.1, h1.2, a, b, c, d, _, rfl⟩
  · left
    simp only [List.append_assoc, List.cons_append]
    exact ⟨'-', _, rfl, by decide⟩
  · left
    simp only [List.append_assoc, List.cons_append]
    exact ⟨'+', _, rfl, by decide⟩

theorem timestampText_toList (t : Int) :
    (timestampText t).toList = isoSecondsText (utcFields t) ++
      (if utcMilliseconds t = 0 then ['Z'] else '.' :: (padDigits 3 (utcFields t).ms ++ ['Z'])) := by
  unfold timestampText toISOString
  split_ifs
  · rfl
  · simp only [List.append_assoc, List.cons_append]
    rfl

/-- The canonical text of an instant is a fixed point of `canonicalizeString`. -/
theorem canonicalizeString_timestampText (t : Int) :
    canonicalizeString (timestampText t) = .ok (timestampText t) := by
  have htl := timestampText_toList t
  rcases isoSecondsText_shape (utcFields t) with ⟨a, rest, hshape, ha⟩ | ⟨hy0, hy1, a, b, c, d, rest, hshape⟩
  · rw [hshape] at htl
    exact canonicalizeString_of_first _ a _ htl ha
  · obtain ⟨h1, h2, h3, h4, h5, h6, h7, h8, _⟩ := utcFields_spec t
    have huuid : uuidPatternTest (timestampText t) = false := by
      unfold uuidPatternTest
      rw [htl, hshape]
      cases h : matchShape uuidShape (a :: b :: c :: d :: '-' :: rest ++ _) with
      | false => rfl
      | true =>
        have := uuidShape_fifth h
        rw [isHexDigit_hyphen] at this
        exact absurd this (by simp)
    have hparse : dateParse (timestampText t) = some t := by
      unfold dateParse
      rw [htl]
      by_cases hms : utcMilliseconds t = 0
      · rw [if_pos hms, isoFields_text _ _ _ hy0 hy1 (by omega) (by omega) (by omega) (by omega)
          (by omega) isoFractionZone_zulu]
        simp only
        apply dateTimeValue_utcFields _ _ _ hy0
        rw [show fractionMillis [] = 0 from rfl]
        simp only [utcFields]
        unfold utcMilliseconds at hms
        omega
      · rw [if_neg hms, isoFields_text _ _ _ hy0 hy1 (by omega) (by omega) (by omega) (by omega)
          (by omega) (isoFractionZone_millis _)]
        simp only
        exact dateTimeValue_utcFields _ _ (fractionMillis_pad _ (by omega)) hy0
    have hiso : isoPatternTest (timestampText t) = true := by
      unfold isoPatternTest
      unfold dateParse at hparse
      cases h : isoFields (timestampText t).toList with
      | none =>
        have h' : isoFields (timestampText t).data = none := h
        simp [h'] at hparse
      | some f => rfl
    simp only [canonicalizeString, huuid, hiso, Bool.false_eq_true, if_false, if_true]
    exact normalizeTimestamp_of_dateParse _ _ hparse

theorem canonicalizeString_idem (s s' : String) (h : canonicalizeString s = .ok s') :
    canonicalizeString s' = .ok s' := by
  unfold canonicalizeString at h
  by_cases h1 : uuidPatternTest s = true
  · rw [if_pos h1] at h
    injection h with h
    subst h
    simp [canonicalizeString, uuidPatternTest_toLowerCase h1, toLowerCase_idem]
  · rw [if_neg h1] at h
    by_cases h2 : isoPatternTest s = true
    · rw [if_pos h2] at h
      obtain ⟨t, _, rfl⟩ := normalizeTimestamp_text s s' h
      exact canonicalizeString_timestampText t
    · rw [if_neg h2] at h
      by_cases h3 : hashPatternTest s = true
      · rw [if_pos h3] at h
        injection h with h
        subst h
        have h3' := hashPatternTest_toLowerCase h3
        have hlen : (toLowerCase s).toList.length = 64 := by
          have := matchShape_length h3'
          simpa using this
        have hu : uuidPatternTest (toLowerCase s) = false := by
          cases hu : uuidPatternTest (toLowerCase s) with
          | false => rfl
          | true =>
            have := matchShape_length hu
            rw [uuidShape_length] at this
            omega
        have hi : isoPatternTest (toLowerCase s) = false := by
          unfold isoPatternTest
          cases hf : isoFields (toLowerCase s).toList with
          | none => rfl
          | some f =>
            unfold hashPatternTest at h3'
            match hl : (toLowerCase s).toList, hlen with
            | a :: b :: c :: d :: e :: rest, _ =>
              rw [hl] at hf h3'
              have he := isoFields_fifth hf
              have hx := hashShape_fifth h3'
              rw [he, isHexDigit_hyphen] at hx
              exact absurd hx (by simp)
        simp [canonicalizeString, hu, hi, h3', toLowerCase_idem]
      · rw [if_neg h3] at h
        injection h with h
        subst h
        simp [canonicalizeString, h1, h2, h3]

end FlowVersion


namespace FlowVersion

/-! ## Property lists and the loop of `canonicalizeObject` -/

theorem lookupProp_eq_none {β : Type} {k : String} {ps : List (String × β)} :
    lookupProp k ps = none ↔ k ∉ ps.map Prod.fst := by
  induction ps with
  | nil => simp [lookupProp]
  | cons p ps ih =>
    obtain ⟨k', v⟩ := p
    simp only [lookupProp, List.map_cons, List.mem_cons, not_or]
    split_ifs with h
    · simp [h]
    · simp [ih, Ne.symm h]

theorem hasProp_iff {β : Type} {k : String} {ps : List (String × β)} :
    hasProp k ps = true ↔ k ∈ ps.map Prod.fst := by
  unfold hasProp
  rw [Option.isSome_iff_ne_none, Ne, lookupProp_eq_none, not_not]

theorem lookupProp_mem {β : Type} {k : String} {v : β} {ps : List (String × β)}
    (h : lookupProp k ps = some v) : (k, v) ∈ ps := by
  induction ps with
  | nil => simp [lookupProp] at h
  | cons p ps ih =>
    obtain ⟨k', v'⟩ := p
    simp only [lookupProp] at h
    split_ifs at h with hk
    · simp only [Option.some.injEq] at h
      simp [hk, h]
    · exact List.mem_cons_of_mem _ (ih h)

theorem lookupProp_of_mem_nodup {β : Type} {k : String} {v : β} {ps : List (String × β)}
    (hnd : (ps.map Prod.fst).Nodup) (h : (k, v) ∈ ps) : lookupProp k ps = some v := by
  induction ps with
  | nil => simp at h
  | cons p ps ih =>
    obtain ⟨k', v'⟩ := p
    simp only [List.map_cons, List.nodup_cons] at hnd
    simp only [lookupProp]
    rcases List.mem_cons.mp h with h | h
    · simp only [Prod.mk.injEq] at h
      simp [h.1, h.2]
    · have : k' ≠ k := by
        rintro rfl
        exact hnd.1 (List.mem_map_of_mem Prod.fst h)
      simp [this, ih hnd.2 h]

theorem replaceProp_keys {β : Type} (k : String) (v : β) (ps : List (String × β)) :
    (replaceProp k v ps).map Prod.fst = ps.map Prod.fst := by
  induction ps with
  | nil => rfl
  | cons p ps ih =>
    simp only [replaceProp]
    split_ifs with h
    · simp [h]
    · simp [ih]

theorem replaceProp_same {β : Type} (k : String) (v : β) (ps : List (String × β))
    (h : lookupProp k ps = some v) : replaceProp k v ps = ps := by
  induction ps with
  | nil => rfl
  | cons p ps ih =>
    obtain ⟨k', v'⟩ := p
    simp only [lookupProp] at h
    simp only [replaceProp]
    split_ifs at h ⊢ with hk
    · simp only [Option.some.injEq] at h
      simp [hk, h]
    · rw [ih h]

theorem lookupProp_replaceProp {β : Type} (k : String) (v : β) (ps : List (String × β))
    (k' : String) :
    lookupProp k' (replaceProp k v ps) =
      if k' = k ∧ hasProp k ps = true then some v else lookupProp k' ps := by
  induction ps with
  | nil => simp [replaceProp, lookupProp, hasProp]
  | cons p ps ih =>
    obtain ⟨k0, v0⟩ := p
    simp only [replaceProp, hasProp, lookupProp] at ih ⊢
    by_cases h0 : k0 = k
    · subst h0
      simp only [if_true, lookupProp, Option.isSome_some, and_true]
      by_cases h1 : k0 = k'
      · simp [h1]
      · simp [h1, Ne.symm h1]
    · simp only [h0, if_false, lookupProp]
      by_cases h1 : k0 = k'
      · subst h1
        simp [Ne.symm h0, h0]
      · simp only [h1, if_false]
        exact ih

theorem insertIndexProp_perm (n : Nat) (kv : String × Value) (ps : Props) :
    (insertIndexProp n kv ps).Perm (kv :: ps) := by
  induction ps with
  | nil => simp [insertIndexProp]
  | cons p ps ih =>
    simp only [insertIndexProp]
    split
    · split_ifs
      · exact List.Perm.refl _
      · exact (List.Perm.cons p ih).trans (List.Perm.swap _ _ _)
    · exact List.Perm.refl _

theorem lookupProp_perm {β : Type} {ps qs : List (String × β)} (hp : ps.Perm qs)
    (hnd : (ps.map Prod.fst).Nodup) (k : String) : lookupProp k ps = lookupProp k qs := by
  have hnd' : (qs.map Prod.fst).Nodup := (hp.map Prod.fst).nodup_iff.mp hnd
  cases h : lookupProp k ps with
  | none =>
    rw [lookupProp_eq_none] at h
    symm
    rw [lookupProp_eq_none]
    exact fun hq => h ((hp.map Prod.fst).mem_iff.mpr hq)
  | some v =>
    symm
    exact lookupProp_of_mem_nodup hnd' (hp.mem_iff.mp (lookupProp_mem h))

/-- The keys after an assignment that creates a property. -/
theorem setProp_keys_perm (r : Props) (k : String) (v : Value) (hk : k ≠ "__proto__")
    (hnew : k ∉ r.map Prod.fst) : ((setProp r k v).map Prod.fst).Perm (k :: r.map Prod.fst) := by
  unfold setProp
  rw [if_neg hk]
  have : hasProp k r = false := by
    cases h : hasProp k r with
    | false => rfl
    | true => exact absurd (hasProp_iff.mp h) hnew
  simp only [this, Bool.false_eq_true, if_false]
  split
  · exact (insertIndexProp_perm _ _ _).map Prod.fst
  · simp only [List.map_append, List.map_cons, List.map_nil]
    exact List.perm_append_singleton _ _

theorem setProp_keys_existing (r : Props) (k : String) (v : Value)
    (hold : k ∈ r.map Prod.fst) : (setProp r k v).map Prod.fst = r.map Prod.fst := by
  unfold setProp
  split_ifs with h1 h2
  · rfl
  · exact replaceProp_keys _ _ _
  · exact absurd (hasProp_iff.mpr hold) h2

theorem setProp_same (r : Props) (k : String) (v : Value) (h : lookupProp k r = some v) :
    setProp r k v = r := by
  unfold setProp
  split_ifs with h1 h2
  · rfl
  · exact replaceProp_same _ _ _ h
  · exact absurd (by simp [hasProp, h]) h2

theorem setProp_nodup (r : Props) (k : String) (v : Value) (hnd : (r.map Prod.fst).Nodup) :
    ((setProp r k v).map Prod.fst).Nodup := by
  by_cases hk : k = "__proto__"
  · simp [setProp, hk, hnd]
  · by_cases hold : k ∈ r.map Prod.fst
    · rw [setProp_keys_existing r k v hold]
      exact hnd
    · rw [(setProp_keys_perm r k v hk hold).nodup_iff]
      exact List.nodup_cons.mpr ⟨hold, hnd⟩

/-- Reading a property after an assignment. -/
theorem lookupProp_setProp (r : Props) (k : String) (v : Value) (hk : k ≠ "__proto__")
    (hnd : (r.map Prod.fst).Nodup) (k' : String) :
    lookupProp k' (setProp r k v) = if k' = k then some v else lookupProp k' r := by
  by_cases hold : k ∈ r.map Prod.fst
  · have hp : hasProp k r = true := hasProp_iff.mpr hold
    simp only [setProp, hk, if_false, hp, if_true]
    rw [lookupProp_replaceProp]
    simp [hp]
  · have hperm := setProp_keys_perm r k v hk hold
    have hnd2 := setProp_nodup r k v hnd
    have hp : hasProp k r = false := by
      cases h : hasProp k r with
      | false => rfl
      | true => exact absurd (hasProp_iff.mp h) hold
    have key : (setProp r k v).Perm ((k, v) :: r) := by
      simp only [setProp, hk, if_false, hp, Bool.false_eq_true]
      split
      · exact insertIndexProp_perm _ _ _
      · exact List.perm_append_singleton _ _
    rw [lookupProp_perm key hnd2 k']
    simp only [lookupProp]
    by_cases h : k = k'
    · simp [h]
    · simp [h, Ne.symm h]

end FlowVersion


namespace FlowVersion

theorem assignAll_nil (r : Props) : assignAll r [] = r := rfl

theorem assignAll_cons (r : Props) (kv : String × Value) (kvs : List (String × Value)) :
    assignAll r (kv :: kvs) = assignAll (setProp r kv.1 kv.2) kvs := rfl

theorem assignAll_nodup (r : Props) (kvs : List (String × Value)) (hnd : (r.map Prod.fst).Nodup) :
    ((assignAll r kvs).map Prod.fst).Nodup := by
  induction kvs generalizing r with
  | nil => exact hnd
  | cons kv kvs ih =>
    rw [assignAll_cons]
    exact ih _ (setProp_nodup r kv.1 kv.2 hnd)

theorem assignAll_keys_perm (r : Props) (kvs : List (String × Value))
    (hnd : ((r ++ kvs).map Prod.fst).Nodup) (hproto : ∀ kv ∈ kvs, kv.1 ≠ "__proto__") :
    ((assignAll r kvs).map Prod.fst).Perm ((r ++ kvs).map Prod.fst) := by
  induction kvs generalizing r with
  | nil => simp [assignAll_nil]
  | cons kv kvs ih =>
    rw [assignAll_cons]
    have hnd' : (r.map Prod.fst ++ kv.1 :: kvs.map Prod.fst).Nodup := by simpa using hnd
    have hk : kv.1 ∉ r.map Prod.fst := by
      intro hmem
      have := List.nodup_append.mp hnd'
      exact this.2.2 hmem (List.mem_cons_self _ _) 
    have hperm := setProp_keys_perm r kv.1 kv.2 (hproto kv (List.mem_cons_self _ _)) hk
    have hnd2 : ((setProp r kv.1 kv.2 ++ kvs).map Prod.fst).Nodup := by
      rw [List.map_append]
      have h1 : (((setProp r kv.1 kv.2).map Prod.fst) ++ kvs.map Prod.fst).Perm
          (r.map Prod.fst ++ kv.1 :: kvs.map Prod.fst) := by
        refine (List.Perm.append_right _ hperm).trans ?_
        simpa using (@List.perm_middle _ kv.1 (r.map Prod.fst) (kvs.map Prod.fst)).symm
      exact h1.nodup_iff.mpr hnd'
    refine (ih _ hnd2 (fun x hx => hproto x (List.mem_cons_of_mem _ hx))).trans ?_
    rw [List.map_append, List.map_append, List.map_cons]
    refine (List.Perm.append_right _ hperm).trans ?_
    simpa using (@List.perm_middle _ kv.1 (r.map Prod.fst) (kvs.map Prod.fst)).symm

theorem lookupProp_assignAll_of_not_mem (r : Props) (kvs : List (String × Value))
    (hnd : (r.map Prod.fst).Nodup) (k : String) (hk : k ∉ kvs.map Prod.fst) :
    lookupProp k (assignAll r kvs) = lookupProp k r := by
  induction kvs generalizing r with
  | nil => rfl
  | cons kv kvs ih =>
    rw [assignAll_cons]
    simp only [List.map_cons, List.mem_cons, not_or] at hk
    rw [ih _ (setProp_nodup r kv.1 kv.2 hnd) hk.2]
    by_cases hp : kv.1 = "__proto__"
    · simp [setProp, hp]
    · rw [lookupProp_setProp r kv.1 kv.2 hp hnd, if_neg hk.1]

theorem lookupProp_assignAll (r : Props) (kvs : List (String × Value))
    (hr : (r.map Prod.fst).Nodup) (hnd : (kvs.map Prod.fst).Nodup)
    (hproto : ∀ kv ∈ kvs, kv.1 ≠ "__proto__") (k : String) (v : Value) (hmem : (k, v) ∈ kvs) :
    lookupProp k (assignAll r kvs) = some v := by
  induction kvs generalizing r with
  | nil => simp at hmem
  | cons kv kvs ih =>
    rw [assignAll_cons]
    simp only [List.map_cons, List.nodup_cons] at hnd
    rcases List.mem_cons.mp hmem with h | h
    · subst h
      rw [lookupProp_assignAll_of_not_mem _ _ (setProp_nodup r _ _ hr) _ hnd.1,
        lookupProp_setProp r _ _ (hproto _ (List.mem_cons_self _ _)) hr, if_pos rfl]
    · exact ih _ (setProp_nodup r _ _ hr) hnd.2 (fun x hx => hproto x (List.mem_cons_of_mem _ hx)) h

/-! ### The loop of `canonicalizeObject` as a list of assignments -/

theorem canonicalizeObjectLoop_ok (E : List (String × Option (Except JSError Value)))
    (ks : List String) (r R : Props) (h : canonicalizeObjectLoop E ks r = .ok R) :
    R = assignAll r (loopAssignments E ks) ∧
      ∀ k ∈ ks, ∀ e, lookupProp k E ≠ some (some (.error e)) := by
  induction ks generalizing r with
  | nil =>
    simp only [canonicalizeObjectLoop, Except.ok.injEq] at h
    simp [loopAssignments, assignAll_nil, h]
  | cons k ks ih =>
    simp only [canonicalizeObjectLoop, loopAssignments] at h ⊢
    rcases hl : lookupProp k E with _ | _ | e | v
    · simp only [hl] at h ⊢
      obtain ⟨h1, h2⟩ := ih r h
      refine ⟨h1, ?_⟩
      intro k' hk' e
      rcases List.mem_cons.mp hk' with rfl | hk'
      · simp [hl]
      · exact h2 k' hk' e
    · simp only [hl] at h ⊢
      obtain ⟨h1, h2⟩ := ih r h
      refine ⟨h1, ?_⟩
      intro k' hk' e
      rcases List.mem_cons.mp hk' with rfl | hk'
      · simp [hl]
      · exact h2 k' hk' e
    · simp [hl] at h
    · simp only [hl] at h ⊢
      obtain ⟨h1, h2⟩ := ih _ h
      constructor
      · split_ifs with hp
        · rw [h1]
          simp [setProp, hp]
        · rw [h1, assignAll_cons]
      · intro k' hk' e
        rcases List.mem_cons.mp hk' with rfl | hk'
        · simp [hl]
        · exact h2 k' hk' e

theorem canonicalizeObjectLoop_of_no_error (E : List (String × Option (Except JSError Value)))
    (ks : List String) (r : Props)
    (h : ∀ k ∈ ks, ∀ e, lookupProp k E ≠ some (some (.error e))) :
    canonicalizeObjectLoop E ks r = .ok (assignAll r (loopAssignments E ks)) := by
  induction ks generalizing r with
  | nil => rfl
  | cons k ks ih =>
    have ih' := fun r => ih r (fun k' hk' => h k' (List.mem_cons_of_mem _ hk'))
    simp only [canonicalizeObjectLoop, loopAssignments]
    rcases hl : lookupProp k E with _ | _ | e | v
    · simp only [ih']
    · simp only [ih']
    · exact absurd hl (h k (List.mem_cons_self _ _) e)
    · simp only [ih']
      split_ifs with hp
      · simp [setProp, hp]
      · rw [assignAll_cons]

theorem mem_loopAssignments {E : List (String × Option (Except JSError Value))}
    {ks : List String} {k : String} {v : Value} (h : (k, v) ∈ loopAssignments E ks) :
    k ∈ ks ∧ k ≠ "__proto__" ∧ lookupProp k E = some (some (.ok v)) := by
  induction ks with
  | nil => simp [loopAssignments] at h
  | cons k0 ks ih =>
    simp only [loopAssignments] at h
    rcases hl : lookupProp k0 E with _ | _ | e | v0
    · simp only [hl] at h
      obtain ⟨h1, h2⟩ := ih h
      exact ⟨List.mem_cons_of_mem _ h1, h2⟩
    · simp only [hl] at h
      obtain ⟨h1, h2⟩ := ih h
      exact ⟨List.mem_cons_of_mem _ h1, h2⟩
    · simp only [hl] at h
      obtain ⟨h1, h2⟩ := ih h
      exact ⟨List.mem_cons_of_mem _ h1, h2⟩
    · simp only [hl] at h
      split_ifs at h with hp
      · obtain ⟨h1, h2⟩ := ih h
        exact ⟨List.mem_cons_of_mem _ h1, h2⟩
      · rcases List.mem_cons.mp h with h | h
        · simp only [Prod.mk.injEq] at h
          obtain ⟨rfl, rfl⟩ := h
          exact ⟨List.mem_cons_self _ _, hp, hl⟩
        · obtain ⟨h1, h2⟩ := ih h
          exact ⟨List.mem_cons_of_mem _ h1, h2⟩

theorem loopAssignments_keys_sublist (E : List (String × Option (Except JSError Value)))
    (ks : List String) : ((loopAssignments E ks).map Prod.fst).Sublist ks := by
  induction ks with
  | nil => simp [loopAssignments]
  | cons k ks ih =>
    simp only [loopAssignments]
    split
    · split_ifs
      · exact ih.cons _
      · simpa using ih.cons₂ k
    · exact ih.cons _

theorem mem_loopAssignments_iff {E : List (String × Option (Except JSError Value))}
    {ks : List String} {k : String} {v : Value} :
    (k, v) ∈ loopAssignments E ks ↔
      k ∈ ks ∧ k ≠ "__proto__" ∧ lookupProp k E = some (some (.ok v)) := by
  refine ⟨mem_loopAssignments, ?_⟩
  rintro ⟨h1, h2, h3⟩
  induction ks with
  | nil => simp at h1
  | cons k0 ks ih =>
    simp only [loopAssignments]
    rcases List.mem_cons.mp h1 with rfl | h1
    · simp [h3, h2]
    · have := ih h1
      split
      · split_ifs
        · exact this
        · exact List.mem_cons_of_mem _ this
      · exact this

end FlowVersion


namespace FlowVersion

/-! ## `canonicalize` is idempotent -/

theorem sorted_head_of_mem {k : String} {ks : List String} (hs : (k :: ks).Sorted strLe)
    (hmem : k ∈ ks) : ∃ ks', ks = k :: ks' := by
  cases ks with
  | nil => simp at hmem
  | cons h t =>
    refine ⟨t, ?_⟩
    have hkh : strLe k h := (List.sorted_cons.mp hs).1 h (List.mem_cons_self _ _)
    rcases List.mem_cons.mp hmem with rfl | hk
    · rfl
    · have hhk : strLe h k := (List.sorted_cons.mp (List.sorted_cons.mp hs).2).1 k hk
      rw [strLe_isAntisymm.antisymm _ _ hkh hhk]

theorem assignAll_loopAssignments_dedup (E : List (String × Option (Except JSError Value)))
    (ks : List String) (hs : ks.Sorted strLe) (r : Props) (hr : (r.map Prod.fst).Nodup) :
    assignAll r (loopAssignments E ks) = assignAll r (loopAssignments E ks.dedup) := by
  induction ks generalizing r with
  | nil => rfl
  | cons k ks ih =>
    have hs' : ks.Sorted strLe := (List.sorted_cons.mp hs).2
    by_cases hmem : k ∈ ks
    · rw [List.dedup_cons_of_mem hmem, ← ih hs' r hr]
      obtain ⟨ks', rfl⟩ := sorted_head_of_mem hs hmem
      simp only [loopAssignments]
      rcases hl : lookupProp k E with _ | _ | e | v
      · rfl
      · rfl
      · rfl
      · simp only
        split_ifs with hp
        · rfl
        · rw [assignAll_cons, assignAll_cons, assignAll_cons]
          simp only
          rw [setProp_same (setProp r k v) k v]
          rw [lookupProp_setProp r k v hp hr, if_pos rfl]
    · rw [List.dedup_cons_of_not_mem hmem]
      simp only [loopAssignments]
      rcases hl : lookupProp k E with _ | _ | e | v
      · exact ih hs' r hr
      · exact ih hs' r hr
      · exact ih hs' r hr
      · simp only
        split_ifs with hp
        · exact ih hs' r hr
        · rw [assignAll_cons, assignAll_cons]
          exact ih hs' _ (setProp_nodup r k v hr)

theorem lookupProp_canonicalizeEntries (k : String) (ps : Props) :
    lookupProp k (canonicalizeEntries ps) =
      (lookupProp k ps).map (fun v => if isUndefined v then none else some (canonicalize v)) := by
  induction ps with
  | nil => simp [canonicalizeEntries, lookupProp]
  | cons p ps ih =>
    obtain ⟨k0, v0⟩ := p
    simp only [canonicalizeEntries, lookupProp]
    by_cases h : k0 = k
    · simp [h]
    · simp [h, ih]

theorem canonicalize_not_undefined {x y : Value} (h : canonicalize x = .ok y) :
    isUndefined y = false := by
  cases x with
  | null => simp only [canonicalize, Except.ok.injEq] at h; subst h; rfl
  | undefined => simp [canonicalize] at h
  | bool b => simp only [canonicalize, Except.ok.injEq] at h; subst h; rfl
  | num n =>
    simp only [canonicalize] at h
    cases hn : canonicalizeNumber n with
    | error e => simp [hn, okNum] at h
    | ok m => simp only [hn, okNum, Except.ok.injEq] at h; subst h; rfl
  | str s =>
    simp only [canonicalize] at h
    cases hn : canonicalizeString s with
    | error e => simp [hn, okStr] at h
    | ok m => simp only [hn, okStr, Except.ok.injEq] at h; subst h; rfl
  | arr xs =>
    simp only [canonicalize] at h
    cases hn : canonicalizeArray xs with
    | error e => simp [hn, okArr] at h
    | ok m => simp only [hn, okArr, Except.ok.injEq] at h; subst h; rfl
  | obj ps =>
    simp only [canonicalize] at h
    cases hn : canonicalizeObjectLoop (canonicalizeEntries ps) (sortStrings (ps.map Prod.fst)) [] with
    | error e => simp [hn, okObj] at h
    | ok m => simp only [hn, okObj, Except.ok.injEq] at h; subst h; rfl
  | unsupported t => simp [canonicalize] at h

/-- What `canonicalizeObject` returns: the assignments for the distinct sorted keys. -/
theorem canonicalizeObject_ok {props R : Props} (h : canonicalizeObject props = .ok R) :
    R = assignAll [] (loopAssignments (canonicalizeEntries props)
      (sortStrings (props.map Prod.fst)).dedup) := by
  unfold canonicalizeObject at h
  rw [(canonicalizeObjectLoop_ok _ _ _ _ h).1]
  exact assignAll_loopAssignments_dedup _ _ (sortStrings_sorted _) [] (by simp)

theorem loopAssignments_keys_nodup (E : List (String × Option (Except JSError Value)))
    (ks : List String) (h : ks.Nodup) : ((loopAssignments E ks).map Prod.fst).Nodup :=
  (loopAssignments_keys_sublist E ks).nodup h

theorem loopAssignments_self (E' : List (String × Option (Except JSError Value)))
    (P : List (String × Value))
    (h : ∀ kv ∈ P, kv.1 ≠ "__proto__" ∧ lookupProp kv.1 E' = some (some (.ok kv.2))) :
    loopAssignments E' (P.map Prod.fst) = P := by
  induction P with
  | nil => rfl
  | cons kv P ih =>
    obtain ⟨h1, h2⟩ := h kv (List.mem_cons_self _ _)
    simp only [List.map_cons, loopAssignments, h2, h1, if_false]
    rw [ih (fun x hx => h x (List.mem_cons_of_mem _ hx))]

/-- The object case of idempotence, given idempotence on the property values. -/
theorem canonicalizeObject_idem (props R : Props)
    (hIH : ∀ k v y, (k, v) ∈ props → canonicalize v = .ok y → canonicalize y = .ok y)
    (h : canonicalizeObject props = .ok R) : canonicalizeObject R = .ok R := by
  have hR := canonicalizeObject_ok h
  set E := canonicalizeEntries props with hE
  set Kd := (sortStrings (props.map Prod.fst)).dedup with hKd
  set P := loopAssignments E Kd with hP
  have hKd_nodup : Kd.Nodup := List.nodup_dedup _
  have hKd_sorted : Kd.Sorted strLe := (sortStrings_sorted _).sublist (List.dedup_sublist _)
  have hPkeys_sub : (P.map Prod.fst).Sublist Kd := loopAssignments_keys_sublist E Kd
  have hPnd : (P.map Prod.fst).Nodup := hPkeys_sub.nodup hKd_nodup
  have hPsorted : (P.map Prod.fst).Sorted strLe := hKd_sorted.sublist hPkeys_sub
  have hPproto : ∀ kv ∈ P, kv.1 ≠ "__proto__" := fun kv hkv =>
    (mem_loopAssignments (k := kv.1) (v := kv.2) hkv).2.1
  have hperm : (R.map Prod.fst).Perm (P.map Prod.fst) := by
    rw [hR]
    simpa using assignAll_keys_perm [] P (by simpa using hPnd) hPproto
  have hsort : sortStrings (R.map Prod.fst) = P.map Prod.fst :=
    sortStrings_eq_of_perm_sorted hperm hPsorted
  have hRnd : (R.map Prod.fst).Nodup := hperm.nodup_iff.mpr hPnd
  have hlook : ∀ kv ∈ P, kv.1 ≠ "__proto__" ∧
      lookupProp kv.1 (canonicalizeEntries R) = some (some (.ok kv.2)) := by
    intro kv hkv
    refine ⟨hPproto kv hkv, ?_⟩
    have h1 : lookupProp kv.1 R = some kv.2 := by
      rw [hR]
      exact lookupProp_assignAll [] P (by simp) hPnd hPproto kv.1 kv.2 hkv
    obtain ⟨_, _, h3⟩ := mem_loopAssignments (k := kv.1) (v := kv.2) hkv
    rw [hE, lookupProp_canonicalizeEntries] at h3
    cases hv : lookupProp kv.1 props with
    | none => simp [hv] at h3
    | some v =>
      simp only [hv, Option.map_some'] at h3
      by_cases hu : isUndefined v = true
      · simp [hu] at h3
      simp only [hu, if_false, Option.some.injEq, Bool.false_eq_true] at h3
      have hcanon := hIH kv.1 v kv.2 (lookupProp_mem hv) h3
      rw [lookupProp_canonicalizeEntries, h1]
      simp [canonicalize_not_undefined h3, hcanon]
  unfold canonicalizeObject
  rw [hsort, canonicalizeObjectLoop_of_no_error, loopAssignments_self _ P hlook, ← hR]
  intro k hk e
  obtain ⟨kv, hkv, rfl⟩ := List.mem_map.mp hk
  rw [(hlook kv hkv).2]
  simp

theorem canonicalizeNumber_ok {n m : JSNumber} (h : canonicalizeNumber n = .ok m) : m = n := by
  unfold canonicalizeNumber at h
  split_ifs at h
  simp only [Except.ok.injEq] at h
  exact h.symm

mutual
theorem canonicalize_idem : ∀ (x y : Value), canonicalize x = .ok y → canonicalize y = .ok y
  | .null, y, h => by
    simp only [canonicalize, Except.ok.injEq] at h; subst h; rfl
  | .undefined, y, h => by simp [canonicalize] at h
  | .bool b, y, h => by
    simp only [canonicalize, Except.ok.injEq] at h; subst h; rfl
  | .num n, y, h => by
    simp only [canonicalize] at h
    cases hn : canonicalizeNumber n with
    | error e => simp [hn, okNum] at h
    | ok m =>
      simp only [hn, okNum, Except.ok.injEq] at h
      subst h
      have := canonicalizeNumber_ok hn
      subst this
      simp [canonicalize, hn, okNum]
  | .str s, y, h => by
    simp only [canonicalize] at h
    cases hn : canonicalizeString s with
    | error e => simp [hn, okStr] at h
    | ok m =>
      simp only [hn, okStr, Except.ok.injEq] at h
      subst h
      simp [canonicalize, canonicalizeString_idem s m hn, okStr]
  | .arr xs, y, h => by
    simp only [canonicalize] at h
    cases hn : canonicalizeArray xs with
    | error e => simp [hn, okArr] at h
    | ok m =>
      simp only [hn, okArr, Except.ok.injEq] at h
      subst h
      simp [canonicalize, canonicalizeArray_idem xs m hn, okArr]
  | .obj ps, y, h => by
    simp only [canonicalize] at h
    cases hn : canonicalizeObjectLoop (canonicalizeEntries ps) (sortStrings (ps.map Prod.fst)) [] with
    | error e => simp [hn, okObj] at h
    | ok m =>
      simp only [hn, okObj, Except.ok.injEq] at h
      subst h
      have := canonicalizeObject_idem ps m (canonicalizeProps_idem ps) hn
      unfold canonicalizeObject at this
      simp [canonicalize, this, okObj]
  | .unsupported t, y, h => by simp [canonicalize] at h
theorem canonicalizeArray_idem : ∀ (xs ys : List Value),
    canonicalizeArray xs = .ok ys → canonicalizeArray ys = .ok ys
  | [], ys, h => by
    simp only [canonicalizeArray, Except.ok.injEq] at h; subst h; rfl
  | x :: xs, ys, h => by
    simp only [canonicalizeArray] at h
    cases hx : canonicalize x with
    | error e => simp [hx] at h
    | ok y =>
      cases hxs : canonicalizeArray xs with
      | error e => simp [hx, hxs] at h
      | ok ys' =>
        simp only [hx, hxs, Except.ok.injEq] at h
        subst h
        simp [canonicalizeArray, canonicalize_idem x y hx, canonicalizeArray_idem xs ys' hxs]
theorem canonicalizeProps_idem : ∀ (ps : List (String × Value)) (k : String) (v y : Value),
    (k, v) ∈ ps → canonicalize v = .ok y → canonicalize y = .ok y
  | [], k, v, y, hmem, h => by simp at hmem
  | (k0, v0) :: ps, k, v, y, hmem, h => by
    rcases List.mem_cons.mp hmem with heq | hmem'
    · simp only [Prod.mk.injEq] at heq
      obtain ⟨_, rfl⟩ := heq
      exact canonicalize_idem v y h
    · exact canonicalizeProps_idem ps k v y hmem' h
end

end FlowVersion


namespace FlowVersion

/-! ## Object literals with sorted keys, and reading properties of a canonical object -/

theorem setProp_plain (r : Props) (k : String) (v : Value) (hk : plainKey k = true)
    (hnew : k ∉ r.map Prod.fst) : setProp r k v = r ++ [(k, v)] := by
  simp only [plainKey, Bool.and_eq_true, bne_iff_ne, ne_eq, Option.isNone_iff_eq_none] at hk
  have hp : hasProp k r = false := by
    cases h : hasProp k r with
    | false => rfl
    | true => exact absurd (hasProp_iff.mp h) hnew
  simp [setProp, hk.1, hp, hk.2]

theorem canonicalizeObjectLoop_fields (E : List (String × Option (Except JSError Value)))
    (todo : Props) (r : Props)
    (hE : ∀ kv ∈ todo, lookupProp kv.1 E =
      some (if isUndefined kv.2 then none else some (canonicalize kv.2)))
    (hplain : ∀ kv ∈ todo, plainKey kv.1 = true ∧ kv.1 ∉ r.map Prod.fst)
    (hnd : (todo.map Prod.fst).Nodup) :
    canonicalizeObjectLoop E (todo.map Prod.fst) r =
      match canonicalizeFields todo with
      | .ok fs => .ok (r ++ fs)
      | .error e => .error e := by
  induction todo generalizing r with
  | nil => simp [canonicalizeObjectLoop, canonicalizeFields]
  | cons kv todo ih =>
    obtain ⟨k, v⟩ := kv
    have hE' := hE (k, v) (List.mem_cons_self _ _)
    simp only at hE'
    simp only [List.map_cons, List.nodup_cons] at hnd
    simp only [List.map_cons, canonicalizeObjectLoop, hE', canonicalizeFields]
    by_cases hu : isUndefined v = true
    · simp only [hu, if_true]
      exact ih r (fun x hx => hE x (List.mem_cons_of_mem _ hx))
        (fun x hx => hplain x (List.mem_cons_of_mem _ hx)) hnd.2
    · simp only [hu, if_false, Bool.false_eq_true]
      cases hc : canonicalize v with
      | error e => rfl
      | ok y =>
        simp only
        have hpk := hplain (k, v) (List.mem_cons_self _ _)
        rw [setProp_plain r k y hpk.1 hpk.2]
        rw [ih (r ++ [(k, y)]) (fun x hx => hE x (List.mem_cons_of_mem _ hx)) ?_ hnd.2]
        · cases canonicalizeFields todo with
          | error e => rfl
          | ok fs => simp
        · intro x hx
          refine ⟨(hplain x (List.mem_cons_of_mem _ hx)).1, ?_⟩
          simp only [List.map_append, List.map_cons, List.map_nil, List.mem_append,
            List.mem_singleton, not_or]
          refine ⟨(hplain x (List.mem_cons_of_mem _ hx)).2, ?_⟩
          rintro rfl
          exact hnd.1 (List.mem_map_of_mem Prod.fst hx)

/-- `canonicalizeObject` on an object literal whose keys are written in strictly ascending
order, none an array index or `__proto__`. -/
theorem canonicalizeObject_sorted (props : Props)
    (hs : (props.map Prod.fst).Sorted (fun a b => strLt a b = true))
    (hplain : ∀ kv ∈ props, plainKey kv.1 = true) :
    canonicalizeObject props = canonicalizeFields props := by
  have hnd : (props.map Prod.fst).Nodup := by
    refine List.Pairwise.imp ?_ hs
    intro a b hab hEq
    subst hEq
    rw [strLt_irrefl] at hab
    exact absurd hab (by simp)
  have hsle : (props.map Prod.fst).Sorted strLe := by
    refine List.Pairwise.imp ?_ hs
    intro a b hab
    exact strLt_asymm hab
  unfold canonicalizeObject
  rw [sortStrings_of_sorted hsle, canonicalizeObjectLoop_fields _ props [] ?_ ?_ hnd]
  · cases canonicalizeFields props with
    | error e => rfl
    | ok fs => simp
  · intro kv hkv
    rw [lookupProp_canonicalizeEntries, lookupProp_of_mem_nodup hnd hkv]
    rfl
  · intro kv hkv
    exact ⟨hplain kv hkv, by simp⟩

/-- Reading a property of the object `canonicalizeObject` returns. -/
theorem lookupProp_canonicalizeObject {props R : Props} (h : canonicalizeObject props = .ok R)
    (k : String) (hk : k ≠ "__proto__") :
    lookupProp k R =
      match lookupProp k props with
      | some v => if isUndefined v then none
                  else (match canonicalize v with
                        | .ok y => some y
                        | .error _ => none)
      | none => none := by
  have hR := canonicalizeObject_ok h
  have hnoerr := (canonicalizeObjectLoop_ok _ _ _ _ h).2
  set E := canonicalizeEntries props with hE
  set Kd := (sortStrings (props.map Prod.fst)).dedup with hKd
  have hKd_nodup : Kd.Nodup := List.nodup_dedup _
  have hPnd : ((loopAssignments E Kd).map Prod.fst).Nodup :=
    (loopAssignments_keys_sublist E Kd).nodup hKd_nodup
  have hPproto : ∀ kv ∈ loopAssignments E Kd, kv.1 ≠ "__proto__" := fun kv hkv =>
    (mem_loopAssignments (k := kv.1) (v := kv.2) hkv).2.1
  have hEk := lookupProp_canonicalizeEntries k props
  rw [← hE] at hEk
  by_cases hin : k ∈ (loopAssignments E Kd).map Prod.fst
  · obtain ⟨kv, hkv, rfl⟩ := List.mem_map.mp hin
    rw [hR, lookupProp_assignAll [] _ (by simp) hPnd hPproto kv.1 kv.2 hkv]
    obtain ⟨_, _, h3⟩ := mem_loopAssignments (k := kv.1) (v := kv.2) hkv
    rw [h3] at hEk
    cases hv : lookupProp kv.1 props with
    | none => simp [hv] at hEk
    | some v =>
      simp only [hv, Option.map_some', Option.some.injEq] at hEk
      by_cases hu : isUndefined v = true
      · simp [hu] at hEk
      · simp only [hu, if_false, Bool.false_eq_true, Option.some.injEq] at hEk ⊢
        rw [← hEk]
  · rw [hR, lookupProp_assignAll_of_not_mem [] _ (by simp) k hin]
    simp only [lookupProp]
    cases hv : lookupProp k props with
    | none => rfl
    | some v =>
      simp only
      by_cases hu : isUndefined v = true
      · simp [hu]
      · simp only [hu, if_false, Bool.false_eq_true]
        cases hc : canonicalize v with
        | error e =>
          rfl
        | ok y =>
          exfalso
          apply hin
          have hkK : k ∈ Kd := by
            rw [hKd, List.mem_dedup, mem_sortStrings]
            exact List.mem_map_of_mem Prod.fst (lookupProp_mem hv)
          have : (k, y) ∈ loopAssignments E Kd := by
            rw [mem_loopAssignments_iff]
            refine ⟨hkK, hk, ?_⟩
            rw [hEk, hv]
            simp [hu, hc]
          exact List.mem_map_of_mem Prod.fst this

/-- `canonicalizeObject` succeeds when every defined property value canonicalizes. -/
theorem canonicalizeObject_succeeds (props : Props)
    (h : ∀ k v, lookupProp k props = some v → isUndefined v = false →
      ∃ y, canonicalize v = .ok y) :
    ∃ R, canonicalizeObject props = .ok R := by
  unfold canonicalizeObject
  refine ⟨_, canonicalizeObjectLoop_of_no_error _ _ _ ?_⟩
  intro k _ e he
  rw [lookupProp_canonicalizeEntries] at he
  cases hv : lookupProp k props with
  | none => simp [hv] at he
  | some v =>
    simp only [hv, Option.map_some', Option.some.injEq] at he
    by_cases hu : isUndefined v = true
    · simp [hu] at he
    · simp only [hu, if_false, Bool.false_eq_true, Option.some.injEq] at he
      obtain ⟨y, hy⟩ := h k v hv (by simpa using hu)
      rw [hy] at he
      cases he

theorem canonicalize_obj (props : Props) :
    canonicalize (.obj props) = okObj (canonicalizeObject props) := by
  simp [canonicalize, canonicalizeObject]

end FlowVersion


namespace FlowVersion

/-! ## Strings that `canonicalizeString` leaves alone -/

theorem matchShape_get {shape : List (Char → Bool)} {cs : List Char}
    (h : matchShape shape cs = true) (i : Nat) (p : Char → Bool) (c : Char)
    (hp : shape.get? i = some p) (hc : cs.get? i = some c) : p c = true := by
  induction shape generalizing cs i with
  | nil => simp at hp
  | cons q qs ih =>
    cases cs with
    | nil => simp at hc
    | cons d ds =>
      simp only [matchShape, Bool.and_eq_true] at h
      cases i with
      | zero =>
        simp only [List.get?_cons_zero, Option.some.injEq] at hp hc
        subst hp hc
        exact h.1
      | succ j =>
        simp only [List.get?_cons_succ] at hp hc
        exact ih h.2 j hp hc

theorem readDigits_get {n : Nat} {cs : List Char} {v : Nat} {rest : List Char}
    (h : readDigits n cs = some (v, rest)) (i : Nat) (hi : i < n) (c : Char)
    (hc : cs.get? i = some c) : isDigit c = true := by
  induction n generalizing cs v rest i with
  | zero => omega
  | succ n ih =>
    cases cs with
    | nil => simp at hc
    | cons d ds =>
      simp only [readDigits] at h
      by_cases hd : isDigit d = true
      · simp only [hd, if_true] at h
        cases hr : readDigits n ds with
        | none => simp [hr] at h
        | some p =>
          cases i with
          | zero =>
            simp only [List.get?_cons_zero, Option.some.injEq] at hc
            subst hc
            exact hd
          | succ j =>
            simp only [List.get?_cons_succ] at hc
            exact ih hr j (by omega) hc
      · simp [hd] at h

theorem isoFields_get {cs : List Char} {f : IsoFields} (h : isoFields cs = some f) (i : Nat)
    (hi : i < 4) (c : Char) (hc : cs.get? i = some c) : isDigit c = true := by
  unfold isoFields isoDate at h
  cases hr : readDigits 4 cs with
  | none => simp [hr] at h
  | some p => exact readDigits_get hr i hi c hc

/-- A string with a character that is not a hexadecimal digit among its first four is left
unchanged: each of the three patterns starts with four hexadecimal digits. -/
theorem canonicalizeString_of_nonhex (s : String) (i : Nat) (hi : i < 4) (c : Char)
    (hc : s.toList.get? i = some c) (hnh : isHexDigit c = false) :
    canonicalizeString s = .ok s := by
  have h1 : uuidPatternTest s = false := by
    cases h : uuidPatternTest s with
    | false => rfl
    | true =>
      have hp : uuidShape.get? i = some isHexDigit := by
        interval_cases i <;> rfl
      rw [matchShape_get h i _ c hp hc] at hnh
      exact absurd hnh (by simp)
  have h2 : isoPatternTest s = false := by
    unfold isoPatternTest
    cases h : isoFields s.toList with
    | none => rfl
    | some f =>
      rw [isHexDigit_of_isDigit (isoFields_get h i hi c hc)] at hnh
      exact absurd hnh (by simp)
  have h3 : hashPatternTest s = false := by
    cases h : hashPatternTest s with
    | false => rfl
    | true =>
      have hp : (List.replicate 64 isHexDigit).get? i = some isHexDigit := by
        interval_cases i <;> rfl
      rw [matchShape_get h i _ c hp hc] at hnh
      exact absurd hnh (by simp)
  simp [canonicalizeString, h1, h2, h3]

theorem String.toList_append' (a b : String) : (a ++ b).toList = a.toList ++ b.toList := by
  cases a
  cases b
  rfl

theorem isoDate_mem_T_aux {cs : List Char} {x : (Nat × Nat × Nat) × List Char}
    (h : isoTime cs = some x) : 'T' ∈ cs := by
  unfold isoTime readSep2 at h
  cases cs with
  | nil => simp [expectChar] at h
  | cons c cs =>
    by_cases hc : c = 'T'
    · simp [hc]
    · simp [expectChar, hc] at h

theorem readDigits_suffix {n : Nat} {cs : List Char} {v : Nat} {rest : List Char}
    (h : readDigits n cs = some (v, rest)) : ∀ c ∈ rest, c ∈ cs := by
  have := (readDigits_some_length h).1
  intro c hc
  rw [this]
  exact List.mem_append_right _ hc

theorem isoFields_mem_T {cs : List Char} {f : IsoFields} (h : isoFields cs = some f) :
    'T' ∈ cs := by
  unfold isoFields at h
  cases hd : isoDate cs with
  | none => simp [hd] at h
  | some p =>
    obtain ⟨ymd, r1⟩ := p
    simp only [hd] at h
    cases ht : isoTime r1 with
    | none => simp [ht] at h
    | some q =>
      have hT := isoDate_mem_T_aux ht
      -- `r1` is a suffix of `cs`
      unfold isoDate at hd
      cases h1 : readDigits 4 cs with
      | none => simp [h1] at hd
      | some a =>
        obtain ⟨y, s1⟩ := a
        simp only [h1, readSep2] at hd
        cases h2 : expectChar '-' s1 with
        | none => simp [h2] at hd
        | some s2 =>
          simp only [h2] at hd
          cases h3 : readDigits 2 s2 with
          | none => simp [h3] at hd
          | some b =>
            obtain ⟨mo, s3⟩ := b
            simp only [h3] at hd
            cases h4 : expectChar '-' s3 with
            | none => simp [h4] at hd
            | some s4 =>
              simp only [h4] at hd
              cases h5 : readDigits 2 s4 with
              | none => simp [h5] at hd
              | some c =>
                obtain ⟨d, s5⟩ := c
                simp only [h5, Option.some.injEq, Prod.mk.injEq] at hd
                have e5 : s5 = r1 := hd.2
                subst e5
                have hexp : ∀ {x : Char} {l l' : List Char}, expectChar x l = some l' →
                    ∀ z ∈ l', z ∈ l := by
                  intro x l l' hl z hz
                  cases l with
                  | nil => simp [expectChar] at hl
                  | cons a as =>
                    simp only [expectChar] at hl
                    split_ifs at hl
                    simp only [Option.some.injEq] at hl
                    subst hl
                    exact List.mem_cons_of_mem _ hz
                exact readDigits_suffix h1 _ (hexp h2 _ (readDigits_suffix h3 _
                  (hexp h4 _ (readDigits_suffix h5 _ hT))))

/-- `canonicalizeString` succeeds on every string without the letter `T`: it can only fail
inside `normalizeTimestamp`, which the timestamp pattern guards. -/
theorem canonicalizeString_succeeds_of_no_T (s : String) (h : 'T' ∉ s.toList) :
    ∃ s', canonicalizeString s = .ok s' := by
  have hiso : isoPatternTest s = false := by
    unfold isoPatternTest
    cases hf : isoFields s.toList with
    | none => rfl
    | some f => exact absurd (isoFields_mem_T hf) h
  unfold canonicalizeString
  simp only [hiso, Bool.false_eq_true, if_false]
  split_ifs
  · exact ⟨_, rfl⟩
  · exact ⟨_, rfl⟩
  · exact ⟨_, rfl⟩

theorem hexDigitChar_ne_T (d : Nat) (h : d < 16) : hexDigitChar d ≠ 'T' := by
  interval_cases d <;> decide

theorem hexOfBytes_no_T (bs : List Nat) : 'T' ∉ hexOfBytes bs := by
  induction bs with
  | nil => simp [hexOfBytes]
  | cons b bs ih =>
    simp only [hexOfBytes, byteHex, List.cons_append, List.nil_append, List.mem_cons, not_or]
    refine ⟨?_, ?_, ih⟩
    · exact (hexDigitChar_ne_T _ (by omega)).symm
    · exact (hexDigitChar_ne_T _ (by omega)).symm

theorem bytesToUuid_no_T (bs : List Nat) : 'T' ∉ (bytesToUuid bs).toList := by
  have h := hexOfBytes_no_T bs
  have ht : ∀ n, 'T' ∉ (hexOfBytes bs).take n := fun n hm => h (List.mem_of_mem_take hm)
  have hd : ∀ n m, 'T' ∉ ((hexOfBytes bs).drop n).take m :=
    fun n m hm => h (List.mem_of_mem_drop (List.mem_of_mem_take hm))
  unfold bytesToUuid
  simp only [List.mem_append, List.mem_cons, not_or]
  intro hmem
  have : 'T' ∈ List.take 8 (hexOfBytes bs) ++ '-' :: List.take 4 (List.drop 8 (hexOfBytes bs))
      ++ '-' :: List.take 4 (List.drop 12 (hexOfBytes bs))
      ++ '-' :: List.take 4 (List.drop 16 (hexOfBytes bs))
      ++ '-' :: List.take 12 (List.drop 20 (hexOfBytes bs)) := hmem
  simp only [List.mem_append, List.mem_cons] at this
  rcases this with (((h1 | h1 | h1) | h1 | h1) | h1 | h1) | h1 | h1
  · exact ht _ h1
  · exact absurd h1 (by decide)
  · exact hd _ _ h1
  · exact absurd h1 (by decide)
  · exact hd _ _ h1
  · exact absurd h1 (by decide)
  · exact hd _ _ h1
  · exact absurd h1 (by decide)
  · exact hd _ _ h1

theorem uuidV5_ok (P : Platform) (name : String) :
    ∃ u, uuidV5 P name = .ok u ∧ 'T' ∉ u.toList := by
  have hns : ∃ ns, uuidToBytes UUID_NAMESPACE_DNS = .ok ns := ⟨_, rfl⟩
  obtain ⟨ns, hns⟩ := hns
  unfold uuidV5
  rw [hns]
  exact ⟨_, rfl, bytesToUuid_no_T _⟩

end FlowVersion


namespace FlowVersion

/-! ## `makeConflict` -/

theorem canonicalize_str_plain {s : String} (h : PlainString s) :
    canonicalize (.str s) = .ok (.str s) := by
  unfold PlainString at h
  simp [canonicalize, h, okStr]

theorem canonicalizeArray_strs (xs : List String) (h : ∀ s ∈ xs, PlainString s) :
    canonicalizeArray (xs.map .str) = .ok (xs.map .str) := by
  induction xs with
  | nil => rfl
  | cons x xs ih =>
    simp only [List.map_cons, canonicalizeArray]
    rw [canonicalize_str_plain (h x (List.mem_cons_self _ _)),
      ih (fun s hs => h s (List.mem_cons_of_mem _ hs))]

theorem canonicalize_strArray (xs : List String) (h : ∀ s ∈ xs, PlainString s) :
    canonicalize (strArray xs) = .ok (strArray xs) := by
  simp [strArray, canonicalize, canonicalizeArray_strs xs h, okArr]

theorem canonicalize_nullish_of_canonical {x : Value}
    (h : isUndefined x = true ∨ Canonical x) : ∃ y, canonicalize (nullish x .null) = .ok y := by
  rcases h with h | h
  · cases x <;> simp [isUndefined] at h
    exact ⟨.null, rfl⟩
  · cases x with
    | null => exact ⟨.null, rfl⟩
    | undefined => exact ⟨.null, rfl⟩
    | bool b => exact ⟨_, h⟩
    | num n => exact ⟨_, h⟩
    | str s => exact ⟨_, h⟩
    | arr xs => exact ⟨_, h⟩
    | obj ps => exact ⟨_, h⟩
    | unsupported t => exact ⟨_, h⟩

theorem conflictSpec_toValue_succeeds (spec : ConflictSpec) (hs : spec.Plain) :
    ∃ y, canonicalize spec.toValue = .ok y := by
  obtain ⟨h1, h2, h3, h4, h5, h6⟩ := hs
  unfold ConflictSpec.toValue
  rw [canonicalize_obj]
  cases hd : spec.default_resolution with
  | none =>
    simp only [List.append_nil]
    obtain ⟨R, hR⟩ := canonicalizeObject_succeeds [("type", Value.str spec.type),
      ("selector", .str spec.selector), ("severity", .str spec.severity),
      ("reason", .str spec.reason), ("allowed_resolutions", strArray spec.allowed_resolutions)]
      (by
        intro k v hk _
        have hmem := lookupProp_mem hk
        simp only [List.mem_cons, Prod.mk.injEq, List.mem_singleton,
          List.not_mem_nil, or_false] at hmem
        rcases hmem with ⟨_, rfl⟩ | ⟨_, rfl⟩ | ⟨_, rfl⟩ | ⟨_, rfl⟩ | ⟨_, rfl⟩
        · exact ⟨_, canonicalize_str_plain h1⟩
        · exact ⟨_, canonicalize_str_plain h2⟩
        · exact ⟨_, canonicalize_str_plain h3⟩
        · exact ⟨_, canonicalize_str_plain h4⟩
        · exact ⟨_, canonicalize_strArray _ h5⟩)
    rw [hR]
    exact ⟨_, rfl⟩
  | some d =>
    simp only [List.cons_append, List.nil_append]
    obtain ⟨R, hR⟩ := canonicalizeObject_succeeds [("type", Value.str spec.type),
      ("selector", .str spec.selector), ("severity", .str spec.severity),
      ("reason", .str spec.reason), ("allowed_resolutions", strArray spec.allowed_resolutions),
      ("default_resolution", .str d)]
      (by
        intro k v hk _
        have hmem := lookupProp_mem hk
        simp only [List.mem_cons, Prod.mk.injEq, List.mem_singleton,
          List.not_mem_nil, or_false] at hmem
        rcases hmem with ⟨_, rfl⟩ | ⟨_, rfl⟩ | ⟨_, rfl⟩ | ⟨_, rfl⟩ | ⟨_, rfl⟩ | ⟨_, rfl⟩
        · exact ⟨_, canonicalize_str_plain h1⟩
        · exact ⟨_, canonicalize_str_plain h2⟩
        · exact ⟨_, canonicalize_str_plain h3⟩
        · exact ⟨_, canonicalize_str_plain h4⟩
        · exact ⟨_, canonicalize_strArray _ h5⟩
        · exact ⟨_, canonicalize_str_plain (h6 d hd)⟩)
    rw [hR]
    exact ⟨_, rfl⟩

theorem stableUUID_conflict_ok (P : Platform) (spec : ConflictSpec) (b l r : Value)
    (hs : spec.Plain) (hb : isUndefined b = true ∨ Canonical b)
    (hl : isUndefined l = true ∨ Canonical l) (hr : isUndefined r = true ∨ Canonical r) :
    ∃ u, stableUUID P "conflict" (.obj [("spec", spec.toValue), ("base", nullish b .null),
      ("left", nullish l .null), ("right", nullish r .null)]) = .ok u ∧ 'T' ∉ u.toList := by
  have key : ∃ R, canonicalizeObject [("spec", spec.toValue), ("base", nullish b .null),
      ("left", nullish l .null), ("right", nullish r .null)] = .ok R := by
    apply canonicalizeObject_succeeds
    intro k v hk _
    have hmem := lookupProp_mem hk
    simp only [List.mem_cons, Prod.mk.injEq, List.mem_singleton, List.not_mem_nil,
      or_false] at hmem
    rcases hmem with ⟨_, rfl⟩ | ⟨_, rfl⟩ | ⟨_, rfl⟩ | ⟨_, rfl⟩
    · exact conflictSpec_toValue_succeeds spec hs
    · exact canonicalize_nullish_of_canonical hb
    · exact canonicalize_nullish_of_canonical hl
    · exact canonicalize_nullish_of_canonical hr
  obtain ⟨R, hR⟩ := key
  unfold stableUUID
  rw [canonicalize_obj, hR]
  simp only [okObj]
  exact uuidV5_ok P _

theorem conflictKeys_sorted :
    List.Sorted (fun a b => strLt a b = true)
      ["allowed_resolutions", "conflict_id", "default_resolution", "reason", "selector",
        "severity", "type"] := by decide

theorem conflictKeys_plain :
    ∀ k ∈ ["allowed_resolutions", "conflict_id", "default_resolution", "reason", "selector",
        "severity", "type"], plainKey k = true := by decide

/-- `makeConflict` succeeds on plain specs and canonical (or absent) atom values, and returns
the record of the spec with a content-derived id. -/
theorem makeConflict_ok (P : Platform) (spec : ConflictSpec) (b l r : Value)
    (hs : spec.Plain) (hb : isUndefined b = true ∨ Canonical b)
    (hl : isUndefined l = true ∨ Canonical l) (hr : isUndefined r = true ∨ Canonical r) :
    ∃ cid, makeConflict P spec b l r = .ok (conflictRecord spec cid) := by
  obtain ⟨u, hu, hT⟩ := stableUUID_conflict_ok P spec b l r hs hb hl hr
  obtain ⟨cid, hcid⟩ := canonicalizeString_succeeds_of_no_T u hT
  obtain ⟨h1, h2, h3, h4, h5, h6⟩ := hs
  refine ⟨cid, ?_⟩
  unfold makeConflict
  simp only [hu]
  unfold PlainString at h1 h2 h3 h4
  have hplain : ∀ v w : Value, ∀ kv ∈ [("allowed_resolutions", strArray spec.allowed_resolutions),
      ("conflict_id", Value.str u), ("default_resolution", v),
      ("reason", .str spec.reason), ("selector", .str spec.selector),
      ("severity", .str spec.severity), ("type", .str spec.type)], plainKey kv.1 = true := by
    intro v _ kv hkv
    apply conflictKeys_plain
    simp only [List.mem_cons, List.mem_singleton, List.not_mem_nil, or_false] at hkv ⊢
    rcases hkv with rfl | rfl | rfl | rfl | rfl | rfl | rfl <;> simp
  cases hd : spec.default_resolution with
  | none =>
    simp only []
    rw [canonicalize_obj, canonicalizeObject_sorted
      [("allowed_resolutions", strArray spec.allowed_resolutions), ("conflict_id", .str u),
        ("default_resolution", .undefined),
        ("reason", .str spec.reason), ("selector", .str spec.selector),
        ("severity", .str spec.severity), ("type", .str spec.type)]
      conflictKeys_sorted (hplain _ .null)]
    simp [canonicalizeFields, isUndefined, canonicalize, okStr, hcid, h1, h2, h3, h4,
      strArray, okObj, conflictRecord, hd, canonicalizeArray_strs _ h5, okArr]
  | some d =>
    have h6' := h6 d hd
    unfold PlainString at h6'
    simp only []
    rw [canonicalize_obj, canonicalizeObject_sorted
      [("allowed_resolutions", strArray spec.allowed_resolutions), ("conflict_id", .str u),
        ("default_resolution", .str d),
        ("reason", .str spec.reason), ("selector", .str spec.selector),
        ("severity", .str spec.severity), ("type", .str spec.type)]
      conflictKeys_sorted (hplain _ .null)]
    simp [canonicalizeFields, isUndefined, canonicalize, okStr, hcid, h1, h2, h3, h4,
      strArray, okObj, conflictRecord, hd, h6', canonicalizeArray_strs _ h5, okArr]

end FlowVersion


namespace FlowVersion

/-! ## `threeWayAtomMerge` -/

/-- The spec of a `delete_edit` conflict. -/
theorem deleteEdit_plain {selector : String} (h : PlainString selector) :
    ConflictSpec.Plain
   ({ type := "delete_edit", selector := selector, severity := "error",
      reason := "Left deleted the atom while right edited it",
      allowed_resolutions := ["take_delete", "take_right", "take_base", "manual"],
      default_resolution := none } : ConflictSpec) := by
  refine ⟨rfl, h, rfl, rfl, ?_, ?_⟩
  · intro s hs
    simp only [List.mem_cons, List.mem_singleton, List.not_mem_nil, or_false] at hs
    rcases hs with rfl | rfl | rfl | rfl <;> rfl
  · intro d hd
    cases hd

theorem editDelete_plain {selector : String} (h : PlainString selector) :
    ConflictSpec.Plain
   ({ type := "edit_delete", selector := selector, severity := "error",
      reason := "Right deleted the atom while left edited it",
      allowed_resolutions := ["take_delete", "take_left", "take_base", "manual"],
      default_resolution := none } : ConflictSpec) := by
  refine ⟨rfl, h, rfl, rfl, ?_, ?_⟩
  · intro s hs
    simp only [List.mem_cons, List.mem_singleton, List.not_mem_nil, or_false] at hs
    rcases hs with rfl | rfl | rfl | rfl <;> rfl
  · intro d hd
    cases hd

theorem editEdit_plain {selector : String} (h : PlainString selector) :
    ConflictSpec.Plain
   ({ type := "edit_edit", selector := selector, severity := "error",
      reason := "Both sides edited the atom differently",
      allowed_resolutions := ["take_left", "take_right", "take_base", "manual"],
      default_resolution := none } : ConflictSpec) := by
  refine ⟨rfl, h, rfl, rfl, ?_, ?_⟩
  · intro s hs
    simp only [List.mem_cons, List.mem_singleton, List.not_mem_nil, or_false] at hs
    rcases hs with rfl | rfl | rfl | rfl <;> rfl
  · intro d hd
    cases hd

theorem addAdd_plain {selector : String} (h : PlainString selector) :
    ConflictSpec.Plain
   ({ type := "add_add", selector := selector, severity := "warning",
      reason := "Both sides added the atom differently",
      allowed_resolutions := ["take_left", "take_right", "manual"],
      default_resolution := some "take_left" } : ConflictSpec) := by
  refine ⟨rfl, h, rfl, rfl, ?_, ?_⟩
  · intro s hs
    simp only [List.mem_cons, List.mem_singleton, List.not_mem_nil, or_false] at hs
    rcases hs with rfl | rfl | rfl <;> rfl
  · intro d hd
    cases hd
    rfl

theorem jsonOrNull_truthy {x : Value} (h : truthy x = true) :
    jsonOrNull x = some (jsonStringify x) := by
  simp [jsonOrNull, h]

theorem jsonOrNull_falsy {x : Value} (h : truthy x = false) : jsonOrNull x = none := by
  simp [jsonOrNull, h]

theorem makeConflict_canonical {P : Platform} {spec : ConflictSpec} {b l r c : Value}
    (h : makeConflict P spec b l r = .ok c) : Canonical c := by
  unfold makeConflict at h
  simp only at h
  cases hu : stableUUID P "conflict" (.obj [("spec", spec.toValue), ("base", nullish b .null),
    ("left", nullish l .null), ("right", nullish r .null)]) with
  | error e => rw [hu] at h; cases h
  | ok u =>
    rw [hu] at h
    exact canonicalize_idem _ _ h

/-- Base present, left absent, right edited: `delete_edit`, the base value is kept. -/
theorem threeWayAtomMerge_delete_edit (P : Platform) (base left right : Value)
    (selector : String) (hb : truthy base = true) (hl : truthy left = false)
    (hr : truthy right = true) (hcb : Canonical base)
    (hcl : isUndefined left = true ∨ Canonical left) (hcr : Canonical right)
    (hsel : PlainString selector) (hne : jsonStringify right ≠ jsonStringify base) :
    ∃ cid, Canonical (conflictRecord
      { type := "delete_edit", selector := selector, severity := "error",
        reason := "Left deleted the atom while right edited it",
        allowed_resolutions := ["take_delete", "take_right", "take_base", "manual"],
        default_resolution := none } cid) ∧
      threeWayAtomMerge P base left right selector = .ok ⟨base, conflictRecord
      { type := "delete_edit", selector := selector, severity := "error",
        reason := "Left deleted the atom while right edited it",
        allowed_resolutions := ["take_delete", "take_right", "take_base", "manual"],
        default_resolution := none } cid⟩ := by
  obtain ⟨cid, h⟩ := makeConflict_ok P _ base left right (deleteEdit_plain hsel)
    (Or.inr hcb) hcl (Or.inr hcr)
  refine ⟨cid, makeConflict_canonical h, ?_⟩
  have hne' : ¬ jsonStringify base = jsonStringify right := fun e => hne e.symm
  simp [threeWayAtomMerge, hb, hl, hr, jsonOrNull_truthy, jsonOrNull_falsy, hne', h]

/-- Base present, right absent, left edited: `edit_delete`, the base value is kept. -/
theorem threeWayAtomMerge_edit_delete (P : Platform) (base left right : Value)
    (selector : String) (hb : truthy base = true) (hl : truthy left = true)
    (hr : truthy right = false) (hcb : Canonical base) (hcl : Canonical left)
    (hcr : isUndefined right = true ∨ Canonical right)
    (hsel : PlainString selector) (hne : jsonStringify left ≠ jsonStringify base) :
    ∃ cid, Canonical (conflictRecord
      { type := "edit_delete", selector := selector, severity := "error",
        reason := "Right deleted the atom while left edited it",
        allowed_resolutions := ["take_delete", "take_left", "take_base", "manual"],
        default_resolution := none } cid) ∧
      threeWayAtomMerge P base left right selector = .ok ⟨base, conflictRecord
      { type := "edit_delete", selector := selector, severity := "error",
        reason := "Right deleted the atom while left edited it",
        allowed_resolutions := ["take_delete", "take_left", "take_base", "manual"],
        default_resolution := none } cid⟩ := by
  obtain ⟨cid, h⟩ := makeConflict_ok P _ base left right (editDelete_plain hsel)
    (Or.inr hcb) (Or.inr hcl) hcr
  refine ⟨cid, makeConflict_canonical h, ?_⟩
  have hne' : ¬ jsonStringify base = jsonStringify left := fun e => hne e.symm
  simp [threeWayAtomMerge, hb, hl, hr, jsonOrNull_truthy, jsonOrNull_falsy, hne', h]

/-- Base absent, both sides added different values: `add_add`, the left value is taken. -/
theorem threeWayAtomMerge_add_add (P : Platform) (base left right : Value)
    (selector : String) (hb : truthy base = false) (hl : truthy left = true)
    (hr : truthy right = true) (hcb : isUndefined base = true ∨ Canonical base)
    (hcl : Canonical left) (hcr : Canonical right)
    (hsel : PlainString selector) (hne : jsonStringify left ≠ jsonStringify right) :
    ∃ cid, Canonical (conflictRecord
      { type := "add_add", selector := selector, severity := "warning",
        reason := "Both sides added the atom differently",
        allowed_resolutions := ["take_left", "take_right", "manual"],
        default_resolution := some "take_left" } cid) ∧
      threeWayAtomMerge P base left right selector = .ok ⟨left, conflictRecord
      { type := "add_add", selector := selector, severity := "warning",
        reason := "Both sides added the atom differently",
        allowed_resolutions := ["take_left", "take_right", "manual"],
        default_resolution := some "take_left" } cid⟩ := by
  obtain ⟨cid, h⟩ := makeConflict_ok P _ base left right (addAdd_plain hsel)
    hcb (Or.inr hcl) (Or.inr hcr)
  refine ⟨cid, makeConflict_canonical h, ?_⟩
  simp [threeWayAtomMerge, hb, hl, hr, jsonOrNull_truthy, jsonOrNull_falsy, hne, h]

/-- Base absent, both sides added the same bytes: the value is kept, no conflict. -/
theorem threeWayAtomMerge_add_same (P : Platform) (base left right : Value)
    (selector : String) (hb : truthy base = false) (hl : truthy left = true)
    (hr : truthy right = true) (he : jsonStringify left = jsonStringify right) :
    threeWayAtomMerge P base left right selector = .ok ⟨left, .null⟩ := by
  simp [threeWayAtomMerge, hb, hl, hr, jsonOrNull_truthy, jsonOrNull_falsy, he]

/-- All three present and pairwise different: `edit_edit`, the base value is kept. -/
theorem threeWayAtomMerge_edit_edit (P : Platform) (base left right : Value)
    (selector : String) (hb : truthy base = true) (hl : truthy left = true)
    (hr : truthy right = true) (hcb : Canonical base) (hcl : Canonical left)
    (hcr : Canonical right) (hsel : PlainString selector)
    (hlb : jsonStringify left ≠ jsonStringify base)
    (hrb : jsonStringify right ≠ jsonStringify base)
    (hlr : jsonStringify left ≠ jsonStringify right) :
    ∃ cid, Canonical (conflictRecord
      { type := "edit_edit", selector := selector, severity := "error",
        reason := "Both sides edited the atom differently",
        allowed_resolutions := ["take_left", "take_right", "take_base", "manual"],
        default_resolution := none } cid) ∧
      threeWayAtomMerge P base left right selector = .ok ⟨base, conflictRecord
      { type := "edit_edit", selector := selector, severity := "error",
        reason := "Both sides edited the atom differently",
        allowed_resolutions := ["take_left", "take_right", "take_base", "manual"],
        default_resolution := none } cid⟩ := by
  obtain ⟨cid, h⟩ := makeConflict_ok P _ base left right (editEdit_plain hsel)
    (Or.inr hcb) (Or.inr hcl) (Or.inr hcr)
  refine ⟨cid, makeConflict_canonical h, ?_⟩
  have h1 : ¬ jsonStringify base = jsonStringify left := fun e => hlb e.symm
  have h2 : ¬ jsonStringify base = jsonStringify right := fun e => hrb e.symm
  simp [threeWayAtomMerge, hb, hl, hr, jsonOrNull_truthy, jsonOrNull_falsy, h1, h2, hlr, h]

/-- For canonical atoms `base` and `other`, both present (truthy), whose bytes differ, a side
`gone` that holds no atom (a falsy value, undefined when the id is missing from the map) and a
selector that `canonicalize` leaves alone: `threeWayAtomMerge` with left deleted returns the
base value and a `delete_edit` conflict of severity `error`; with right deleted it returns the
base value and an `edit_delete` conflict of severity `error`. -/
theorem threeWayAtomMerge_deleted_on_one_side (P : Platform) (base other gone : Value)
    (selector : String) (hb : truthy base = true) (ho : truthy other = true)
    (hg : truthy gone = false) (hcb : Canonical base) (hco : Canonical other)
    (hcg : isUndefined gone = true ∨ Canonical gone) (hsel : PlainString selector)
    (hne : jsonStringify other ≠ jsonStringify base) :
    (∃ cid, threeWayAtomMerge P base gone other selector = .ok ⟨base, conflictRecord
      { type := "delete_edit", selector := selector, severity := "error",
        reason := "Left deleted the atom while right edited it",
        allowed_resolutions := ["take_delete", "take_right", "take_base", "manual"],
        default_resolution := none } cid⟩) ∧
    (∃ cid, threeWayAtomMerge P base other gone selector = .ok ⟨base, conflictRecord
      { type := "edit_delete", selector := selector, severity := "error",
        reason := "Right deleted the atom while left edited it",
        allowed_resolutions := ["take_delete", "take_left", "take_base", "manual"],
        default_resolution := none } cid⟩) := by
  obtain ⟨c1, _, h1⟩ := threeWayAtomMerge_delete_edit P base gone other selector hb hg ho
    hcb hcg hco hsel hne
  obtain ⟨c2, _, h2⟩ := threeWayAtomMerge_edit_delete P base other gone selector hb ho hg
    hcb hco hcg hsel hne
  exact ⟨⟨c1, h1⟩, ⟨c2, h2⟩⟩

theorem threeWayAtomMerge_deleted_on_one_side_sample :
    (∃ cid, threeWayAtomMerge samplePlatform (sampleNode "x") .undefined (sampleNode "z")
      "node:A" = .ok ⟨sampleNode "x", conflictRecord
      { type := "delete_edit", selector := "node:A", severity := "error",
        reason := "Left deleted the atom while right edited it",
        allowed_resolutions := ["take_delete", "take_right", "take_base", "manual"],
        default_resolution := none } cid⟩) ∧
    (∃ cid, threeWayAtomMerge samplePlatform (sampleNode "x") (sampleNode "z") .undefined
      "node:A" = .ok ⟨sampleNode "x", conflictRecord
      { type := "edit_delete", selector := "node:A", severity := "error",
        reason := "Right deleted the atom while left edited it",
        allowed_resolutions := ["take_delete", "take_left", "take_base", "manual"],
        default_resolution := none } cid⟩) :=
  threeWayAtomMerge_deleted_on_one_side samplePlatform (sampleNode "x") (sampleNode "z")
    .undefined "node:A" rfl rfl rfl rfl rfl (Or.inl rfl) rfl (by decide)

end FlowVersion


namespace FlowVersion

/-! ## Evaluating `merge` -/

/-- The path of `merge` through `mergeGraphs`. -/
theorem merge_of_graphs (P : Platform) {b l r b1 l1 r1 : Value}
    (hb : canonicalizeDomain P b = .ok b1) (hl : canonicalizeDomain P l = .ok l1)
    (hr : canonicalizeDomain P r = .ok r1) (gb : looksLikeGraph b1 = true)
    (gl : looksLikeGraph l1 = true) (gr : looksLikeGraph r1 = true) :
    merge P b l r = mergeGraphs P b1 l1 r1 := by
  simp [merge, hb, hl, hr, gb, gl, gr]

theorem canonicalizeDomain_untrimmed (P : Platform) : canonicalizeDomain P untrimmedGraph
      = .ok (edgesOnly [untrimmedEdge " a->b" .null]) := rfl

theorem canonicalizeDomain_untrimmed_again (P : Platform) :
    canonicalizeDomain P (edgesOnly [untrimmedEdge " a->b" .null])
      = .ok (edgesOnly [untrimmedEdge "a->b" .null]) := rfl

theorem mergeGraphs_trimmed (P : Platform) : mergeGraphs P (edgesOnly [untrimmedEdge "a->b" .null])
        (edgesOnly [untrimmedEdge "a->b" .null]) (edgesOnly [untrimmedEdge "a->b" .null])
      = .ok (.obj [("conflicts", .arr []),
          ("merged", edgesOnly [untrimmedEdge "a->b" .null])]) := rfl

theorem merge_untrimmed (P : Platform) :
    merge P (edgesOnly [untrimmedEdge " a->b" .null])
        (edgesOnly [untrimmedEdge " a->b" .null]) (edgesOnly [untrimmedEdge " a->b" .null])
      = .ok (.obj [("conflicts", .arr []),
          ("merged", edgesOnly [untrimmedEdge "a->b" .null])]) := by
  rw [merge_of_graphs P (canonicalizeDomain_untrimmed_again P)
    (canonicalizeDomain_untrimmed_again P) (canonicalizeDomain_untrimmed_again P)
    rfl rfl rfl]
  exact mergeGraphs_trimmed P

theorem untrimmed_ne : edgesOnly [untrimmedEdge "a->b" .null]
    ≠ edgesOnly [untrimmedEdge " a->b" .null] := by
  simp [edgesOnly, untrimmedEdge]

/-! ### Two edges that normalize to the same id -/

theorem normalizeGraph_of_atoms (P : Platform) {g : Value} {ns es : List Value}
    (hn : mapM' normalizeNode (propItems g "nodes") = .ok ns)
    (he : mapM' normalizeEdge (propItems g "edges") = .ok es) :
    normalizeGraph P g = canonicalize (.obj [("edges", .arr (sortWith (compareById P) es)),
      ("kind", .str "workflow_graph@1"), ("meta", objectOrUndefined (getProp g "meta")),
      ("name", stringOrUndefined (getProp g "name")),
      ("nodes", .arr (sortWith (compareById P) ns))]) := by
  simp [normalizeGraph, hn, he]

theorem sortWith_pair {α : Type} (cmp : α → α → Int) (a b : α) :
    sortWith cmp [a, b] = [a, b] ∨ sortWith cmp [a, b] = [b, a] := by
  simp only [sortWith, List.insertionSort, List.orderedInsert]
  split_ifs <;> simp

theorem canonicalizeDomain_twoEdge (P : Platform) :
    canonicalizeDomain P twoEdgeGraph
        = .ok (edgesOnly [untrimmedEdge "a->b" .null, untrimmedEdge " a->b" .null]) ∨
    canonicalizeDomain P twoEdgeGraph
        = .ok (edgesOnly [untrimmedEdge " a->b" .null, untrimmedEdge "a->b" .null]) := by
  have h : canonicalizeDomain P twoEdgeGraph = normalizeGraph P twoEdgeGraph := rfl
  have hn : mapM' normalizeNode (propItems twoEdgeGraph "nodes") = .ok [] := rfl
  have he : mapM' normalizeEdge (propItems twoEdgeGraph "edges")
      = .ok [untrimmedEdge "a->b" .null, untrimmedEdge " a->b" .null] := rfl
  rw [h, normalizeGraph_of_atoms P hn he]
  rcases sortWith_pair (compareById P) (untrimmedEdge "a->b" .null)
    (untrimmedEdge " a->b" .null) with e | e
  · left
    rw [e]
    rfl
  · right
    rw [e]
    rfl

theorem mergeGraphs_twoEdge (P : Platform) :
    mergeGraphs P (edgesOnly [untrimmedEdge "a->b" .null, untrimmedEdge " a->b" .null])
        (edgesOnly [untrimmedEdge " a->b" .null])
        (edgesOnly [untrimmedEdge "a->b" .null, untrimmedEdge " a->b" .null])
      = .ok (.obj [("conflicts", .arr []),
          ("merged", edgesOnly [untrimmedEdge "a->b" .null])]) := rfl

theorem mergeGraphs_twoEdge_swapped (P : Platform) :
    mergeGraphs P (edgesOnly [untrimmedEdge " a->b" .null, untrimmedEdge "a->b" .null])
        (edgesOnly [untrimmedEdge " a->b" .null])
        (edgesOnly [untrimmedEdge " a->b" .null, untrimmedEdge "a->b" .null])
      = .ok (.obj [("conflicts", .arr []),
          ("merged", edgesOnly [untrimmedEdge "a->b" .null])]) := rfl

theorem merge_twoEdge (P : Platform) :
    merge P twoEdgeGraph untrimmedGraph twoEdgeGraph
      = .ok (.obj [("conflicts", .arr []),
          ("merged", edgesOnly [untrimmedEdge "a->b" .null])]) := by
  rcases canonicalizeDomain_twoEdge P with h | h
  · rw [merge_of_graphs P h (canonicalizeDomain_untrimmed P) h rfl rfl rfl]
    exact mergeGraphs_twoEdge P
  · rw [merge_of_graphs P h (canonicalizeDomain_untrimmed P) h rfl rfl rfl]
    exact mergeGraphs_twoEdge_swapped P

/-! ### The result object of `merge` -/

theorem canonicalizeArray_of_canonical (cs : List Value) (h : ∀ c ∈ cs, Canonical c) :
    canonicalizeArray cs = .ok cs := by
  induction cs with
  | nil => rfl
  | cons c cs ih =>
    have hc : canonicalize c = .ok c := h c (List.mem_cons_self _ _)
    simp only [canonicalizeArray, hc, ih (fun x hx => h x (List.mem_cons_of_mem _ hx))]

theorem canonical_arr (cs : List Value) (h : ∀ c ∈ cs, Canonical c) : Canonical (.arr cs) := by
  simp [Canonical, canonicalize, canonicalizeArray_of_canonical cs h, okArr]

theorem canonicalize_mergeResult (M : Value) (cs : List Value) (hM : Canonical M)
    (hcs : ∀ c ∈ cs, Canonical c) :
    canonicalize (.obj [("merged", M), ("conflicts", .arr cs)])
      = .ok (.obj [("conflicts", .arr cs), ("merged", M)]) := by
  have hu : isUndefined M = false := canonicalize_not_undefined hM
  have ha : canonicalize (.arr cs) = .ok (.arr cs) := canonical_arr cs hcs
  have hM1 : canonicalize M = .ok M := hM
  have hk : sortStrings ["merged", "conflicts"] = ["conflicts", "merged"] := by decide
  have he : canonicalizeEntries [("merged", M), ("conflicts", .arr cs)]
      = [("merged", some (.ok M)), ("conflicts", some (.ok (.arr cs)))] := by
    simp only [canonicalizeEntries, hu, hM1, ha]
    rfl
  rw [canonicalize_obj]
  unfold canonicalizeObject
  rw [he]
  simp only [List.map, hk]
  rfl

/-! ### An edit on both sides of an edge with an untrimmed default id -/

theorem mergeGraphs_of_atoms (P : Platform) {b l r m : Value} {ns nc es ec : List Value}
    (hn : mergeAtoms P "node" (mapById (propItems b "nodes")) (mapById (propItems l "nodes"))
      (mapById (propItems r "nodes"))
      (atomIds (mapById (propItems b "nodes")) (mapById (propItems l "nodes"))
        (mapById (propItems r "nodes"))) = .ok (ns, nc))
    (he : mergeAtoms P "edge" (mapById (propItems b "edges")) (mapById (propItems l "edges"))
      (mapById (propItems r "edges"))
      (atomIds (mapById (propItems b "edges")) (mapById (propItems l "edges"))
        (mapById (propItems r "edges"))) = .ok (es, ec))
    (hm : canonicalizeDomain P
      (.obj (setProp (setProp (ownProps b) "nodes" (.arr ns)) "edges" (.arr es))) = .ok m) :
    mergeGraphs P b l r = canonicalize (.obj [("merged", m), ("conflicts", .arr (nc ++ ec))]) := by
  simp [mergeGraphs, hn, he, hm]

theorem canonicalizeDomain_labelled (P : Platform) :
    canonicalizeDomain P (untrimmedLabelled "x")
      = .ok (edgesOnly [untrimmedEdge " a->b" (.str "x")]) ∧
    canonicalizeDomain P (untrimmedLabelled "y")
      = .ok (edgesOnly [untrimmedEdge " a->b" (.str "y")]) ∧
    canonicalizeDomain P (untrimmedLabelled "z")
      = .ok (edgesOnly [untrimmedEdge " a->b" (.str "z")]) := ⟨rfl, rfl, rfl⟩

theorem mergeAtoms_single (P : Platform) (kind : String) (b l r : List (String × Value))
    (id : String) {v c : Value}
    (h : threeWayAtomMerge P (mapGet b id) (mapGet l id) (mapGet r id) (kind ++ ":" ++ id)
      = .ok ⟨v, c⟩) (hv : truthy v = true) (hc : truthy c = true) :
    mergeAtoms P kind b l r [id] = .ok ([v], [c]) := by
  simp [mergeAtoms, h, hv, hc]

theorem merge_labelled (P : Platform) :
    ∃ cid, merge P (untrimmedLabelled "x") (untrimmedLabelled "y") (untrimmedLabelled "z")
      = .ok (.obj [("conflicts", .arr [conflictRecord
          { type := "edit_edit", selector := "edge: a->b", severity := "error",
            reason := "Both sides edited the atom differently",
            allowed_resolutions := ["take_left", "take_right", "take_base", "manual"],
            default_resolution := none } cid]),
        ("merged", edgesOnly [untrimmedEdge "a->b" (.str "x")])]) := by
  obtain ⟨hx, hy, hz⟩ := canonicalizeDomain_labelled P
  obtain ⟨cid, hc, hatom⟩ := threeWayAtomMerge_edit_edit P (untrimmedEdge " a->b" (.str "x"))
    (untrimmedEdge " a->b" (.str "y")) (untrimmedEdge " a->b" (.str "z")) "edge: a->b"
    rfl rfl rfl rfl rfl rfl rfl (by decide) (by decide) (by decide)
  refine ⟨cid, ?_⟩
  have hn : mergeAtoms P "node"
      (mapById (propItems (edgesOnly [untrimmedEdge " a->b" (.str "x")]) "nodes"))
      (mapById (propItems (edgesOnly [untrimmedEdge " a->b" (.str "y")]) "nodes"))
      (mapById (propItems (edgesOnly [untrimmedEdge " a->b" (.str "z")]) "nodes"))
      (atomIds (mapById (propItems (edgesOnly [untrimmedEdge " a->b" (.str "x")]) "nodes"))
        (mapById (propItems (edgesOnly [untrimmedEdge " a->b" (.str "y")]) "nodes"))
        (mapById (propItems (edgesOnly [untrimmedEdge " a->b" (.str "z")]) "nodes")))
      = .ok ([], []) := rfl
  have he : mergeAtoms P "edge"
      (mapById (propItems (edgesOnly [untrimmedEdge " a->b" (.str "x")]) "edges"))
      (mapById (propItems (edgesOnly [untrimmedEdge " a->b" (.str "y")]) "edges"))
      (mapById (propItems (edgesOnly [untrimmedEdge " a->b" (.str "z")]) "edges"))
      (atomIds (mapById (propItems (edgesOnly [untrimmedEdge " a->b" (.str "x")]) "edges"))
        (mapById (propItems (edgesOnly [untrimmedEdge " a->b" (.str "y")]) "edges"))
        (mapById (propItems (edgesOnly [untrimmedEdge " a->b" (.str "z")]) "edges")))
      = .ok ([untrimmedEdge " a->b" (.str "x")], [conflictRecord
          { type := "edit_edit", selector := "edge: a->b", severity := "error",
            reason := "Both sides edited the atom differently",
            allowed_resolutions := ["take_left", "take_right", "take_base", "manual"],
            default_resolution := none } cid]) :=
    mergeAtoms_single P "edge" [(" a->b", untrimmedEdge " a->b" (.str "x"))]
      [(" a->b", untrimmedEdge " a->b" (.str "y"))]
      [(" a->b", untrimmedEdge " a->b" (.str "z"))] " a->b" hatom rfl rfl
  have hm : canonicalizeDomain P (.obj (setProp (setProp
      (ownProps (edgesOnly [untrimmedEdge " a->b" (.str "x")])) "nodes" (.arr []))
      "edges" (.arr [untrimmedEdge " a->b" (.str "x")])))
      = .ok (edgesOnly [untrimmedEdge "a->b" (.str "x")]) := rfl
  rw [merge_of_graphs P hx hy hz rfl rfl rfl, mergeGraphs_of_atoms P hn he hm]
  exact canonicalize_mergeResult _ _ rfl (by
    intro c hc1
    simp only [List.nil_append, List.mem_singleton] at hc1
    rw [hc1]
    exact hc)

/-! ### A deletion against an edit of an edge with an untrimmed default id -/

theorem mergeAtoms_empty (P : Platform) (kind : String) :
    mergeAtoms P kind [] [] [] (atomIds [] [] []) = .ok ([], []) := rfl

/-- The result of `merge` on three graphs without nodes, given what the loop over the edge ids
returns and how the merged graph normalizes. -/
theorem merge_of_edges (P : Platform) {b l r B L R M : Value} {es ec : List Value}
    (hb : canonicalizeDomain P b = .ok B) (hl : canonicalizeDomain P l = .ok L)
    (hr : canonicalizeDomain P r = .ok R) (gb : looksLikeGraph B = true)
    (gl : looksLikeGraph L = true) (gr : looksLikeGraph R = true)
    (nb : propItems B "nodes" = []) (nl : propItems L "nodes" = [])
    (nr : propItems R "nodes" = [])
    (he : mergeAtoms P "edge" (mapById (propItems B "edges")) (mapById (propItems L "edges"))
      (mapById (propItems R "edges"))
      (atomIds (mapById (propItems B "edges")) (mapById (propItems L "edges"))
        (mapById (propItems R "edges"))) = .ok (es, ec))
    (hm : canonicalizeDomain P
      (.obj (setProp (setProp (ownProps B) "nodes" (.arr [])) "edges" (.arr es))) = .ok M)
    (hM : Canonical M) (hc : ∀ c ∈ ec, Canonical c) :
    merge P b l r = .ok (.obj [("conflicts", .arr ec), ("merged", M)]) := by
  have hn : mergeAtoms P "node" (mapById (propItems B "nodes")) (mapById (propItems L "nodes"))
      (mapById (propItems R "nodes"))
      (atomIds (mapById (propItems B "nodes")) (mapById (propItems L "nodes"))
        (mapById (propItems R "nodes"))) = .ok ([], []) := by
    rw [nb, nl, nr]
    rfl
  rw [merge_of_graphs P hb hl hr gb gl gr, mergeGraphs_of_atoms P hn he hm]
  exact canonicalize_mergeResult _ _ hM (by simpa using hc)

theorem canonicalizeDomain_empty (P : Platform) :
    canonicalizeDomain P emptyGraph = .ok (edgesOnly []) := rfl

theorem merge_delete_edit_untrimmed (P : Platform) :
    ∃ cid, merge P (untrimmedLabelled "x") emptyGraph (untrimmedLabelled "z")
      = .ok (.obj [("conflicts", .arr [conflictRecord
          { type := "delete_edit", selector := "edge: a->b", severity := "error",
            reason := "Left deleted the atom while right edited it",
            allowed_resolutions := ["take_delete", "take_right", "take_base", "manual"],
            default_resolution := none } cid]),
        ("merged", edgesOnly [untrimmedEdge "a->b" (.str "x")])]) := by
  obtain ⟨hx, _, hz⟩ := canonicalizeDomain_labelled P
  obtain ⟨cid, hc, hatom⟩ := threeWayAtomMerge_delete_edit P (untrimmedEdge " a->b" (.str "x"))
    .undefined (untrimmedEdge " a->b" (.str "z")) "edge: a->b"
    rfl rfl rfl rfl (Or.inl rfl) rfl rfl (by decide)
  refine ⟨cid, ?_⟩
  refine merge_of_edges P hx (canonicalizeDomain_empty P) hz rfl rfl rfl rfl rfl rfl
    (mergeAtoms_single P "edge" [(" a->b", untrimmedEdge " a->b" (.str "x"))] []
      [(" a->b", untrimmedEdge " a->b" (.str "z"))] " a->b" hatom rfl rfl)
    (M := edgesOnly [untrimmedEdge "a->b" (.str "x")]) rfl rfl ?_
  intro c hc1
  rw [List.mem_singleton.1 hc1]
  exact hc

theorem merge_edit_delete_untrimmed (P : Platform) :
    ∃ cid, merge P (untrimmedLabelled "x") (untrimmedLabelled "y") emptyGraph
      = .ok (.obj [("conflicts", .arr [conflictRecord
          { type := "edit_delete", selector := "edge: a->b", severity := "error",
            reason := "Right deleted the atom while left edited it",
            allowed_resolutions := ["take_delete", "take_left", "take_base", "manual"],
            default_resolution := none } cid]),
        ("merged", edgesOnly [untrimmedEdge "a->b" (.str "x")])]) := by
  obtain ⟨hx, hy, _⟩ := canonicalizeDomain_labelled P
  obtain ⟨cid, hc, hatom⟩ := threeWayAtomMerge_edit_delete P (untrimmedEdge " a->b" (.str "x"))
    (untrimmedEdge " a->b" (.str "y")) .undefined "edge: a->b"
    rfl rfl rfl rfl rfl (Or.inl rfl) rfl (by decide)
  refine ⟨cid, ?_⟩
  refine merge_of_edges P hx hy (canonicalizeDomain_empty P) rfl rfl rfl rfl rfl rfl
    (mergeAtoms_single P "edge" [(" a->b", untrimmedEdge " a->b" (.str "x"))]
      [(" a->b", untrimmedEdge " a->b" (.str "y"))] [] " a->b" hatom rfl rfl)
    (M := edgesOnly [untrimmedEdge "a->b" (.str "x")]) rfl rfl ?_
  intro c hc1
  rw [List.mem_singleton.1 hc1]
  exact hc

end FlowVersion


namespace FlowVersion

/-! ## `makeIssue` -/

theorem canonicalize_optStr {o : Option String} (h : ∀ s, o = some s → PlainString s) :
    isUndefined (optStr o) = false → ∃ y, canonicalize (optStr o) = .ok y := by
  intro _
  cases o with
  | none => simp [optStr, isUndefined] at *
  | some s => exact ⟨_, canonicalize_str_plain (h s rfl)⟩

theorem canonicalize_optVal {o : Option Value} (h : ∀ v, o = some v → Canonical v) :
    isUndefined (optVal o) = false → ∃ y, canonicalize (optVal o) = .ok y := by
  intro _
  cases o with
  | none => simp [optVal, isUndefined] at *
  | some v => exact ⟨_, h v rfl⟩

theorem stableUUID_issue_ok (P : Platform) (i : IssueSpec) (hs : i.Plain) :
    ∃ u, stableUUID P "issue" (.obj [("code", .str i.code), ("message", .str i.message),
      ("severity", .str i.severity), ("atoms", strArray i.atoms), ("anchors", .undefined),
      ("region_hint", optStr i.region_hint), ("suggested_fix", optVal i.suggested_fix)])
        = .ok u ∧ 'T' ∉ u.toList := by
  obtain ⟨h1, h2, h3, h4, h5, h6⟩ := hs
  obtain ⟨R, hR⟩ := canonicalizeObject_succeeds [("code", Value.str i.code),
      ("message", .str i.message),
      ("severity", .str i.severity), ("atoms", strArray i.atoms), ("anchors", .undefined),
      ("region_hint", optStr i.region_hint), ("suggested_fix", optVal i.suggested_fix)]
    (by
      intro k v hk hu
      have hmem := lookupProp_mem hk
      simp only [List.mem_cons, Prod.mk.injEq, List.mem_singleton, List.not_mem_nil,
        or_false] at hmem
      rcases hmem with ⟨_, rfl⟩ | ⟨_, rfl⟩ | ⟨_, rfl⟩ | ⟨_, rfl⟩ | ⟨_, rfl⟩ | ⟨_, rfl⟩ | ⟨_, rfl⟩
      · exact ⟨_, canonicalize_str_plain h1⟩
      · exact ⟨_, canonicalize_str_plain h2⟩
      · exact ⟨_, canonicalize_str_plain h3⟩
      · exact ⟨_, canonicalize_strArray _ h4⟩
      · simp [isUndefined] at hu
      · exact canonicalize_optStr h5 hu
      · exact canonicalize_optVal h6 hu)
  unfold stableUUID
  rw [canonicalize_obj, hR]
  simp only [okObj]
  exact uuidV5_ok P _

theorem issueKeys_sorted :
    List.Sorted (fun a b => strLt a b = true)
      ["anchors", "atoms", "code", "issue_id", "message", "region_hint", "severity",
        "suggested_fix"] := by decide

theorem issueKeys_plain :
    ∀ k ∈ ["anchors", "atoms", "code", "issue_id", "message", "region_hint", "severity",
        "suggested_fix"], plainKey k = true := by decide

/-- `makeIssue` succeeds on plain specs and returns the record of the spec with a
content-derived id. -/
theorem makeIssue_ok (P : Platform) (i : IssueSpec) (hs : i.Plain) :
    ∃ iid, makeIssue P i = .ok (issueRecord i iid) := by
  obtain ⟨u, hu, hT⟩ := stableUUID_issue_ok P i hs
  obtain ⟨iid, hiid⟩ := canonicalizeString_succeeds_of_no_T u hT
  obtain ⟨h1, h2, h3, h4, h5, h6⟩ := hs
  refine ⟨iid, ?_⟩
  unfold makeIssue
  simp only [hu]
  unfold PlainString at h1 h2 h3
  have hplain : ∀ v w : Value, ∀ kv ∈ [("anchors", Value.undefined),
      ("atoms", strArray i.atoms), ("code", .str i.code), ("issue_id", .str u),
      ("message", .str i.message), ("region_hint", v), ("severity", .str i.severity),
      ("suggested_fix", w)], plainKey kv.1 = true := by
    intro v w kv hkv
    apply issueKeys_plain
    simp only [List.mem_cons, List.mem_singleton, List.not_mem_nil, or_false] at hkv ⊢
    rcases hkv with rfl | rfl | rfl | rfl | rfl | rfl | rfl | rfl <;> simp
  rw [canonicalize_obj, canonicalizeObject_sorted
    [("anchors", Value.undefined),
      ("atoms", strArray i.atoms), ("code", .str i.code), ("issue_id", .str u),
      ("message", .str i.message), ("region_hint", optStr i.region_hint),
      ("severity", .str i.severity), ("suggested_fix", optVal i.suggested_fix)]
    issueKeys_sorted (hplain _ _)]
  cases hr : i.region_hint with
  | none =>
    cases hf : i.suggested_fix with
    | none =>
      simp [canonicalizeFields, isUndefined, canonicalize, okStr, hiid, h1, h2, h3,
        strArray, okObj, issueRecord, hr, hf, canonicalizeArray_strs _ h4, okArr, optStr, optVal]
    | some v =>
      have hv : canonicalize v = .ok v := h6 v hf
      have hvu : isUndefined v = false := canonicalize_not_undefined hv
      unfold isUndefined at hvu
      simp [canonicalizeFields, isUndefined, canonicalize, okStr, hiid, h1, h2, h3,
        strArray, okObj, issueRecord, hr, hf, canonicalizeArray_strs _ h4, okArr, optStr, optVal,
        hv, hvu]
  | some h =>
    have hh := h5 h hr
    unfold PlainString at hh
    cases hf : i.suggested_fix with
    | none =>
      simp [canonicalizeFields, isUndefined, canonicalize, okStr, hiid, h1, h2, h3,
        strArray, okObj, issueRecord, hr, hf, canonicalizeArray_strs _ h4, okArr, optStr, optVal,
        hh]
    | some v =>
      have hv : canonicalize v = .ok v := h6 v hf
      have hvu : isUndefined v = false := canonicalize_not_undefined hv
      unfold isUndefined at hvu
      simp [canonicalizeFields, isUndefined, canonicalize, okStr, hiid, h1, h2, h3,
        strArray, okObj, issueRecord, hr, hf, canonicalizeArray_strs _ h4, okArr, optStr, optVal,
        hv, hvu, hh]

end FlowVersion


namespace FlowVersion

/-! ## `findCycle` -/

theorem setAdd_of_not_mem {s : List String} {k : String} (h : k ∉ s) : setAdd s k = s ++ [k] := by
  simp [setAdd, h]

theorem mem_setAdd {s : List String} {k x : String} : x ∈ setAdd s k ↔ x ∈ s ∨ x = k := by
  unfold setAdd
  split_ifs with h
  · constructor
    · exact Or.inl
    · rintro (h1 | h1)
      · exact h1
      · rw [h1]; exact h
  · simp

theorem erase_append_self {s : List String} {k : String} (h : k ∉ s) :
    (s ++ [k]).erase k = s := by
  rw [List.erase_append_right _ h]
  simp

theorem closed_reach {succ : String → List String} {S : List String}
    (hc : ∀ a ∈ S, ∀ b ∈ succ a, b ∈ S) {a b : String} (ha : a ∈ S)
    (h : Relation.ReflTransGen (Step succ) a b) : b ∈ S := by
  induction h with
  | refl => exact ha
  | tail _ hstep ih => exact hc _ ih _ hstep

theorem unvisited_mono (U : List String) {st st1 : DfsState}
    (hv : st1.visiting = st.visiting) (hs : ∀ a ∈ st.visited, a ∈ st1.visited) :
    unvisited U st1 ≤ unvisited U st := by
  unfold unvisited
  apply Finset.card_le_card
  intro x hx
  simp only [Finset.mem_filter, List.mem_toFinset] at hx ⊢
  exact ⟨hx.1, hv ▸ hx.2.1, fun h => hx.2.2 (hs x h)⟩

theorem unvisited_enter (U : List String) {st : DfsState} {u : String} (hU : u ∈ U)
    (h1 : u ∉ st.visited) (h2 : u ∉ st.visiting) :
    unvisited U { st with visiting := setAdd st.visiting u } < unvisited U st := by
  unfold unvisited
  apply Finset.card_lt_card
  rw [Finset.ssubset_iff_of_subset]
  · refine ⟨u, ?_, ?_⟩
    · simp only [Finset.mem_filter, List.mem_toFinset]
      exact ⟨hU, h2, h1⟩
    · simp only [Finset.mem_filter, List.mem_toFinset, mem_setAdd, not_and, not_not]
      intro _ h
      exact absurd (Or.inr trivial) h
  · intro x hx
    simp only [Finset.mem_filter, List.mem_toFinset, mem_setAdd] at hx ⊢
    exact ⟨hx.1, fun h => hx.2.1 (Or.inl h), hx.2.2⟩

/-- The loop over the neighbours of `u`, given that the recursive call meets its spec. -/
theorem dfsNeighbours_spec (succ : String → List String) (U : List String) (n : Nat)
    (call : String → DfsState → Option (DfsState × Option (List String)))
    (hcall : DfsSpec succ U n call) (hU : ∀ a, ∀ b ∈ succ a, b ∈ U) (u : String) :
    ∀ (vs : List String) (st : DfsState), (∀ v ∈ vs, v ∈ succ u) → DfsInv succ st →
      u ∈ st.visiting → (∀ w ∈ st.visiting, Relation.ReflTransGen (Step succ) w u) →
      unvisited U st ≤ n →
      ∃ st1 res, dfsNeighbours call u vs st = some (st1, res) ∧
        ((∃ c, res = some c) → ∃ x, Relation.TransGen (Step succ) x x) ∧
        (res = none → DfsInv succ st1 ∧ st1.visiting = st.visiting ∧
          (∀ a ∈ st.visited, a ∈ st1.visited) ∧ ∀ v ∈ vs, v ∈ st1.visited) := by
  intro vs
  induction vs with
  | nil =>
    intro st _ hinv _ _ _
    refine ⟨st, none, rfl, ?_, fun _ => ⟨hinv, rfl, fun a h => h, fun v hv => by cases hv⟩⟩
    rintro ⟨c, hc⟩
    cases hc
  | cons v vs ih =>
    intro st hvs hinv hu hpath hn
    have hv : v ∈ succ u := hvs v (List.mem_cons_self _ _)
    have hvs1 : ∀ x ∈ vs, x ∈ succ u := fun x hx => hvs x (List.mem_cons_of_mem _ hx)
    unfold dfsNeighbours
    by_cases h1 : v ∈ st.visited
    · rw [if_pos h1]
      obtain ⟨st1, res, e, hc, hnone⟩ := ih st hvs1 hinv hu hpath hn
      refine ⟨st1, res, e, hc, fun hr => ?_⟩
      obtain ⟨a1, a2, a3, a4⟩ := hnone hr
      refine ⟨a1, a2, a3, ?_⟩
      intro x hx
      rcases List.mem_cons.1 hx with rfl | hx
      · exact a3 _ h1
      · exact a4 x hx
    · rw [if_neg h1]
      by_cases h2 : v ∈ st.visiting
      · rw [if_pos h2]
        refine ⟨_, _, rfl, fun _ => ⟨v, ?_⟩, fun hr => by cases hr⟩
        exact Relation.TransGen.tail' (hpath v h2) hv
      · rw [if_neg h2]
        have hinv2 : DfsInv succ { st with parent := mapSet st.parent v u } :=
          ⟨hinv.closed, hinv.nocycle, hinv.disjoint⟩
        obtain ⟨st2, res2, e2, hc2, hnone2⟩ := hcall v { st with parent := mapSet st.parent v u }
          hinv2 h1 h2 (hU u v hv)
          (fun w hw => Relation.ReflTransGen.tail (hpath w hw) hv) hn
        rw [e2]
        cases res2 with
        | some c => exact ⟨st2, some c, rfl, fun _ => hc2 ⟨c, rfl⟩, fun hr => by cases hr⟩
        | none =>
          obtain ⟨b1, b2, b3, b4⟩ := hnone2 rfl
          have b2' : st2.visiting = st.visiting := b2
          have b3' : ∀ a ∈ st.visited, a ∈ st2.visited := b3
          obtain ⟨st1, res, e, hc, hnone⟩ := ih st2 hvs1 b1 (b2' ▸ hu)
            (fun w hw => hpath w (b2' ▸ hw))
            (le_trans (unvisited_mono U b2' b3') hn)
          refine ⟨st1, res, e, hc, fun hr => ?_⟩
          obtain ⟨a1, a2, a3, a4⟩ := hnone hr
          refine ⟨a1, a2.trans b2', fun a ha => a3 a (b3' a ha), ?_⟩
          intro x hx
          rcases List.mem_cons.1 hx with rfl | hx
          · exact a3 _ b4
          · exact a4 x hx

theorem unvisited_pos (U : List String) {st : DfsState} {u : String} (hU : u ∈ U)
    (h1 : u ∉ st.visited) (h2 : u ∉ st.visiting) : 0 < unvisited U st := by
  unfold unvisited
  apply Finset.card_pos.2
  exact ⟨u, by simp only [Finset.mem_filter, List.mem_toFinset]; exact ⟨hU, h2, h1⟩⟩

/-- A call `dfs(u)` with depth bound `n` meets its spec when at most `n` ids are unreached. -/
theorem dfs_spec (succ : String → List String) (U : List String)
    (hU : ∀ a, ∀ b ∈ succ a, b ∈ U) : ∀ n, DfsSpec succ U n (dfs succ n) := by
  intro n
  induction n with
  | zero =>
    intro u st _ h1 h2 hu _ hn
    have := unvisited_pos U hu h1 h2
    omega
  | succ n ih =>
    intro u st hinv h1 h2 hu hpath hn
    have hadd : setAdd st.visiting u = st.visiting ++ [u] := setAdd_of_not_mem h2
    have hinv1 : DfsInv succ { st with visiting := setAdd st.visiting u } := by
      refine ⟨hinv.closed, hinv.nocycle, ?_⟩
      intro a ha
      rcases mem_setAdd.1 ha with ha | rfl
      · exact hinv.disjoint a ha
      · exact h1
    have hlt := unvisited_enter U hu h1 h2
    obtain ⟨st1, res, e, hc, hnone⟩ := dfsNeighbours_spec succ U n (dfs succ n) ih hU u (succ u)
      { st with visiting := setAdd st.visiting u } (fun v hv => hv) hinv1
      (mem_setAdd.2 (Or.inr rfl))
      (by
        intro w hw
        rcases mem_setAdd.1 hw with hw | rfl
        · exact hpath w hw
        · exact Relation.ReflTransGen.refl)
      (by omega)
    have e1 : dfsNeighbours (fun v s => dfs succ n v s) u (succ u)
        { st with visiting := setAdd st.visiting u } = some (st1, res) := e
    unfold dfs
    rw [e1]
    cases res with
    | some c => exact ⟨st1, some c, rfl, fun _ => hc ⟨c, rfl⟩, fun hr => by cases hr⟩
    | none =>
      obtain ⟨a1, a2, a3, a4⟩ := hnone rfl
      have a2' : st1.visiting = st.visiting ++ [u] := a2.trans hadd
      have hu1 : u ∉ st1.visited := a1.disjoint u (by rw [a2']; simp)
      refine ⟨_, none, rfl, ?_, fun _ => ⟨⟨?_, ?_, ?_⟩, ?_, ?_, ?_⟩⟩
      · rintro ⟨c, hc⟩
        cases hc
      · intro a ha b hb
        simp only [mem_setAdd] at ha ⊢
        rcases ha with ha | rfl
        · exact Or.inl (a1.closed a ha b hb)
        · exact Or.inl (a4 b hb)
      · intro a ha hcyc
        simp only [mem_setAdd] at ha
        rcases ha with ha | rfl
        · exact a1.nocycle a ha hcyc
        · obtain ⟨b, hab, hba⟩ := Relation.TransGen.head'_iff.1 hcyc
          exact hu1 (closed_reach a1.closed (a4 b hab) hba)
      · intro a ha
        simp only [a2', erase_append_self h2] at ha
        simp only [mem_setAdd, not_or]
        refine ⟨a1.disjoint a (by rw [a2']; exact List.mem_append_left _ ha), ?_⟩
        rintro rfl
        exact h2 ha
      · simp only [a2', erase_append_self h2]
      · intro a ha
        exact mem_setAdd.2 (Or.inl (a3 a ha))
      · exact mem_setAdd.2 (Or.inr rfl)

/-- The loop over the node ids: it returns; a returned path means there is a cycle; `null`
means every listed id is finished under the invariant. -/
theorem findCycleLoop_spec (succ : String → List String) (U : List String)
    (hU : ∀ a, ∀ b ∈ succ a, b ∈ U) (fuel : Nat) (hfuel : U.length ≤ fuel) :
    ∀ (ids : List String) (st : DfsState), (∀ x ∈ ids, x ∈ U) → DfsInv succ st →
      st.visiting = [] →
      ∃ r, findCycleLoop succ fuel ids st = some r ∧
        ((∃ c, r = some c) → ∃ x, Relation.TransGen (Step succ) x x) ∧
        (r = none → ∃ st1, DfsInv succ st1 ∧ ∀ x ∈ ids, x ∈ st1.visited) := by
  have hcard : ∀ st : DfsState, unvisited U st ≤ fuel := by
    intro st
    unfold unvisited
    calc _ ≤ U.toFinset.card := Finset.card_filter_le _ _
      _ ≤ U.length := List.toFinset_card_le U
      _ ≤ fuel := hfuel
  suffices H : ∀ (ids : List String) (st : DfsState), (∀ x ∈ ids, x ∈ U) → DfsInv succ st →
      st.visiting = [] →
      ∃ r, findCycleLoop succ fuel ids st = some r ∧
        ((∃ c, r = some c) → ∃ x, Relation.TransGen (Step succ) x x) ∧
        (r = none → ∃ st1, DfsInv succ st1 ∧ (∀ a ∈ st.visited, a ∈ st1.visited) ∧
          ∀ x ∈ ids, x ∈ st1.visited) by
    intro ids st h1 h2 h3
    obtain ⟨r, e, hc, hn⟩ := H ids st h1 h2 h3
    refine ⟨r, e, hc, fun hr => ?_⟩
    obtain ⟨st1, a, _, b⟩ := hn hr
    exact ⟨st1, a, b⟩
  intro ids
  induction ids with
  | nil =>
    intro st _ hinv _
    refine ⟨none, rfl, ?_, fun _ => ⟨st, hinv, fun a h => h, fun x hx => by cases hx⟩⟩
    rintro ⟨c, hc⟩
    cases hc
  | cons id ids ih =>
    intro st hids hinv hv
    have hids1 : ∀ x ∈ ids, x ∈ U := fun x hx => hids x (List.mem_cons_of_mem _ hx)
    unfold findCycleLoop
    by_cases h1 : id ∈ st.visited
    · rw [if_pos h1]
      obtain ⟨r, e, hc, hn⟩ := ih st hids1 hinv hv
      refine ⟨r, e, hc, fun hr => ?_⟩
      obtain ⟨st1, a, b, c⟩ := hn hr
      refine ⟨st1, a, b, ?_⟩
      intro x hx
      rcases List.mem_cons.1 hx with rfl | hx
      · exact b _ h1
      · exact c x hx
    · rw [if_neg h1]
      obtain ⟨st2, res, e, hc, hnone⟩ := dfs_spec succ U hU fuel id st hinv h1
        (by rw [hv]; simp) (hids id (List.mem_cons_self _ _))
        (by rw [hv]; intro w hw; cases hw) (hcard st)
      rw [e]
      cases res with
      | some c =>
        refine ⟨some c, rfl, fun _ => hc ⟨c, rfl⟩, fun hr => by cases hr⟩
      | none =>
        obtain ⟨b1, b2, b3, b4⟩ := hnone rfl
        obtain ⟨r, e1, hc1, hn1⟩ := ih st2 hids1 b1 (b2.trans hv)
        refine ⟨r, e1, hc1, fun hr => ?_⟩
        obtain ⟨st1, a, b, c⟩ := hn1 hr
        refine ⟨st1, a, fun x hx => b x (b3 x hx), ?_⟩
        intro x hx
        rcases List.mem_cons.1 hx with rfl | hx
        · exact b _ b4
        · exact c x hx

theorem mem_targetsOf {edges : List (String × String)} {a b : String} :
    b ∈ targetsOf edges a ↔ (a, b) ∈ edges := by
  unfold targetsOf
  simp only [List.mem_map, List.mem_filter, beq_iff_eq]
  constructor
  · rintro ⟨⟨x, y⟩, ⟨h1, h2⟩, h3⟩
    simp only at h2 h3
    subst h2 h3
    exact h1
  · intro h
    exact ⟨(a, b), ⟨h, rfl⟩, rfl⟩

theorem mem_successors {ids : List String} {edges : List (String × String)} {a b : String} :
    b ∈ successors ids edges a ↔ a ∈ ids ∧ (a, b) ∈ edges := by
  unfold successors
  split_ifs with h
  · simp [mem_targetsOf, h]
  · simp [h]

/-- `findCycle` returns, and it returns a path exactly when the edges that leave node ids form
a cycle. -/
theorem findCycle_spec (ids : List String) (edges : List (String × String)) :
    ∃ r, findCycle ids edges = some r ∧
      ((∃ c, r = some c) ↔ ∃ x, Relation.TransGen (Step (successors ids edges)) x x) := by
  have hU : ∀ a, ∀ b ∈ successors ids edges a, b ∈ ids ++ edges.map Prod.snd := by
    intro a b hb
    have h := (mem_successors.1 hb).2
    exact List.mem_append_right _ (List.mem_map.2 ⟨(a, b), h, rfl⟩)
  obtain ⟨r, e, hc, hn⟩ := findCycleLoop_spec (successors ids edges)
    (ids ++ edges.map Prod.snd) hU (ids.length + edges.length + 1)
    (by simp) ids ⟨[], [], []⟩ (fun x hx => List.mem_append_left _ hx)
    ⟨fun a ha => (by cases ha), fun a ha => (by cases ha), fun a ha => (by cases ha)⟩ rfl
  refine ⟨r, e, hc, ?_⟩
  rintro ⟨x, hx⟩
  cases r with
  | some c => exact ⟨c, rfl⟩
  | none =>
    exfalso
    obtain ⟨st1, hinv, hall⟩ := hn rfl
    obtain ⟨b, hxb, _⟩ := Relation.TransGen.head'_iff.1 hx
    exact hinv.nocycle x (hall x (mem_successors.1 hxb).1) hx

/-! ## `reachableFrom` -/

/-- The number of edges that leave ids not yet seen. -/
theorem unseen_edges_step (edges : List (String × String)) (seen : List String) (cur : String)
    (h : cur ∉ seen) :
    (edges.filter (fun e => decide (e.1 ∉ seen ++ [cur]))).length + (targetsOf edges cur).length
      = (edges.filter (fun e => decide (e.1 ∉ seen))).length := by
  unfold targetsOf
  induction edges with
  | nil => rfl
  | cons e es ih =>
    simp only [List.length_map] at ih ⊢
    by_cases h1 : e.1 = cur
    · have h2 : e.1 ∉ seen := h1 ▸ h
      simp [List.filter_cons, h1, h]
      simp [h1] at ih
      omega
    · by_cases h2 : e.1 ∈ seen
      · simp [List.filter_cons, h1, h2]
        simpa using ih
      · simp [List.filter_cons, h1, h2]
        simp at ih
        omega

/-- The loop of `reachableFrom` ends within its budget. -/
theorem reachableLoop_total (edges : List (String × String)) :
    ∀ (n : Nat) (stack seen : List String),
      stack.length + (edges.filter (fun e => decide (e.1 ∉ seen))).length ≤ n →
      ∃ r, reachableLoop edges n stack seen = some r := by
  intro n
  induction n with
  | zero =>
    intro stack seen h
    cases stack with
    | nil => exact ⟨seen, by simp [reachableLoop]⟩
    | cons c cs => simp at h
  | succ n ih =>
    intro stack seen h
    cases stack with
    | nil => exact ⟨seen, by simp [reachableLoop]⟩
    | cons c cs =>
      unfold reachableLoop
      by_cases hc : c ∈ seen
      · rw [if_pos hc]
        apply ih
        simp only [List.length_cons] at h
        omega
      · rw [if_neg hc]
        apply ih
        have := unseen_edges_step edges seen c hc
        simp only [List.length_cons, List.length_append, List.length_reverse] at h ⊢
        omega

theorem reachableFrom_total (startId : String) (edges : List (String × String)) :
    ∃ r, reachableFrom startId edges = some r := by
  apply reachableLoop_total
  simp only [List.length_singleton]
  have := List.length_filter_le (fun e : String × String => decide (e.1 ∉ ([] : List String))) edges
  omega

end FlowVersion


namespace FlowVersion

/-! ## The issues of `validate` -/

/-- A string that starts with a fixed text holding a character that is no hexadecimal digit
among its first four is neither a UUID, nor a timestamp, nor a hash. -/
theorem plain_of_prefix (p rest : String) (i : Nat) (hi : i < 4) (c : Char)
    (hc : p.toList.get? i = some c) (hnh : isHexDigit c = false) : PlainString (p ++ rest) := by
  apply canonicalizeString_of_nonhex _ i hi c _ hnh
  rw [String.toList_append']
  have hlt : i < p.toList.length := by
    by_contra h
    rw [List.get?_eq_none.2 (by omega)] at hc
    cases hc
  rw [List.get?_eq_getElem?, List.getElem?_append_left hlt, ← List.get?_eq_getElem?]
  exact hc

theorem plain_node (id : String) : PlainString ("node:" ++ id) :=
  plain_of_prefix "node:" id 0 (by decide) 'n' rfl rfl

theorem plain_edge (id : String) : PlainString ("edge:" ++ id) :=
  plain_of_prefix "edge:" id 2 (by decide) 'g' rfl rfl

theorem plain_selectors_node (ids : List String) : ∀ s ∈ selectors "node" ids, PlainString s := by
  intro s hs
  simp only [selectors, List.mem_map] at hs
  obtain ⟨id, _, rfl⟩ := hs
  exact plain_of_prefix ("node" ++ ":") id 0 (by decide) 'n' rfl rfl

theorem plain_atoms_or_root (c : Bool) (ids : List String) :
    ∀ s ∈ (if c then selectors "node" ids else ["workflow:root"]), PlainString s := by
  intro s hs
  split_ifs at hs
  · exact plain_selectors_node _ s hs
  · simp only [List.mem_singleton] at hs
    subst hs
    rfl

theorem startIssues_plain (nodes : List Value) :
    ∀ i ∈ startIssues nodes, i.Plain ∧ i.code ≠ "CYCLE_DETECTED" := by
  intro i hi
  unfold startIssues at hi
  simp only at hi
  by_cases h1 : ((List.filter (fun n => propIs n "type" "start") nodes).length != 1) = true
  · rw [if_pos h1] at hi
    simp only [List.mem_singleton] at hi
    subst hi
    refine ⟨⟨rfl, plain_of_prefix _ _ 1 (by decide) 'x' rfl rfl, rfl,
      plain_atoms_or_root _ _, ?_, ?_⟩, ?_⟩
    · intro h hh
      cases hh
    · intro v hv
      cases hv
    · show "MISSING_OR_AMBIGUOUS_START_NODE" ≠ "CYCLE_DETECTED"
      decide
  · rw [if_neg h1] at hi
    cases hi

theorem endIssues_plain (nodes : List Value) :
    ∀ i ∈ endIssues nodes, i.Plain ∧ i.code ≠ "CYCLE_DETECTED" := by
  intro i hi
  unfold endIssues at hi
  split_ifs at hi with h1
  · simp only [List.mem_singleton] at hi
    subst hi
    refine ⟨⟨rfl, rfl, rfl, ?_, ?_, ?_⟩, by decide⟩
    · intro s hs
      simp only [List.mem_singleton] at hs
      subst hs
      rfl
    · intro h hh
      cases hh
    · intro v hv
      cases hv
  · cases hi

theorem plain_missing (c : Bool) (id : String) :
    ∀ s ∈ (if c then ["node:" ++ id] else []), PlainString s := by
  intro s hs
  split_ifs at hs
  · simp only [List.mem_singleton] at hs
    subst hs
    exact plain_node _
  · cases hs

theorem orphanIssues_plain (ids : List String) (edges : List Value) :
    ∀ i ∈ orphanIssues ids edges, i.Plain ∧ i.code ≠ "CYCLE_DETECTED" := by
  induction edges with
  | nil => intro i hi; cases hi
  | cons e es ih =>
    intro i hi
    unfold orphanIssues at hi
    simp only at hi
    by_cases h1 : (!decide (propString e "from" ∈ ids) || !decide (propString e "to" ∈ ids))
        = true
    · rw [if_pos h1] at hi
      rcases List.mem_cons.1 hi with rfl | hi
      · refine ⟨⟨rfl, plain_of_prefix _ _ 2 (by decide) 'g' rfl rfl, rfl, ?_, ?_, ?_⟩, ?_⟩
        · intro s hs
          rcases List.mem_cons.1 hs with rfl | hs
          · exact plain_edge _
          · rcases List.mem_append.1 hs with hs | hs
            · exact plain_missing _ _ s hs
            · exact plain_missing _ _ s hs
        · intro h hh
          cases hh
        · intro v hv
          cases hv
        · show "ORPHAN_EDGE" ≠ "CYCLE_DETECTED"
          decide
      · exact ih i hi
    · rw [if_neg h1] at hi
      exact ih i hi

theorem taskIssues_plain (nodes : List Value) :
    ∀ i ∈ taskIssues nodes, i.Plain ∧ i.code ≠ "CYCLE_DETECTED" := by
  induction nodes with
  | nil => intro i hi; cases hi
  | cons n ns ih =>
    intro i hi
    unfold taskIssues at hi
    split_ifs at hi with h1
    · rcases List.mem_cons.1 hi with rfl | hi
      · refine ⟨⟨rfl, rfl, rfl, ?_, ?_, ?_⟩, ?_⟩
        · intro s hs
          simp only [List.mem_singleton] at hs
          subst hs
          exact plain_node _
        · intro h hh
          cases hh
          rfl
        · intro v hv
          cases hv
          rfl
        · show "MISSING_REQUIRED_FIELD" ≠ "CYCLE_DETECTED"
          decide
      · exact ih i hi
    · exact ih i hi

theorem unreachableIssues_plain (reachable ids : List String) :
    ∀ i ∈ unreachableIssues reachable ids, i.Plain ∧ i.code ≠ "CYCLE_DETECTED" := by
  induction ids with
  | nil => intro i hi; cases hi
  | cons n ns ih =>
    intro i hi
    unfold unreachableIssues at hi
    split_ifs at hi with h1
    · exact ih i hi
    · rcases List.mem_cons.1 hi with rfl | hi
      · refine ⟨⟨rfl, plain_of_prefix _ _ 0 (by decide) 'N' rfl rfl, rfl, ?_, ?_, ?_⟩, ?_⟩
        · intro s hs
          simp only [List.mem_singleton] at hs
          subst hs
          exact plain_node _
        · intro h hh
          cases hh
        · intro v hv
          cases hv
        · show "UNREACHABLE_NODE" ≠ "CYCLE_DETECTED"
          decide
      · exact ih i hi

theorem cycleIssues_plain (c : Option (List String)) :
    ∀ i ∈ cycleIssues c, i.Plain ∧ i.code = "CYCLE_DETECTED" ∧ i.severity = "error" := by
  intro i hi
  cases c with
  | none => cases hi
  | some cycle =>
    unfold cycleIssues at hi
    simp only [List.mem_singleton] at hi
    subst hi
    refine ⟨⟨rfl, plain_of_prefix _ _ 1 (by decide) 'y' rfl rfl, rfl,
      plain_atoms_or_root _ _, ?_, ?_⟩, rfl, rfl⟩
    · intro h hh
      cases hh
    · intro v hv
      cases hv

/-- The arguments of the `makeIssue` calls: the traversals end, every argument is plain, and
one has the code `CYCLE_DETECTED` exactly when the edges that leave node ids form a cycle. -/
theorem graphIssues_spec (g : Value) :
    ∃ specs, graphIssues g = some specs ∧ (∀ i ∈ specs, i.Plain) ∧
      ((∃ i ∈ specs, i.code = "CYCLE_DETECTED") ↔
        ∃ x, Relation.TransGen
          (Step (successors (nodeIds g) (edgePairs (propItems g "edges")))) x x) ∧
      (∀ i ∈ specs, i.code = "CYCLE_DETECTED" → i.severity = "error") := by
  obtain ⟨r, hr, hiff⟩ := findCycle_spec (nodeIds g) (edgePairs (propItems g "edges"))
  have hun : ∃ un, reachabilityIssues
      ((propItems g "nodes").filter (fun n => propIs n "type" "start"))
      (edgePairs (propItems g "edges")) (nodeIds g) = some un ∧
      ∀ i ∈ un, i.Plain ∧ i.code ≠ "CYCLE_DETECTED" := by
    unfold reachabilityIssues
    split
    · next s _ =>
      obtain ⟨rs, hrs⟩ := reachableFrom_total (propString s "id")
        (edgePairs (propItems g "edges"))
      rw [hrs]
      exact ⟨_, rfl, unreachableIssues_plain _ _⟩
    · refine ⟨[], rfl, fun i hi => ?_⟩
      cases hi
  obtain ⟨un, hun1, hun2⟩ := hun
  have hr1 : findCycle ((mapById (propItems g "nodes")).map Prod.fst)
      (edgePairs (propItems g "edges")) = some r := hr
  have hun3 : reachabilityIssues
      ((propItems g "nodes").filter (fun n => propIs n "type" "start"))
      (edgePairs (propItems g "edges")) ((mapById (propItems g "nodes")).map Prod.fst)
        = some un := hun1
  refine ⟨startIssues (propItems g "nodes") ++ endIssues (propItems g "nodes")
    ++ orphanIssues (nodeIds g) (propItems g "edges") ++ taskIssues (propItems g "nodes")
    ++ cycleIssues r ++ un, ?_, ?_, ?_, ?_⟩
  · unfold graphIssues
    simp only [hr1, hun3]
    rfl
  · intro i hi
    simp only [List.mem_append] at hi
    rcases hi with ((((hi | hi) | hi) | hi) | hi) | hi
    · exact (startIssues_plain _ i hi).1
    · exact (endIssues_plain _ i hi).1
    · exact (orphanIssues_plain _ _ i hi).1
    · exact (taskIssues_plain _ i hi).1
    · exact (cycleIssues_plain _ i hi).1
    · exact (hun2 i hi).1
  · rw [← hiff]
    constructor
    · rintro ⟨i, hi, hc⟩
      simp only [List.mem_append] at hi
      rcases hi with ((((hi | hi) | hi) | hi) | hi) | hi
      · exact absurd hc (startIssues_plain _ i hi).2
      · exact absurd hc (endIssues_plain _ i hi).2
      · exact absurd hc (orphanIssues_plain _ _ i hi).2
      · exact absurd hc (taskIssues_plain _ i hi).2
      · cases r with
        | none => cases hi
        | some c => exact ⟨c, rfl⟩
      · exact absurd hc (hun2 i hi).2
    · rintro ⟨c, rfl⟩
      refine ⟨_, ?_, (cycleIssues_plain (some c) _ (List.mem_singleton.2 rfl)).2.1⟩
      simp only [List.mem_append]
      exact Or.inl (Or.inr (List.mem_singleton.2 rfl))
  · intro i hi hc
    simp only [List.mem_append] at hi
    rcases hi with ((((hi | hi) | hi) | hi) | hi) | hi
    · exact absurd hc (startIssues_plain _ i hi).2
    · exact absurd hc (endIssues_plain _ i hi).2
    · exact absurd hc (orphanIssues_plain _ _ i hi).2
    · exact absurd hc (taskIssues_plain _ i hi).2
    · exact (cycleIssues_plain _ i hi).2.2
    · exact absurd hc (hun2 i hi).2

theorem makeIssue_canonical {P : Platform} {i : IssueSpec} {x : Value}
    (h : makeIssue P i = .ok x) : Canonical x := by
  unfold makeIssue at h
  simp only at h
  split at h
  · cases h
  · exact canonicalize_idem _ _ h

/-- All `makeIssue` calls succeed on plain arguments; each returns the record of its
argument. -/
theorem makeIssues_ok (P : Platform) (specs : List IssueSpec) (h : ∀ i ∈ specs, i.Plain) :
    ∃ issues, makeIssues P specs = .ok issues ∧ (∀ x ∈ issues, Canonical x) ∧
      List.Forall₂ (fun i x => ∃ iid, x = issueRecord i iid) specs issues := by
  induction specs with
  | nil => exact ⟨[], rfl, fun x hx => (by cases hx), List.Forall₂.nil⟩
  | cons i is ih =>
    obtain ⟨iid, hi⟩ := makeIssue_ok P i (h i (List.mem_cons_self _ _))
    obtain ⟨xs, hxs, hcan, hall⟩ := ih (fun j hj => h j (List.mem_cons_of_mem _ hj))
    refine ⟨issueRecord i iid :: xs, ?_, ?_, List.Forall₂.cons ⟨iid, rfl⟩ hall⟩
    · simp only [makeIssues, hi, hxs]
    · intro x hx
      rcases List.mem_cons.1 hx with rfl | hx
      · exact makeIssue_canonical hi
      · exact hcan x hx

theorem propIs_issueRecord_code (i : IssueSpec) (iid s : String) :
    propIs (issueRecord i iid) "code" s = (i.code == s) := by
  simp [propIs, issueRecord, getProp, lookupProp]

theorem propIs_issueRecord_severity (i : IssueSpec) (iid s : String) :
    propIs (issueRecord i iid) "severity" s = (i.severity == s) := by
  cases hr : i.region_hint <;> simp [propIs, issueRecord, getProp, lookupProp, hr]

theorem lowerChar_ne_T (c : Char) : lowerChar c ≠ 'T' := by
  intro h
  have h1 := lowerChar_toNat c
  rw [h] at h1
  have h2 : ('T' : Char).toNat = 84 := rfl
  rw [h2] at h1
  split_ifs at h1 with hc <;> omega

theorem toLowerCase_no_T (s : String) : 'T' ∉ (toLowerCase s).toList := by
  unfold toLowerCase
  intro h
  obtain ⟨c, _, hc⟩ := List.mem_map.1 h
  exact lowerChar_ne_T c hc

/-- The result object of `validate`. -/
theorem canonicalize_result (issues : List Value) (h h1 : String) (valid : Bool)
    (hcan : ∀ x ∈ issues, Canonical x) (hh : canonicalizeString h = .ok h1) :
    canonicalize (.obj [("v", natValue 1), ("valid", .bool valid), ("issues", .arr issues),
        ("state_hash", .str h)])
      = .ok (.obj [("issues", .arr issues), ("state_hash", .str h1), ("v", natValue 1),
          ("valid", .bool valid)]) := by
  have ha : canonicalize (.arr issues) = .ok (.arr issues) := by
    simp [canonicalize, canonicalizeArray_of_canonical issues hcan, okArr]
  have hs : canonicalize (.str h) = .ok (.str h1) := by
    simp [canonicalize, hh, okStr]
  have hk : sortStrings ["v", "valid", "issues", "state_hash"]
      = ["issues", "state_hash", "v", "valid"] := by decide
  have he : canonicalizeEntries [("v", natValue 1), ("valid", .bool valid),
      ("issues", .arr issues), ("state_hash", .str h)]
      = [("v", some (.ok (natValue 1))), ("valid", some (.ok (.bool valid))),
          ("issues", some (.ok (.arr issues))), ("state_hash", some (.ok (.str h1)))] := by
    simp only [canonicalizeEntries, ha, hs]
    rfl
  rw [canonicalize_obj]
  unfold canonicalizeObject
  rw [he]
  simp only [List.map, hk]
  rfl

/-- On a state that normalizes to a graph, `validate` returns, and its issues include one with
the code `CYCLE_DETECTED`, which has severity `error` and makes `valid` false, exactly when the
edges that leave node ids form a cycle. -/
theorem validate_graph (P : Platform) (state g : Value)
    (hg : canonicalizeDomain P state = .ok g) (hgraph : looksLikeGraph g = true) :
    ∃ issues hash valid, validate P state
        = .ok (.obj [("issues", .arr issues), ("state_hash", .str hash), ("v", natValue 1),
            ("valid", .bool valid)]) ∧
      ((∃ x ∈ issues, propIs x "code" "CYCLE_DETECTED" = true) ↔
        ∃ x, Relation.TransGen
          (Step (successors (nodeIds g) (edgePairs (propItems g "edges")))) x x) ∧
      (∀ x ∈ issues, propIs x "code" "CYCLE_DETECTED" = true →
        propIs x "severity" "error" = true) ∧
      (valid = issues.all (fun i => !propIs i "severity" "error")) := by
  obtain ⟨specs, hspecs, hplain, hiff, hsev⟩ := graphIssues_spec g
  obtain ⟨issues, hissues, hcan, hall⟩ := makeIssues_ok P specs hplain
  obtain ⟨h1, hh1⟩ := canonicalizeString_succeeds_of_no_T
    (toLowerCase (sha256HexString P (jsonStringify g))) (toLowerCase_no_T _)
  refine ⟨issues, h1, issues.all (fun i => !propIs i "severity" "error"), ?_, ?_, ?_, rfl⟩
  · unfold validate
    simp only [hg, hgraph, hspecs, hissues, Bool.not_true, Bool.false_eq_true, if_false]
    exact canonicalize_result _ _ _ _ hcan hh1
  · rw [← hiff]
    clear hiff hsev hplain hspecs hissues hcan
    induction hall with
    | nil => simp
    | cons hx _ ih =>
      obtain ⟨iid, rfl⟩ := hx
      simp only [List.mem_cons, exists_eq_or_imp, propIs_issueRecord_code, beq_iff_eq, ih]
  · clear hiff hplain hspecs hissues hcan
    induction hall with
    | nil => intro x hx; cases hx
    | cons hx _ ih =>
      obtain ⟨iid, rfl⟩ := hx
      intro x hx hc
      rcases List.mem_cons.1 hx with rfl | hx
      · rw [propIs_issueRecord_code, beq_iff_eq] at hc
        rw [propIs_issueRecord_severity, beq_iff_eq]
        exact hsev _ (List.mem_cons_self _ _) hc
      · exact ih (fun i hi => hsev i (List.mem_cons_of_mem _ hi)) x hx hc

/-- With every edge leaving a node id, the cycles of the adjacency lists of `findCycle` are
the cycles of the graph. -/
theorem hasCycle_iff (g : Value)
    (hrefs : ∀ e ∈ propItems g "edges", propString e "from" ∈ nodeIds g) :
    (∃ x, Relation.TransGen
      (Step (successors (nodeIds g) (edgePairs (propItems g "edges")))) x x) ↔ HasCycle g := by
  have hstep : ∀ a b, Step (successors (nodeIds g) (edgePairs (propItems g "edges"))) a b
      ↔ Edge g a b := by
    intro a b
    unfold Step Edge
    rw [mem_successors]
    constructor
    · exact fun h => h.2
    · intro h
      refine ⟨?_, h⟩
      unfold edgePairs at h
      obtain ⟨e, he, heq⟩ := List.mem_map.1 h
      have := hrefs e he
      simp only [Prod.mk.injEq] at heq
      rw [← heq.1]
      exact this
  unfold HasCycle
  constructor
  · rintro ⟨x, hx⟩
    exact ⟨x, Relation.TransGen.mono (fun a b h => (hstep a b).1 h) hx⟩
  · rintro ⟨x, hx⟩
    exact ⟨x, Relation.TransGen.mono (fun a b h => (hstep a b).2 h) hx⟩

end FlowVersion


namespace FlowVersion

/-! ## `TextDecoder` after `TextEncoder` -/

theorem ofNat_toNat_eq (c : Char) (n : Nat) (h : n = c.toNat) : Char.ofNat n = c := by
  subst h
  exact Char.ofNat_toNat c

theorem utf8DecodeLoop_last (b : Nat) (rest : List Nat) (cp lo hi : Nat)
    (h : lo ≤ b ∧ b ≤ hi) :
    utf8DecodeLoop (b :: rest) 1 cp lo hi
      = Char.ofNat (cp * 64 + b % 64) :: utf8DecodeLoop rest 0 0 0x80 0xBF := by
  rw [utf8DecodeLoop, if_pos ⟨Nat.one_ne_zero, h⟩, if_pos rfl]

theorem utf8DecodeLoop_mid (b : Nat) (rest : List Nat) (n cp lo hi : Nat)
    (h : lo ≤ b ∧ b ≤ hi) :
    utf8DecodeLoop (b :: rest) (n + 2) cp lo hi
      = utf8DecodeLoop rest (n + 1) (cp * 64 + b % 64) 0x80 0xBF := by
  rw [utf8DecodeLoop, if_pos ⟨by omega, h⟩, if_neg (by omega)]
  rfl

theorem utf8DecodeLoop_start (b : Nat) (rest : List Nat) (cp lo hi : Nat) :
    utf8DecodeLoop (b :: rest) 0 cp lo hi
      = (if b < 0x80 then Char.ofNat b :: utf8DecodeLoop rest 0 0 0x80 0xBF
         else if 0xC2 ≤ b ∧ b ≤ 0xDF then utf8DecodeLoop rest 1 (b % 32) 0x80 0xBF
         else if 0xE0 ≤ b ∧ b ≤ 0xEF then
           utf8DecodeLoop rest 2 (b % 16) (if b = 0xE0 then 0xA0 else 0x80)
             (if b = 0xED then 0x9F else 0xBF)
         else if 0xF0 ≤ b ∧ b ≤ 0xF4 then
           utf8DecodeLoop rest 3 (b % 8) (if b = 0xF0 then 0x90 else 0x80)
             (if b = 0xF4 then 0x8F else 0xBF)
         else replacementChar :: utf8DecodeLoop rest 0 0 0x80 0xBF) := by
  rw [utf8DecodeLoop, if_neg (fun h => h.1 rfl), if_neg (fun h => h rfl)]
  rfl

theorem utf8DecodeLoop_encodeChar (c : Char) (rest : List Nat) :
    utf8DecodeLoop (utf8EncodeChar c ++ rest) 0 0 0x80 0xBF
      = c :: utf8DecodeLoop rest 0 0 0x80 0xBF := by
  have hv := char_toNat_valid c
  unfold utf8EncodeChar
  by_cases h1 : c.toNat < 0x80
  · rw [if_pos h1]
    simp only [List.cons_append, List.nil_append]
    rw [utf8DecodeLoop_start, if_pos h1, Char.ofNat_toNat]
  · rw [if_neg h1]
    by_cases h2 : c.toNat < 0x800
    · rw [if_pos h2]
      simp only [List.cons_append, List.nil_append]
      have a1 : ¬ (0xC0 + c.toNat / 64 < 0x80) := by omega
      have a2 : 0xC2 ≤ 0xC0 + c.toNat / 64 ∧ 0xC0 + c.toNat / 64 ≤ 0xDF := by omega
      have a3 : 0x80 ≤ 0x80 + c.toNat % 64 ∧ 0x80 + c.toNat % 64 ≤ 0xBF := by omega
      rw [utf8DecodeLoop_start]
      rw [if_neg a1]
      rw [if_pos a2]
      refine (utf8DecodeLoop_last _ _ _ _ _ a3).trans ?_
      congr 1
      apply ofNat_toNat_eq
      omega
    · rw [if_neg h2]
      by_cases h3 : c.toNat < 0x10000
      · rw [if_pos h3]
        simp only [List.cons_append, List.nil_append]
        have a1 : ¬ (0xE0 + c.toNat / 4096 < 0x80) := by omega
        have a2 : ¬ (0xC2 ≤ 0xE0 + c.toNat / 4096 ∧ 0xE0 + c.toNat / 4096 ≤ 0xDF) := by omega
        have a3 : 0xE0 ≤ 0xE0 + c.toNat / 4096 ∧ 0xE0 + c.toNat / 4096 ≤ 0xEF := by omega
        have a4 : (if 0xE0 + c.toNat / 4096 = 0xE0 then 0xA0 else 0x80)
              ≤ 0x80 + c.toNat / 64 % 64 ∧
            0x80 + c.toNat / 64 % 64
              ≤ (if 0xE0 + c.toNat / 4096 = 0xED then 0x9F else 0xBF) := by
          split_ifs <;> omega
        have a5 : 0x80 ≤ 0x80 + c.toNat % 64 ∧ 0x80 + c.toNat % 64 ≤ 0xBF := by omega
        rw [utf8DecodeLoop_start, if_neg a1, if_neg a2, if_pos a3]
        refine (utf8DecodeLoop_mid _ _ _ _ _ _ a4).trans ?_
        refine (utf8DecodeLoop_last _ _ _ _ _ a5).trans ?_
        congr 1
        apply ofNat_toNat_eq
        omega
      · rw [if_neg h3]
        simp only [List.cons_append, List.nil_append]
        have a1 : ¬ (0xF0 + c.toNat / 262144 < 0x80) := by omega
        have a2 : ¬ (0xC2 ≤ 0xF0 + c.toNat / 262144 ∧ 0xF0 + c.toNat / 262144 ≤ 0xDF) := by
          omega
        have a3 : ¬ (0xE0 ≤ 0xF0 + c.toNat / 262144 ∧ 0xF0 + c.toNat / 262144 ≤ 0xEF) := by
          omega
        have a4 : 0xF0 ≤ 0xF0 + c.toNat / 262144 ∧ 0xF0 + c.toNat / 262144 ≤ 0xF4 := by omega
        have a5 : (if 0xF0 + c.toNat / 262144 = 0xF0 then 0x90 else 0x80)
              ≤ 0x80 + c.toNat / 4096 % 64 ∧
            0x80 + c.toNat / 4096 % 64
              ≤ (if 0xF0 + c.toNat / 262144 = 0xF4 then 0x8F else 0xBF) := by
          split_ifs <;> omega
        have a6 : 0x80 ≤ 0x80 + c.toNat / 64 % 64 ∧ 0x80 + c.toNat / 64 % 64 ≤ 0xBF := by omega
        have a7 : 0x80 ≤ 0x80 + c.toNat % 64 ∧ 0x80 + c.toNat % 64 ≤ 0xBF := by omega
        rw [utf8DecodeLoop_start, if_neg a1, if_neg a2, if_neg a3, if_pos a4]
        refine (utf8DecodeLoop_mid _ _ _ _ _ _ a5).trans ?_
        refine (utf8DecodeLoop_mid _ _ _ _ _ _ a6).trans ?_
        refine (utf8DecodeLoop_last _ _ _ _ _ a7).trans ?_
        congr 1
        apply ofNat_toNat_eq
        omega

theorem utf8DecodeLoop_utf8Bytes (cs : List Char) :
    utf8DecodeLoop (cs.flatMap utf8EncodeChar) 0 0 0x80 0xBF = cs := by
  induction cs with
  | nil => rfl
  | cons c cs ih =>
    rw [List.flatMap_cons, utf8DecodeLoop_encodeChar, ih]

/-- Decoding the encoding of a text that starts with an ASCII character gives the text. -/
theorem textDecode_utf8Bytes (c : Char) (cs : List Char) (h : c.toNat < 0x80) :
    textDecode (utf8Bytes (String.mk (c :: cs))) = String.mk (c :: cs) := by
  have e : utf8Bytes (String.mk (c :: cs)) = c.toNat :: cs.flatMap utf8EncodeChar := by
    unfold utf8Bytes
    show (c :: cs).flatMap utf8EncodeChar = _
    rw [List.flatMap_cons]
    unfold utf8EncodeChar
    rw [if_pos h]
    rfl
  have hd : textDecode (c.toNat :: cs.flatMap utf8EncodeChar)
      = String.mk (utf8DecodeLoop (c.toNat :: cs.flatMap utf8EncodeChar) 0 0 0x80 0xBF) := by
    unfold textDecode
    split
    · next heq =>
      simp only [List.cons.injEq] at heq
      omega
    · rfl
  rw [e, hd]
  congr 1
  have := utf8DecodeLoop_utf8Bytes (c :: cs)
  rw [List.flatMap_cons] at this
  unfold utf8EncodeChar at this
  rw [if_pos h] at this
  exact this

end FlowVersion


namespace FlowVersion

/-! ## Reading back what `JSON.stringify` prints: strings -/

theorem hexDigitChar_toNat {d : Nat} (h : d < 16) :
    (hexDigitChar d).toNat = if d < 10 then 48 + d else 87 + d := by
  unfold hexDigitChar
  split_ifs <;> exact toNat_ofNat_small (by omega)

theorem isHexDigit_hexDigitChar {d : Nat} (h : d < 16) : isHexDigit (hexDigitChar d) = true := by
  rw [isHexDigit_iff, hexDigitChar_toNat h]
  split_ifs <;> omega

theorem hexVal_hexDigitChar {d : Nat} (h : d < 16) : hexVal (hexDigitChar d) = d := by
  unfold hexVal
  have ht := hexDigitChar_toNat h
  by_cases hd : d < 10
  · rw [if_pos hd] at ht
    have : isDigit (hexDigitChar d) = true := by rw [isDigit_iff]; omega
    rw [if_pos this, ht]
    omega
  · rw [if_neg hd] at ht
    have : ¬ isDigit (hexDigitChar d) = true := by rw [isDigit_iff]; omega
    rw [if_neg this, ht, if_pos (by omega)]
    omega

theorem hex4_control (n : Nat) (h : n < 32) :
    hex4 '0' '0' (hexDigitChar (n / 16)) (hexDigitChar (n % 16)) = some n := by
  unfold hex4
  have h1 : isHexDigit '0' = true := by decide
  have h2 : hexVal '0' = 0 := by decide
  rw [h1, isHexDigit_hexDigitChar (by omega), isHexDigit_hexDigitChar (by omega), h2,
    hexVal_hexDigitChar (by omega), hexVal_hexDigitChar (by omega)]
  simp only [Bool.and_self, if_true, Option.some.injEq]
  omega

theorem nextStringChar_escape (e x : Char) (tail : List Char) (he : e ≠ 'u')
    (hx : escapeChar e = some x) :
    nextStringChar ('\\' :: e :: tail) = some (some x, tail) := by
  rw [nextStringChar, if_neg (by decide), if_pos rfl]
  simp only [if_neg he, hx]

theorem nextStringChar_plain (c : Char) (tail : List Char) (h1 : c ≠ '"') (h2 : c ≠ '\\')
    (h3 : ¬ c.toNat < 32) :
    nextStringChar (c :: tail) = some (some c, tail) := by
  unfold nextStringChar
  simp only [if_neg h1, if_neg h2, if_neg h3]

theorem nextStringChar_control (c : Char) (tail : List Char) (h : c.toNat < 32) :
    nextStringChar ('\\' :: 'u' :: '0' :: '0' :: hexDigitChar (c.toNat / 16)
        :: hexDigitChar (c.toNat % 16) :: tail)
      = some (some c, tail) := by
  rw [nextStringChar, if_neg (by decide), if_pos rfl]
  simp only [if_true, readUnicodeEscape, hex4_control c.toNat h]
  rw [if_neg (by omega), if_neg (by omega), Char.ofNat_toNat]

/-- Reading one quoted character gives the character. -/
theorem nextStringChar_quoteJsonChar (c : Char) (tail : List Char) :
    nextStringChar (quoteJsonChar c ++ tail) = some (some c, tail) := by
  unfold quoteJsonChar
  by_cases h1 : c = '"'
  · subst h1
    exact nextStringChar_escape '"' '"' tail (by decide) rfl
  rw [if_neg h1]
  by_cases h2 : c = '\\'
  · subst h2
    exact nextStringChar_escape '\\' '\\' tail (by decide) rfl
  rw [if_neg h2]
  by_cases h3 : c.toNat = 8
  · rw [if_pos h3]
    have : c = Char.ofNat 8 := (ofNat_toNat_eq c 8 h3.symm).symm
    subst this
    exact nextStringChar_escape 'b' _ tail (by decide) rfl
  rw [if_neg h3]
  by_cases h4 : c.toNat = 9
  · rw [if_pos h4]
    have : c = Char.ofNat 9 := (ofNat_toNat_eq c 9 h4.symm).symm
    subst this
    exact nextStringChar_escape 't' _ tail (by decide) rfl
  rw [if_neg h4]
  by_cases h5 : c.toNat = 10
  · rw [if_pos h5]
    have : c = Char.ofNat 10 := (ofNat_toNat_eq c 10 h5.symm).symm
    subst this
    exact nextStringChar_escape 'n' _ tail (by decide) rfl
  rw [if_neg h5]
  by_cases h6 : c.toNat = 12
  · rw [if_pos h6]
    have : c = Char.ofNat 12 := (ofNat_toNat_eq c 12 h6.symm).symm
    subst this
    exact nextStringChar_escape 'f' _ tail (by decide) rfl
  rw [if_neg h6]
  by_cases h7 : c.toNat = 13
  · rw [if_pos h7]
    have : c = Char.ofNat 13 := (ofNat_toNat_eq c 13 h7.symm).symm
    subst this
    exact nextStringChar_escape 'r' _ tail (by decide) rfl
  rw [if_neg h7]
  by_cases h8 : c.toNat < 32
  · rw [if_pos h8]
    exact nextStringChar_control c tail h8
  · rw [if_neg h8]
    exact nextStringChar_plain c tail h1 h2 h8

theorem quoteJsonChar_length_pos (c : Char) : 0 < (quoteJsonChar c).length := by
  unfold quoteJsonChar
  split_ifs <;> simp

theorem parseStringLoop_quoteJsonChars (cs rest : List Char) :
    ∀ n, cs.length < n → parseStringLoop n (quoteJsonChars cs ++ '"' :: rest) = some (cs, rest) := by
  induction cs with
  | nil =>
    intro n hn
    cases n with
    | zero => simp at hn
    | succ n =>
      show parseStringLoop (n + 1) ('"' :: rest) = _
      rw [parseStringLoop]
      have : nextStringChar ('"' :: rest) = some (none, rest) := by
        unfold nextStringChar
        simp only [if_true]
      rw [this]
  | cons c cs ih =>
    intro n hn
    cases n with
    | zero => simp at hn
    | succ n =>
      rw [quoteJsonChars, List.append_assoc, parseStringLoop, nextStringChar_quoteJsonChar]
      simp only
      rw [ih n (by simpa using hn)]
      rfl

theorem quoteJsonChars_length (cs : List Char) : cs.length ≤ (quoteJsonChars cs).length := by
  induction cs with
  | nil => simp [quoteJsonChars]
  | cons c cs ih =>
    have := quoteJsonChar_length_pos c
    simp only [quoteJsonChars, List.length_cons, List.length_append]
    omega

/-- Reading a quoted string body up to the closing quote gives the string. -/
theorem parseStringChars_quoteJsonChars (cs rest : List Char) :
    parseStringChars (quoteJsonChars cs ++ '"' :: rest) = some (cs, rest) := by
  unfold parseStringChars
  apply parseStringLoop_quoteJsonChars
  have := quoteJsonChars_length cs
  simp only [List.length_append, List.length_cons]
  omega

end FlowVersion


namespace FlowVersion

/-! ## Reading back what `JSON.stringify` prints: numbers -/

theorem digitChar_core (d : Nat) (h : d < 10) :
    isDigit (Nat.digitChar d) = true ∧ digitVal (Nat.digitChar d) = d ∧
      (Nat.digitChar d = '0' → d = 0) := by
  interval_cases d <;> decide

theorem digitsValue_append (ds : List Char) (d : Char) :
    digitsValue (ds ++ [d]) = 10 * digitsValue ds + digitVal d := by
  simp [digitsValue, List.foldl_append]

/-- The digits that `Nat.toDigits` puts in front: decimal digits of the right value, without
a leading zero unless the number is zero. -/
theorem toDigitsCore_spec : ∀ (fuel n : Nat) (acc : List Char), n < fuel →
    ∃ c cs, Nat.toDigitsCore 10 fuel n acc = (c :: cs) ++ acc ∧
      (∀ d ∈ c :: cs, isDigit d = true) ∧ digitsValue (c :: cs) = n ∧
      (c = '0' → n = 0 ∧ cs = []) := by
  intro fuel
  induction fuel with
  | zero => intro n acc h; omega
  | succ fuel ih =>
    intro n acc h
    obtain ⟨d1, d2, d3⟩ := digitChar_core (n % 10) (Nat.mod_lt _ (by decide))
    unfold Nat.toDigitsCore
    simp only
    by_cases h0 : n / 10 = 0
    · rw [if_pos h0]
      refine ⟨Nat.digitChar (n % 10), [], rfl, ?_, ?_, ?_⟩
      · intro d hd
        simp only [List.mem_singleton] at hd
        rw [hd]
        exact d1
      · simp only [digitsValue, List.foldl_cons, List.foldl_nil, d2]
        omega
      · intro hz
        exact ⟨by have := d3 hz; omega, rfl⟩
    · rw [if_neg h0]
      obtain ⟨c, cs, e, hall, hval, hz⟩ := ih (n / 10) (Nat.digitChar (n % 10) :: acc)
        (by omega)
      refine ⟨c, cs ++ [Nat.digitChar (n % 10)], ?_, ?_, ?_, ?_⟩
      · rw [e]
        simp
      · intro d hd
        rw [← List.cons_append] at hd
        rcases List.mem_append.1 hd with hd | hd
        · exact hall d hd
        · simp only [List.mem_singleton] at hd
          rw [hd]
          exact d1
      · rw [← List.cons_append, digitsValue_append, hval, d2]
        omega
      · intro hc
        exact absurd (hz hc).1 h0

theorem natDigits_spec (n : Nat) :
    ∃ c cs, natDigits n = c :: cs ∧ (∀ d ∈ c :: cs, isDigit d = true) ∧
      digitsValue (c :: cs) = n ∧ (c = '0' → n = 0 ∧ cs = []) := by
  obtain ⟨c, cs, e, h⟩ := toDigitsCore_spec (n + 1) n [] (by omega)
  refine ⟨c, cs, ?_, h⟩
  unfold natDigits Nat.toDigits
  rw [e]
  simp

/-- What may follow a number in a text that `JSON.stringify` prints. -/
theorem spanDigits_of_delimited (ds rest : List Char) (hds : ∀ x ∈ ds, isDigit x = true)
    (hrest : ∀ c ∈ rest.head?, isDigit c = false) : spanDigits (ds ++ rest) = (ds, rest) := by
  cases rest with
  | nil =>
    rw [List.append_nil]
    induction ds with
    | nil => rfl
    | cons x xs ih =>
      have hx := hds x (List.mem_cons_self _ _)
      rw [spanDigits, if_pos hx, ih (fun y hy => hds y (List.mem_cons_of_mem _ hy))]
  | cons c r =>
    exact spanDigits_append ds c r hds (hrest c (by simp))

theorem parseUnsigned_natDigits (n : Nat) (rest : List Char)
    (hrest : ∀ c ∈ rest.head?, isDigit c = false ∧ c ≠ '.' ∧ c ≠ 'e' ∧ c ≠ 'E') :
    parseUnsigned (natDigits n ++ rest) = some ((n : ℚ), rest) := by
  obtain ⟨c, cs, e, hall, hval, hz⟩ := natDigits_spec n
  have hint : parseIntegerPart (natDigits n ++ rest) = some (natDigits n, rest) := by
    rw [e]
    show parseIntegerPart (c :: (cs ++ rest)) = _
    unfold parseIntegerPart
    simp only
    by_cases hc : c = '0'
    · rw [if_pos hc]
      obtain ⟨_, hcs⟩ := hz hc
      subst hc hcs
      rfl
    · rw [if_neg hc, if_pos (hall c (List.mem_cons_self _ _))]
      have := spanDigits_of_delimited (c :: cs) rest hall (fun x hx => (hrest x hx).1)
      rw [List.cons_append] at this
      rw [this]
  have hfrac : parseFraction rest = some ([], rest) := by
    unfold parseFraction
    split
    · next r =>
      have := (hrest '.' (by simp)).2.1
      exact absurd rfl this
    · rfl
  have hexp : parseExponent rest = some (0, rest) := by
    unfold parseExponent
    cases rest with
    | nil => rfl
    | cons x r =>
      have hx := hrest x (by simp)
      have h1 : x ≠ 'e' := hx.2.2.1
      have h2 : x ≠ 'E' := hx.2.2.2
      simp [h1, h2]
  unfold parseUnsigned
  rw [hint]
  simp only [hfrac, hexp]
  rw [e, List.append_nil, hval]
  simp

theorem doubleOfRat_int (i : Int) (h : i.natAbs ≤ 2 ^ 53) :
    doubleOfRat (i : ℚ) = .finite (i : ℚ) := by
  unfold doubleOfRat
  rw [if_pos]
  exact ⟨by simp, by simpa using h⟩

/-- Reading the text of a safe integer gives the integer. -/
theorem parseNumber_numberToJson (n : JSNumber) (hn : n.isSafeInteger = true)
    (rest : List Char)
    (hrest : ∀ c ∈ rest.head?, isDigit c = false ∧ c ≠ '.' ∧ c ≠ 'e' ∧ c ≠ 'E') :
    parseNumber (numberToJson n ++ rest) = some (n, rest) := by
  cases n with
  | nan => simp [JSNumber.isSafeInteger] at hn
  | posInf => simp [JSNumber.isSafeInteger] at hn
  | negInf => simp [JSNumber.isSafeInteger] at hn
  | finite q =>
    simp only [JSNumber.isSafeInteger, Bool.and_eq_true, beq_iff_eq, decide_eq_true_eq,
      maxSafeInteger] at hn
    obtain ⟨hden, hsafe⟩ := hn
    have hq : ((q.num : Int) : ℚ) = q := Rat.coe_int_num_of_den_eq_one hden
    unfold numberToJson
    simp only [if_pos hden]
    by_cases hneg : q.num < 0
    · rw [if_pos hneg]
      show parseNumber ('-' :: (natDigits q.num.natAbs ++ rest)) = _
      unfold parseNumber
      simp only [parseUnsigned_natDigits _ rest hrest, Option.map_some']
      have e : -((q.num.natAbs : Nat) : ℚ) = ((q.num : Int) : ℚ) := by
        have : (q.num.natAbs : Int) = -q.num := by omega
        have h2 : ((q.num.natAbs : Nat) : ℚ) = (((q.num.natAbs : Nat) : Int) : ℚ) :=
          (Int.cast_natCast _).symm
        rw [h2, this]
        simp
      rw [e, doubleOfRat_int _ (by omega), hq]
    · rw [if_neg hneg]
      obtain ⟨c, cs, e, hall, _, _⟩ := natDigits_spec q.num.natAbs
      have hc : c ≠ '-' := by
        intro h
        have := hall c (List.mem_cons_self _ _)
        rw [h] at this
        exact absurd this (by decide)
      have e2 : ((q.num.natAbs : Nat) : ℚ) = ((q.num : Int) : ℚ) := by
        have : (q.num.natAbs : Int) = q.num := by omega
        have h2 : ((q.num.natAbs : Nat) : ℚ) = (((q.num.natAbs : Nat) : Int) : ℚ) :=
          (Int.cast_natCast _).symm
        rw [h2, this]
      have hp := parseUnsigned_natDigits q.num.natAbs rest hrest
      rw [e] at hp ⊢
      unfold parseNumber
      split
      · next r heq =>
        simp only [List.cons_append, List.cons.injEq] at heq
        exact absurd heq.1 hc
      · rw [hp]
        simp only [Option.map_some']
        rw [e2, doubleOfRat_int _ (by omega), hq]

end FlowVersion


namespace FlowVersion

/-! ## The enumeration order of object keys -/

theorem insertIndexProp_append (n : Nat) (kv : String × Value) (o : Props)
    (h : ∀ p ∈ o, ∃ m, arrayIndex? p.1 = some m ∧ m ≤ n) :
    insertIndexProp n kv o = o ++ [kv] := by
  induction o with
  | nil => rfl
  | cons p ps ih =>
    obtain ⟨m, hm, hle⟩ := h p (List.mem_cons_self _ _)
    simp only [insertIndexProp, hm, if_neg (by omega : ¬ n < m), List.cons_append]
    rw [ih (fun q hq => h q (List.mem_cons_of_mem _ hq))]

/-- Defining a key that may come after all keys of the object appends it. -/
theorem defineProp_append (o : Props) (k : String) (v : Value)
    (h : ∀ a ∈ o.map Prod.fst, keyBefore a k) : defineProp o k v = o ++ [(k, v)] := by
  have hnew : hasProp k o = false := by
    cases hh : hasProp k o with
    | false => rfl
    | true =>
      rw [hasProp_iff] at hh
      exact absurd rfl (h k hh).1
  unfold defineProp
  rw [hnew]
  simp only [Bool.false_eq_true, if_false]
  cases hk : arrayIndex? k with
  | none => rfl
  | some n =>
    simp only
    apply insertIndexProp_append
    intro p hp
    have hb := (h p.1 (List.mem_map.2 ⟨p, hp, rfl⟩)).2
    rw [hk] at hb
    cases hp1 : arrayIndex? p.1 with
    | none => rw [hp1] at hb; exact absurd hb (by simp)
    | some m =>
      rw [hp1] at hb
      exact ⟨m, rfl, hb⟩

/-- Defining the properties of an object in enumeration order builds the object. -/
theorem defineAll_ordered (props : Props) :
    ∀ acc : Props, ((acc ++ props).map Prod.fst).Pairwise keyBefore →
      props.foldl (fun o kv => defineProp o kv.1 kv.2) acc = acc ++ props := by
  induction props with
  | nil => intro acc _; simp
  | cons p ps ih =>
    intro acc h
    have h1 : ∀ a ∈ acc.map Prod.fst, keyBefore a p.1 := by
      intro a ha
      rw [List.map_append, List.pairwise_append] at h
      exact h.2.2 a ha p.1 (by simp)
    rw [List.foldl_cons, defineProp_append acc p.1 p.2 h1, ih (acc ++ [(p.1, p.2)])]
    · simp
    · simpa using h

theorem keyBefore_index_of_before {a b : String} {n : Nat} (h : keyBefore a b)
    (hb : arrayIndex? b = some n) : ∃ m, arrayIndex? a = some m ∧ m ≤ n := by
  have h2 := h.2
  rw [hb] at h2
  cases ha : arrayIndex? a with
  | none => rw [ha] at h2; exact absurd h2 (by simp)
  | some m => rw [ha] at h2; exact ⟨m, rfl, h2⟩

theorem insertIndexProp_ordered (n : Nat) (k : String) (v : Value) (hk : arrayIndex? k = some n)
    (o : Props) (hnew : k ∉ o.map Prod.fst) (h : (o.map Prod.fst).Pairwise keyBefore) :
    ((insertIndexProp n (k, v) o).map Prod.fst).Pairwise keyBefore := by
  induction o with
  | nil => simp [insertIndexProp]
  | cons p ps ih =>
    simp only [List.map_cons, List.mem_cons, not_or] at hnew
    simp only [List.map_cons, List.pairwise_cons] at h
    obtain ⟨hp, hps⟩ := h
    have hkp : k ≠ p.1 := hnew.1
    cases hp1 : arrayIndex? p.1 with
    | none =>
      simp only [insertIndexProp, hp1, List.map_cons, List.pairwise_cons]
      refine ⟨?_, hp, hps⟩
      intro q hq
      rcases List.mem_cons.1 hq with rfl | hq
      · exact ⟨hkp, by rw [hk, hp1]; trivial⟩
      · refine ⟨fun e => hnew.2 (e ▸ hq), ?_⟩
        have hpq := (hp q hq).2
        rw [hp1] at hpq
        rw [hk]
        cases hq1 : arrayIndex? q with
        | none => trivial
        | some m => rw [hq1] at hpq; exact absurd hpq (by simp)
    | some m =>
      by_cases hlt : n < m
      · simp only [insertIndexProp, hp1, if_pos hlt, List.map_cons, List.pairwise_cons]
        refine ⟨?_, hp, hps⟩
        intro q hq
        rcases List.mem_cons.1 hq with rfl | hq
        · exact ⟨hkp, by rw [hk, hp1]; exact Nat.le_of_lt hlt⟩
        · refine ⟨fun e => hnew.2 (e ▸ hq), ?_⟩
          have hpq := (hp q hq).2
          rw [hp1] at hpq
          rw [hk]
          cases hq1 : arrayIndex? q with
          | none => trivial
          | some m1 =>
            rw [hq1] at hpq
            exact le_trans (Nat.le_of_lt hlt) hpq
      · simp only [insertIndexProp, hp1, if_neg hlt, List.map_cons, List.pairwise_cons]
        refine ⟨?_, ih hnew.2 hps⟩
        intro q hq
        have hperm := (insertIndexProp_perm n (k, v) ps).map Prod.fst
        have hq2 := hperm.mem_iff.1 hq
        rcases List.mem_cons.1 hq2 with rfl | hq2
        · exact ⟨fun e => hkp e.symm, by rw [hp1, hk]; exact Nat.le_of_not_lt hlt⟩
        · exact hp q hq2

/-- An assignment keeps the keys of an object in enumeration order. -/
theorem setProp_ordered (o : Props) (k : String) (v : Value)
    (h : (o.map Prod.fst).Pairwise keyBefore) :
    ((setProp o k v).map Prod.fst).Pairwise keyBefore := by
  by_cases hold : k ∈ o.map Prod.fst
  · rw [setProp_keys_existing o k v hold]
    exact h
  · unfold setProp
    by_cases hp : k = "__proto__"
    · rw [if_pos hp]
      exact h
    · have hnew : hasProp k o = false := by
        cases hh : hasProp k o with
        | false => rfl
        | true => exact absurd (hasProp_iff.1 hh) hold
      rw [if_neg hp, hnew]
      simp only [Bool.false_eq_true, if_false]
      cases hk : arrayIndex? k with
      | some n => exact insertIndexProp_ordered n k v hk o hold h
      | none =>
        simp only [List.map_append, List.map_cons, List.map_nil]
        rw [List.pairwise_append]
        refine ⟨h, by simp, ?_⟩
        intro a ha b hb
        simp only [List.mem_singleton] at hb
        subst hb
        refine ⟨fun e => hold (e ▸ ha), ?_⟩
        rw [hk]
        cases arrayIndex? a <;> trivial

theorem mem_setProp {o : Props} {k : String} {v : Value} {p : String × Value}
    (h : p ∈ setProp o k v) : p ∈ o ∨ p = (k, v) := by
  unfold setProp at h
  split_ifs at h with h1 h2
  · exact Or.inl h
  · clear h2
    induction o with
    | nil => simp [replaceProp] at h
    | cons q qs ih =>
      simp only [replaceProp] at h
      split_ifs at h with hq
      · rcases List.mem_cons.1 h with rfl | h
        · exact Or.inr rfl
        · exact Or.inl (List.mem_cons_of_mem _ h)
      · rcases List.mem_cons.1 h with rfl | h
        · exact Or.inl (List.mem_cons_self _ _)
        · rcases ih h with h | h
          · exact Or.inl (List.mem_cons_of_mem _ h)
          · exact Or.inr h
  · split at h
    · next n _ =>
      have := (insertIndexProp_perm n (k, v) o).mem_iff.1 h
      rcases List.mem_cons.1 this with rfl | h'
      · exact Or.inr rfl
      · exact Or.inl h'
    · rcases List.mem_append.1 h with h | h
      · exact Or.inl h
      · exact Or.inr (List.mem_singleton.1 h)

/-- What the loop of `canonicalizeObject` returns: keys in enumeration order, and values that
are canonical forms of values of the object. -/
theorem canonicalizeObjectLoop_shape (E : List (String × Option (Except JSError Value)))
    (Q : Value → Prop)
    (hE : ∀ k v, lookupProp k E = some (some (.ok v)) → Q v) :
    ∀ (ks : List String) (acc R : Props), canonicalizeObjectLoop E ks acc = .ok R →
      (acc.map Prod.fst).Pairwise keyBefore → (∀ p ∈ acc, Q p.2) →
      (R.map Prod.fst).Pairwise keyBefore ∧ ∀ p ∈ R, Q p.2 := by
  intro ks
  induction ks with
  | nil =>
    intro acc R h ho hq
    simp only [canonicalizeObjectLoop, Except.ok.injEq] at h
    subst h
    exact ⟨ho, hq⟩
  | cons k ks ih =>
    intro acc R h ho hq
    unfold canonicalizeObjectLoop at h
    split at h
    · exact ih acc R h ho hq
    · exact ih acc R h ho hq
    · cases h
    · next v hv =>
      refine ih _ R h (setProp_ordered acc k v ho) ?_
      intro p hp
      rcases mem_setProp hp with hp | rfl
      · exact hq p hp
      · exact hE k v hv

end FlowVersion


namespace FlowVersion

/-! ## Canonical values are JSON values -/

theorem allJson_of_forall (xs : List Value) (h : ∀ x ∈ xs, IsJson x) : AllJson xs := by
  induction xs with
  | nil => trivial
  | cons x xs ih =>
    exact ⟨h x (List.mem_cons_self _ _), ih (fun y hy => h y (List.mem_cons_of_mem _ hy))⟩

theorem allJsonProps_of_forall (ps : List (String × Value)) (h : ∀ p ∈ ps, IsJson p.2) :
    AllJsonProps ps := by
  induction ps with
  | nil => trivial
  | cons p ps ih =>
    obtain ⟨k, v⟩ := p
    exact ⟨h (k, v) (List.mem_cons_self _ _), ih (fun y hy => h y (List.mem_cons_of_mem _ hy))⟩

mutual
theorem isJson_of_canonicalize : ∀ (x y : Value), canonicalize x = .ok y → IsJson y
  | .null, y, h => by
    simp only [canonicalize, Except.ok.injEq] at h; subst h; trivial
  | .undefined, y, h => by simp [canonicalize] at h
  | .bool b, y, h => by
    simp only [canonicalize, Except.ok.injEq] at h; subst h; trivial
  | .num n, y, h => by
    simp only [canonicalize] at h
    cases hn : canonicalizeNumber n with
    | error e => simp [hn, okNum] at h
    | ok m =>
      simp only [hn, okNum, Except.ok.injEq] at h
      subst h
      unfold canonicalizeNumber at hn
      split_ifs at hn with h1 h2 h3
      simp only [Except.ok.injEq] at hn
      subst hn
      simpa using h3
  | .str s, y, h => by
    simp only [canonicalize] at h
    cases hn : canonicalizeString s with
    | error e => simp [hn, okStr] at h
    | ok m =>
      simp only [hn, okStr, Except.ok.injEq] at h
      subst h
      trivial
  | .arr xs, y, h => by
    simp only [canonicalize] at h
    cases hn : canonicalizeArray xs with
    | error e => simp [hn, okArr] at h
    | ok m =>
      simp only [hn, okArr, Except.ok.injEq] at h
      subst h
      exact isJson_of_canonicalizeArray xs m hn
  | .obj ps, y, h => by
    simp only [canonicalize] at h
    cases hn : canonicalizeObjectLoop (canonicalizeEntries ps) (sortStrings (ps.map Prod.fst)) [] with
    | error e => simp [hn, okObj] at h
    | ok m =>
      simp only [hn, okObj, Except.ok.injEq] at h
      subst h
      have hE : ∀ k v, lookupProp k (canonicalizeEntries ps) = some (some (.ok v)) → IsJson v := by
        intro k v hk
        rw [lookupProp_canonicalizeEntries] at hk
        cases hl : lookupProp k ps with
        | none => simp [hl] at hk
        | some w =>
          simp only [hl, Option.map_some', Option.some.injEq] at hk
          split_ifs at hk
          simp only [Option.some.injEq] at hk
          exact isJson_of_canonicalizeProps ps k w v (lookupProp_mem hl) hk
      obtain ⟨ho, hq⟩ := canonicalizeObjectLoop_shape _ IsJson hE _ [] m hn
        (by simp) (fun p hp => by cases hp)
      exact ⟨allJsonProps_of_forall m hq, ho⟩
  | .unsupported t, y, h => by simp [canonicalize] at h
theorem isJson_of_canonicalizeArray : ∀ (xs ys : List Value),
    canonicalizeArray xs = .ok ys → AllJson ys
  | [], ys, h => by
    simp only [canonicalizeArray, Except.ok.injEq] at h; subst h; trivial
  | x :: xs, ys, h => by
    simp only [canonicalizeArray] at h
    cases hx : canonicalize x with
    | error e => simp [hx] at h
    | ok y =>
      cases hxs : canonicalizeArray xs with
      | error e => simp [hx, hxs] at h
      | ok ys' =>
        simp only [hx, hxs, Except.ok.injEq] at h
        subst h
        exact ⟨isJson_of_canonicalize x y hx, isJson_of_canonicalizeArray xs ys' hxs⟩
theorem isJson_of_canonicalizeProps : ∀ (ps : List (String × Value)) (k : String) (v y : Value),
    (k, v) ∈ ps → canonicalize v = .ok y → IsJson y
  | [], k, v, y, hmem, h => by simp at hmem
  | (k0, v0) :: ps, k, v, y, hmem, h => by
    rcases List.mem_cons.mp hmem with heq | hmem'
    · simp only [Prod.mk.injEq] at heq
      obtain ⟨_, rfl⟩ := heq
      exact isJson_of_canonicalize v y h
    · exact isJson_of_canonicalizeProps ps k v y hmem' h
end

end FlowVersion


namespace FlowVersion

/-! ## Reading back what `JSON.stringify` prints: values -/

theorem skipWhitespace_cons (c : Char) (r : List Char) (h : isJsonWhitespace c = false) :
    skipWhitespace (c :: r) = c :: r := by
  rw [skipWhitespace, h]
  rfl

theorem parseValue_null (fuel : Nat) (rest : List Char) :
    parseValue (fuel + 1) ('n' :: 'u' :: 'l' :: 'l' :: rest) = some (.null, rest) := by
  rw [parseValue, skipWhitespace_cons _ _ (by decide)]
  simp [expectChars]

theorem parseValue_true (fuel : Nat) (rest : List Char) :
    parseValue (fuel + 1) ('t' :: 'r' :: 'u' :: 'e' :: rest) = some (.bool true, rest) := by
  rw [parseValue, skipWhitespace_cons _ _ (by decide)]
  simp [expectChars]

theorem parseValue_false (fuel : Nat) (rest : List Char) :
    parseValue (fuel + 1) ('f' :: 'a' :: 'l' :: 's' :: 'e' :: rest)
      = some (.bool false, rest) := by
  rw [parseValue, skipWhitespace_cons _ _ (by decide)]
  simp [expectChars]

theorem parseValue_string (fuel : Nat) (body : List Char) :
    parseValue (fuel + 1) ('"' :: body)
      = (parseStringChars body).map (fun x => (Value.str (String.mk x.1), x.2)) := by
  rw [parseValue, skipWhitespace_cons _ _ (by decide)]
  simp

theorem parseValue_array_empty (fuel : Nat) (rest : List Char) :
    parseValue (fuel + 1) ('[' :: ']' :: rest) = some (.arr [], rest) := by
  rw [parseValue, skipWhitespace_cons _ _ (by decide)]
  simp [skipWhitespace_cons _ _ (by decide : isJsonWhitespace ']' = false)]

theorem parseValue_array (fuel : Nat) (d : Char) (rest : List Char)
    (h1 : isJsonWhitespace d = false) (h2 : d ≠ ']') :
    parseValue (fuel + 1) ('[' :: d :: rest)
      = (parseElements fuel (d :: rest)).map (fun x => (Value.arr x.1, x.2)) := by
  rw [parseValue, skipWhitespace_cons _ _ (by decide)]
  simp [skipWhitespace_cons _ _ h1, h2]

theorem parseValue_object_empty (fuel : Nat) (rest : List Char) :
    parseValue (fuel + 1) ('{' :: '}' :: rest) = some (.obj [], rest) := by
  rw [parseValue, skipWhitespace_cons _ _ (by decide)]
  simp [skipWhitespace_cons _ _ (by decide : isJsonWhitespace '}' = false)]

theorem parseValue_object (fuel : Nat) (d : Char) (rest : List Char)
    (h1 : isJsonWhitespace d = false) (h2 : d ≠ '}') :
    parseValue (fuel + 1) ('{' :: d :: rest)
      = (parseMembers fuel (d :: rest) []).map (fun x => (Value.obj x.1, x.2)) := by
  rw [parseValue, skipWhitespace_cons _ _ (by decide)]
  simp [skipWhitespace_cons _ _ h1, h2]

theorem parseValue_number (fuel : Nat) (c : Char) (rest : List Char)
    (h : isDigit c = true ∨ c = '-') :
    parseValue (fuel + 1) (c :: rest)
      = (parseNumber (c :: rest)).map (fun x => (Value.num x.1, x.2)) := by
  have hw : isJsonWhitespace c = false := by
    rcases h with h | rfl
    · cases hc : isJsonWhitespace c with
      | false => rfl
      | true =>
        simp only [isJsonWhitespace, Bool.or_eq_true, decide_eq_true_eq] at hc
        rcases hc with ((rfl | rfl) | rfl) | rfl <;> simp [isDigit] at h
    · decide
  have h1 : c ≠ 'n' ∧ c ≠ 't' ∧ c ≠ 'f' ∧ c ≠ '"' ∧ c ≠ '[' ∧ c ≠ '{' := by
    rcases h with h | rfl
    · refine ⟨?_, ?_, ?_, ?_, ?_, ?_⟩ <;> (rintro rfl; simp [isDigit] at h)
    · decide
  rw [parseValue, skipWhitespace_cons _ _ hw]
  simp [h1]

theorem parseElements_last (fuel : Nat) (cs r1 : List Char) (v : Value)
    (h : parseValue fuel cs = some (v, ']' :: r1)) :
    parseElements (fuel + 1) cs = some ([v], r1) := by
  rw [parseElements, h]
  simp [skipWhitespace_cons _ _ (by decide : isJsonWhitespace ']' = false)]

theorem parseElements_more (fuel : Nat) (cs r1 : List Char) (v : Value)
    (h : parseValue fuel cs = some (v, ',' :: r1)) :
    parseElements (fuel + 1) cs = (parseElements fuel r1).map (fun x => (v :: x.1, x.2)) := by
  rw [parseElements, h]
  simp [skipWhitespace_cons _ _ (by decide : isJsonWhitespace ',' = false)]

theorem parseMembers_last (fuel : Nat) (k : String) (r2 r4 : List Char) (v : Value)
    (acc : Props) (h : parseValue fuel r2 = some (v, '}' :: r4)) :
    parseMembers (fuel + 1) (quoteJsonString k ++ ':' :: r2) acc
      = some (defineProp acc k v, r4) := by
  have e : quoteJsonString k ++ ':' :: r2
      = '"' :: (quoteJsonChars k.toList ++ '"' :: ':' :: r2) := by
    simp [quoteJsonString]
  rw [e, parseMembers, skipWhitespace_cons _ _ (by decide)]
  simp only [if_true, parseStringChars_quoteJsonChars,
    skipWhitespace_cons _ _ (by decide : isJsonWhitespace ':' = false), h,
    skipWhitespace_cons _ _ (by decide : isJsonWhitespace '}' = false)]
  simp

theorem parseMembers_more (fuel : Nat) (k : String) (r2 r4 : List Char) (v : Value)
    (acc : Props) (h : parseValue fuel r2 = some (v, ',' :: r4)) :
    parseMembers (fuel + 1) (quoteJsonString k ++ ':' :: r2) acc
      = parseMembers fuel r4 (defineProp acc k v) := by
  have e : quoteJsonString k ++ ':' :: r2
      = '"' :: (quoteJsonChars k.toList ++ '"' :: ':' :: r2) := by
    simp [quoteJsonString]
  rw [e, parseMembers, skipWhitespace_cons _ _ (by decide)]
  simp only [if_true, parseStringChars_quoteJsonChars,
    skipWhitespace_cons _ _ (by decide : isJsonWhitespace ':' = false), h,
    skipWhitespace_cons _ _ (by decide : isJsonWhitespace ',' = false)]
  simp

/-- The first character of the text of a number. -/
theorem numberToJson_head (n : JSNumber) (hn : n.isSafeInteger = true) :
    ∃ c r, numberToJson n = c :: r ∧ (isDigit c = true ∨ c = '-') := by
  cases n with
  | nan => simp [JSNumber.isSafeInteger] at hn
  | posInf => simp [JSNumber.isSafeInteger] at hn
  | negInf => simp [JSNumber.isSafeInteger] at hn
  | finite q =>
    simp only [JSNumber.isSafeInteger, Bool.and_eq_true, beq_iff_eq, decide_eq_true_eq] at hn
    obtain ⟨c, cs, e, hall, _, _⟩ := natDigits_spec q.num.natAbs
    unfold numberToJson
    simp only [if_pos hn.1]
    split_ifs
    · exact ⟨'-', _, rfl, Or.inr rfl⟩
    · exact ⟨c, cs, e, Or.inl (hall c (List.mem_cons_self _ _))⟩

/-- The text of a JSON value starts with an ASCII character that is neither white space nor a
closing bracket. -/
theorem stringifyValue_head (y : Value) (hy : IsJson y) :
    ∃ c r, stringifyValue y = some (c :: r) ∧ isJsonWhitespace c = false ∧ c ≠ ']' ∧ c ≠ '}' ∧
      c.toNat < 0x80 := by
  cases y with
  | null => exact ⟨'n', _, rfl, by decide, by decide, by decide, by decide⟩
  | undefined => exact absurd hy (by simp [IsJson])
  | bool b =>
    cases b
    · exact ⟨'f', _, rfl, by decide, by decide, by decide, by decide⟩
    · exact ⟨'t', _, rfl, by decide, by decide, by decide, by decide⟩
  | num n =>
    have hn : n.isSafeInteger = true := by simpa [IsJson] using hy
    obtain ⟨c, r, e, hc⟩ := numberToJson_head n hn
    refine ⟨c, r, by simp [stringifyValue, e], ?_⟩
    rcases hc with hc | rfl
    · rw [isDigit_iff] at hc
      refine ⟨?_, ?_, ?_, by omega⟩
      · cases hw : isJsonWhitespace c with
        | false => rfl
        | true =>
          simp only [isJsonWhitespace, Bool.or_eq_true, decide_eq_true_eq] at hw
          rcases hw with ((rfl | rfl) | rfl) | rfl <;> simp at hc
      · rintro rfl
        simp at hc
      · rintro rfl
        simp at hc
    · exact ⟨by decide, by decide, by decide, by decide⟩
  | str s => exact ⟨'"', _, rfl, by decide, by decide, by decide, by decide⟩
  | arr xs => exact ⟨'[', _, rfl, by decide, by decide, by decide, by decide⟩
  | obj ps => exact ⟨'{', _, rfl, by decide, by decide, by decide, by decide⟩
  | unsupported t => exact absurd hy (by simp [IsJson])

theorem joinComma_cons_of_ne (t : List Char) (ts : List (List Char)) (h : ts ≠ []) :
    joinComma (t :: ts) = t ++ ',' :: joinComma ts := by
  cases ts with
  | nil => exact absurd rfl h
  | cons u us => rfl

theorem stringifyItems_ne_nil (xs : List Value) (h : xs ≠ []) : stringifyItems xs ≠ [] := by
  cases xs with
  | nil => exact absurd rfl h
  | cons x xs => simp [stringifyItems]

theorem stringifyMembers_cons (k : String) (v : Value) (ps : Props) (t : List Char)
    (ht : stringifyValue v = some t) :
    stringifyMembers ((k, v) :: ps) = (quoteJsonString k ++ ':' :: t) :: stringifyMembers ps := by
  simp [stringifyMembers, ht]

theorem stringifyMembers_ne_nil (ps : Props) (hall : AllJsonProps ps) (h : ps ≠ []) :
    stringifyMembers ps ≠ [] := by
  cases ps with
  | nil => exact absurd rfl h
  | cons p ps =>
    obtain ⟨k, v⟩ := p
    obtain ⟨c, r, ht, _⟩ := stringifyValue_head v hall.1
    rw [stringifyMembers_cons k v ps _ ht]
    simp

mutual
/-- Reading the text of a JSON value, followed by a delimiter or nothing, gives the value. -/
theorem parseValue_stringify : ∀ (y : Value), IsJson y → ∀ (t : List Char),
    stringifyValue y = some t → ∀ (fuel : Nat) (rest : List Char), t.length < fuel →
    (∀ c ∈ rest.head?, c = ',' ∨ c = ']' ∨ c = '}') →
    parseValue fuel (t ++ rest) = some (y, rest)
  | .null, _, t, ht, fuel, rest, hf, _ => by
    simp only [stringifyValue, Option.some.injEq] at ht
    subst ht
    cases fuel with
    | zero => simp at hf
    | succ fuel => exact parseValue_null fuel rest
  | .undefined, hy, _, _, _, _, _, _ => absurd hy (by simp [IsJson])
  | .bool b, _, t, ht, fuel, rest, hf, _ => by
    simp only [stringifyValue, Option.some.injEq] at ht
    subst ht
    cases fuel with
    | zero => simp at hf
    | succ fuel =>
      cases b
      · exact parseValue_false fuel rest
      · exact parseValue_true fuel rest
  | .num n, hy, t, ht, fuel, rest, hf, hrest => by
    simp only [stringifyValue, Option.some.injEq] at ht
    subst ht
    have hn : n.isSafeInteger = true := by simpa [IsJson] using hy
    obtain ⟨c, r, e, hc⟩ := numberToJson_head n hn
    cases fuel with
    | zero => simp at hf
    | succ fuel =>
      have hp := parseNumber_numberToJson n hn rest (by
        intro x hx
        rcases hrest x hx with rfl | rfl | rfl <;> decide)
      rw [e] at hp ⊢
      rw [List.cons_append] at hp ⊢
      rw [parseValue_number fuel c _ hc, hp]
      rfl
  | .str s, _, t, ht, fuel, rest, hf, _ => by
    simp only [stringifyValue, Option.some.injEq] at ht
    subst ht
    cases fuel with
    | zero => simp at hf
    | succ fuel =>
      have e : quoteJsonString s ++ rest = '"' :: (quoteJsonChars s.toList ++ '"' :: rest) := by
        simp [quoteJsonString]
      rw [e, parseValue_string, parseStringChars_quoteJsonChars]
      rfl
  | .arr xs, hy, t, ht, fuel, rest, hf, _ => by
    simp only [stringifyValue, Option.some.injEq] at ht
    subst ht
    have hall : AllJson xs := by simpa [IsJson] using hy
    cases fuel with
    | zero => simp at hf
    | succ fuel =>
      have e : ('[' :: joinComma (stringifyItems xs) ++ [']']) ++ rest
          = '[' :: (joinComma (stringifyItems xs) ++ ']' :: rest) := by simp
      rw [e]
      by_cases hx : xs = []
      · subst hx
        exact parseValue_array_empty fuel rest
      · have hp := parseElements_stringify xs hall hx fuel rest (by
          simp only [List.cons_append, List.length_cons, List.length_append,
            List.length_singleton, List.length_nil] at hf
          omega)
        cases hxs : xs with
        | nil => exact absurd hxs hx
        | cons x xs1 =>
          have hall1 : IsJson x ∧ AllJson xs1 := by rw [hxs] at hall; exact hall
          obtain ⟨c, r, hc, hw, hb, _⟩ := stringifyValue_head x hall1.1
          have hj : ∃ r1, joinComma (stringifyItems xs) ++ ']' :: rest = c :: r1 := by
            rw [hxs]
            by_cases h1 : xs1 = []
            · subst h1
              exact ⟨r ++ ']' :: rest, by simp [stringifyItems, hc, joinComma]⟩
            · rw [show stringifyItems (x :: xs1) = (c :: r) :: stringifyItems xs1 by
                simp [stringifyItems, hc],
                joinComma_cons_of_ne _ _ (stringifyItems_ne_nil xs1 h1)]
              exact ⟨r ++ ',' :: (joinComma (stringifyItems xs1) ++ ']' :: rest), by simp⟩
          obtain ⟨r1, hr1⟩ := hj
          rw [hr1] at hp
          rw [← hxs, hr1, parseValue_array fuel c r1 hw hb, hp]
          rfl
  | .obj ps, hy, t, ht, fuel, rest, hf, _ => by
    simp only [stringifyValue, Option.some.injEq] at ht
    subst ht
    have hall : AllJsonProps ps ∧ (ps.map Prod.fst).Pairwise keyBefore := by
      simpa [IsJson] using hy
    cases fuel with
    | zero => simp at hf
    | succ fuel =>
      have e : ('{' :: joinComma (stringifyMembers ps) ++ ['}']) ++ rest
          = '{' :: (joinComma (stringifyMembers ps) ++ '}' :: rest) := by simp
      rw [e]
      by_cases hx : ps = []
      · subst hx
        exact parseValue_object_empty fuel rest
      · have hp := parseMembers_stringify ps hall.1 hx fuel rest [] (by
          simp only [List.cons_append, List.length_cons, List.length_append,
            List.length_singleton, List.length_nil] at hf
          omega)
        rw [defineAll_ordered ps [] (by simpa using hall.2)] at hp
        cases hps : ps with
        | nil => exact absurd hps hx
        | cons p ps1 =>
          obtain ⟨k, v⟩ := p
          have hall1 : IsJson v ∧ AllJsonProps ps1 := by
            have := hall.1
            rw [hps] at this
            exact this
          obtain ⟨c, r, hc, _⟩ := stringifyValue_head v hall1.1
          have hj : ∃ r1, joinComma (stringifyMembers ps) ++ '}' :: rest = '"' :: r1 := by
            rw [hps, stringifyMembers_cons k v ps1 _ hc]
            by_cases h1 : ps1 = []
            · subst h1
              exact ⟨quoteJsonChars k.toList ++ '"' :: ':' :: c :: (r ++ '}' :: rest),
                by simp [stringifyMembers, joinComma, quoteJsonString]⟩
            · rw [joinComma_cons_of_ne _ _ (stringifyMembers_ne_nil ps1 hall1.2 h1)]
              exact ⟨quoteJsonChars k.toList ++ '"' :: ':' :: c ::
                  (r ++ ',' :: (joinComma (stringifyMembers ps1) ++ '}' :: rest)),
                by simp [quoteJsonString]⟩
          obtain ⟨r1, hr1⟩ := hj
          rw [hr1] at hp
          rw [← hps, hr1, parseValue_object fuel '"' r1 (by decide) (by decide), hp]
          rfl
  | .unsupported _, hy, _, _, _, _, _, _ => absurd hy (by simp [IsJson])
/-- Reading the texts of the elements of an array up to the closing bracket. -/
theorem parseElements_stringify : ∀ (xs : List Value), AllJson xs → xs ≠ [] →
    ∀ (fuel : Nat) (rest : List Char), (joinComma (stringifyItems xs)).length + 1 < fuel →
    parseElements fuel (joinComma (stringifyItems xs) ++ ']' :: rest) = some (xs, rest)
  | [], _, hne, _, _, _ => absurd rfl hne
  | x :: xs, hall, _, fuel, rest, hf => by
    have hall1 : IsJson x ∧ AllJson xs := hall
    obtain ⟨c, r, ht, _⟩ := stringifyValue_head x hall1.1
    have hitems : stringifyItems (x :: xs) = (c :: r) :: stringifyItems xs := by
      simp [stringifyItems, ht]
    rw [hitems] at hf ⊢
    cases fuel with
    | zero => simp at hf
    | succ fuel =>
      by_cases h1 : xs = []
      · subst h1
        simp only [stringifyItems, joinComma] at hf ⊢
        have hv := parseValue_stringify x hall1.1 (c :: r) ht fuel (']' :: rest)
          (by omega) (by simp)
        exact parseElements_last fuel _ rest x hv
      · have hne := stringifyItems_ne_nil xs h1
        rw [joinComma_cons_of_ne _ _ hne] at hf ⊢
        simp only [List.length_append, List.length_cons] at hf
        have hv := parseValue_stringify x hall1.1 (c :: r) ht fuel
          (',' :: (joinComma (stringifyItems xs) ++ ']' :: rest))
          (by simp only [List.length_cons]; omega) (by simp)
        have e : (c :: r ++ ',' :: joinComma (stringifyItems xs)) ++ ']' :: rest
            = (c :: r) ++ ',' :: (joinComma (stringifyItems xs) ++ ']' :: rest) := by simp
        rw [e, parseElements_more fuel _ _ x hv,
          parseElements_stringify xs hall1.2 h1 fuel rest (by omega)]
        rfl
/-- Reading the texts of the members of an object up to the closing brace. -/
theorem parseMembers_stringify : ∀ (ps : Props), AllJsonProps ps → ps ≠ [] →
    ∀ (fuel : Nat) (rest : List Char) (acc : Props),
    (joinComma (stringifyMembers ps)).length + 1 < fuel →
    parseMembers fuel (joinComma (stringifyMembers ps) ++ '}' :: rest) acc
      = some (ps.foldl (fun o kv => defineProp o kv.1 kv.2) acc, rest)
  | [], _, hne, _, _, _, _ => absurd rfl hne
  | (k, v) :: ps, hall, _, fuel, rest, acc, hf => by
    have hall1 : IsJson v ∧ AllJsonProps ps := hall
    obtain ⟨c, r, ht, _⟩ := stringifyValue_head v hall1.1
    rw [stringifyMembers_cons k v ps _ ht] at hf ⊢
    cases fuel with
    | zero => simp at hf
    | succ fuel =>
      by_cases h1 : ps = []
      · subst h1
        simp only [stringifyMembers, joinComma, List.length_append, List.length_cons] at hf ⊢
        have hv := parseValue_stringify v hall1.1 (c :: r) ht fuel ('}' :: rest)
          (by simp only [List.length_cons]; omega) (by simp)
        have e : (quoteJsonString k ++ ':' :: c :: r) ++ '}' :: rest
            = quoteJsonString k ++ ':' :: ((c :: r) ++ '}' :: rest) := by simp
        rw [e, parseMembers_last fuel k _ rest v acc hv]
        rfl
      · have hne := stringifyMembers_ne_nil ps hall1.2 h1
        rw [joinComma_cons_of_ne _ _ hne] at hf ⊢
        simp only [List.length_append, List.length_cons] at hf
        have hv := parseValue_stringify v hall1.1 (c :: r) ht fuel
          (',' :: (joinComma (stringifyMembers ps) ++ '}' :: rest))
          (by simp only [List.length_cons]; omega) (by simp)
        have e : ((quoteJsonString k ++ ':' :: c :: r) ++ ',' :: joinComma (stringifyMembers ps))
              ++ '}' :: rest
            = quoteJsonString k ++ ':' ::
                ((c :: r) ++ ',' :: (joinComma (stringifyMembers ps) ++ '}' :: rest)) := by
          simp
        rw [e, parseMembers_more fuel k _ _ v acc hv,
          parseMembers_stringify ps hall1.2 h1 fuel rest _ (by omega)]
        rfl
end

end FlowVersion


namespace FlowVersion

/-! ## Uncontested changes in `threeWayAtomMerge` -/

/-- Canonical values with the same JSON text are equal. -/
theorem jsonStringify_injective {a b : Value} (ha : Canonical a) (hb : Canonical b)
    (h : jsonStringify a = jsonStringify b) : a = b := by
  have ja := isJson_of_canonicalize a a ha
  have jb := isJson_of_canonicalize b b hb
  obtain ⟨c, r, hta, _⟩ := stringifyValue_head a ja
  obtain ⟨d, s, htb, _⟩ := stringifyValue_head b jb
  unfold jsonStringify at h
  rw [hta, htb] at h
  have h1 : c :: r = d :: s := congrArg String.data h
  have pa := parseValue_stringify a ja (c :: r) hta ((c :: r).length + 1) [] (by omega)
    (fun x hx => by cases hx)
  have pb := parseValue_stringify b jb (d :: s) htb ((d :: s).length + 1) [] (by omega)
    (fun x hx => by cases hx)
  rw [h1] at pa
  rw [pa] at pb
  simp only [Option.some.injEq, Prod.mk.injEq, and_true] at pb
  exact pb

/-- The rows of the merge table without a conflict, for an atom present in base: a side whose
bytes equal those of base gives way to the other side (its value, or its deletion); a deletion
on both sides deletes; equal bytes on both sides give that value. -/
theorem threeWayAtomMerge_uncontested (P : Platform) (base left right : Value)
    (selector : String) (hb : truthy base = true) :
    (truthy left = true → Canonical left → jsonStringify left = jsonStringify base →
      truthy right = true → Canonical right →
      threeWayAtomMerge P base left right selector = .ok ⟨right, .null⟩) ∧
    (truthy left = true → jsonStringify left = jsonStringify base → truthy right = false →
      threeWayAtomMerge P base left right selector = .ok ⟨.null, .null⟩) ∧
    (truthy right = true → Canonical right → jsonStringify right = jsonStringify base →
      truthy left = true → Canonical left →
      threeWayAtomMerge P base left right selector = .ok ⟨left, .null⟩) ∧
    (truthy right = true → jsonStringify right = jsonStringify base → truthy left = false →
      threeWayAtomMerge P base left right selector = .ok ⟨.null, .null⟩) ∧
    (truthy left = false → truthy right = false →
      threeWayAtomMerge P base left right selector = .ok ⟨.null, .null⟩) ∧
    (truthy left = true → truthy right = true → jsonStringify left = jsonStringify right →
      threeWayAtomMerge P base left right selector = .ok ⟨left, .null⟩) := by
  refine ⟨?_, ?_, ?_, ?_, ?_, ?_⟩
  · intro hl hcl he hr hcr
    by_cases hlr : jsonStringify left = jsonStringify right
    · have : left = right := jsonStringify_injective hcl hcr hlr
      subst this
      simp [threeWayAtomMerge, hb, hl, jsonOrNull_truthy]
    · have hbr : ¬ jsonStringify base = jsonStringify right := by
        intro h
        exact hlr (he.trans h)
      simp [threeWayAtomMerge, hb, hl, hr, jsonOrNull_truthy, he, hlr, hbr]
  · intro hl he hr
    simp [threeWayAtomMerge, hb, hl, hr, jsonOrNull_truthy, jsonOrNull_falsy, he]
  · intro hr hcr he hl hcl
    by_cases hlr : jsonStringify left = jsonStringify right
    · simp [threeWayAtomMerge, hb, hl, hr, jsonOrNull_truthy, hlr]
    · have hbl : ¬ jsonStringify base = jsonStringify left := by
        intro h
        exact hlr (h.symm.trans he.symm)
      simp [threeWayAtomMerge, hb, hl, hr, jsonOrNull_truthy, he, hlr, hbl]
  · intro hr he hl
    simp [threeWayAtomMerge, hb, hl, hr, jsonOrNull_truthy, jsonOrNull_falsy, he]
  · intro hl hr
    simp [threeWayAtomMerge, hb, hl, hr, jsonOrNull_truthy, jsonOrNull_falsy]
  · intro hl hr he
    simp [threeWayAtomMerge, hb, hl, hr, jsonOrNull_truthy, he]

end FlowVersion


namespace FlowVersion

/-! ## Claims about the canonicalizer -/

/-- C6. `canonicalize` is idempotent: whenever `canonicalize(x)` succeeds with the value `y`,
`canonicalize(y)` succeeds and returns `y` again.  This covers strings rewritten by UUID or hash
lower-casing and by timestamp normalization, and nested arrays and objects. -/
theorem canonicalize_idempotent (x y : Value) (h : canonicalize x = .ok y) :
    canonicalize y = .ok y :=
  canonicalize_idem x y h

/-- C6, at an object with an upper-case UUID, a timestamp with an offset, an undefined
property, unsorted keys and a nested array. -/
theorem canonicalize_idempotent_witness :
    canonicalize sampleValue = .ok sampleCanonical ∧
    canonicalize sampleCanonical = .ok sampleCanonical :=
  ⟨rfl, canonicalize_idempotent sampleValue sampleCanonical rfl⟩

/-- C8, evaluated at the object `{"2": null, "10": null}`: the canonical object enumerates (and
`JSON.stringify` prints) the key `2` before the key `10`, although `10` precedes `2` in
code-point order; the keys that are array indices come first, in numeric order. -/
theorem canonicalize_index_keys_order :
    canonicalize (.obj [("2", .null), ("10", .null)]) = .ok (.obj [("2", .null), ("10", .null)]) ∧
    jsonStringify (.obj [("2", .null), ("10", .null)]) = "\x7b\"2\":null,\"10\":null\x7d" ∧
    codePointLt "10" "2" = true ∧ strLt "10" "2" = true :=
  ⟨rfl, by decide, by decide, by decide⟩

theorem rat_eq_intCast_of_den {q : ℚ} (h : q.den = 1) : q = ((q.num : Int) : ℚ) :=
  (Rat.coe_int_num_of_den_eq_one h).symm

/-- C9. For every number `n`: `canonicalize(n)` returns `n` itself exactly when `n` is an
integer `i` with `|i| ≤ 2^53 - 1`, and it never returns anything else; a non-finite `n` fails
with the non-finite error, a finite `n` with a fractional part with the non-integer error, an
integer beyond `2^53 - 1` in absolute value with the unsafe-integer error; `canonicalize` of
`undefined` fails with the undefined-value error.  In particular `0.5` and `2^53` fail. -/
theorem canonicalize_number_cases (n : JSNumber) :
    (canonicalize (.num n) = .ok (.num n) ↔
      ∃ i : Int, n = .finite (i : ℚ) ∧ i.natAbs ≤ 2 ^ 53 - 1) ∧
    (∀ y, canonicalize (.num n) = .ok y → y = .num n) ∧
    (n.isFinite = false → canonicalize (.num n) = .error (.nonFiniteNumber n)) ∧
    (∀ q : ℚ, n = .finite q → q.den ≠ 1 →
      canonicalize (.num n) = .error (.nonIntegerNumber n)) ∧
    (∀ i : Int, n = .finite (i : ℚ) → 2 ^ 53 - 1 < i.natAbs →
      canonicalize (.num n) = .error (.unsafeInteger n)) ∧
    canonicalize .undefined = .error .undefinedValue ∧
    canonicalize (.num (.finite (1 / 2))) = .error (.nonIntegerNumber (.finite (1 / 2))) ∧
    canonicalize (.num (.finite (2 ^ 53))) = .error (.unsafeInteger (.finite (2 ^ 53))) ∧
    canonicalize (.num (.finite (2 ^ 53 - 1))) = .ok (.num (.finite (2 ^ 53 - 1))) ∧
    canonicalize (.num .nan) = .error (.nonFiniteNumber .nan) := by
  have hmax : maxSafeInteger = 2 ^ 53 - 1 := by decide
  refine ⟨?_, ?_, ?_, ?_, ?_, rfl, ?_, ?_, ?_, rfl⟩
  · constructor
    · intro h
      cases n with
      | finite q =>
        simp only [canonicalize, canonicalizeNumber, JSNumber.isFinite, JSNumber.isInteger,
          JSNumber.isSafeInteger] at h
        by_cases hd : q.den = 1
        · by_cases hs : q.num.natAbs ≤ maxSafeInteger
          · exact ⟨q.num, by rw [← rat_eq_intCast_of_den hd], by rw [← hmax]; exact hs⟩
          · simp [hd, hs, okNum] at h
        · simp [hd, okNum] at h
      | nan => simp [canonicalize, canonicalizeNumber, JSNumber.isFinite, okNum] at h
      | posInf => simp [canonicalize, canonicalizeNumber, JSNumber.isFinite, okNum] at h
      | negInf => simp [canonicalize, canonicalizeNumber, JSNumber.isFinite, okNum] at h
    · rintro ⟨i, rfl, hi⟩
      rw [← hmax] at hi
      simp [canonicalize, canonicalizeNumber, JSNumber.isFinite, JSNumber.isInteger,
        JSNumber.isSafeInteger, okNum, hi]
  · intro y h
    simp only [canonicalize] at h
    cases hn : canonicalizeNumber n with
    | error e => simp [hn, okNum] at h
    | ok m =>
      simp only [hn, okNum, Except.ok.injEq] at h
      rw [← h, canonicalizeNumber_ok hn]
  · intro h
    simp [canonicalize, canonicalizeNumber, h, okNum]
  · rintro q rfl hq
    simp [canonicalize, canonicalizeNumber, JSNumber.isFinite, JSNumber.isInteger, hq, okNum]
  · rintro i rfl hi
    rw [← hmax] at hi
    simp [canonicalize, canonicalizeNumber, JSNumber.isFinite, JSNumber.isInteger,
      JSNumber.isSafeInteger, okNum, Nat.not_le.mpr hi]
  · have : (1 / 2 : ℚ).den ≠ 1 := by norm_num
    simp [canonicalize, canonicalizeNumber, JSNumber.isFinite, JSNumber.isInteger, this, okNum]
  · have h1 : ((2 : ℚ) ^ 53).den = 1 := by norm_num
    have h2 : ((2 : ℚ) ^ 53).num = 2 ^ 53 := by norm_num
    simp [canonicalize, canonicalizeNumber, JSNumber.isFinite, JSNumber.isInteger,
      JSNumber.isSafeInteger, okNum, h1, h2, maxSafeInteger]
  · have h1 : ((2 : ℚ) ^ 53 - 1).den = 1 := by norm_num
    have h2 : ((2 : ℚ) ^ 53 - 1).num = 2 ^ 53 - 1 := by norm_num
    simp [canonicalize, canonicalizeNumber, JSNumber.isFinite, JSNumber.isInteger,
      JSNumber.isSafeInteger, okNum, h1, h2, maxSafeInteger]

end FlowVersion


namespace FlowVersion

/-! ## The merge engine (C1 to C5) -/

/-- C1, evaluated at the state `S = canonicalizeDomain({nodes: [], edges: [{from: " a",
to: "b"}]})`, on every platform: `S` is an output of `canonicalizeDomain` with one edge, whose
id is the default `" a->b"`; `merge(S, S, S)` reports no conflict but returns a merged graph
whose edge has the id `"a->b"`, which is not `S`, because `merge` normalizes its inputs again
and normalization trims an id it is given but not the default id it builds. -/
theorem merge_same_state_untrimmed_edge (P : Platform) :
    canonicalizeDomain P untrimmedGraph = .ok (edgesOnly [untrimmedEdge " a->b" .null]) ∧
    merge P (edgesOnly [untrimmedEdge " a->b" .null]) (edgesOnly [untrimmedEdge " a->b" .null])
        (edgesOnly [untrimmedEdge " a->b" .null])
      = .ok (.obj [("conflicts", .arr []),
          ("merged", edgesOnly [untrimmedEdge "a->b" .null])]) ∧
    edgesOnly [untrimmedEdge "a->b" .null] ≠ edgesOnly [untrimmedEdge " a->b" .null] ∧
    canonicalizeDomain P (edgesOnly [untrimmedEdge " a->b" .null])
      = .ok (edgesOnly [untrimmedEdge "a->b" .null]) :=
  ⟨canonicalizeDomain_untrimmed P, merge_untrimmed P, untrimmed_ne,
    canonicalizeDomain_untrimmed_again P⟩

/-- C2, evaluated at three graphs that each hold the one edge `{from: " a", to: "b"}` with the
label `x` (base), `y` (left) and `z` (right), on every platform: the three normalized graphs
hold the atom `" a->b"` with pairwise different bytes; `merge` reports one `edit_edit`
conflict of severity `error` for the selector `"edge: a->b"`, but the merged graph holds no
edge `" a->b"`: its only edge is the base edge with the id changed to `"a->b"`. -/
theorem merge_edit_edit_untrimmed_edge (P : Platform) :
    (canonicalizeDomain P (untrimmedLabelled "x")
        = .ok (edgesOnly [untrimmedEdge " a->b" (.str "x")]) ∧
      canonicalizeDomain P (untrimmedLabelled "y")
        = .ok (edgesOnly [untrimmedEdge " a->b" (.str "y")]) ∧
      canonicalizeDomain P (untrimmedLabelled "z")
        = .ok (edgesOnly [untrimmedEdge " a->b" (.str "z")])) ∧
    (∃ cid, merge P (untrimmedLabelled "x") (untrimmedLabelled "y") (untrimmedLabelled "z")
      = .ok (.obj [("conflicts", .arr [conflictRecord
          { type := "edit_edit", selector := "edge: a->b", severity := "error",
            reason := "Both sides edited the atom differently",
            allowed_resolutions := ["take_left", "take_right", "take_base", "manual"],
            default_resolution := none } cid]),
        ("merged", edgesOnly [untrimmedEdge "a->b" (.str "x")])])) ∧
    untrimmedEdge "a->b" (.str "x") ≠ untrimmedEdge " a->b" (.str "x") :=
  ⟨canonicalizeDomain_labelled P, merge_labelled P, by simp [untrimmedEdge]⟩

/-- C3, evaluated on every platform at the base graph with the one edge `{from: " a", to: "b",
label: "x"}` (default id `" a->b"`), once with left empty and right holding the edge with the
label `z`, once with left holding the edge with the label `y` and right empty: `merge` reports
the `delete_edit` and the `edit_delete` conflict of severity `error` for the selector
`"edge: a->b"`, but the edge it returns is not the base value: its id is `"a->b"`. -/
theorem merge_deleted_on_one_side_untrimmed_edge (P : Platform) :
    canonicalizeDomain P (untrimmedLabelled "x")
        = .ok (edgesOnly [untrimmedEdge " a->b" (.str "x")]) ∧
    (∃ cid, merge P (untrimmedLabelled "x") emptyGraph (untrimmedLabelled "z")
      = .ok (.obj [("conflicts", .arr [conflictRecord
          { type := "delete_edit", selector := "edge: a->b", severity := "error",
            reason := "Left deleted the atom while right edited it",
            allowed_resolutions := ["take_delete", "take_right", "take_base", "manual"],
            default_resolution := none } cid]),
        ("merged", edgesOnly [untrimmedEdge "a->b" (.str "x")])])) ∧
    (∃ cid, merge P (untrimmedLabelled "x") (untrimmedLabelled "y") emptyGraph
      = .ok (.obj [("conflicts", .arr [conflictRecord
          { type := "edit_delete", selector := "edge: a->b", severity := "error",
            reason := "Right deleted the atom while left edited it",
            allowed_resolutions := ["take_delete", "take_left", "take_base", "manual"],
            default_resolution := none } cid]),
        ("merged", edgesOnly [untrimmedEdge "a->b" (.str "x")])])) ∧
    untrimmedEdge "a->b" (.str "x") ≠ untrimmedEdge " a->b" (.str "x") :=
  ⟨(canonicalizeDomain_labelled P).1, merge_delete_edit_untrimmed P,
    merge_edit_delete_untrimmed P, by simp [untrimmedEdge]⟩

/-- C4. For an atom absent in base (a falsy value, undefined when the id is missing from the
map) and canonical atoms present on both sides, with a selector that `canonicalize` leaves
alone: when the bytes of left and right differ, `threeWayAtomMerge` returns the left value and
an `add_add` conflict of severity `warning` with `default_resolution` `take_left`; when the
bytes are identical it returns the value with no conflict. -/
theorem threeWayAtomMerge_added_on_both_sides (P : Platform) (base left right : Value)
    (selector : String) (hb : truthy base = false) (hl : truthy left = true)
    (hr : truthy right = true) (hcb : isUndefined base = true ∨ Canonical base)
    (hcl : Canonical left) (hcr : Canonical right) (hsel : PlainString selector) :
    (jsonStringify left ≠ jsonStringify right →
      ∃ cid, threeWayAtomMerge P base left right selector = .ok ⟨left, conflictRecord
        { type := "add_add", selector := selector, severity := "warning",
          reason := "Both sides added the atom differently",
          allowed_resolutions := ["take_left", "take_right", "manual"],
          default_resolution := some "take_left" } cid⟩) ∧
    (jsonStringify left = jsonStringify right →
      threeWayAtomMerge P base left right selector = .ok ⟨left, .null⟩) := by
  constructor
  · intro hne
    obtain ⟨c, _, h⟩ := threeWayAtomMerge_add_add P base left right selector hb hl hr
      hcb hcl hcr hsel hne
    exact ⟨c, h⟩
  · intro he
    exact threeWayAtomMerge_add_same P base left right selector hb hl hr he

theorem threeWayAtomMerge_added_on_both_sides_witness :
    (jsonStringify (sampleNode "y") ≠ jsonStringify (sampleNode "z") →
      ∃ cid, threeWayAtomMerge samplePlatform .undefined (sampleNode "y") (sampleNode "z")
        "node:A" = .ok ⟨sampleNode "y", conflictRecord
        { type := "add_add", selector := "node:A", severity := "warning",
          reason := "Both sides added the atom differently",
          allowed_resolutions := ["take_left", "take_right", "manual"],
          default_resolution := some "take_left" } cid⟩) ∧
    (jsonStringify (sampleNode "y") = jsonStringify (sampleNode "z") →
      threeWayAtomMerge samplePlatform .undefined (sampleNode "y") (sampleNode "z") "node:A"
        = .ok ⟨sampleNode "y", .null⟩) :=
  threeWayAtomMerge_added_on_both_sides samplePlatform .undefined (sampleNode "y")
    (sampleNode "z") "node:A" rfl rfl rfl (Or.inl rfl) rfl rfl rfl

/-- C5, evaluated on every platform at the base graph with the edges `{id: "a->b", from: " a",
to: "b"}` (the edge `E`) and `{from: " a", to: "b"}` (default id `" a->b"`), a left graph that
holds only the second edge, and right equal to base: left deletes `E`, right leaves it
unchanged, `merge` reports no conflict, and the merged graph holds the edge `E`: the kept
second edge is normalized again and its id trimmed to `"a->b"`. -/
theorem merge_accepted_delete_untrimmed_edge (P : Platform) :
    (∃ B, canonicalizeDomain P twoEdgeGraph = .ok (edgesOnly B) ∧
      untrimmedEdge "a->b" .null ∈ B) ∧
    canonicalizeDomain P untrimmedGraph = .ok (edgesOnly [untrimmedEdge " a->b" .null]) ∧
    untrimmedEdge "a->b" .null ∉ [untrimmedEdge " a->b" .null] ∧
    merge P twoEdgeGraph untrimmedGraph twoEdgeGraph
      = .ok (.obj [("conflicts", .arr []),
          ("merged", edgesOnly [untrimmedEdge "a->b" .null])]) := by
  refine ⟨?_, canonicalizeDomain_untrimmed P, by simp [untrimmedEdge], merge_twoEdge P⟩
  rcases canonicalizeDomain_twoEdge P with h | h
  · exact ⟨_, h, by simp⟩
  · exact ⟨_, h, by simp⟩

end FlowVersion


namespace FlowVersion

/-! ## The validator (C10) -/

/-- A graph-shaped state normalizes to a graph-shaped state. -/
theorem looksLikeGraph_normalized (P : Platform) (state g : Value)
    (h : looksLikeGraph state = true) (hg : canonicalizeDomain P state = .ok g) :
    looksLikeGraph g = true := by
  unfold canonicalizeDomain at hg
  rw [if_pos h] at hg
  unfold normalizeGraph at hg
  split at hg
  · cases hg
  · split at hg
    · cases hg
    · simp only at hg
      rw [canonicalize_obj] at hg
      revert hg
      generalize hR : canonicalizeObject _ = R
      intro hg
      cases R with
      | error e => simp [okObj] at hg
      | ok R =>
        simp only [okObj, Except.ok.injEq] at hg
        subst hg
        have hk := lookupProp_canonicalizeObject hR "kind" (by decide)
        simp only [lookupProp] at hk
        simp [looksLikeGraph, isPlainObject, getProp, hk, isUndefined, canonicalize, okStr,
          canonicalizeString_of_nonhex "workflow_graph@1" 0 (by decide) 'w' rfl rfl]

theorem cycleGraph_hasCycle : HasCycle cycleGraphNormal := by
  refine ⟨"A", Relation.TransGen.tail (Relation.TransGen.single (b := "B") ?_) ?_⟩
  · show ("A", "B") ∈ edgePairs (propItems cycleGraphNormal "edges")
    decide
  · show ("B", "A") ∈ edgePairs (propItems cycleGraphNormal "edges")
    decide

/-- C10. For every state that is graph-shaped, that normalizes (to `g`), and whose normalized
edges all have a `from` and a `to` among the node ids: `validate` returns a result whose
issues include one with the code `CYCLE_DETECTED` if and only if the graph has a directed
cycle; every such issue has severity `error`; and with a cycle `valid` is false. -/
theorem validate_cycle_detected (P : Platform) (state g : Value)
    (hshape : looksLikeGraph state = true) (hg : canonicalizeDomain P state = .ok g)
    (hrefs : ∀ e ∈ propItems g "edges",
      propString e "from" ∈ nodeIds g ∧ propString e "to" ∈ nodeIds g) :
    ∃ issues hash valid, validate P state
        = .ok (.obj [("issues", .arr issues), ("state_hash", .str hash), ("v", natValue 1),
            ("valid", .bool valid)]) ∧
      ((∃ x ∈ issues, propIs x "code" "CYCLE_DETECTED" = true) ↔ HasCycle g) ∧
      (∀ x ∈ issues, propIs x "code" "CYCLE_DETECTED" = true →
        propIs x "severity" "error" = true) ∧
      (HasCycle g → valid = false) := by
  obtain ⟨issues, hash, valid, hv, hiff, hsev, hvalid⟩ := validate_graph P state g hg
    (looksLikeGraph_normalized P state g hshape hg)
  have hc := hasCycle_iff g (fun e he => (hrefs e he).1)
  refine ⟨issues, hash, valid, hv, hiff.trans hc, hsev, ?_⟩
  intro hcyc
  obtain ⟨x, hx, hcode⟩ := (hiff.trans hc).2 hcyc
  rw [hvalid, List.all_eq_false]
  exact ⟨x, hx, by simp [hsev x hx hcode]⟩

theorem validate_cycle_detected_witness :
    HasCycle cycleGraphNormal ∧
    ∃ issues hash valid, validate samplePlatform cycleGraph
        = .ok (.obj [("issues", .arr issues), ("state_hash", .str hash), ("v", natValue 1),
            ("valid", .bool valid)]) ∧
      ((∃ x ∈ issues, propIs x "code" "CYCLE_DETECTED" = true) ↔ HasCycle cycleGraphNormal) ∧
      (∀ x ∈ issues, propIs x "code" "CYCLE_DETECTED" = true →
        propIs x "severity" "error" = true) ∧
      (HasCycle cycleGraphNormal → valid = false) :=
  ⟨cycleGraph_hasCycle,
    validate_cycle_detected samplePlatform cycleGraph cycleGraphNormal rfl rfl (by decide)⟩

end FlowVersion


namespace FlowVersion

/-! ## The round trip through bytes (C7) -/

/-- `JSON.parse` reads the text of a JSON value back as the value. -/
theorem jsonParse_stringify (y : Value) (hy : IsJson y) (t : List Char)
    (ht : stringifyValue y = some t) : jsonParse (String.mk t) = some y := by
  have h := parseValue_stringify y hy t ht (2 * t.length + 2) [] (by omega)
    (fun c hc => by cases hc)
  rw [List.append_nil] at h
  unfold jsonParse
  have e1 : (String.mk t).length = t.length := rfl
  have e2 : (String.mk t).toList = t := rfl
  rw [e1, e2, h]
  rfl

/-- `deserialize` after `serialize` is `canonicalize` on a JSON value. -/
theorem deserialize_serialize (y : Value) (hy : IsJson y) :
    deserialize (serialize y) = canonicalize y := by
  obtain ⟨c, r, ht, _, _, _, hc⟩ := stringifyValue_head y hy
  unfold deserialize serialize
  rw [ht]
  simp only
  rw [textDecode_utf8Bytes c r hc, jsonParse_stringify y hy (c :: r) ht]

/-- C7. For every value `x` on which `canonicalize` succeeds, with result `y`:
`deserialize(serialize(y))` succeeds and returns `y`. -/
theorem deserialize_serialize_canonicalize (x y : Value) (h : canonicalize x = .ok y) :
    deserialize (serialize y) = .ok y := by
  rw [deserialize_serialize y (isJson_of_canonicalize x y h)]
  exact canonicalize_idem x y h

theorem deserialize_serialize_canonicalize_witness :
    canonicalize sampleValue = .ok sampleCanonical ∧
      deserialize (serialize sampleCanonical) = .ok sampleCanonical :=
  ⟨rfl, deserialize_serialize_canonicalize sampleValue sampleCanonical rfl⟩

end FlowVersion


namespace FlowVersion

/-! ## The issues of `validate`, rule by rule -/

theorem propString_issueRecord_severity (i : IssueSpec) (iid : String) :
    propString (issueRecord i iid) "severity" = i.severity := by
  cases hr : i.region_hint <;> simp [propString, issueRecord, getProp, lookupProp, hr]

theorem issueAtoms_issueRecord (i : IssueSpec) (iid : String) :
    issueAtoms (issueRecord i iid) = i.atoms := by
  have h : propItems (issueRecord i iid) "atoms" = i.atoms.map Value.str := by
    simp [propItems, issueRecord, getProp, lookupProp, strArray]
  rw [issueAtoms, h, List.map_map]
  exact (List.map_congr_left (fun a _ => rfl)).trans (List.map_id _)

theorem getProp_issueRecord_fix (i : IssueSpec) (iid : String) (v : Value)
    (h : i.suggested_fix = some v) : getProp (issueRecord i iid) "suggested_fix" = v := by
  cases hr : i.region_hint <;> simp [issueRecord, getProp, lookupProp, hr, h]

/-- The issues with a given code are the records of the arguments with that code. -/
theorem issuesWith_records (code : String) {specs : List IssueSpec} {issues : List Value}
    (h : List.Forall₂ (fun i x => ∃ iid, x = issueRecord i iid) specs issues) :
    issuesWith code issues
      = (specs.filter (fun i => i.code == code)).map (fun i => (i.severity, i.atoms)) := by
  induction h with
  | nil => rfl
  | cons hx _ ih =>
    obtain ⟨iid, rfl⟩ := hx
    unfold issuesWith at ih ⊢
    simp only [List.filter_cons, propIs_issueRecord_code]
    split_ifs
    · simp only [List.map_cons, propString_issueRecord_severity, issueAtoms_issueRecord, ih]
    · exact ih

theorem mem_records {specs : List IssueSpec} {issues : List Value}
    (h : List.Forall₂ (fun i x => ∃ iid, x = issueRecord i iid) specs issues) :
    ∀ x ∈ issues, ∃ i ∈ specs, ∃ iid, x = issueRecord i iid := by
  induction h with
  | nil => intro x hx; cases hx
  | cons hx _ ih =>
    intro x hmem
    rcases List.mem_cons.1 hmem with rfl | hmem
    · exact ⟨_, List.mem_cons_self _ _, hx⟩
    · obtain ⟨i, hi, h2⟩ := ih x hmem
      exact ⟨i, List.mem_cons_of_mem _ hi, h2⟩

theorem filter_code (l : List IssueSpec) (c d : String) (h : ∀ i ∈ l, i.code = c) :
    l.filter (fun i => i.code == d) = if c = d then l else [] := by
  split_ifs with hcd
  · subst hcd
    exact List.filter_eq_self.2 (fun i hi => by simp [h i hi])
  · exact List.filter_eq_nil_iff.2 (fun i hi => by simp [h i hi, hcd])

theorem startIssues_code (nodes : List Value) :
    ∀ i ∈ startIssues nodes, i.code = "MISSING_OR_AMBIGUOUS_START_NODE" := by
  intro i hi
  unfold startIssues at hi
  simp only at hi
  by_cases h1 : ((List.filter (fun n => propIs n "type" "start") nodes).length != 1) = true
  · rw [if_pos h1] at hi
    rw [List.mem_singleton.1 hi]
  · rw [if_neg h1] at hi
    cases hi

theorem endIssues_code (nodes : List Value) :
    ∀ i ∈ endIssues nodes, i.code = "MISSING_END_NODE" := by
  intro i hi
  unfold endIssues at hi
  split_ifs at hi
  · rw [List.mem_singleton.1 hi]
  · cases hi

theorem orphanIssues_code (ids : List String) (edges : List Value) :
    ∀ i ∈ orphanIssues ids edges, i.code = "ORPHAN_EDGE" := by
  induction edges with
  | nil => intro i hi; cases hi
  | cons e es ih =>
    intro i hi
    unfold orphanIssues at hi
    simp only at hi
    by_cases h1 : (!decide (propString e "from" ∈ ids) || !decide (propString e "to" ∈ ids))
        = true
    · rw [if_pos h1] at hi
      rcases List.mem_cons.1 hi with rfl | hi
      · rfl
      · exact ih i hi
    · rw [if_neg h1] at hi
      exact ih i hi

theorem taskIssues_code (nodes : List Value) :
    ∀ i ∈ taskIssues nodes, i.code = "MISSING_REQUIRED_FIELD" ∧
      i.suggested_fix = some (.obj [("set", .obj [("config.task_key", .str "<task_key>")])]) := by
  induction nodes with
  | nil => intro i hi; cases hi
  | cons n ns ih =>
    intro i hi
    unfold taskIssues at hi
    split_ifs at hi
    · rcases List.mem_cons.1 hi with rfl | hi
      · exact ⟨rfl, rfl⟩
      · exact ih i hi
    · exact ih i hi

theorem cycleIssues_code (c : Option (List String)) :
    ∀ i ∈ cycleIssues c, i.code = "CYCLE_DETECTED" := by
  intro i hi
  cases c with
  | none => cases hi
  | some c => rw [List.mem_singleton.1 hi]

theorem unreachableIssues_code (reachable ids : List String) :
    ∀ i ∈ unreachableIssues reachable ids, i.code = "UNREACHABLE_NODE" ∧
      i.severity = "warning" := by
  induction ids with
  | nil => intro i hi; cases hi
  | cons id ids ih =>
    intro i hi
    unfold unreachableIssues at hi
    split_ifs at hi
    · exact ih i hi
    · rcases List.mem_cons.1 hi with rfl | hi
      · exact ⟨rfl, rfl⟩
      · exact ih i hi

/-- The issues of the reachability rule: none without a unique start node, else those of the
ids that `reachableFrom` does not return. -/
theorem reachabilityIssues_spec (startNodes : List Value) (edges : List (String × String))
    (ids : List String) :
    ∃ un, reachabilityIssues startNodes edges ids = some un ∧
      (startNodes.length ≠ 1 → un = []) ∧
      (∀ s, startNodes = [s] → ∃ reachable,
        reachableFrom (propString s "id") edges = some reachable ∧
        un = unreachableIssues reachable ids) := by
  unfold reachabilityIssues
  split
  · next s =>
    obtain ⟨rs, hrs⟩ := reachableFrom_total (propString s "id") edges
    rw [hrs]
    refine ⟨_, rfl, fun h => absurd rfl h, fun s1 h1 => ?_⟩
    simp only [List.cons.injEq, and_true] at h1
    subst h1
    exact ⟨rs, hrs, rfl⟩
  · next hne =>
    refine ⟨[], rfl, fun _ => rfl, fun s h1 => absurd h1 (hne s)⟩

/-- On a state that normalizes to a graph, `findCycle` and `reachableFrom` return, `validate`
returns, and its issues are the records of the arguments of `makeIssue`, in order. -/
theorem validate_records (P : Platform) (state g : Value)
    (hg : canonicalizeDomain P state = .ok g) (hgraph : looksLikeGraph g = true) :
    ∃ cycle un issues hash,
      findCycle (nodeIds g) (edgePairs (propItems g "edges")) = some cycle ∧
      reachabilityIssues (startNodes g) (edgePairs (propItems g "edges")) (nodeIds g)
        = some un ∧
      validate P state = .ok (.obj [("issues", .arr issues), ("state_hash", .str hash),
        ("v", natValue 1),
        ("valid", .bool (issues.all (fun i => !propIs i "severity" "error")))]) ∧
      List.Forall₂ (fun i x => ∃ iid, x = issueRecord i iid) (issueSpecs g cycle un) issues := by
  obtain ⟨cycle, hcycle, _⟩ := findCycle_spec (nodeIds g) (edgePairs (propItems g "edges"))
  obtain ⟨un, hun, hne, hone⟩ := reachabilityIssues_spec (startNodes g)
    (edgePairs (propItems g "edges")) (nodeIds g)
  have hun2 : ∀ i ∈ un, i.Plain := by
    intro i hi
    by_cases hl : (startNodes g).length = 1
    · obtain ⟨s, hs⟩ := List.length_eq_one.1 hl
      obtain ⟨rs, _, hrs⟩ := hone s hs
      rw [hrs] at hi
      exact (unreachableIssues_plain _ _ i hi).1
    · rw [hne hl] at hi
      cases hi
  have hplain : ∀ i ∈ issueSpecs g cycle un, i.Plain := by
    intro i hi
    simp only [issueSpecs, List.mem_append] at hi
    rcases hi with ((((hi | hi) | hi) | hi) | hi) | hi
    · exact (startIssues_plain _ i hi).1
    · exact (endIssues_plain _ i hi).1
    · exact (orphanIssues_plain _ _ i hi).1
    · exact (taskIssues_plain _ i hi).1
    · exact (cycleIssues_plain _ i hi).1
    · exact hun2 i hi
  have hspecs : graphIssues g = some (issueSpecs g cycle un) := by
    have hr1 : findCycle ((mapById (propItems g "nodes")).map Prod.fst)
        (edgePairs (propItems g "edges")) = some cycle := hcycle
    have hun3 : reachabilityIssues
        ((propItems g "nodes").filter (fun n => propIs n "type" "start"))
        (edgePairs (propItems g "edges")) ((mapById (propItems g "nodes")).map Prod.fst)
          = some un := hun
    unfold graphIssues
    simp only [hr1, hun3]
    rfl
  obtain ⟨issues, hissues, hcan, hall⟩ := makeIssues_ok P _ hplain
  obtain ⟨h1, hh1⟩ := canonicalizeString_succeeds_of_no_T
    (toLowerCase (sha256HexString P (jsonStringify g))) (toLowerCase_no_T _)
  refine ⟨cycle, un, issues, h1, hcycle, hun, ?_, hall⟩
  unfold validate
  simp only [hg, hgraph, hspecs, hissues, Bool.not_true, Bool.false_eq_true, if_false]
  exact canonicalize_result _ _ _ _ hcan hh1

/-- On a state that normalizes to a value that is no graph, `validate` returns a result
without issues. -/
theorem validate_opaque (P : Platform) (state g : Value)
    (hg : canonicalizeDomain P state = .ok g) (hgraph : looksLikeGraph g = false) :
    ∃ hash, validate P state = .ok (.obj [("issues", .arr []), ("state_hash", .str hash),
      ("v", natValue 1), ("valid", .bool true)]) := by
  obtain ⟨h1, hh1⟩ := canonicalizeString_succeeds_of_no_T
    (toLowerCase (sha256HexString P (jsonStringify g))) (toLowerCase_no_T _)
  refine ⟨h1, ?_⟩
  unfold validate
  simp only [hg, hgraph, Bool.not_false, if_true]
  exact canonicalize_result [] _ _ true (fun x hx => (by cases hx)) hh1

theorem reachabilityIssues_code {startNodes : List Value} {edges : List (String × String)}
    {ids : List String} {un : List IssueSpec}
    (h : reachabilityIssues startNodes edges ids = some un) :
    ∀ i ∈ un, i.code = "UNREACHABLE_NODE" ∧ i.severity = "warning" := by
  obtain ⟨un1, hun1, hne, hone⟩ := reachabilityIssues_spec startNodes edges ids
  have he : un1 = un := Option.some.inj (hun1.symm.trans h)
  subst he
  intro i hi
  by_cases hl : startNodes.length = 1
  · obtain ⟨s, hs⟩ := List.length_eq_one.1 hl
    obtain ⟨rs, _, hrs⟩ := hone s hs
    rw [hrs] at hi
    exact unreachableIssues_code _ _ i hi
  · rw [hne hl] at hi
    cases hi

/-- The arguments of `makeIssue` with a given code. -/
theorem issueSpecs_filter (g : Value) (cycle : Option (List String)) (un : List IssueSpec)
    (hun : ∀ i ∈ un, i.code = "UNREACHABLE_NODE") (d : String) :
    (issueSpecs g cycle un).filter (fun i => i.code == d)
      = (if "MISSING_OR_AMBIGUOUS_START_NODE" = d then startIssues (propItems g "nodes") else [])
        ++ (if "MISSING_END_NODE" = d then endIssues (propItems g "nodes") else [])
        ++ (if "ORPHAN_EDGE" = d then orphanIssues (nodeIds g) (propItems g "edges") else [])
        ++ (if "MISSING_REQUIRED_FIELD" = d then taskIssues (propItems g "nodes") else [])
        ++ (if "CYCLE_DETECTED" = d then cycleIssues cycle else [])
        ++ (if "UNREACHABLE_NODE" = d then un else []) := by
  simp only [issueSpecs, List.filter_append, filter_code _ _ d (startIssues_code _),
    filter_code _ _ d (endIssues_code _), filter_code _ _ d (orphanIssues_code _ _),
    filter_code _ _ d (fun i hi => (taskIssues_code _ i hi).1),
    filter_code _ _ d (cycleIssues_code _), filter_code _ _ d hun]

/-- What `validate` returns on a state that normalizes to a graph, in the terms the rules are
stated in. -/
theorem validate_issues (P : Platform) (state g : Value)
    (hg : canonicalizeDomain P state = .ok g) (hgraph : looksLikeGraph g = true) :
    ∃ cycle un r,
      findCycle (nodeIds g) (edgePairs (propItems g "edges")) = some cycle ∧
      reachabilityIssues (startNodes g) (edgePairs (propItems g "edges")) (nodeIds g)
        = some un ∧
      validate P state = .ok r ∧
      (∀ d, issuesWith d (propItems r "issues")
        = ((issueSpecs g cycle un).filter (fun i => i.code == d)).map
            (fun i => (i.severity, i.atoms))) ∧
      getProp r "valid"
        = .bool ((propItems r "issues").all (fun i => !propIs i "severity" "error")) ∧
      (∀ x ∈ propItems r "issues", ∃ i ∈ issueSpecs g cycle un, ∃ iid, x = issueRecord i iid) := by
  obtain ⟨cycle, un, issues, hash, hc, hun, hv, hall⟩ := validate_records P state g hg hgraph
  exact ⟨cycle, un, _, hc, hun, hv, fun d => issuesWith_records d hall, rfl, mem_records hall⟩

/-! ### The rules as filters -/

theorem startIssues_view (nodes : List Value) :
    (startIssues nodes).map (fun i => (i.severity, i.atoms))
      = if (nodes.filter (fun n => propIs n "type" "start")).length = 1 then []
        else [("error",
          if (nodes.filter (fun n => propIs n "type" "start")).length = 0 then ["workflow:root"]
          else (nodes.filter (fun n => propIs n "type" "start")).map
            (fun n => "node:" ++ propString n "id"))] := by
  unfold startIssues
  simp only
  generalize nodes.filter (fun n => propIs n "type" "start") = sn
  by_cases h1 : sn.length = 1
  · have h2 : ¬ ((sn.length != 1) = true) := by simp [h1]
    rw [if_pos h1, if_neg h2]
    rfl
  · have h2 : (sn.length != 1) = true := by simpa using h1
    rw [if_neg h1, if_pos h2]
    by_cases h0 : sn.length = 0
    · have h3 : ¬ ((sn.length != 0) = true) := by simp [h0]
      simp only [List.map_cons, List.map_nil]
      rw [if_pos h0, if_neg h3]
    · have h3 : (sn.length != 0) = true := by simpa using h0
      simp only [List.map_cons, List.map_nil]
      rw [if_neg h0, if_pos h3]
      simp only [selectors, List.map_map]
      rfl

theorem orphanIssues_view (ids : List String) (edges : List Value) :
    (orphanIssues ids edges).map (fun i => (i.severity, i.atoms))
      = (edges.filter (fun e =>
          decide (propString e "from" ∉ ids ∨ propString e "to" ∉ ids))).map
        (fun e => ("error", ("edge:" ++ propString e "id")
          :: ((if propString e "from" ∈ ids then [] else ["node:" ++ propString e "from"])
            ++ (if propString e "to" ∈ ids then [] else ["node:" ++ propString e "to"])))) := by
  induction edges with
  | nil => rfl
  | cons e es ih =>
    unfold orphanIssues
    simp only
    by_cases hf : propString e "from" ∈ ids <;> by_cases ht : propString e "to" ∈ ids <;>
      simp [List.filter_cons, hf, ht, ih]

theorem taskIssues_view (nodes : List Value) :
    (taskIssues nodes).map (fun i => (i.severity, i.atoms))
      = (nodes.filter (fun n => propIs n "type" "task" && lacksTaskKey n)).map
        (fun n => ("error", ["node:" ++ propString n "id"])) := by
  induction nodes with
  | nil => rfl
  | cons n ns ih =>
    unfold taskIssues
    by_cases h : (propIs n "type" "task" && lacksTaskKey n) = true
    · rw [if_pos h, List.filter_cons, if_pos h, List.map_cons, List.map_cons, ih]
    · rw [if_neg h, List.filter_cons, if_neg h, ih]

theorem unreachableIssues_view (reachable ids : List String) :
    (unreachableIssues reachable ids).map (fun i => (i.severity, i.atoms))
      = (ids.filter (fun id => decide (id ∉ reachable))).map
        (fun id => ("warning", ["node:" ++ id])) := by
  induction ids with
  | nil => rfl
  | cons id ids ih =>
    unfold unreachableIssues
    by_cases h : id ∈ reachable
    · rw [if_pos h, List.filter_cons, if_neg (by simpa using h), ih]
    · rw [if_neg h, List.filter_cons, if_pos (by simpa using h), List.map_cons, List.map_cons,
        ih]

/-- The truth of `!taskKey`: `config.task_key` is no non-empty string. -/
theorem lacksTaskKey_iff (n : Value) :
    lacksTaskKey n = true
      ↔ ¬ ∃ s, getProp (getProp n "config") "task_key" = .str s ∧ s ≠ "" := by
  unfold lacksTaskKey
  by_cases ht : truthy (getProp n "config") = true
  · rw [if_pos ht]
    cases hk : getProp (getProp n "config") "task_key" <;> simp
  · rw [if_neg ht]
    have hu : getProp (getProp n "config") "task_key" = .undefined := by
      cases hc : getProp n "config" with
      | obj ps => rw [hc] at ht; exact absurd rfl ht
      | _ => rfl
    simp [hu]

/-! ### The keys of `nodesById` -/

theorem keys_mapSet {β : Type} (m : List (String × β)) (k : String) (v : β) :
    (mapSet m k v).map Prod.fst = setAdd (m.map Prod.fst) k := by
  unfold mapSet setAdd
  by_cases h : k ∈ m.map Prod.fst
  · rw [if_pos (hasProp_iff.2 h), if_pos h, replaceProp_keys]
  · rw [if_neg (fun hh => h (hasProp_iff.1 hh)), if_neg h]
    simp

theorem keys_foldl_mapSet (atoms : List Value) (m : List (String × Value)) :
    (atoms.foldl (fun m n => mapSet m (propString n "id") n) m).map Prod.fst
      = (atoms.map (fun n => propString n "id")).foldl setAdd (m.map Prod.fst) := by
  induction atoms generalizing m with
  | nil => rfl
  | cons a as ih => simp only [List.foldl_cons, List.map_cons, ih, keys_mapSet]

theorem foldl_setAdd_spec (ks : List String) (s : List String) (hs : s.Nodup) :
    (ks.foldl setAdd s).Nodup ∧ ∀ x, x ∈ ks.foldl setAdd s ↔ x ∈ s ∨ x ∈ ks := by
  induction ks generalizing s with
  | nil => exact ⟨hs, fun x => by simp⟩
  | cons k ks ih =>
    have hnd : (setAdd s k).Nodup := by
      unfold setAdd
      split_ifs with h
      · exact hs
      · exact List.Nodup.append hs (List.nodup_singleton k) (by simpa using h)
    obtain ⟨h1, h2⟩ := ih (setAdd s k) hnd
    refine ⟨h1, fun x => ?_⟩
    simp only [List.foldl_cons, h2, mem_setAdd, List.mem_cons]
    tauto

theorem nodeIds_nodup (g : Value) : (nodeIds g).Nodup := by
  unfold nodeIds mapById
  rw [keys_foldl_mapSet]
  exact (foldl_setAdd_spec _ [] List.nodup_nil).1

theorem mem_nodeIds (g : Value) (id : String) :
    id ∈ nodeIds g ↔ ∃ n ∈ propItems g "nodes", propString n "id" = id := by
  unfold nodeIds mapById
  rw [keys_foldl_mapSet]
  exact ((foldl_setAdd_spec _ [] List.nodup_nil).2 id).trans (by simp)

/-! ### `reachableFrom` returns the ids reachable from the start -/

theorem reachableLoop_spec (edges : List (String × String)) (R : String → Prop)
    (hR : ∀ a b, R a → (a, b) ∈ edges → R b) :
    ∀ (n : Nat) (stack seen r : List String), reachableLoop edges n stack seen = some r →
      (∀ x ∈ seen, R x) → (∀ x ∈ stack, R x) →
      (∀ a ∈ seen, ∀ b, (a, b) ∈ edges → b ∈ seen ∨ b ∈ stack) →
      (∀ x ∈ r, R x) ∧ (∀ x ∈ seen, x ∈ r) ∧ (∀ x ∈ stack, x ∈ r) ∧
        (∀ a ∈ r, ∀ b, (a, b) ∈ edges → b ∈ r) := by
  intro n
  induction n with
  | zero =>
    intro stack seen r h h1 h2 h3
    cases stack with
    | nil =>
      simp only [reachableLoop, Option.some.injEq] at h
      subst h
      refine ⟨h1, fun x hx => hx, fun x hx => (by cases hx), fun a ha b hb => ?_⟩
      rcases h3 a ha b hb with h | h
      · exact h
      · cases h
    | cons c cs => simp [reachableLoop] at h
  | succ n ih =>
    intro stack seen r h h1 h2 h3
    cases stack with
    | nil =>
      simp only [reachableLoop, Option.some.injEq] at h
      subst h
      refine ⟨h1, fun x hx => hx, fun x hx => (by cases hx), fun a ha b hb => ?_⟩
      rcases h3 a ha b hb with h | h
      · exact h
      · cases h
    | cons c cs =>
      unfold reachableLoop at h
      by_cases hc : c ∈ seen
      · rw [if_pos hc] at h
        obtain ⟨r1, r2, r3, r4⟩ := ih cs seen r h h1
          (fun x hx => h2 x (List.mem_cons_of_mem _ hx))
          (fun a ha b hb => by
            rcases h3 a ha b hb with h | h
            · exact Or.inl h
            · rcases List.mem_cons.1 h with rfl | h
              · exact Or.inl hc
              · exact Or.inr h)
        refine ⟨r1, r2, fun x hx => ?_, r4⟩
        rcases List.mem_cons.1 hx with rfl | hx
        · exact r2 _ hc
        · exact r3 x hx
      · rw [if_neg hc] at h
        have hRc : R c := h2 c (List.mem_cons_self _ _)
        obtain ⟨r1, r2, r3, r4⟩ := ih ((targetsOf edges c).reverse ++ cs) (seen ++ [c]) r h
          (fun x hx => by
            rcases List.mem_append.1 hx with hx | hx
            · exact h1 x hx
            · rw [List.mem_singleton.1 hx]; exact hRc)
          (fun x hx => by
            rcases List.mem_append.1 hx with hx | hx
            · exact hR c x hRc (mem_targetsOf.1 (List.mem_reverse.1 hx))
            · exact h2 x (List.mem_cons_of_mem _ hx))
          (fun a ha b hb => by
            rcases List.mem_append.1 ha with ha | ha
            · rcases h3 a ha b hb with h | h
              · exact Or.inl (List.mem_append_left _ h)
              · rcases List.mem_cons.1 h with rfl | h
                · exact Or.inl (List.mem_append_right _ (List.mem_singleton.2 rfl))
                · exact Or.inr (List.mem_append_right _ h)
            · rw [List.mem_singleton.1 ha] at hb
              exact Or.inr (List.mem_append_left _
                (List.mem_reverse.2 (mem_targetsOf.2 hb))))
        refine ⟨r1, fun x hx => r2 x (List.mem_append_left _ hx), fun x hx => ?_, r4⟩
        rcases List.mem_cons.1 hx with rfl | hx
        · exact r2 _ (List.mem_append_right _ (List.mem_singleton.2 rfl))
        · exact r3 x (List.mem_append_right _ hx)

/-- The set `reachableFrom` returns holds exactly the ids that a path of edges, possibly empty,
joins to the start. -/
theorem reachableFrom_spec (startId : String) (edges : List (String × String))
    (r : List String) (h : reachableFrom startId edges = some r) (x : String) :
    x ∈ r ↔ Relation.ReflTransGen (fun a b => (a, b) ∈ edges) startId x := by
  obtain ⟨r1, _, r3, r4⟩ := reachableLoop_spec edges
    (fun y => Relation.ReflTransGen (fun a b => (a, b) ∈ edges) startId y)
    (fun a b ha hab => Relation.ReflTransGen.tail ha hab) _ _ _ _ h
    (fun x hx => (by cases hx))
    (fun x hx => by rw [List.mem_singleton.1 hx])
    (fun a ha => (by cases ha))
  constructor
  · exact r1 x
  · intro hx
    induction hx with
    | refl => exact r3 _ (List.mem_singleton.2 rfl)
    | tail _ hstep ih => exact r4 _ ih _ hstep

/-! ### The issues of the reachability rule -/

theorem node_selector_injective {a b : String} (h : "node:" ++ a = "node:" ++ b) : a = b := by
  have h1 := congrArg String.data h
  simp only [String.data_append] at h1
  exact String.ext (List.append_cancel_left h1)

theorem mem_issuesWith {code : String} {issues : List Value} {y : String × List String} :
    y ∈ issuesWith code issues
      ↔ ∃ x ∈ issues, propIs x "code" code = true ∧ (propString x "severity", issueAtoms x) = y := by
  simp only [issuesWith, List.mem_map, List.mem_filter, and_assoc]

theorem length_filter_eq_one (l : List String) (hnd : l.Nodup) (a : String) (ha : a ∈ l) :
    (l.filter (fun x => decide (x = a))).length = 1 := by
  induction l with
  | nil => cases ha
  | cons b l ih =>
    obtain ⟨hb, hl⟩ := List.nodup_cons.1 hnd
    by_cases hba : b = a
    · subst hba
      have : l.filter (fun x => decide (x = b)) = [] :=
        List.filter_eq_nil_iff.2 (fun x hx => by
          have : x ≠ b := fun h => hb (h ▸ hx)
          simpa using this)
      simp [List.filter_cons, this]
    · have ha1 : a ∈ l := by
        rcases List.mem_cons.1 ha with h | h
        · exact absurd h.symm hba
        · exact h
      simp [List.filter_cons, hba, ih hl ha1]

theorem length_filter_issues (issues : List Value) (code : String) (a : List String) :
    (issues.filter (fun x => propIs x "code" code && decide (issueAtoms x = a))).length
      = ((issuesWith code issues).filter (fun y => decide (y.2 = a))).length := by
  unfold issuesWith
  rw [List.filter_map, List.length_map, List.filter_filter]
  congr 1
  apply List.filter_congr
  intro x _
  simp [Bool.and_comm]

/-- One warning for each id that is not reachable. -/
theorem unreachable_list (ids reachable : List String) (hnd : ids.Nodup) (nid : String)
    (hn : nid ∈ ids) :
    ((∃ y ∈ (ids.filter (fun id => decide (id ∉ reachable))).map
        (fun id => ("warning", ["node:" ++ id])), y.2 = ["node:" ++ nid]) ↔ nid ∉ reachable) ∧
    (nid ∉ reachable → (((ids.filter (fun id => decide (id ∉ reachable))).map
        (fun id => ("warning", ["node:" ++ id]))).filter
          (fun y => decide (y.2 = ["node:" ++ nid]))).length = 1) := by
  constructor
  · constructor
    · rintro ⟨y, hy, hy2⟩
      obtain ⟨id, hid, rfl⟩ := List.mem_map.1 hy
      simp only [List.cons.injEq, and_true] at hy2
      have := node_selector_injective hy2
      subst this
      simpa using (List.mem_filter.1 hid).2
    · intro hnr
      exact ⟨_, List.mem_map.2 ⟨nid, List.mem_filter.2 ⟨hn, by simpa using hnr⟩, rfl⟩, rfl⟩
  · intro hnr
    rw [List.filter_map, List.length_map]
    have hc : (ids.filter (fun id => decide (id ∉ reachable))).filter
        ((fun y : String × List String => decide (y.2 = ["node:" ++ nid]))
          ∘ (fun id => ("warning", ["node:" ++ id])))
        = (ids.filter (fun id => decide (id ∉ reachable))).filter
            (fun x => decide (x = nid)) := by
      apply List.filter_congr
      intro x _
      simp only [Function.comp, List.cons.injEq, and_true]
      by_cases hx : x = nid
      · simp [hx]
      · have : ¬ ("node:" ++ x = "node:" ++ nid) := fun h => hx (node_selector_injective h)
        simp [hx, this]
    rw [hc]
    exact length_filter_eq_one _ (hnd.filter _) nid
      (List.mem_filter.2 ⟨hn, by simpa using hnr⟩)

/-- The issues of the reachability rule in a result of `validate`. -/
theorem validate_unreachable (P : Platform) (state g : Value)
    (hg : canonicalizeDomain P state = .ok g) (hgraph : looksLikeGraph g = true) :
    ∃ r, validate P state = .ok r ∧
      (∀ s, startNodes g = [s] → ∃ reachable : List String,
        (∀ x, x ∈ reachable ↔ Reaches g (propString s "id") x) ∧
        issuesWith "UNREACHABLE_NODE" (propItems r "issues")
          = ((nodeIds g).filter (fun id => decide (id ∉ reachable))).map
              (fun id => ("warning", ["node:" ++ id]))) ∧
      ((startNodes g).length ≠ 1 → issuesWith "UNREACHABLE_NODE" (propItems r "issues") = []) := by
  obtain ⟨cycle, un, r, _, hun, hv, hiss, _, _⟩ := validate_issues P state g hg hgraph
  obtain ⟨un1, hun1, hne, hone⟩ := reachabilityIssues_spec (startNodes g)
    (edgePairs (propItems g "edges")) (nodeIds g)
  have he : un1 = un := Option.some.inj (hun1.symm.trans hun)
  subst he
  have hf : issuesWith "UNREACHABLE_NODE" (propItems r "issues")
      = un1.map (fun i => (i.severity, i.atoms)) := by
    rw [hiss, issueSpecs_filter _ _ _ (fun i hi => (reachabilityIssues_code hun i hi).1)]
    simp only [String.reduceEq, if_true, if_false, List.append_nil, List.nil_append]
  refine ⟨r, hv, fun s hs => ?_, fun hl => ?_⟩
  · obtain ⟨reachable, hr, hu⟩ := hone s hs
    refine ⟨reachable, fun x => reachableFrom_spec _ _ _ hr x, ?_⟩
    rw [hf, hu]
    exact unreachableIssues_view _ _
  · rw [hf, hne hl]
    rfl

/-! ### Values that are no graphs stay so under `canonicalize` -/

theorem canonicalizeString_kind (s : String)
    (h : canonicalizeString s = .ok "workflow_graph@1") : s = "workflow_graph@1" := by
  unfold canonicalizeString at h
  by_cases h1 : uuidPatternTest s = true
  · rw [if_pos h1] at h
    have hl := matchShape_length h1
    have h2 := congrArg (fun t => t.toList.length) (Except.ok.inj h)
    simp only [toLowerCase_toList, List.length_map] at h2
    rw [hl, uuidShape_length] at h2
    exact absurd h2 (by decide)
  · rw [if_neg h1] at h
    by_cases h2 : isoPatternTest s = true
    · rw [if_pos h2] at h
      obtain ⟨t, _, ht⟩ := normalizeTimestamp_text s _ h
      have h3 := congrArg (fun t => t.toList.reverse) ht
      simp only [timestampText_toList] at h3
      split_ifs at h3
      · simp only [List.reverse_append, List.reverse_cons, List.reverse_nil, List.nil_append,
          List.singleton_append] at h3
        exact absurd (List.head_eq_of_cons_eq h3) (by decide)
      · rw [← List.cons_append, ← List.append_assoc, List.reverse_append] at h3
        exact absurd (List.head_eq_of_cons_eq h3) (by decide)
    · rw [if_neg h2] at h
      by_cases h3 : hashPatternTest s = true
      · rw [if_pos h3] at h
        have hl := matchShape_length h3
        have h4 := congrArg (fun t => t.toList.length) (Except.ok.inj h)
        simp only [toLowerCase_toList, List.length_map] at h4
        rw [hl, List.length_replicate] at h4
        exact absurd h4 (by decide)
      · rw [if_neg h3] at h
        exact Except.ok.inj h

theorem isArray_canonicalize {x y : Value} (h : canonicalize x = .ok y) :
    isArray y = isArray x := by
  cases x with
  | null => simp only [canonicalize, Except.ok.injEq] at h; subst h; rfl
  | undefined => simp [canonicalize] at h
  | bool b => simp only [canonicalize, Except.ok.injEq] at h; subst h; rfl
  | num n =>
    simp only [canonicalize] at h
    cases hn : canonicalizeNumber n <;> rw [hn] at h <;> simp only [okNum] at h
    · cases h
    · cases h; rfl
  | str s =>
    simp only [canonicalize] at h
    cases hn : canonicalizeString s <;> rw [hn] at h <;> simp only [okStr] at h
    · cases h
    · cases h; rfl
  | arr xs =>
    simp only [canonicalize] at h
    cases hn : canonicalizeArray xs <;> rw [hn] at h <;> simp only [okArr] at h
    · cases h
    · cases h; rfl
  | obj ps =>
    rw [canonicalize_obj] at h
    cases hn : canonicalizeObject ps <;> rw [hn] at h <;> simp only [okObj] at h
    · cases h
    · cases h; rfl
  | unsupported t => simp [canonicalize] at h

theorem kind_canonicalize {x y : Value} (h : canonicalize x = .ok y)
    (hy : y = .str "workflow_graph@1") : x = .str "workflow_graph@1" := by
  subst hy
  cases x with
  | null => simp [canonicalize] at h
  | undefined => simp [canonicalize] at h
  | bool b => simp [canonicalize] at h
  | num n =>
    simp only [canonicalize] at h
    cases hn : canonicalizeNumber n <;> rw [hn] at h <;> simp [okNum] at h
  | str s =>
    simp only [canonicalize] at h
    cases hn : canonicalizeString s with
    | error e => rw [hn] at h; simp [okStr] at h
    | ok s1 =>
      rw [hn] at h
      simp only [okStr, Except.ok.injEq, Value.str.injEq] at h
      subst h
      rw [canonicalizeString_kind s hn]
  | arr xs =>
    simp only [canonicalize] at h
    cases hn : canonicalizeArray xs <;> rw [hn] at h <;> simp [okArr] at h
  | obj ps =>
    rw [canonicalize_obj] at h
    cases hn : canonicalizeObject ps <;> rw [hn] at h <;> simp [okObj] at h
  | unsupported t => simp [canonicalize] at h

/-- The property `k` of a canonicalized object is the canonical form of the property `k` of
the object. -/
theorem getProp_canonicalizeObject {props R : Props} (h : canonicalizeObject props = .ok R)
    (k : String) (hk : k ≠ "__proto__") :
    getProp (.obj R) k = .undefined ∨
      canonicalize (getProp (.obj props) k) = .ok (getProp (.obj R) k) := by
  have hl := lookupProp_canonicalizeObject h k hk
  simp only [getProp]
  cases hp : lookupProp k props with
  | none =>
    rw [hp] at hl
    simp only at hl
    rw [hl]
    exact Or.inl rfl
  | some v =>
    rw [hp] at hl
    simp only at hl
    by_cases hu : isUndefined v = true
    · rw [if_pos hu] at hl
      rw [hl]
      exact Or.inl rfl
    · rw [if_neg hu] at hl
      cases hc : canonicalize v with
      | error e =>
        rw [hc] at hl
        simp only at hl
        rw [hl]
        exact Or.inl rfl
      | ok y =>
        rw [hc] at hl
        simp only at hl
        rw [hl]
        exact Or.inr rfl

/-- A value that is not graph-shaped has a canonical form that is not graph-shaped. -/
theorem looksLikeGraph_canonicalize {x y : Value} (h : canonicalize x = .ok y)
    (hx : looksLikeGraph x = false) : looksLikeGraph y = false := by
  cases x with
  | obj ps =>
    rw [canonicalize_obj] at h
    cases hn : canonicalizeObject ps with
    | error e => rw [hn] at h; simp [okObj] at h
    | ok R =>
      rw [hn] at h
      simp only [okObj, Except.ok.injEq] at h
      subst h
      simp only [looksLikeGraph, isPlainObject, Bool.true_and, Bool.or_eq_false_iff] at hx ⊢
      obtain ⟨⟨hn1, he1⟩, hk1⟩ := hx
      refine ⟨⟨?_, ?_⟩, ?_⟩
      · rcases getProp_canonicalizeObject hn "nodes" (by decide) with h1 | h1
        · rw [h1]; rfl
        · rw [isArray_canonicalize h1]; exact hn1
      · rcases getProp_canonicalizeObject hn "edges" (by decide) with h1 | h1
        · rw [h1]; rfl
        · rw [isArray_canonicalize h1]; exact he1
      · rcases getProp_canonicalizeObject hn "kind" (by decide) with h1 | h1
        · rw [h1]
        · cases hk : getProp (.obj R) "kind" with
          | str k =>
            simp only
            by_cases hkk : k = "workflow_graph@1"
            · subst hkk
              rw [hk] at h1
              rw [kind_canonicalize h1 rfl] at hk1
              simp at hk1
            · simpa using hkk
          | _ => rfl
  | null => simp only [canonicalize, Except.ok.injEq] at h; subst h; rfl
  | undefined => simp [canonicalize] at h
  | bool b => simp only [canonicalize, Except.ok.injEq] at h; subst h; rfl
  | num n =>
    simp only [canonicalize] at h
    cases hn : canonicalizeNumber n <;> rw [hn] at h <;> simp only [okNum] at h
    · cases h
    · cases h; rfl
  | str s =>
    simp only [canonicalize] at h
    cases hn : canonicalizeString s <;> rw [hn] at h <;> simp only [okStr] at h
    · cases h
    · cases h; rfl
  | arr xs =>
    simp only [canonicalize] at h
    cases hn : canonicalizeArray xs <;> rw [hn] at h <;> simp only [okArr] at h
    · cases h
    · cases h; rfl
  | unsupported t => simp [canonicalize] at h

/-! ### The result of `validate` -/

theorem propIs_of_propString {x : Value} {k s : String} (h : propString x k = s)
    (hs : s ≠ "") : propIs x k s = true := by
  unfold propString at h
  unfold propIs
  cases hx : getProp x k with
  | str t =>
    rw [hx] at h
    simp only at h
    simp [h]
  | _ =>
    rw [hx] at h
    exact absurd h.symm hs

theorem propIs_unique {x : Value} {k s t : String} (h : propIs x k s = true) (hst : s ≠ t) :
    propIs x k t = false := by
  unfold propIs at h ⊢
  cases hx : getProp x k with
  | str u =>
    rw [hx] at h
    simp only [beq_iff_eq] at h
    subst h
    simpa using hst
  | _ => rfl

/-- Every issue with the code `UNREACHABLE_NODE` has severity `warning`. -/
theorem unreachable_severity (P : Platform) (state g r : Value)
    (hg : canonicalizeDomain P state = .ok g) (hgraph : looksLikeGraph g = true)
    (hv : validate P state = .ok r) :
    ∀ x ∈ propItems r "issues", propIs x "code" "UNREACHABLE_NODE" = true →
      propIs x "severity" "warning" = true := by
  obtain ⟨cycle, un, r1, _, hun, hv1, _, _, hrec⟩ := validate_issues P state g hg hgraph
  have he : r1 = r := Except.ok.inj (hv1.symm.trans hv)
  subst he
  intro x hx hcode
  obtain ⟨i, hi, iid, rfl⟩ := hrec x hx
  rw [propIs_issueRecord_code] at hcode
  have hmem : i ∈ (issueSpecs g cycle un).filter
      (fun i => i.code == "UNREACHABLE_NODE") := List.mem_filter.2 ⟨hi, hcode⟩
  rw [issueSpecs_filter _ _ _ (fun i hi => (reachabilityIssues_code hun i hi).1)] at hmem
  simp only [String.reduceEq, if_true, if_false, List.append_nil, List.nil_append] at hmem
  rw [propIs_issueRecord_severity, (reachabilityIssues_code hun i hmem).2]
  rfl

/-- The shape of every result of `validate`: `valid` is the boolean "no issue has severity
`error`", and there are no issues at all when the state is not graph-shaped. -/
theorem validate_result (P : Platform) (state r : Value) (hv : validate P state = .ok r) :
    ∃ g, canonicalizeDomain P state = .ok g ∧
      getProp r "valid"
        = .bool ((propItems r "issues").all (fun i => !propIs i "severity" "error")) ∧
      (looksLikeGraph g = false → getProp r "issues" = .arr []) ∧
      (looksLikeGraph state = false → looksLikeGraph g = false) := by
  cases hg : canonicalizeDomain P state with
  | error e =>
    unfold validate at hv
    rw [hg] at hv
    cases hv
  | ok g =>
    refine ⟨g, rfl, ?_, ?_, ?_⟩
    · by_cases hgraph : looksLikeGraph g = true
      · obtain ⟨_, _, r1, _, _, hv1, _, hvalid, _⟩ := validate_issues P state g hg hgraph
        have he : r1 = r := Except.ok.inj (hv1.symm.trans hv)
        subst he
        exact hvalid
      · obtain ⟨hash, hv1⟩ := validate_opaque P state g hg (by simpa using hgraph)
        have he := Except.ok.inj (hv1.symm.trans hv)
        subst he
        rfl
    · intro hgraph
      obtain ⟨hash, hv1⟩ := validate_opaque P state g hg hgraph
      have he := Except.ok.inj (hv1.symm.trans hv)
      subst he
      rfl
    · intro hs
      unfold canonicalizeDomain at hg
      rw [if_neg (by simp [hs])] at hg
      exact looksLikeGraph_canonicalize hg hs

/-- A node whose `type` is no string, or a blank one, gets the type `task`. -/
theorem normalizeNode_default_type (n m : Value) (h : normalizeNode n = .ok m)
    (ht : ∀ s, getProp n "type" = .str s → trim s = "") : propIs m "type" "task" = true := by
  have hty : trimmedOr (getProp n "type") "task" = "task" := by
    unfold trimmedOr
    cases hx : getProp n "type" with
    | str s => simp [ht s hx]
    | _ => rfl
  unfold normalizeNode at h
  by_cases hp : (!isPlainObject n) = true
  · rw [if_pos hp] at h
    cases h
  · rw [if_neg hp] at h
    cases hid : asString (getProp n "id") "node.id" with
    | error e => rw [hid] at h; cases h
    | ok id =>
      rw [hid] at h
      simp only [hty] at h
      rw [canonicalize_obj] at h
      revert h
      generalize hR : canonicalizeObject _ = R
      intro h
      cases R with
      | error e => simp [okObj] at h
      | ok R =>
        simp only [okObj, Except.ok.injEq] at h
        subst h
        have hk := lookupProp_canonicalizeObject hR "type" (by decide)
        simp only [lookupProp] at hk
        simp [propIs, getProp, hk, isUndefined, canonicalize, okStr,
          canonicalizeString_of_nonhex "task" 0 (by decide) 't' rfl rfl]

end FlowVersion


namespace FlowVersion

/-! ## The rules of the validator (C11, C12, C14, C15, C16) -/

theorem findCycle_cycleGraph :
    findCycle (nodeIds cycleGraphNormal) (edgePairs (propItems cycleGraphNormal "edges"))
      = some (some ["B", "A", "A"]) := by
  decide

/-- C11 (evaluation). On every state that normalizes to the graph with the nodes `A`, `B` and
the edges `A->B`, `B->A`, `findCycle` returns the path `B, A, A`: its first and last elements
differ and its last pair `(A, A)` is no edge of the graph; `validate` returns and reports one
`CYCLE_DETECTED` issue whose atoms are `node:B, node:A, node:A`. -/
theorem validate_cycle_path_repeats_node (P : Platform) (state : Value)
    (hg : canonicalizeDomain P state = .ok cycleGraphNormal) :
    findCycle (nodeIds cycleGraphNormal) (edgePairs (propItems cycleGraphNormal "edges"))
      = some (some ["B", "A", "A"]) ∧
    ¬ Edge cycleGraphNormal "A" "A" ∧
    ∃ r, validate P state = .ok r ∧
      issuesWith "CYCLE_DETECTED" (propItems r "issues")
        = [("error", ["node:B", "node:A", "node:A"])] := by
  obtain ⟨cycle, un, r, hc, hun, hv, hiss, _, _⟩ := validate_issues P state _ hg rfl
  refine ⟨findCycle_cycleGraph, by unfold Edge; decide, r, hv, ?_⟩
  have hcy : cycle = some ["B", "A", "A"] := Option.some.inj (hc.symm.trans findCycle_cycleGraph)
  subst hcy
  rw [hiss, issueSpecs_filter _ _ _ (fun i hi => (reachabilityIssues_code hun i hi).1)]
  simp
  rfl

theorem validate_cycle_path_repeats_node_witness :
    canonicalizeDomain samplePlatform cycleGraph = .ok cycleGraphNormal ∧
    findCycle (nodeIds cycleGraphNormal) (edgePairs (propItems cycleGraphNormal "edges"))
      = some (some ["B", "A", "A"]) ∧
    ¬ Edge cycleGraphNormal "A" "A" ∧
    ∃ r, validate samplePlatform cycleGraph = .ok r ∧
      issuesWith "CYCLE_DETECTED" (propItems r "issues")
        = [("error", ["node:B", "node:A", "node:A"])] :=
  ⟨rfl, validate_cycle_path_repeats_node samplePlatform cycleGraph rfl⟩

/-- C12. For every graph-shaped state that normalizes (to `g`), `validate` returns, and: when
`g` has exactly one node `s` of type `start`, then for every node `n` of `g` the issues include
one with the code `UNREACHABLE_NODE` and the atoms `node:<n.id>` if and only if no directed
path of edges leads from `s` to `n`, and in that case exactly one issue has that code and
those atoms; every issue with the code `UNREACHABLE_NODE` has severity `warning`; and when the
number of start nodes is not 1, no issue has the code `UNREACHABLE_NODE`. -/
theorem validate_unreachable_node (P : Platform) (state g : Value)
    (hshape : looksLikeGraph state = true) (hg : canonicalizeDomain P state = .ok g) :
    ∃ r, validate P state = .ok r ∧
      (∀ s, startNodes g = [s] → ∀ n ∈ propItems g "nodes",
        ((∃ x ∈ propItems r "issues", propIs x "code" "UNREACHABLE_NODE" = true ∧
            issueAtoms x = ["node:" ++ propString n "id"])
          ↔ ¬ Reaches g (propString s "id") (propString n "id")) ∧
        (¬ Reaches g (propString s "id") (propString n "id") →
          ((propItems r "issues").filter (fun x => propIs x "code" "UNREACHABLE_NODE"
            && decide (issueAtoms x = ["node:" ++ propString n "id"]))).length = 1)) ∧
      (∀ x ∈ propItems r "issues", propIs x "code" "UNREACHABLE_NODE" = true →
        propIs x "severity" "warning" = true) ∧
      ((startNodes g).length ≠ 1 →
        ∀ x ∈ propItems r "issues", propIs x "code" "UNREACHABLE_NODE" = false) := by
  have hgraph := looksLikeGraph_normalized P state g hshape hg
  obtain ⟨r, hv, hone, hne⟩ := validate_unreachable P state g hg hgraph
  refine ⟨r, hv, ?_, unreachable_severity P state g r hg hgraph hv, ?_⟩
  · intro s hs n hn
    obtain ⟨reachable, hreach, hlist⟩ := hone s hs
    have hmem : propString n "id" ∈ nodeIds g := (mem_nodeIds g _).2 ⟨n, hn, rfl⟩
    obtain ⟨h1, h2⟩ := unreachable_list (nodeIds g) reachable (nodeIds_nodup g)
      (propString n "id") hmem
    rw [← hlist] at h1 h2
    rw [← hreach]
    constructor
    · rw [← h1]
      constructor
      · rintro ⟨x, hx, hcode, hatoms⟩
        exact ⟨_, mem_issuesWith.2 ⟨x, hx, hcode, rfl⟩, hatoms⟩
      · rintro ⟨y, hy, hy2⟩
        obtain ⟨x, hx, hcode, rfl⟩ := mem_issuesWith.1 hy
        exact ⟨x, hx, hcode, hy2⟩
    · intro hnr
      rw [length_filter_issues]
      exact h2 hnr
  · intro hl x hx
    have hnil := hne hl
    cases hcode : propIs x "code" "UNREACHABLE_NODE" with
    | false => rfl
    | true =>
      have : (propString x "severity", issueAtoms x)
          ∈ issuesWith "UNREACHABLE_NODE" (propItems r "issues") :=
        mem_issuesWith.2 ⟨x, hx, hcode, rfl⟩
      rw [hnil] at this
      cases this

theorem validate_unreachable_node_witness :
    looksLikeGraph flowGraph = true ∧
    canonicalizeDomain samplePlatform flowGraph = .ok flowGraphNormal ∧
    ∃ r, validate samplePlatform flowGraph = .ok r ∧
      (∀ s, startNodes flowGraphNormal = [s] → ∀ n ∈ propItems flowGraphNormal "nodes",
        ((∃ x ∈ propItems r "issues", propIs x "code" "UNREACHABLE_NODE" = true ∧
            issueAtoms x = ["node:" ++ propString n "id"])
          ↔ ¬ Reaches flowGraphNormal (propString s "id") (propString n "id")) ∧
        (¬ Reaches flowGraphNormal (propString s "id") (propString n "id") →
          ((propItems r "issues").filter (fun x => propIs x "code" "UNREACHABLE_NODE"
            && decide (issueAtoms x = ["node:" ++ propString n "id"]))).length = 1)) ∧
      (∀ x ∈ propItems r "issues", propIs x "code" "UNREACHABLE_NODE" = true →
        propIs x "severity" "warning" = true) ∧
      ((startNodes flowGraphNormal).length ≠ 1 →
        ∀ x ∈ propItems r "issues", propIs x "code" "UNREACHABLE_NODE" = false) :=
  ⟨rfl, rfl, validate_unreachable_node samplePlatform flowGraph flowGraphNormal rfl rfl⟩

/-- C14. For every graph-shaped state that normalizes (to `g`), `validate` returns, and its
issues with the code `MISSING_OR_AMBIGUOUS_START_NODE` are: none when `g` has exactly one node
of type `start`; otherwise exactly one, of severity `error`, whose atoms are `workflow:root`
when there is no start node and else the selectors `node:<id>` of all start nodes, in order. -/
theorem validate_start_node (P : Platform) (state g : Value)
    (hshape : looksLikeGraph state = true) (hg : canonicalizeDomain P state = .ok g) :
    ∃ r, validate P state = .ok r ∧
      issuesWith "MISSING_OR_AMBIGUOUS_START_NODE" (propItems r "issues")
        = if (startNodes g).length = 1 then []
          else [("error", if (startNodes g).length = 0 then ["workflow:root"]
                          else (startNodes g).map (fun n => "node:" ++ propString n "id"))] := by
  obtain ⟨cycle, un, r, hc, hun, hv, hiss, _, _⟩ := validate_issues P state g hg
    (looksLikeGraph_normalized P state g hshape hg)
  refine ⟨r, hv, ?_⟩
  rw [hiss, issueSpecs_filter _ _ _ (fun i hi => (reachabilityIssues_code hun i hi).1)]
  simp only [String.reduceEq, if_true, if_false, List.append_nil, List.nil_append]
  exact startIssues_view _

theorem validate_start_node_witness :
    looksLikeGraph cycleGraph = true ∧
    canonicalizeDomain samplePlatform cycleGraph = .ok cycleGraphNormal ∧
    ∃ r, validate samplePlatform cycleGraph = .ok r ∧
      issuesWith "MISSING_OR_AMBIGUOUS_START_NODE" (propItems r "issues")
        = if (startNodes cycleGraphNormal).length = 1 then []
          else [("error", if (startNodes cycleGraphNormal).length = 0 then ["workflow:root"]
                          else (startNodes cycleGraphNormal).map
                            (fun n => "node:" ++ propString n "id"))] :=
  ⟨rfl, rfl, validate_start_node samplePlatform cycleGraph cycleGraphNormal rfl rfl⟩

/-- C15. For every graph-shaped state that normalizes (to `g`), `validate` returns, and its
issues with the code `ORPHAN_EDGE` are, in edge order, one for each edge whose `from` or `to`
is not the id of a node of `g`, and no other; each has severity `error` and the atoms
`edge:<id>` followed by `node:<from>` if `from` is missing and then `node:<to>` if `to` is
missing.  The ids of `nodeIds g` are the ids of the nodes of `g`. -/
theorem validate_orphan_edge (P : Platform) (state g : Value)
    (hshape : looksLikeGraph state = true) (hg : canonicalizeDomain P state = .ok g) :
    ∃ r, validate P state = .ok r ∧
      issuesWith "ORPHAN_EDGE" (propItems r "issues")
        = ((propItems g "edges").filter (fun e =>
            decide (propString e "from" ∉ nodeIds g ∨ propString e "to" ∉ nodeIds g))).map
          (fun e => ("error", ("edge:" ++ propString e "id")
            :: ((if propString e "from" ∈ nodeIds g then []
                  else ["node:" ++ propString e "from"])
              ++ (if propString e "to" ∈ nodeIds g then []
                  else ["node:" ++ propString e "to"])))) ∧
      ∀ id, id ∈ nodeIds g ↔ ∃ n ∈ propItems g "nodes", propString n "id" = id := by
  obtain ⟨cycle, un, r, hc, hun, hv, hiss, _, _⟩ := validate_issues P state g hg
    (looksLikeGraph_normalized P state g hshape hg)
  refine ⟨r, hv, ?_, mem_nodeIds g⟩
  rw [hiss, issueSpecs_filter _ _ _ (fun i hi => (reachabilityIssues_code hun i hi).1)]
  simp only [String.reduceEq, if_true, if_false, List.append_nil, List.nil_append]
  exact orphanIssues_view _ _

theorem validate_orphan_edge_witness :
    looksLikeGraph flowGraph = true ∧
    canonicalizeDomain samplePlatform flowGraph = .ok flowGraphNormal ∧
    ∃ r, validate samplePlatform flowGraph = .ok r ∧
      issuesWith "ORPHAN_EDGE" (propItems r "issues")
        = ((propItems flowGraphNormal "edges").filter (fun e =>
            decide (propString e "from" ∉ nodeIds flowGraphNormal
              ∨ propString e "to" ∉ nodeIds flowGraphNormal))).map
          (fun e => ("error", ("edge:" ++ propString e "id")
            :: ((if propString e "from" ∈ nodeIds flowGraphNormal then []
                  else ["node:" ++ propString e "from"])
              ++ (if propString e "to" ∈ nodeIds flowGraphNormal then []
                  else ["node:" ++ propString e "to"])))) ∧
      ∀ id, id ∈ nodeIds flowGraphNormal
        ↔ ∃ n ∈ propItems flowGraphNormal "nodes", propString n "id" = id :=
  ⟨rfl, rfl, validate_orphan_edge samplePlatform flowGraph flowGraphNormal rfl rfl⟩

/-- C16. For every graph-shaped state that normalizes (to `g`), `validate` returns, and its
issues with the code `MISSING_REQUIRED_FIELD` are, in node order, one for each node of `g`
whose type is `task` and whose `config.task_key` is not a non-empty string, and no other; each
has severity `error`, the atoms `node:<id>` and the suggested fix that sets
`config.task_key`.  A node that `normalizeNode` returns has the type `task` when the type it
was given is no string or a blank one. -/
theorem validate_missing_required_field (P : Platform) (state g : Value)
    (hshape : looksLikeGraph state = true) (hg : canonicalizeDomain P state = .ok g) :
    ∃ r, validate P state = .ok r ∧
      issuesWith "MISSING_REQUIRED_FIELD" (propItems r "issues")
        = ((propItems g "nodes").filter
            (fun n => propIs n "type" "task" && lacksTaskKey n)).map
          (fun n => ("error", ["node:" ++ propString n "id"])) ∧
      (∀ n, lacksTaskKey n = true
        ↔ ¬ ∃ s, getProp (getProp n "config") "task_key" = .str s ∧ s ≠ "") ∧
      (∀ x ∈ propItems r "issues", propIs x "code" "MISSING_REQUIRED_FIELD" = true →
        getProp x "suggested_fix"
          = .obj [("set", .obj [("config.task_key", .str "<task_key>")])]) ∧
      (∀ n m, normalizeNode n = .ok m → (∀ s, getProp n "type" = .str s → trim s = "") →
        propIs m "type" "task" = true) := by
  obtain ⟨cycle, un, r, hc, hun, hv, hiss, _, hrec⟩ := validate_issues P state g hg
    (looksLikeGraph_normalized P state g hshape hg)
  have hunc := fun i hi => (reachabilityIssues_code hun i hi).1
  refine ⟨r, hv, ?_, lacksTaskKey_iff, ?_, normalizeNode_default_type⟩
  · rw [hiss, issueSpecs_filter _ _ _ hunc]
    simp only [String.reduceEq, if_true, if_false, List.append_nil, List.nil_append]
    exact taskIssues_view _
  · intro x hx hcode
    obtain ⟨i, hi, iid, rfl⟩ := hrec x hx
    rw [propIs_issueRecord_code] at hcode
    have hmem : i ∈ (issueSpecs g cycle un).filter
        (fun i => i.code == "MISSING_REQUIRED_FIELD") := List.mem_filter.2 ⟨hi, hcode⟩
    rw [issueSpecs_filter _ _ _ hunc] at hmem
    simp only [String.reduceEq, if_true, if_false, List.append_nil, List.nil_append] at hmem
    exact getProp_issueRecord_fix i iid _ (taskIssues_code _ i hmem).2

theorem validate_missing_required_field_witness :
    looksLikeGraph flowGraph = true ∧
    canonicalizeDomain samplePlatform flowGraph = .ok flowGraphNormal ∧
    ∃ r, validate samplePlatform flowGraph = .ok r ∧
      issuesWith "MISSING_REQUIRED_FIELD" (propItems r "issues")
        = ((propItems flowGraphNormal "nodes").filter
            (fun n => propIs n "type" "task" && lacksTaskKey n)).map
          (fun n => ("error", ["node:" ++ propString n "id"])) ∧
      (∀ n, lacksTaskKey n = true
        ↔ ¬ ∃ s, getProp (getProp n "config") "task_key" = .str s ∧ s ≠ "") ∧
      (∀ x ∈ propItems r "issues", propIs x "code" "MISSING_REQUIRED_FIELD" = true →
        getProp x "suggested_fix"
          = .obj [("set", .obj [("config.task_key", .str "<task_key>")])]) ∧
      (∀ n m, normalizeNode n = .ok m → (∀ s, getProp n "type" = .str s → trim s = "") →
        propIs m "type" "task" = true) :=
  ⟨rfl, rfl, validate_missing_required_field samplePlatform flowGraph flowGraphNormal rfl rfl⟩

end FlowVersion


namespace FlowVersion

/-! ## The graph normalizer (C17 to C20) -/

theorem sortWith_swap {α : Type} (cmp : α → α → Int) (a b : α) (h : 0 < cmp a b) :
    sortWith cmp [a, b] = [b, a] := by
  have h1 : ¬ cmp a b ≤ 0 := by omega
  simp [sortWith, List.insertionSort, List.orderedInsert, h1]

theorem sortWith_same {α : Type} (cmp : α → α → Int) (a : α) :
    sortWith cmp [a, a] = [a, a] := by
  rcases sortWith_pair cmp a a with h | h <;> exact h

theorem canonicalizeDomain_of_nodes (P : Platform) (raw : Value) (a b : Value)
    (hshape : looksLikeGraph raw = true)
    (hn : mapM' normalizeNode (propItems raw "nodes") = .ok [a, b])
    (he : mapM' normalizeEdge (propItems raw "edges") = .ok [])
    (hm : objectOrUndefined (getProp raw "meta") = .undefined)
    (hname : stringOrUndefined (getProp raw "name") = .undefined) (c d : Value)
    (hs : sortWith (compareById P) [a, b] = [c, d]) :
    canonicalizeDomain P raw = canonicalize (.obj [("edges", .arr []),
      ("kind", .str "workflow_graph@1"), ("meta", .undefined), ("name", .undefined),
      ("nodes", .arr [c, d])]) := by
  unfold canonicalizeDomain
  rw [if_pos hshape, normalizeGraph_of_atoms P hn he, hs, hm, hname]
  rfl

/-- C17 (evaluation). On a platform whose `localeCompare` puts `a` before `B` (`"B".localeCompare
("a")` is positive, as with the collation of the engine), the graph with the nodes `B`, `a`
normalizes to the graph with the nodes in the order `a`, `B`, which is not ascending in
code-point order: `B` (66) is below `a` (97). -/
theorem normalizeGraph_locale_order (P : Platform) (h1 : 0 < P.localeCompare "B" "a") :
    canonicalizeDomain P (rawNodes ["B", "a"]) = .ok (nodesOnly ["a", "B"]) ∧
    codePointLt "B" "a" = true ∧
    ¬ CodePointSorted ((propItems (nodesOnly ["a", "B"]) "nodes").map
      (fun n => propString n "id")) := by
  refine ⟨?_, by decide, by unfold CodePointSorted; decide⟩
  rw [canonicalizeDomain_of_nodes P (rawNodes ["B", "a"]) _ _ rfl rfl rfl rfl rfl _ _
    (sortWith_swap (compareById P) _ _ h1)]
  rfl

theorem normalizeGraph_locale_order_witness :
    0 < collatingPlatform.localeCompare "B" "a" ∧
    canonicalizeDomain collatingPlatform (rawNodes ["B", "a"]) = .ok (nodesOnly ["a", "B"]) ∧
    codePointLt "B" "a" = true ∧
    ¬ CodePointSorted ((propItems (nodesOnly ["a", "B"]) "nodes").map
      (fun n => propString n "id")) :=
  ⟨by decide, normalizeGraph_locale_order collatingPlatform (by decide)⟩

theorem canonicalizeDomain_duplicate_nodes (P : Platform) :
    canonicalizeDomain P (rawNodes ["A", "A"]) = .ok (nodesOnly ["A", "A"]) := by
  rw [canonicalizeDomain_of_nodes P (rawNodes ["A", "A"]) _ _ rfl rfl rfl rfl rfl _ _
    (sortWith_same (compareById P) _)]
  rfl

theorem canonicalizeDomain_merged_twoEdge (P : Platform) :
    canonicalizeDomain P (edgesOnly [untrimmedEdge " a->b" .null, untrimmedEdge "a->b" .null])
      = .ok (edgesOnly [untrimmedEdge "a->b" .null, untrimmedEdge "a->b" .null]) := by
  have h : canonicalizeDomain P
      (edgesOnly [untrimmedEdge " a->b" .null, untrimmedEdge "a->b" .null])
      = normalizeGraph P
          (edgesOnly [untrimmedEdge " a->b" .null, untrimmedEdge "a->b" .null]) := rfl
  have hn : mapM' normalizeNode
      (propItems (edgesOnly [untrimmedEdge " a->b" .null, untrimmedEdge "a->b" .null]) "nodes")
      = .ok [] := rfl
  have he : mapM' normalizeEdge
      (propItems (edgesOnly [untrimmedEdge " a->b" .null, untrimmedEdge "a->b" .null]) "edges")
      = .ok [untrimmedEdge "a->b" .null, untrimmedEdge "a->b" .null] := rfl
  rw [h, normalizeGraph_of_atoms P hn he, sortWith_same]
  rfl

theorem mergeGraphs_twoEdge_same (P : Platform) (g : Value)
    (hg : g = edgesOnly [untrimmedEdge "a->b" .null, untrimmedEdge " a->b" .null]
      ∨ g = edgesOnly [untrimmedEdge " a->b" .null, untrimmedEdge "a->b" .null]) :
    mergeGraphs P g g g = .ok (.obj [("conflicts", .arr []),
      ("merged", edgesOnly [untrimmedEdge "a->b" .null, untrimmedEdge "a->b" .null])]) := by
  have hm := canonicalizeDomain_merged_twoEdge P
  rcases hg with rfl | rfl
  · rw [@mergeGraphs_of_atoms P
      (edgesOnly [untrimmedEdge "a->b" .null, untrimmedEdge " a->b" .null])
      (edgesOnly [untrimmedEdge "a->b" .null, untrimmedEdge " a->b" .null])
      (edgesOnly [untrimmedEdge "a->b" .null, untrimmedEdge " a->b" .null])
      (edgesOnly [untrimmedEdge "a->b" .null, untrimmedEdge "a->b" .null])
      [] [] [untrimmedEdge " a->b" .null, untrimmedEdge "a->b" .null] [] rfl rfl hm]
    rfl
  · rw [@mergeGraphs_of_atoms P
      (edgesOnly [untrimmedEdge " a->b" .null, untrimmedEdge "a->b" .null])
      (edgesOnly [untrimmedEdge " a->b" .null, untrimmedEdge "a->b" .null])
      (edgesOnly [untrimmedEdge " a->b" .null, untrimmedEdge "a->b" .null])
      (edgesOnly [untrimmedEdge "a->b" .null, untrimmedEdge "a->b" .null])
      [] [] [untrimmedEdge " a->b" .null, untrimmedEdge "a->b" .null] [] rfl rfl hm]
    rfl

theorem merge_twoEdge_same (P : Platform) :
    merge P twoEdgeGraph twoEdgeGraph twoEdgeGraph = .ok (.obj [("conflicts", .arr []),
      ("merged", edgesOnly [untrimmedEdge "a->b" .null, untrimmedEdge "a->b" .null])]) := by
  rcases canonicalizeDomain_twoEdge P with h | h
  · rw [merge_of_graphs P h h h rfl rfl rfl]
    exact mergeGraphs_twoEdge_same P _ (Or.inl rfl)
  · rw [merge_of_graphs P h h h rfl rfl rfl]
    exact mergeGraphs_twoEdge_same P _ (Or.inr rfl)

/-- C18 (evaluation), on every platform: the graph with two nodes of id `A` normalizes to a
graph that holds both, and `merge` of the graph `{edges: [{id: "a->b", from: " a", to: "b"},
{from: " a", to: "b"}]}` with itself as base, left and right returns, without a conflict, a
merged graph with two edges of id `a->b`. -/
theorem normalizeGraph_duplicate_ids (P : Platform) :
    canonicalizeDomain P (rawNodes ["A", "A"]) = .ok (nodesOnly ["A", "A"]) ∧
    (propItems (nodesOnly ["A", "A"]) "nodes").map (fun n => propString n "id") = ["A", "A"] ∧
    merge P twoEdgeGraph twoEdgeGraph twoEdgeGraph = .ok (.obj [("conflicts", .arr []),
      ("merged", edgesOnly [untrimmedEdge "a->b" .null, untrimmedEdge "a->b" .null])]) ∧
    (propItems (edgesOnly [untrimmedEdge "a->b" .null, untrimmedEdge "a->b" .null])
      "edges").map (fun e => propString e "id") = ["a->b", "a->b"] :=
  ⟨canonicalizeDomain_duplicate_nodes P, rfl, merge_twoEdge_same P, rfl⟩

/-- The output of `canonicalizeDomain` is a fixed point of `canonicalize`. -/
theorem canonical_of_canonicalizeDomain (P : Platform) (x y : Value)
    (h : canonicalizeDomain P x = .ok y) : canonicalize y = .ok y := by
  unfold canonicalizeDomain at h
  split_ifs at h
  · unfold normalizeGraph at h
    split at h
    · cases h
    · split at h
      · cases h
      · exact canonicalize_idem _ _ h
  · exact canonicalize_idem _ _ h

/-- C19. For every value `x` on which `canonicalizeDomain` returns a value `y`, graph-shaped
or not, `canonicalize(y)` returns `y`. -/
theorem canonicalizeDomain_base_canonical (P : Platform) (x y : Value)
    (h : canonicalizeDomain P x = .ok y) : canonicalize y = .ok y :=
  canonical_of_canonicalizeDomain P x y h

theorem canonicalizeDomain_base_canonical_witness :
    canonicalizeDomain samplePlatform flowGraph = .ok flowGraphNormal ∧
    canonicalize flowGraphNormal = .ok flowGraphNormal :=
  ⟨rfl, canonicalizeDomain_base_canonical samplePlatform flowGraph flowGraphNormal rfl⟩

/-- C20 (evaluation), on every platform: `canonicalizeDomain` maps the graph `{nodes: [],
edges: [{from: " a", to: "b"}]}` to a graph whose edge has the default id `" a->b"`, and maps
that output to a different graph, whose edge has the id `"a->b"`: the id is trimmed once it is
given, but not when it is built from `from` and `to`. -/
theorem canonicalizeDomain_twice_untrimmed_edge (P : Platform) :
    canonicalizeDomain P untrimmedGraph = .ok (edgesOnly [untrimmedEdge " a->b" .null]) ∧
    canonicalizeDomain P (edgesOnly [untrimmedEdge " a->b" .null])
      = .ok (edgesOnly [untrimmedEdge "a->b" .null]) ∧
    edgesOnly [untrimmedEdge "a->b" .null] ≠ edgesOnly [untrimmedEdge " a->b" .null] ∧
    (propItems (edgesOnly [untrimmedEdge " a->b" .null]) "edges").map
      (fun e => propString e "id") = [" a->b"] ∧
    (propItems (edgesOnly [untrimmedEdge "a->b" .null]) "edges").map
      (fun e => propString e "id") = ["a->b"] :=
  ⟨canonicalizeDomain_untrimmed P, canonicalizeDomain_untrimmed_again P, untrimmed_ne, rfl, rfl⟩

end FlowVersion


namespace FlowVersion

/-! ## The three patterns of `canonicalizeString` exclude each other -/

theorem isoFields_hyphen {cs : List Char} {f : IsoFields} (h : isoFields cs = some f) :
    cs.get? 4 = some '-' := by
  unfold isoFields isoDate at h
  cases hr : readDigits 4 cs with
  | none => simp [hr] at h
  | some p =>
    obtain ⟨v, r⟩ := p
    obtain ⟨h1, h2⟩ := readDigits_some_length hr
    simp only [hr, readSep2] at h
    cases r with
    | nil => simp [expectChar] at h
    | cons c r =>
      by_cases hc : c = '-'
      · subst hc
        rw [h1, List.get?_eq_getElem?, List.getElem?_append_right (by omega), h2]
        simp
      · simp [expectChar, hc] at h

theorem uuid_not_iso {s : String} (h : uuidPatternTest s = true) : isoPatternTest s = false := by
  unfold isoPatternTest
  cases hf : isoFields s.toList with
  | none => rfl
  | some f =>
    have := matchShape_get h 4 isHexDigit '-' rfl (isoFields_hyphen hf)
    exact absurd this (by decide)

theorem hash_not_iso {s : String} (h : hashPatternTest s = true) : isoPatternTest s = false := by
  unfold isoPatternTest
  cases hf : isoFields s.toList with
  | none => rfl
  | some f =>
    have := matchShape_get h 4 isHexDigit '-' rfl (isoFields_hyphen hf)
    exact absurd this (by decide)

theorem hash_not_uuid {s : String} (h : hashPatternTest s = true) : uuidPatternTest s = false := by
  cases hu : uuidPatternTest s with
  | false => rfl
  | true =>
    have h1 := matchShape_length h
    have h2 := matchShape_length hu
    rw [h1, uuidShape_length, List.length_replicate] at h2
    exact absurd h2 (by decide)

theorem canonicalizeString_uuid {s : String} (h : uuidPatternTest s = true) :
    canonicalizeString s = .ok (toLowerCase s) := by
  simp [canonicalizeString, h]

theorem canonicalizeString_hash {s : String} (h : hashPatternTest s = true) :
    canonicalizeString s = .ok (toLowerCase s) := by
  simp [canonicalizeString, h, hash_not_uuid h, hash_not_iso h]

theorem canonicalizeString_other {s : String} (h1 : uuidPatternTest s = false)
    (h2 : hashPatternTest s = false) (h3 : isoPatternTest s = false) :
    canonicalizeString s = .ok s := by
  simp [canonicalizeString, h1, h2, h3]

theorem canonicalizeString_iso {s : String} (h : isoPatternTest s = true) :
    canonicalizeString s = normalizeTimestamp s := by
  have hu : uuidPatternTest s = false := by
    cases hu : uuidPatternTest s with
    | false => rfl
    | true => rw [uuid_not_iso hu] at h; cases h
  simp [canonicalizeString, hu, h]

theorem canonicalize_str (s : String) : canonicalize (.str s) = okStr (canonicalizeString s) := by
  simp [canonicalize]

end FlowVersion


namespace FlowVersion

/-! ## The fields of a timestamp and the time value of `Date` -/

theorem spanDigits_digits : ∀ cs : List Char, ∀ c ∈ (spanDigits cs).1, isDigit c = true := by
  intro cs
  induction cs with
  | nil => intro c hc; cases hc
  | cons x xs ih =>
    intro c hc
    unfold spanDigits at hc
    by_cases hx : isDigit x = true
    · rw [if_pos hx] at hc
      rcases List.mem_cons.1 hc with rfl | h
      · exact hx
      · exact ih c h
    · rw [if_neg hx] at hc
      cases hc

theorem isoFractionZone_digits {cs : List Char} {fr : List Char} {z : Bool × Bool × Nat × Nat}
    (h : isoFractionZone cs = some (fr, z)) : ∀ c ∈ fr, isDigit c = true := by
  have hz : ∀ cs1 : List Char, (isoZone cs1).map (fun z => (([] : List Char), z)) = some (fr, z) →
      ∀ c ∈ fr, isDigit c = true := by
    intro cs1 h1 c hc
    cases hzz : isoZone cs1 with
    | none => rw [hzz] at h1; cases h1
    | some z1 =>
      rw [hzz] at h1
      simp only [Option.map_some', Option.some.injEq, Prod.mk.injEq] at h1
      rw [← h1.1] at hc
      cases hc
  unfold isoFractionZone at h
  split at h
  · rename_i rest
    have hd := spanDigits_digits rest
    split at h
    · cases h
    · rename_i ds r _ hsp
      cases hzz : isoZone r with
      | none => rw [hzz] at h; cases h
      | some z1 =>
        rw [hzz] at h
        simp only [Option.map_some', Option.some.injEq, Prod.mk.injEq] at h
        intro c hc
        rw [← h.1] at hc
        apply hd
        rw [hsp]
        exact hc
  · exact hz _ h

/-- The fraction digits of a matching string are decimal digits. -/
theorem isoFields_fraction_digits {cs : List Char} {f : IsoFields} (h : isoFields cs = some f) :
    ∀ c ∈ f.fraction, isDigit c = true := by
  unfold isoFields at h
  split at h
  · split at h
    · split at h
      · rename_i fr z hfz
        injection h with h
        rw [← h]
        exact isoFractionZone_digits hfz
      · cases h
    · cases h
  · cases h

theorem foldl_digits_ge (ds : List Char) :
    ∀ n : Nat, n ≤ ds.foldl (fun n c => n * 10 + digitVal c) n := by
  induction ds with
  | nil => intro n; exact le_refl n
  | cons c cs ih =>
    intro n
    exact le_trans (by omega) (ih (n * 10 + digitVal c))

theorem digitVal_le {c : Char} (h : isDigit c = true) : digitVal c ≤ 9 := by
  unfold isDigit at h
  simp only [Bool.and_eq_true, decide_eq_true_eq] at h
  unfold digitVal
  omega

theorem digitVal_pos {c : Char} (h : isDigit c = true) (h0 : c ≠ '0') : 1 ≤ digitVal c := by
  unfold isDigit at h
  simp only [Bool.and_eq_true, decide_eq_true_eq] at h
  have hne : c.toNat ≠ 48 := by
    intro e
    apply h0
    apply Char.ext
    apply UInt32.ext
    exact e
  unfold digitVal
  omega

theorem foldl_digits_lt (ds : List Char) (hd : ∀ c ∈ ds, isDigit c = true) :
    ∀ n : Nat, ds.foldl (fun n c => n * 10 + digitVal c) n < (n + 1) * 10 ^ ds.length := by
  induction ds with
  | nil => intro n; simp
  | cons c cs ih =>
    intro n
    have hc := digitVal_le (hd c (List.mem_cons_self _ _))
    have h1 := ih (fun x hx => hd x (List.mem_cons_of_mem _ hx)) (n * 10 + digitVal c)
    rw [List.foldl_cons, List.length_cons, pow_succ]
    refine lt_of_lt_of_le h1 ?_
    have : n * 10 + digitVal c + 1 ≤ (n + 1) * 10 := by omega
    calc (n * 10 + digitVal c + 1) * 10 ^ cs.length
        ≤ ((n + 1) * 10) * 10 ^ cs.length := Nat.mul_le_mul_right _ this
      _ = (n + 1) * (10 ^ cs.length * 10) := by ring

/-- The numeral of the fraction is zero exactly when every digit is `0`. -/
theorem readUnsignedNumeral_eq_zero_iff (ds : List Char) (hd : ∀ c ∈ ds, isDigit c = true) :
    readUnsignedNumeral ds = 0 ↔ ∀ c ∈ ds, c = '0' := by
  unfold readUnsignedNumeral
  constructor
  · intro h c hc
    by_contra hne
    have hex : ∃ x ∈ ds, ¬ ((fun c => c == '0') x = true) := ⟨c, hc, by simpa using hne⟩
    cases hdw : ds.dropWhile (fun c => c == '0') with
    | nil =>
      rw [List.dropWhile_eq_nil_iff] at hdw
      exact hne (by simpa using hdw c hc)
    | cons x xs =>
      have hx : ¬ ((fun c => c == '0') x = true) := by
        have := List.head_dropWhile_not (fun c : Char => c == '0') ds
          (by rw [hdw]; exact List.cons_ne_nil _ _)
        simp only [hdw, List.head_cons] at this
        simpa using this
      have hxm : x ∈ ds := (List.dropWhile_sublist _).subset (by rw [hdw]; exact List.mem_cons_self _ _)
      have hpos := digitVal_pos (hd x hxm) (by simpa using hx)
      rw [hdw] at h
      simp only [List.take_succ_cons, List.foldl_cons, Nat.zero_mul, Nat.zero_add] at h
      have := foldl_digits_ge (xs.take 8) (digitVal x)
      omega
  · intro h
    have : ds.dropWhile (fun c => c == '0') = [] := by
      rw [List.dropWhile_eq_nil_iff]
      intro x hx
      simp [h x hx]
    rw [this]
    rfl

/-- The milliseconds of a fraction are below 1000. -/
theorem fractionMillis_le (ds : List Char) (hd : ∀ c ∈ ds, isDigit c = true) :
    fractionMillis ds ≤ 999 := by
  have hsub : ∀ c ∈ (ds.dropWhile (fun c => c == '0')).take 9, isDigit c = true :=
    fun c hc => hd c ((List.dropWhile_sublist _).subset (List.mem_of_mem_take hc))
  have hlen : ((ds.dropWhile (fun c => c == '0')).take 9).length ≤ min ds.length 9 := by
    rw [List.length_take]
    have := (List.dropWhile_sublist (fun c : Char => c == '0') (l := ds)).length_le
    omega
  have hlt := foldl_digits_lt _ hsub 0
  have hpow : 10 ^ ((ds.dropWhile (fun c => c == '0')).take 9).length ≤ 10 ^ (min ds.length 9) :=
    Nat.pow_le_pow_right (by norm_num) hlen
  have hnum : readUnsignedNumeral ds < 10 ^ (min ds.length 9) := by
    unfold readUnsignedNumeral
    omega
  unfold fractionMillis
  simp only
  by_cases h1 : ds.length = 1
  · rw [if_pos h1]
    rw [h1] at hnum
    norm_num at hnum
    omega
  rw [if_neg h1]
  by_cases h2 : ds.length = 2
  · rw [if_pos h2]
    rw [h2] at hnum
    norm_num at hnum
    omega
  rw [if_neg h2]
  by_cases h3 : ds.length > 3
  · rw [if_pos h3]
    have hk : 3 ≤ min ds.length 9 := by omega
    have hsplit : 10 ^ (min ds.length 9) = 1000 * 10 ^ (min ds.length 9 - 3) := by
      have : min ds.length 9 = 3 + (min ds.length 9 - 3) := by omega
      conv_lhs => rw [this, pow_add]
      norm_num
    have hpos : 0 < 10 ^ (min ds.length 9 - 3) := Nat.pos_pow_of_pos _ (by norm_num)
    have : readUnsignedNumeral ds / 10 ^ (min ds.length 9 - 3) < 1000 := by
      rw [Nat.div_lt_iff_lt_mul hpos]
      omega
    omega
  · rw [if_neg h3]
    have hle : min ds.length 9 ≤ 3 := by omega
    have : 10 ^ (min ds.length 9) ≤ 10 ^ 3 := Nat.pow_le_pow_right (by norm_num) hle
    norm_num at this
    omega

/-- For a fraction of at most nine digits the milliseconds are its first three digits. -/
theorem fractionMillis_short (ds : List Char) (hd : ∀ c ∈ ds, isDigit c = true)
    (hl : ds.length ≤ 9) : fractionMillis ds = firstThreeDigits ds := by
  have hb : ∀ c ∈ ds, digitVal c ≤ 9 := fun c hc => digitVal_le (hd c hc)
  unfold fractionMillis
  simp only
  rw [readUnsignedNumeral_short ds hl]
  clear hd
  rcases ds with _ | ⟨a, _ | ⟨b, _ | ⟨c, _ | ⟨d, _ | ⟨e, _ | ⟨f, _ | ⟨g, _ | ⟨h, _ | ⟨i, _ | ⟨j, r⟩⟩⟩⟩⟩⟩⟩⟩⟩⟩
  · rfl
  · simp [firstThreeDigits]
  · simp [firstThreeDigits]
    omega
  · simp [firstThreeDigits]
    omega
  · have := hb d (by simp)
    simp [firstThreeDigits]
    omega
  · have := hb d (by simp)
    have := hb e (by simp)
    simp [firstThreeDigits]
    omega
  · have := hb d (by simp)
    have := hb e (by simp)
    have := hb f (by simp)
    simp [firstThreeDigits]
    omega
  · have := hb d (by simp)
    have := hb e (by simp)
    have := hb f (by simp)
    have := hb g (by simp)
    simp [firstThreeDigits]
    omega
  · have := hb d (by simp)
    have := hb e (by simp)
    have := hb f (by simp)
    have := hb g (by simp)
    have := hb h (by simp)
    simp [firstThreeDigits]
    omega
  · have := hb d (by simp)
    have := hb e (by simp)
    have := hb f (by simp)
    have := hb g (by simp)
    have := hb h (by simp)
    have := hb i (by simp)
    simp [firstThreeDigits]
    omega
  · exact absurd hl (by simp)

/-- Within the ranges of `new Date` the time value is the time on the clock of the zone less the
offset of the zone. -/
theorem dateTimeValue_of_inRange {f : IsoFields} (hd : ∀ c ∈ f.fraction, isDigit c = true)
    (h : DateFieldsInRange f) : dateTimeValue f = some (civilTimeValue f - zoneOffsetMs f) := by
  obtain ⟨h1, h2, h3, h4, h5, h6, h7⟩ := h
  have hz := readUnsignedNumeral_eq_zero_iff f.fraction hd
  unfold dateTimeValue
  have hok : (decide (1 ≤ f.month) && decide (f.month ≤ 12) && decide (1 ≤ f.day)
      && decide (f.day ≤ 31)
      && ((decide (f.hour ≤ 23) && decide (f.minute ≤ 59) && decide (f.second ≤ 59))
          || (f.hour == 24 && f.minute == 0 && f.second == 0
              && readUnsignedNumeral f.fraction == 0))
      && decide (f.offsetHour ≤ 23) && decide (f.offsetMinute ≤ 59)) = true := by
    rcases h5 with ⟨a, b, c⟩ | ⟨a, b, c, d⟩
    · simp [h1, h2, h3, h4, h6, h7, a, b, c]
    · simp [h1, h2, h3, h4, h6, h7, a, b, c, hz.2 d]
  simp only [hok, if_true]
  unfold civilTimeValue zoneOffsetMs
  congr 1
  split_ifs <;> ring

/-- Outside the ranges of `new Date` the date is invalid. -/
theorem dateTimeValue_of_not_inRange {f : IsoFields} (hd : ∀ c ∈ f.fraction, isDigit c = true)
    (h : ¬ DateFieldsInRange f) : dateTimeValue f = none := by
  have hz := readUnsignedNumeral_eq_zero_iff f.fraction hd
  unfold dateTimeValue
  have hok : (decide (1 ≤ f.month) && decide (f.month ≤ 12) && decide (1 ≤ f.day)
      && decide (f.day ≤ 31)
      && ((decide (f.hour ≤ 23) && decide (f.minute ≤ 59) && decide (f.second ≤ 59))
          || (f.hour == 24 && f.minute == 0 && f.second == 0
              && readUnsignedNumeral f.fraction == 0))
      && decide (f.offsetHour ≤ 23) && decide (f.offsetMinute ≤ 59)) = false := by
    rw [Bool.eq_false_iff]
    intro hc
    apply h
    simp only [Bool.and_eq_true, Bool.or_eq_true, decide_eq_true_eq, beq_iff_eq] at hc
    obtain ⟨⟨⟨⟨⟨⟨a1, a2⟩, a3⟩, a4⟩, a5⟩, a6⟩, a7⟩ := hc
    refine ⟨a1, a2, a3, a4, ?_, a6, a7⟩
    rcases a5 with ⟨⟨b1, b2⟩, b3⟩ | ⟨⟨⟨b1, b2⟩, b3⟩, b4⟩
    · exact Or.inl ⟨b1, b2, b3⟩
    · exact Or.inr ⟨b1, b2, b3, hz.1 b4⟩
  simp only [hok, Bool.false_eq_true, if_false]

theorem dayFromYear_mono {a b : Int} (h : a ≤ b) : dayFromYear a ≤ dayFromYear b := by
  unfold dayFromYear
  omega

/-- The year of a day number between the first days of two successive years. -/
theorem yearFromDay_eq {z y : Int} (h1 : dayFromYear y ≤ z) (h2 : z < dayFromYear (y + 1)) :
    yearFromDay z = y := by
  obtain ⟨s1, s2⟩ := yearFromDay_spec z
  by_contra hne
  rcases lt_or_gt_of_ne hne with hlt | hgt
  · have := dayFromYear_mono (show yearFromDay z + 1 ≤ y by omega)
    omega
  · have := dayFromYear_mono (show y + 1 ≤ yearFromDay z by omega)
    omega

theorem leapDays (leap : Bool) :
    ∃ x : Int, 0 ≤ x ∧ x ≤ 1 ∧ ((if leap then 29 else 28 : Nat) : Int) = 28 + x ∧
    (if leap then (366 : Int) else 365) = 365 + x ∧
    daysBeforeMonth leap 1 = 0 ∧ daysBeforeMonth leap 2 = 31 ∧
    daysBeforeMonth leap 3 = 59 + x ∧ daysBeforeMonth leap 4 = 90 + x ∧
    daysBeforeMonth leap 5 = 120 + x ∧ daysBeforeMonth leap 6 = 151 + x ∧
    daysBeforeMonth leap 7 = 181 + x ∧ daysBeforeMonth leap 8 = 212 + x ∧
    daysBeforeMonth leap 9 = 243 + x ∧ daysBeforeMonth leap 10 = 273 + x ∧
    daysBeforeMonth leap 11 = 304 + x ∧ daysBeforeMonth leap 12 = 334 + x := by
  cases leap
  · exact ⟨0, le_refl _, by norm_num, rfl, rfl, rfl, rfl, rfl, rfl, rfl, rfl, rfl, rfl, rfl, rfl,
      rfl, rfl⟩
  · exact ⟨1, by norm_num, le_refl _, rfl, rfl, rfl, rfl, rfl, rfl, rfl, rfl, rfl, rfl, rfl, rfl,
      rfl, rfl⟩

theorem daysInMonth_values (y : Int) :
    daysInMonth y 1 = 31 ∧ daysInMonth y 2 = (if isLeapYear y then 29 else 28) ∧
    daysInMonth y 3 = 31 ∧ daysInMonth y 4 = 30 ∧ daysInMonth y 5 = 31 ∧ daysInMonth y 6 = 30 ∧
    daysInMonth y 7 = 31 ∧ daysInMonth y 8 = 31 ∧ daysInMonth y 9 = 30 ∧
    daysInMonth y 10 = 31 ∧ daysInMonth y 11 = 30 ∧ daysInMonth y 12 = 31 := by
  refine ⟨rfl, ?_, rfl, rfl, rfl, rfl, rfl, rfl, rfl, rfl, rfl, rfl⟩
  have hl := isLeapYear_iff y
  show (if y % 4 = 0 ∧ (y % 100 ≠ 0 ∨ y % 400 = 0) then 29 else 28) = _
  by_cases h : isLeapYear y = true
  · rw [if_pos (hl.1 h), if_pos h]
  · rw [if_neg (fun c => h (hl.2 c)), if_neg h]

/-- The month and the day of a day of the year. -/
theorem monthFromDayInYear_eq (y : Int) (m d : Nat) (hm1 : 1 ≤ m) (hm12 : m ≤ 12)
    (hd1 : 1 ≤ d) (hd : d ≤ daysInMonth y m) :
    monthFromDayInYear (isLeapYear y) (daysBeforeMonth (isLeapYear y) m + (d : Int) - 1) = m ∧
      0 ≤ daysBeforeMonth (isLeapYear y) m + (d : Int) - 1 ∧
      daysBeforeMonth (isLeapYear y) m + (d : Int) - 1
        < (if isLeapYear y then 366 else 365) := by
  have hm : m = 1 ∨ m = 2 ∨ m = 3 ∨ m = 4 ∨ m = 5 ∨ m = 6 ∨ m = 7 ∨ m = 8 ∨ m = 9 ∨ m = 10
      ∨ m = 11 ∨ m = 12 := by omega
  have hdi : (d : Int) ≤ ((daysInMonth y m : Nat) : Int) := Int.ofNat_le.2 hd
  have hd1i : (1 : Int) ≤ (d : Int) := Int.ofNat_le.2 hd1
  clear hd hd1 hm1 hm12
  obtain ⟨x, hx0, hx1, hfeb, hlen, d1, d2, d3, d4, d5, d6, d7, d8, d9, d10, d11, d12⟩ :=
    leapDays (isLeapYear y)
  unfold monthFromDayInYear
  rw [hlen, d2, d3, d4, d5, d6, d7, d8, d9, d10, d11, d12]
  clear hlen
  rcases hm with rfl | rfl | rfl | rfl | rfl | rfl | rfl | rfl | rfl | rfl | rfl | rfl
  · rw [(daysInMonth_values y).1] at hdi
    push_cast at hdi
    rw [d1]
    clear d1 d2 d3 d4 d5 d6 d7 d8 d9 d10 d11 d12 hfeb
    refine ⟨?_, by omega, by omega⟩
    rw [if_pos (by omega)]
  · rw [(daysInMonth_values y).2.1] at hdi
    rw [hfeb] at hdi
    rw [d2]
    clear d1 d2 d3 d4 d5 d6 d7 d8 d9 d10 d11 d12 hfeb
    refine ⟨?_, by omega, by omega⟩
    rw [if_neg (by omega), if_pos (by omega)]
  · rw [(daysInMonth_values y).2.2.1] at hdi
    push_cast at hdi
    rw [d3]
    clear d1 d2 d3 d4 d5 d6 d7 d8 d9 d10 d11 d12 hfeb
    refine ⟨?_, by omega, by omega⟩
    rw [if_neg (by omega), if_neg (by omega), if_pos (by omega)]
  · rw [(daysInMonth_values y).2.2.2.1] at hdi
    push_cast at hdi
    rw [d4]
    clear d1 d2 d3 d4 d5 d6 d7 d8 d9 d10 d11 d12 hfeb
    refine ⟨?_, by omega, by omega⟩
    rw [if_neg (by omega), if_neg (by omega), if_neg (by omega), if_pos (by omega)]
  · rw [(daysInMonth_values y).2.2.2.2.1] at hdi
    push_cast at hdi
    rw [d5]
    clear d1 d2 d3 d4 d5 d6 d7 d8 d9 d10 d11 d12 hfeb
    refine ⟨?_, by omega, by omega⟩
    rw [if_neg (by omega), if_neg (by omega), if_neg (by omega), if_neg (by omega), if_pos (by omega)]
  · rw [(daysInMonth_values y).2.2.2.2.2.1] at hdi
    push_cast at hdi
    rw [d6]
    clear d1 d2 d3 d4 d5 d6 d7 d8 d9 d10 d11 d12 hfeb
    refine ⟨?_, by omega, by omega⟩
    rw [if_neg (by omega), if_neg (by omega), if_neg (by omega), if_neg (by omega), if_neg (by omega), if_pos (by omega)]
  · rw [(daysInMonth_values y).2.2.2.2.2.2.1] at hdi
    push_cast at hdi
    rw [d7]
    clear d1 d2 d3 d4 d5 d6 d7 d8 d9 d10 d11 d12 hfeb
    refine ⟨?_, by omega, by omega⟩
    rw [if_neg (by omega), if_neg (by omega), if_neg (by omega), if_neg (by omega), if_neg (by omega), if_neg (by omega), if_pos (by omega)]
  · rw [(daysInMonth_values y).2.2.2.2.2.2.2.1] at hdi
    push_cast at hdi
    rw [d8]
    clear d1 d2 d3 d4 d5 d6 d7 d8 d9 d10 d11 d12 hfeb
    refine ⟨?_, by omega, by omega⟩
    rw [if_neg (by omega), if_neg (by omega), if_neg (by omega), if_neg (by omega), if_neg (by omega), if_neg (by omega), if_neg (by omega), if_pos (by omega)]
  · rw [(daysInMonth_values y).2.2.2.2.2.2.2.2.1] at hdi
    push_cast at hdi
    rw [d9]
    clear d1 d2 d3 d4 d5 d6 d7 d8 d9 d10 d11 d12 hfeb
    refine ⟨?_, by omega, by omega⟩
    rw [if_neg (by omega), if_neg (by omega), if_neg (by omega), if_neg (by omega), if_neg (by omega), if_neg (by omega), if_neg (by omega), if_neg (by omega), if_pos (by omega)]
  · rw [(daysInMonth_values y).2.2.2.2.2.2.2.2.2.1] at hdi
    push_cast at hdi
    rw [d10]
    clear d1 d2 d3 d4 d5 d6 d7 d8 d9 d10 d11 d12 hfeb
    refine ⟨?_, by omega, by omega⟩
    rw [if_neg (by omega), if_neg (by omega), if_neg (by omega), if_neg (by omega), if_neg (by omega), if_neg (by omega), if_neg (by omega), if_neg (by omega), if_neg (by omega), if_pos (by omega)]
  · rw [(daysInMonth_values y).2.2.2.2.2.2.2.2.2.2.1] at hdi
    push_cast at hdi
    rw [d11]
    clear d1 d2 d3 d4 d5 d6 d7 d8 d9 d10 d11 d12 hfeb
    refine ⟨?_, by omega, by omega⟩
    rw [if_neg (by omega), if_neg (by omega), if_neg (by omega), if_neg (by omega), if_neg (by omega), if_neg (by omega), if_neg (by omega), if_neg (by omega), if_neg (by omega), if_neg (by omega), if_pos (by omega)]
  · rw [(daysInMonth_values y).2.2.2.2.2.2.2.2.2.2.2] at hdi
    push_cast at hdi
    rw [d12]
    clear d1 d2 d3 d4 d5 d6 d7 d8 d9 d10 d11 d12 hfeb
    refine ⟨?_, by omega, by omega⟩
    rw [if_neg (by omega), if_neg (by omega), if_neg (by omega), if_neg (by omega), if_neg (by omega), if_neg (by omega), if_neg (by omega), if_neg (by omega), if_neg (by omega), if_neg (by omega), if_neg (by omega)]

/-- The calendar fields of the time value of a date and time of the calendar are its fields:
the date and the time are read back as they were written. -/
theorem utcFields_civil (f : IsoFields) (hms : fractionMillis f.fraction ≤ 999)
    (h : CalendarFields f) :
    (utcFields (civilTimeValue f)).year = f.year ∧
      (utcFields (civilTimeValue f)).month = f.month ∧
      (utcFields (civilTimeValue f)).day = f.day ∧
      (utcFields (civilTimeValue f)).hour = f.hour ∧
      (utcFields (civilTimeValue f)).minute = f.minute ∧
      (utcFields (civilTimeValue f)).second = f.second ∧
      (utcFields (civilTimeValue f)).ms = fractionMillis f.fraction := by
  obtain ⟨hm1, hm12, hd1, hdm, hh, hmi, hs, _, _⟩ := h
  obtain ⟨e1, e2, e3⟩ := monthFromDayInYear_eq (f.year : Int) f.month f.day hm1 hm12 hd1 hdm
  have hsucc := dayFromYear_succ (f.year : Int)
  have hday : civilTimeValue f / 86400000 = makeDay f.year f.month f.day := by
    unfold civilTimeValue
    omega
  have hrem : civilTimeValue f % 86400000 = (f.hour : Int) * 3600000 + (f.minute : Int) * 60000
      + (f.second : Int) * 1000 + (fractionMillis f.fraction : Int) := by
    unfold civilTimeValue
    omega
  have hyear : yearFromDay (makeDay f.year f.month f.day) = f.year := by
    apply yearFromDay_eq
    · unfold makeDay
      omega
    · unfold makeDay
      rw [hsucc]
      omega
  have hn : makeDay f.year f.month f.day - dayFromYear f.year
      = daysBeforeMonth (isLeapYear f.year) f.month + (f.day : Int) - 1 := by
    unfold makeDay
    omega
  have hnat : (civilTimeValue f % 86400000).toNat = f.hour * 3600000 + f.minute * 60000
      + f.second * 1000 + fractionMillis f.fraction := by
    rw [hrem]
    omega
  simp only [utcFields, hday, hyear, hn, e1, hnat]
  refine ⟨trivial, trivial, by omega, by omega, by omega, by omega, by omega⟩

end FlowVersion


namespace FlowVersion

/-! ## Strings (C29, C30) -/

theorem canonicalize_of_dateParse {s : String} {t : Int} (h : dateParse s = some t) :
    canonicalize (.str s) = .ok (.str (timestampText t)) := by
  have hiso : isoPatternTest s = true := by
    unfold isoPatternTest
    unfold dateParse at h
    cases hf : isoFields s.toList with
    | none => rw [hf] at h; cases h
    | some f => rfl
  rw [canonicalize_str, canonicalizeString_iso hiso, normalizeTimestamp_of_dateParse s t h]
  rfl

/-- C29, the case the claim misses: `2024-02-30T00:00:00Z` matches the timestamp pattern and
names no day of the calendar (February 2024 has 29 days), yet `canonicalize` does not fail: it
returns the text of 1 March. -/
theorem canonicalize_timestamp_rolls_over :
    isoPatternTest "2024-02-30T00:00:00Z" = true ∧
    isoFields "2024-02-30T00:00:00Z".toList
      = some { year := 2024, month := 2, day := 30, hour := 0, minute := 0, second := 0,
               fraction := [], hasOffset := false, offsetNegative := false,
               offsetHour := 0, offsetMinute := 0 } ∧
    daysInMonth 2024 2 = 29 ∧
    canonicalize (.str "2024-02-30T00:00:00Z") = .ok (.str "2024-03-01T00:00:00Z") :=
  ⟨rfl, rfl, rfl, rfl⟩

/-- C29. For every string `s` that matches the timestamp pattern, with the fields `f`.  When the
fields are within the ranges of `Date` (month 1..12, day 1..31 whatever the month, hour up to 23
with minute and second up to 59 or the time `24:00:00` with no fraction digit other than `0`,
offset up to `23:59`), `canonicalize` returns the text of the time value `t` that is the time of
the fields on the clock of their zone less the offset of the zone, and every matching string
with fields in these ranges and the same time value has the same canonical form.  When the
fields are outside these ranges, `canonicalize` fails with the invalid-timestamp error.  When
the fields are a date and a time of the calendar (the day within its month, the hour up to 23),
they are within the ranges and the time on the clock of the zone has exactly these fields: year,
month, day, hour, minute, second, and the milliseconds of the fraction, which for a fraction of
at most nine digits are its first three digits.  The text of a time
value `t` is `YYYY-MM-DDTHH:mm:ss` of the UTC fields of `t`, then `.sss` exactly when the
milliseconds are not zero, then `Z`, and the UTC fields are in range and denote `t`.  The offsets
`-08:00`, `+00:00` and `Z` of one instant all give `2024-01-15T18:00:00Z`, `.123` is kept,
`.1239` is cut to `.123`, a month 13 fails, `24:00:00` is the start of the next day and
`24:00:00.0001` fails. -/
theorem canonicalize_timestamp (s : String) (f : IsoFields) (hf : isoFields s.toList = some f) :
    (DateFieldsInRange f →
      canonicalize (.str s) = .ok (.str (timestampText (civilTimeValue f - zoneOffsetMs f))) ∧
      (∀ (s2 : String) (f2 : IsoFields), isoFields s2.toList = some f2 → DateFieldsInRange f2 →
        civilTimeValue f2 - zoneOffsetMs f2 = civilTimeValue f - zoneOffsetMs f →
        canonicalize (.str s2) = canonicalize (.str s))) ∧
    (¬ DateFieldsInRange f → canonicalize (.str s) = .error (.invalidTimestamp s)) ∧
    (CalendarFields f →
      DateFieldsInRange f ∧
      (utcFields (civilTimeValue f)).year = f.year ∧
      (utcFields (civilTimeValue f)).month = f.month ∧
      (utcFields (civilTimeValue f)).day = f.day ∧
      (utcFields (civilTimeValue f)).hour = f.hour ∧
      (utcFields (civilTimeValue f)).minute = f.minute ∧
      (utcFields (civilTimeValue f)).second = f.second ∧
      (utcFields (civilTimeValue f)).ms = fractionMillis f.fraction) ∧
    (f.fraction.length ≤ 9 → fractionMillis f.fraction = firstThreeDigits f.fraction) ∧
    (∀ t : Int,
      (timestampText t).toList = isoSecondsText (utcFields t) ++
        (if (utcFields t).ms = 0 then ['Z']
          else '.' :: (padDigits 3 (utcFields t).ms ++ ['Z'])) ∧
      1 ≤ (utcFields t).month ∧ (utcFields t).month ≤ 12 ∧ 1 ≤ (utcFields t).day ∧
      (utcFields t).day ≤ 31 ∧ (utcFields t).hour ≤ 23 ∧ (utcFields t).minute ≤ 59 ∧
      (utcFields t).second ≤ 59 ∧ (utcFields t).ms ≤ 999 ∧
      makeDay (utcFields t).year (utcFields t).month (utcFields t).day * 86400000
        + ((utcFields t).hour : Int) * 3600000 + ((utcFields t).minute : Int) * 60000
        + ((utcFields t).second : Int) * 1000 + ((utcFields t).ms : Int) = t) ∧
    canonicalize (.str "2024-01-15T10:00:00-08:00") = .ok (.str "2024-01-15T18:00:00Z") ∧
    canonicalize (.str "2024-01-15T18:00:00+00:00") = .ok (.str "2024-01-15T18:00:00Z") ∧
    canonicalize (.str "2024-01-15T18:00:00Z") = .ok (.str "2024-01-15T18:00:00Z") ∧
    canonicalize (.str "2024-01-15T18:00:00.123Z") = .ok (.str "2024-01-15T18:00:00.123Z") ∧
    canonicalize (.str "2024-01-15T18:00:00.1239Z") = .ok (.str "2024-01-15T18:00:00.123Z") ∧
    canonicalize (.str "2024-13-15T18:00:00Z")
      = .error (.invalidTimestamp "2024-13-15T18:00:00Z") ∧
    canonicalize (.str "2024-01-15T24:00:00.000Z") = .ok (.str "2024-01-16T00:00:00Z") ∧
    canonicalize (.str "2024-01-15T24:00:00.0001Z")
      = .error (.invalidTimestamp "2024-01-15T24:00:00.0001Z") := by
  have hdig := isoFields_fraction_digits hf
  have hparse : dateParse s = dateTimeValue f := by
    unfold dateParse
    rw [hf]
  refine ⟨fun hr => ⟨?_, fun s2 f2 hf2 hr2 he => ?_⟩, fun hn => ?_, fun hc => ?_,
    fractionMillis_short _ hdig, fun t => ?_, rfl, rfl, rfl, rfl, rfl, rfl, rfl, rfl⟩
  · exact canonicalize_of_dateParse (hparse.trans (dateTimeValue_of_inRange hdig hr))
  · have h2 : dateParse s2 = some (civilTimeValue f2 - zoneOffsetMs f2) := by
      unfold dateParse
      rw [hf2]
      exact dateTimeValue_of_inRange (isoFields_fraction_digits hf2) hr2
    rw [canonicalize_of_dateParse h2,
      canonicalize_of_dateParse (hparse.trans (dateTimeValue_of_inRange hdig hr)), he]
  · have hiso : isoPatternTest s = true := by
      unfold isoPatternTest
      rw [hf]
      rfl
    have hp : dateParse s = none := hparse.trans (dateTimeValue_of_not_inRange hdig hn)
    rw [canonicalize_str, canonicalizeString_iso hiso]
    simp [normalizeTimestamp, hp, okStr]
  · have hdm : daysInMonth f.year f.month ≤ 31 := by
      unfold daysInMonth
      split <;> first | (split_ifs <;> decide) | decide
    obtain ⟨c1, c2, c3, c4, c5, c6, c7, c8, c9⟩ := hc
    exact ⟨⟨c1, c2, c3, le_trans c4 hdm, Or.inl ⟨c5, c6, c7⟩, c8, c9⟩,
      utcFields_civil f (fractionMillis_le _ hdig) ⟨c1, c2, c3, c4, c5, c6, c7, c8, c9⟩⟩
  · obtain ⟨u1, u2, u3, u4, u5, u6, u7, u8, u9⟩ := utcFields_spec t
    refine ⟨?_, u1, u2, u3, u4, u5, u6, u7, u8, u9⟩
    rw [timestampText_toList]
    have hms : (utcMilliseconds t = 0) ↔ ((utcFields t).ms = 0) := by
      simp only [utcMilliseconds, utcFields]
      omega
    by_cases h0 : utcMilliseconds t = 0
    · rw [if_pos h0, if_pos (hms.1 h0)]
    · rw [if_neg h0, if_neg (fun h => h0 (hms.2 h))]

theorem canonicalize_timestamp_witness :
    isoFields "2024-01-15T10:00:00.5-08:00".toList
      = some { year := 2024, month := 1, day := 15, hour := 10, minute := 0, second := 0,
               fraction := ['5'], hasOffset := true, offsetNegative := true,
               offsetHour := 8, offsetMinute := 0 } ∧
    canonicalize (.str "2024-01-15T10:00:00.5-08:00")
      = .ok (.str (timestampText (civilTimeValue
          { year := 2024, month := 1, day := 15, hour := 10, minute := 0, second := 0,
            fraction := ['5'], hasOffset := true, offsetNegative := true,
            offsetHour := 8, offsetMinute := 0 }
        - zoneOffsetMs
          { year := 2024, month := 1, day := 15, hour := 10, minute := 0, second := 0,
            fraction := ['5'], hasOffset := true, offsetNegative := true,
            offsetHour := 8, offsetMinute := 0 }))) ∧
    canonicalize (.str "2024-01-15T10:00:00.5-08:00") = .ok (.str "2024-01-15T18:00:00.500Z") :=
  ⟨rfl, ((canonicalize_timestamp "2024-01-15T10:00:00.5-08:00"
    { year := 2024, month := 1, day := 15, hour := 10, minute := 0, second := 0,
      fraction := ['5'], hasOffset := true, offsetNegative := true,
      offsetHour := 8, offsetMinute := 0 } rfl).1
    ⟨by decide, by decide, by decide, by decide,
      Or.inl ⟨by decide, by decide, by decide⟩, by decide, by decide⟩).1, rfl⟩

/-- C30. For every string `s`: when `s` matches the UUID pattern (8-4-4-4-12 hexadecimal
digits) or the hash pattern (64 hexadecimal digits), `canonicalize` returns `s` with the
letters `A` to `Z` replaced by `a` to `z`; when `s` matches none of the UUID, hash and
timestamp patterns, `canonicalize` returns `s` unchanged. -/
theorem canonicalize_string_cases (s : String) :
    (uuidPatternTest s = true → canonicalize (.str s) = .ok (.str (toLowerCase s))) ∧
    (hashPatternTest s = true → canonicalize (.str s) = .ok (.str (toLowerCase s))) ∧
    (uuidPatternTest s = false → hashPatternTest s = false → isoPatternTest s = false →
      canonicalize (.str s) = .ok (.str s)) ∧
    (toLowerCase s).toList = s.toList.map lowerChar ∧
    (∀ c : Char, (lowerChar c).toNat
      = if 65 ≤ c.toNat ∧ c.toNat ≤ 90 then c.toNat + 32 else c.toNat) ∧
    uuidPatternTest s = matchShape
      (List.replicate 8 isHexDigit ++ [isHyphen] ++ List.replicate 4 isHexDigit ++ [isHyphen]
        ++ List.replicate 4 isHexDigit ++ [isHyphen] ++ List.replicate 4 isHexDigit
        ++ [isHyphen] ++ List.replicate 12 isHexDigit) s.toList ∧
    hashPatternTest s = matchShape (List.replicate 64 isHexDigit) s.toList ∧
    canonicalize (.str "A1B2C3D4-E5F6-7890-ABCD-EF1234567890")
      = .ok (.str "a1b2c3d4-e5f6-7890-abcd-ef1234567890") ∧
    canonicalize (.str "Hello World") = .ok (.str "Hello World") := by
  refine ⟨fun h => ?_, fun h => ?_, fun h1 h2 h3 => ?_, rfl, lowerChar_toNat, rfl, rfl, rfl, rfl⟩
  · rw [canonicalize_str, canonicalizeString_uuid h]
    rfl
  · rw [canonicalize_str, canonicalizeString_hash h]
    rfl
  · rw [canonicalize_str, canonicalizeString_other h1 h2 h3]
    rfl

end FlowVersion


namespace FlowVersion

/-! ## One-sided changes in `merge` (C35, C38) -/

theorem mergeGraphs_left_only (P : Platform) :
    mergeGraphs P (edgesOnly []) (edgesOnly [untrimmedEdge " a->b" .null]) (edgesOnly [])
      = .ok (.obj [("conflicts", .arr []),
          ("merged", edgesOnly [untrimmedEdge "a->b" .null])]) := rfl

theorem mergeGraphs_right_only (P : Platform) :
    mergeGraphs P (edgesOnly []) (edgesOnly []) (edgesOnly [untrimmedEdge " a->b" .null])
      = .ok (.obj [("conflicts", .arr []),
          ("merged", edgesOnly [untrimmedEdge "a->b" .null])]) := rfl

theorem canonicalizeDomain_edgesOnly_nil (P : Platform) :
    canonicalizeDomain P (edgesOnly []) = .ok (edgesOnly []) := rfl

/-- C35, evaluated on every platform at the edge `{from: " a", to: "b"}`, which normalizes to
the atom `edge: a->b` with the default id `" a->b"`: for that atom absent in base and present
on one side only, `threeWayAtomMerge` returns the side's value and no conflict; but the merged
graph of `merge` with an empty base, that edge on the left (or on the right) and an empty other
side holds no edge with that value: its only edge has the id `"a->b"`. -/
theorem merge_one_sided_addition_untrimmed_edge (P : Platform) :
    canonicalizeDomain P untrimmedGraph = .ok (edgesOnly [untrimmedEdge " a->b" .null]) ∧
    canonicalizeDomain P emptyGraph = .ok (edgesOnly []) ∧
    threeWayAtomMerge P .undefined (untrimmedEdge " a->b" .null) .undefined "edge: a->b"
      = .ok ⟨untrimmedEdge " a->b" .null, .null⟩ ∧
    threeWayAtomMerge P .undefined .undefined (untrimmedEdge " a->b" .null) "edge: a->b"
      = .ok ⟨untrimmedEdge " a->b" .null, .null⟩ ∧
    merge P emptyGraph untrimmedGraph emptyGraph
      = .ok (.obj [("conflicts", .arr []),
          ("merged", edgesOnly [untrimmedEdge "a->b" .null])]) ∧
    merge P emptyGraph emptyGraph untrimmedGraph
      = .ok (.obj [("conflicts", .arr []),
          ("merged", edgesOnly [untrimmedEdge "a->b" .null])]) ∧
    untrimmedEdge "a->b" .null ≠ untrimmedEdge " a->b" .null := by
  refine ⟨canonicalizeDomain_untrimmed P, canonicalizeDomain_empty P, rfl, rfl, ?_, ?_,
    by simp [untrimmedEdge]⟩
  · rw [merge_of_graphs P (canonicalizeDomain_empty P) (canonicalizeDomain_untrimmed P)
      (canonicalizeDomain_empty P) rfl rfl rfl]
    exact mergeGraphs_left_only P
  · rw [merge_of_graphs P (canonicalizeDomain_empty P) (canonicalizeDomain_empty P)
      (canonicalizeDomain_untrimmed P) rfl rfl rfl]
    exact mergeGraphs_right_only P

/-- C38, evaluated on every platform at the canonical graph states `B` (no nodes, no edges) and
`L = canonicalizeDomain({nodes: [], edges: [{from: " a", to: "b"}]})`, whose edge has the
default id `" a->b"`: `merge(B, L, B)` and `merge(B, B, L)` report no conflict, but the edges
of the merged graph are not those of `L`: the id of the edge is `"a->b"`. -/
theorem merge_fast_forward_untrimmed_edge (P : Platform) :
    canonicalizeDomain P emptyGraph = .ok (edgesOnly []) ∧
    canonicalizeDomain P untrimmedGraph = .ok (edgesOnly [untrimmedEdge " a->b" .null]) ∧
    merge P (edgesOnly []) (edgesOnly [untrimmedEdge " a->b" .null]) (edgesOnly [])
      = .ok (.obj [("conflicts", .arr []),
          ("merged", edgesOnly [untrimmedEdge "a->b" .null])]) ∧
    merge P (edgesOnly []) (edgesOnly []) (edgesOnly [untrimmedEdge " a->b" .null])
      = .ok (.obj [("conflicts", .arr []),
          ("merged", edgesOnly [untrimmedEdge "a->b" .null])]) ∧
    propItems (edgesOnly [untrimmedEdge "a->b" .null]) "edges"
      ≠ propItems (edgesOnly [untrimmedEdge " a->b" .null]) "edges" := by
  refine ⟨canonicalizeDomain_empty P, canonicalizeDomain_untrimmed P, ?_, ?_, ?_⟩
  · rw [merge_of_graphs P (canonicalizeDomain_edgesOnly_nil P)
      (canonicalizeDomain_untrimmed_again P) (canonicalizeDomain_edgesOnly_nil P) rfl rfl rfl]
    rfl
  · rw [merge_of_graphs P (canonicalizeDomain_edgesOnly_nil P)
      (canonicalizeDomain_edgesOnly_nil P) (canonicalizeDomain_untrimmed_again P) rfl rfl rfl]
    rfl
  · simp [propItems, getProp, lookupProp, edgesOnly, untrimmedEdge]

end FlowVersion


namespace FlowVersion

/-! ## Canonical equality -/

theorem utf8Bytes_injective {s t : String} (h : utf8Bytes s = utf8Bytes t) : s = t := by
  unfold utf8Bytes at h
  have h1 := utf8DecodeLoop_utf8Bytes s.toList
  rw [h, utf8DecodeLoop_utf8Bytes] at h1
  exact String.ext h1.symm

theorem canonicalizeObjectLoop_congr (E E' : List (String × Option (Except JSError Value)))
    (ks : List String) (r : Props) (h : ∀ k ∈ ks, lookupProp k E = lookupProp k E') :
    canonicalizeObjectLoop E ks r = canonicalizeObjectLoop E' ks r := by
  induction ks generalizing r with
  | nil => rfl
  | cons k ks ih =>
    have hk := h k (List.mem_cons_self _ _)
    have ih' := fun r => ih r (fun x hx => h x (List.mem_cons_of_mem _ hx))
    simp only [canonicalizeObjectLoop, hk]
    cases lookupProp k E' with
    | none => exact ih' r
    | some o =>
      cases o with
      | none => exact ih' r
      | some e =>
        cases e with
        | error err => rfl
        | ok v => exact ih' _

theorem mem_keys_of_lookup {β : Type} {k : String} {v : β} {ps : List (String × β)}
    (h : lookupProp k ps = some v) : k ∈ ps.map Prod.fst :=
  List.mem_map_of_mem Prod.fst (lookupProp_mem h)

mutual
theorem canonicalize_sameContent : ∀ (a b : Value), SameContent a b →
    canonicalize a = canonicalize b ∧ isUndefined a = isUndefined b
  | .null, b, h => by
    simp only [SameContent] at h; subst h; exact ⟨rfl, rfl⟩
  | .undefined, b, h => by
    simp only [SameContent] at h; subst h; exact ⟨rfl, rfl⟩
  | .bool x, b, h => by
    simp only [SameContent] at h; subst h; exact ⟨rfl, rfl⟩
  | .num n, b, h => by
    simp only [SameContent] at h; subst h; exact ⟨rfl, rfl⟩
  | .str s, b, h => by
    simp only [SameContent] at h; subst h; exact ⟨rfl, rfl⟩
  | .unsupported t, b, h => by
    simp only [SameContent] at h; subst h; exact ⟨rfl, rfl⟩
  | .arr xs, b, h => by
    simp only [SameContent] at h
    obtain ⟨ys, rfl, hs⟩ := h
    refine ⟨?_, rfl⟩
    simp only [canonicalize, canonicalizeArray_sameItems xs ys hs]
  | .obj ps, b, h => by
    simp only [SameContent] at h
    obtain ⟨qs, rfl, hp, hq, hlen, hs⟩ := h
    refine ⟨?_, rfl⟩
    have hprops := canonicalize_sameProps ps qs hs
    have hsub : ps.map Prod.fst ⊆ qs.map Prod.fst := by
      intro k hk
      obtain ⟨⟨k', v⟩, hkv, rfl⟩ := List.mem_map.1 hk
      obtain ⟨w, hw, _⟩ := hprops k' v hkv
      exact mem_keys_of_lookup hw
    have hperm : (ps.map Prod.fst).Perm (qs.map Prod.fst) :=
      (List.subperm_of_subset hp hsub).perm_of_length_le (by simp [hlen])
    have hsort : sortStrings (ps.map Prod.fst) = sortStrings (qs.map Prod.fst) :=
      sortStrings_eq_of_perm_sorted (hperm.trans (sortStrings_perm _).symm)
        (sortStrings_sorted _)
    simp only [canonicalize, ← hsort]
    congr 1
    apply canonicalizeObjectLoop_congr
    intro k hk
    rw [mem_sortStrings] at hk
    obtain ⟨⟨k', v⟩, hkv, rfl⟩ := List.mem_map.1 hk
    obtain ⟨w, hw, hc, hu⟩ := hprops k' v hkv
    rw [lookupProp_canonicalizeEntries, lookupProp_canonicalizeEntries,
      lookupProp_of_mem_nodup hp hkv, hw]
    simp only [Option.map_some', hc, hu]
theorem canonicalizeArray_sameItems : ∀ (xs ys : List Value), SameItems xs ys →
    canonicalizeArray xs = canonicalizeArray ys
  | [], ys, h => by
    simp only [SameItems] at h; subst h; rfl
  | x :: xs, ys, h => by
    simp only [SameItems] at h
    obtain ⟨y, ys', rfl, hx, hxs⟩ := h
    simp only [canonicalizeArray, (canonicalize_sameContent x y hx).1,
      canonicalizeArray_sameItems xs ys' hxs]
theorem canonicalize_sameProps : ∀ (ps qs : List (String × Value)), SameProps ps qs →
    ∀ k v, (k, v) ∈ ps → ∃ w, lookupProp k qs = some w ∧ canonicalize v = canonicalize w ∧
      isUndefined v = isUndefined w
  | [], qs, h, k, v, hm => by cases hm
  | (k0, v0) :: ps, qs, h, k, v, hm => by
    simp only [SameProps] at h
    obtain ⟨⟨w, hw, hc⟩, hrest⟩ := h
    rcases List.mem_cons.1 hm with heq | hm
    · simp only [Prod.mk.injEq] at heq
      obtain ⟨rfl, rfl⟩ := heq
      exact ⟨w, hw, canonicalize_sameContent v w hc⟩
    · exact canonicalize_sameProps ps qs hrest k v hm
end

theorem jsonStringify_eq_iff_serialize {a b : Value} (ha : Canonical a) (hb : Canonical b) :
    jsonStringify a = jsonStringify b ↔ serialize a = serialize b := by
  have hsa : ∃ t, stringifyValue a = some t := by
    cases a with
    | undefined => exact absurd ha (by simp [Canonical, canonicalize])
    | unsupported t => exact absurd ha (by simp [Canonical, canonicalize])
    | _ => simp [stringifyValue]
  have hsb : ∃ t, stringifyValue b = some t := by
    cases b with
    | undefined => exact absurd hb (by simp [Canonical, canonicalize])
    | unsupported t => exact absurd hb (by simp [Canonical, canonicalize])
    | _ => simp [stringifyValue]
  obtain ⟨ta, hta⟩ := hsa
  obtain ⟨tb, htb⟩ := hsb
  simp only [jsonStringify, serialize, hta, htb]
  constructor
  · intro h
    rw [h]
  · exact utf8Bytes_injective

end FlowVersion


namespace FlowVersion

/-! ## UUIDs -/

theorem isLowerHex_iff {c : Char} : isLowerHex c = true ↔
    (48 ≤ c.toNat ∧ c.toNat ≤ 57) ∨ (97 ≤ c.toNat ∧ c.toNat ≤ 102) := by
  simp [isLowerHex, isDigit]

theorem isLowerHex_hexDigitChar {d : Nat} (h : d < 16) : isLowerHex (hexDigitChar d) = true := by
  rw [isLowerHex_iff, hexDigitChar_toNat h]
  split_ifs <;> omega

theorem lowerChar_hexDigitChar {d : Nat} (h : d < 16) :
    lowerChar (hexDigitChar d) = hexDigitChar d := by
  apply char_eq_of_toNat_eq
  rw [lowerChar_toNat, hexDigitChar_toNat h]
  split_ifs <;> omega

theorem hexDigitChar_ne_hyphen {d : Nat} (h : d < 16) : (hexDigitChar d != '-') = true := by
  interval_cases d <;> decide

theorem hexOfBytes_length (bs : List Nat) : (hexOfBytes bs).length = 2 * bs.length := by
  induction bs with
  | nil => rfl
  | cons b bs ih => simp only [hexOfBytes, byteHex, List.length_append, List.length_cons,
      List.length_nil, ih]; omega

theorem hexOfBytes_lower (bs : List Nat) : ∀ c ∈ hexOfBytes bs, isLowerHex c = true := by
  induction bs with
  | nil => intro c hc; cases hc
  | cons b bs ih =>
    intro c hc
    simp only [hexOfBytes, byteHex, List.cons_append, List.nil_append, List.mem_cons] at hc
    rcases hc with rfl | rfl | hc
    · exact isLowerHex_hexDigitChar (by omega)
    · exact isLowerHex_hexDigitChar (by omega)
    · exact ih c hc

theorem hexOfBytes_no_hyphen (bs : List Nat) : ∀ c ∈ hexOfBytes bs, (c != '-') = true := by
  induction bs with
  | nil => intro c hc; cases hc
  | cons b bs ih =>
    intro c hc
    simp only [hexOfBytes, byteHex, List.cons_append, List.nil_append, List.mem_cons] at hc
    rcases hc with rfl | rfl | hc
    · exact hexDigitChar_ne_hyphen (by omega)
    · exact hexDigitChar_ne_hyphen (by omega)
    · exact ih c hc

theorem map_lowerChar_hexOfBytes (bs : List Nat) :
    (hexOfBytes bs).map lowerChar = hexOfBytes bs := by
  induction bs with
  | nil => rfl
  | cons b bs ih =>
    simp only [hexOfBytes, byteHex, List.cons_append, List.nil_append, List.map_cons, ih]
    rw [lowerChar_hexDigitChar (by omega), lowerChar_hexDigitChar (by omega)]

theorem hexPairs_hexOfBytes (bs : List Nat) : hexPairs (hexOfBytes bs) = bs.map (fun b => b % 256) := by
  induction bs with
  | nil => rfl
  | cons b bs ih =>
    simp only [hexOfBytes, byteHex, List.cons_append, List.nil_append, hexPairs, List.map_cons, ih]
    rw [hexVal_hexDigitChar (by omega), hexVal_hexDigitChar (by omega)]
    congr 1
    omega

theorem matchShape_replicate (p : Char → Bool) (cs : List Char) (h : ∀ c ∈ cs, p c = true) :
    matchShape (List.replicate cs.length p) cs = true := by
  induction cs with
  | nil => rfl
  | cons c cs ih =>
    simp only [List.length_cons, List.replicate_succ, matchShape, Bool.and_eq_true]
    exact ⟨h c (List.mem_cons_self _ _), ih (fun x hx => h x (List.mem_cons_of_mem _ hx))⟩

theorem matchShape_append {s1 s2 : List (Char → Bool)} {c1 c2 : List Char}
    (h1 : matchShape s1 c1 = true) (h2 : matchShape s2 c2 = true) :
    matchShape (s1 ++ s2) (c1 ++ c2) = true := by
  induction s1 generalizing c1 with
  | nil =>
    cases c1 with
    | nil => exact h2
    | cons c cs => simp [matchShape] at h1
  | cons p ps ih =>
    cases c1 with
    | nil => simp [matchShape] at h1
    | cons c cs =>
      simp only [matchShape, Bool.and_eq_true] at h1
      simp only [List.cons_append, matchShape, Bool.and_eq_true]
      exact ⟨h1.1, ih h1.2⟩

theorem filter_eq_self_of_all {p : Char → Bool} {cs : List Char} (h : ∀ c ∈ cs, p c = true) :
    cs.filter p = cs :=
  List.filter_eq_self.2 h

/-- The five groups of a UUID, put together again, are its 32 digits. -/
theorem groups_append (hex : List Char) (h : hex.length = 32) :
    hex.take 8 ++ ((hex.drop 8).take 4 ++ ((hex.drop 12).take 4 ++ ((hex.drop 16).take 4
      ++ (hex.drop 20).take 12))) = hex := by
  have e1 : (hex.drop 20).take 12 = hex.drop 20 :=
    List.take_of_length_le (by rw [List.length_drop]; omega)
  have d1 : hex.drop 12 = (hex.drop 8).drop 4 := by rw [List.drop_drop]
  have d2 : hex.drop 16 = (hex.drop 12).drop 4 := by rw [List.drop_drop]
  have d3 : hex.drop 20 = (hex.drop 16).drop 4 := by rw [List.drop_drop]
  rw [e1]
  conv_lhs => rw [d3, List.take_append_drop, d2, List.take_append_drop, d1,
    List.take_append_drop, List.take_append_drop]

theorem bytesToUuid_toList (bs : List Nat) :
    (bytesToUuid bs).toList = (hexOfBytes bs).take 8 ++ '-' :: (((hexOfBytes bs).drop 8).take 4
      ++ '-' :: (((hexOfBytes bs).drop 12).take 4 ++ '-' :: (((hexOfBytes bs).drop 16).take 4
      ++ '-' :: ((hexOfBytes bs).drop 20).take 12))) := by
  simp [bytesToUuid]

theorem filter_bytesToUuid (bs : List Nat) (h : bs.length = 16) :
    (bytesToUuid bs).toList.filter (fun c => c != '-') = hexOfBytes bs := by
  have hn := hexOfBytes_no_hyphen bs
  have ht : ∀ n, ((hexOfBytes bs).take n).filter (fun c => c != '-') = (hexOfBytes bs).take n :=
    fun n => filter_eq_self_of_all (fun c hc => hn c (List.mem_of_mem_take hc))
  have hd : ∀ n m, (((hexOfBytes bs).drop n).take m).filter (fun c => c != '-')
      = ((hexOfBytes bs).drop n).take m :=
    fun n m => filter_eq_self_of_all
      (fun c hc => hn c (List.mem_of_mem_drop (List.mem_of_mem_take hc)))
  have hy : (('-' : Char) != '-') = false := by decide
  rw [bytesToUuid_toList]
  simp only [List.filter_append, List.filter_cons, hy, ht, hd, Bool.false_eq_true, if_false]
  exact groups_append _ (by rw [hexOfBytes_length, h])

/-- The `uuidToBytes` of a `bytesToUuid` of sixteen numbers is their bytes. -/
theorem uuidToBytes_bytesToUuid (bs : List Nat) (h : bs.length = 16) :
    uuidToBytes (bytesToUuid bs) = .ok (bs.map (fun b => b % 256)) := by
  unfold uuidToBytes
  simp only [filter_bytesToUuid bs h, map_lowerChar_hexOfBytes]
  have hl : (hexOfBytes bs).length = 32 := by rw [hexOfBytes_length, h]
  have hm := matchShape_replicate isLowerHex (hexOfBytes bs) (hexOfBytes_lower bs)
  rw [hl] at hm
  have hm' : matchShape (List.replicate 32
      (fun c => isDigit c || (decide (97 ≤ c.toNat) && decide (c.toNat ≤ 102))))
      (hexOfBytes bs) = true := hm
  rw [if_pos hm', hexPairs_hexOfBytes]

theorem map_mod_of_lt {bs : List Nat} (h : ∀ b ∈ bs, b < 256) : bs.map (fun b => b % 256) = bs := by
  induction bs with
  | nil => rfl
  | cons b bs ih =>
    simp only [List.map_cons]
    rw [Nat.mod_eq_of_lt (h b (List.mem_cons_self _ _)),
      ih (fun x hx => h x (List.mem_cons_of_mem _ hx))]

theorem bytesToUuid_shape (bs : List Nat) (h : bs.length = 16) :
    matchShape lowerUuidShape (bytesToUuid bs).toList = true := by
  have hl : (hexOfBytes bs).length = 32 := by rw [hexOfBytes_length, h]
  have hlow := hexOfBytes_lower bs
  have ht : ∀ n, n ≤ 32 → matchShape (List.replicate n isLowerHex) ((hexOfBytes bs).take n) = true := by
    intro n hn
    have := matchShape_replicate isLowerHex ((hexOfBytes bs).take n)
      (fun c hc => hlow c (List.mem_of_mem_take hc))
    rwa [List.length_take, hl, Nat.min_eq_left hn] at this
  have hd : ∀ n m, n + m ≤ 32 →
      matchShape (List.replicate m isLowerHex) (((hexOfBytes bs).drop n).take m) = true := by
    intro n m hn
    have := matchShape_replicate isLowerHex (((hexOfBytes bs).drop n).take m)
      (fun c hc => hlow c (List.mem_of_mem_drop (List.mem_of_mem_take hc)))
    rwa [List.length_take, List.length_drop, hl, Nat.min_eq_left (by omega)] at this
  have hy : matchShape [isHyphen] ['-'] = true := by decide
  rw [bytesToUuid_toList]
  unfold lowerUuidShape
  have e : ∀ (a b c d e : List Char), a ++ '-' :: (b ++ '-' :: (c ++ '-' :: (d ++ '-' :: e)))
      = a ++ ['-'] ++ b ++ ['-'] ++ c ++ ['-'] ++ d ++ ['-'] ++ e := by
    intros; simp
  rw [e]
  exact matchShape_append (matchShape_append (matchShape_append (matchShape_append
    (matchShape_append (matchShape_append (matchShape_append (matchShape_append
      (ht 8 (by omega)) hy) (hd 8 4 (by omega))) hy) (hd 12 4 (by omega))) hy)
      (hd 16 4 (by omega))) hy) (hd 20 12 (by omega))

theorem length_eq_sixteen {l : List Nat} (h : l.length = 16) :
    ∃ b0 b1 b2 b3 b4 b5 b6 b7 b8 b9 b10 b11 b12 b13 b14 b15,
      l = [b0, b1, b2, b3, b4, b5, b6, b7, b8, b9, b10, b11, b12, b13, b14, b15] := by
  match l, h with
  | [b0, b1, b2, b3, b4, b5, b6, b7, b8, b9, b10, b11, b12, b13, b14, b15], _ =>
    exact ⟨b0, b1, b2, b3, b4, b5, b6, b7, b8, b9, b10, b11, b12, b13, b14, b15, rfl⟩

theorem version_bits (b : Nat) : ((b &&& 0x0f) ||| 0x50) % 256 = 0x50 + b % 16 := by
  have h1 : b &&& 0x0f = b % 16 := Nat.and_pow_two_sub_one_eq_mod b 4
  rw [h1]
  have h2 : ∀ x, x < 16 → (x ||| 0x50) % 256 = 0x50 + x := by decide
  exact h2 _ (Nat.mod_lt _ (by decide))

theorem variant_bits (b : Nat) : ((b &&& 0x3f) ||| 0x80) % 256 = 0x80 + b % 64 := by
  have h1 : b &&& 0x3f = b % 64 := Nat.and_pow_two_sub_one_eq_mod b 6
  rw [h1]
  have h2 : ∀ x, x < 64 → (x ||| 0x80) % 256 = 0x80 + x := by decide
  exact h2 _ (Nat.mod_lt _ (by decide))

theorem version_digit (b : Nat) : hexDigitChar ((0x50 + b % 16) % 256 / 16) = '5' := by
  have : (0x50 + b % 16) % 256 / 16 = 5 := by omega
  rw [this]; rfl

theorem variant_digit (b : Nat) :
    hexDigitChar ((0x80 + b % 64) % 256 / 16) ∈ ['8', '9', 'a', 'b'] := by
  have h : (0x80 + b % 64) % 256 / 16 = 8 ∨ (0x80 + b % 64) % 256 / 16 = 9 ∨
      (0x80 + b % 64) % 256 / 16 = 10 ∨ (0x80 + b % 64) % 256 / 16 = 11 := by omega
  rcases h with h | h | h | h <;> rw [h] <;> decide

/-- The bytes of `uuidV5`, from a digest of at least sixteen bytes. -/
theorem uuidV5_bytes (hash : List Nat) (h : 16 ≤ hash.length) :
    ∃ bytes : List Nat,
      updateByte 8 (fun b => (b &&& 0x3f) ||| 0x80)
        (updateByte 6 (fun b => (b &&& 0x0f) ||| 0x50) ((hash.take 16).map (fun b => b % 256)))
        = bytes ∧
      bytes.length = 16 ∧ (∀ b ∈ bytes, b < 256) ∧
      (∀ i x, i < 16 → hash.get? i = some x → bytes.get? i = some (uuidV5Byte i x)) ∧
      (hexOfBytes bytes).get? 12 = some '5' ∧
      (∃ c, (hexOfBytes bytes).get? 16 = some c ∧ c ∈ ['8', '9', 'a', 'b']) := by
  have hl : (hash.take 16).length = 16 := by rw [List.length_take]; omega
  have hg : ∀ i, i < 16 → hash.get? i = (hash.take 16).get? i := by
    intro i hi
    simp [List.getElem?_take, hi]
  obtain ⟨b0, b1, b2, b3, b4, b5, b6, b7, b8, b9, b10, b11, b12, b13, b14, b15, hb⟩ :=
    length_eq_sixteen hl
  refine ⟨[b0 % 256, b1 % 256, b2 % 256, b3 % 256, b4 % 256, b5 % 256, 0x50 + b6 % 16,
      b7 % 256, 0x80 + b8 % 64, b9 % 256, b10 % 256, b11 % 256, b12 % 256, b13 % 256,
      b14 % 256, b15 % 256], ?_, rfl, ?_, ?_, ?_, ?_⟩
  · rw [hb]
    have e6 : ((b6 % 256 &&& 0x0f) ||| 0x50) % 256 = 0x50 + b6 % 16 := by
      rw [version_bits]; omega
    have e8 : ((b8 % 256 &&& 0x3f) ||| 0x80) % 256 = 0x80 + b8 % 64 := by
      rw [variant_bits]; omega
    simp only [List.map_cons, List.map_nil, updateByte, List.get?_cons_succ, List.get?_cons_zero,
      List.set_cons_succ, List.set_cons_zero, e6, e8]
  · intro b hb'
    simp only [List.mem_cons, List.mem_singleton, List.not_mem_nil, or_false] at hb'
    rcases hb' with h | h | h | h | h | h | h | h | h | h | h | h | h | h | h | h <;>
      (subst h; omega)
  · intro i x hi hx
    rw [hg i hi, hb] at hx
    interval_cases i <;>
      (simp only [List.get?_cons_succ, List.get?_cons_zero, Option.some.injEq] at hx
       subst hx
       simp [uuidV5Byte])
  · simp only [hexOfBytes, byteHex, List.cons_append, List.nil_append, List.get?_cons_succ,
      List.get?_cons_zero, Option.some.injEq]
    exact version_digit b6
  · refine ⟨_, ?_, variant_digit b8⟩
    simp only [hexOfBytes, byteHex, List.cons_append, List.nil_append, List.get?_cons_succ,
      List.get?_cons_zero]

theorem bytesToUuid_get_14 (bs : List Nat) (h : bs.length = 16) :
    (bytesToUuid bs).toList.get? 14 = (hexOfBytes bs).get? 12 := by
  obtain ⟨b0, b1, b2, b3, b4, b5, b6, b7, b8, b9, b10, b11, b12, b13, b14, b15, rfl⟩ :=
    length_eq_sixteen h
  rfl

theorem bytesToUuid_get_19 (bs : List Nat) (h : bs.length = 16) :
    (bytesToUuid bs).toList.get? 19 = (hexOfBytes bs).get? 16 := by
  obtain ⟨b0, b1, b2, b3, b4, b5, b6, b7, b8, b9, b10, b11, b12, b13, b14, b15, rfl⟩ :=
    length_eq_sixteen h
  rfl

theorem bytesToUuid_length (bs : List Nat) (h : bs.length = 16) :
    (bytesToUuid bs).length = 36 := by
  have := matchShape_length (bytesToUuid_shape bs h)
  exact this.trans rfl

end FlowVersion


namespace FlowVersion

theorem canonicalEqual_of_ok {a b ca cb : Value} (ha : canonicalize a = .ok ca)
    (hb : canonicalize b = .ok cb) :
    canonicalEqual a b = .ok (jsonStringify ca == jsonStringify cb) := by
  simp only [canonicalEqual, ha, hb]

theorem canonicalEqual_true {a b : Value} (h : canonicalEqual a b = .ok true) :
    ∃ ca cb, canonicalize a = .ok ca ∧ canonicalize b = .ok cb ∧
      jsonStringify ca = jsonStringify cb := by
  unfold canonicalEqual at h
  cases ha : canonicalize a with
  | error e => simp [ha] at h
  | ok ca =>
    cases hb : canonicalize b with
    | error e => simp [ha, hb] at h
    | ok cb =>
      simp only [ha, hb, Except.ok.injEq, beq_iff_eq] at h
      exact ⟨ca, cb, rfl, rfl, h⟩

/-- C31: for supported values `a` and `b` with canonical forms `ca` and `cb`,
`canonicalEqual(a, b)` returns, and it returns `true` exactly when `serialize(ca)` and
`serialize(cb)` are the same bytes; and when `a` and `b` have the same key-to-value mappings at
every level (`SameContent`: the same keys with the same content under each, in any order of
insertion, arrays element by element), the canonical forms are one value, so the bytes are
identical, `canonicalEqual(a, b)` is `true` and `hashCanonical(a) = hashCanonical(b)`. -/
theorem canonicalEqual_key_order (P : Platform) (a b ca cb : Value)
    (ha : canonicalize a = .ok ca) (hb : canonicalize b = .ok cb) :
    (∃ r, canonicalEqual a b = .ok r) ∧
    (canonicalEqual a b = .ok true ↔ serialize ca = serialize cb) ∧
    (SameContent a b → ca = cb ∧ serialize ca = serialize cb ∧
      canonicalEqual a b = .ok true ∧ hashCanonical P a = hashCanonical P b) := by
  have hca : Canonical ca := canonicalize_idem a ca ha
  have hcb : Canonical cb := canonicalize_idem b cb hb
  have hiff : canonicalEqual a b = .ok true ↔ serialize ca = serialize cb := by
    rw [canonicalEqual_of_ok ha hb, ← jsonStringify_eq_iff_serialize hca hcb]
    simp
  refine ⟨⟨_, canonicalEqual_of_ok ha hb⟩, hiff, ?_⟩
  intro hs
  have he := (canonicalize_sameContent a b hs).1
  rw [ha, hb] at he
  have hcc : ca = cb := by injection he
  subst hcc
  refine ⟨rfl, rfl, hiff.2 rfl, ?_⟩
  simp only [hashCanonical, ha, hb]

/-- C31 at `sampleValue` and the same object with its keys inserted in another order, also in
the nested object. -/
theorem canonicalEqual_key_order_witness :
    SameContent sampleValue sampleValueReordered ∧
    canonicalEqual sampleValue sampleValueReordered = .ok true ∧
    hashCanonical samplePlatform sampleValue = hashCanonical samplePlatform sampleValueReordered := by
  have hinner : SameContent (.obj [("z", .null), ("a", .bool true)])
      (.obj [("a", .bool true), ("z", .null)]) := by
    simp only [SameContent]
    refine ⟨_, rfl, by decide, by decide, rfl, ?_⟩
    simp only [SameProps, SameContent]
    exact ⟨⟨_, rfl, rfl⟩, ⟨_, rfl, rfl⟩, trivial⟩
  have hitems : SameContent (.arr [.num (.finite 3), .obj [("z", .null), ("a", .bool true)]])
      (.arr [.num (.finite 3), .obj [("a", .bool true), ("z", .null)]]) := by
    simp only [SameContent]
    refine ⟨_, rfl, ?_⟩
    simp only [SameItems]
    exact ⟨_, _, rfl, by simp only [SameContent], _, _, rfl, hinner, rfl⟩
  have hs : SameContent sampleValue sampleValueReordered := by
    unfold sampleValue sampleValueReordered
    simp only [SameContent]
    refine ⟨_, rfl, by decide, by decide, rfl, ?_⟩
    simp only [SameProps]
    exact ⟨⟨_, rfl, by simp only [SameContent]⟩, ⟨_, rfl, by simp only [SameContent]⟩,
      ⟨_, rfl, by simp only [SameContent]⟩, ⟨_, rfl, hitems⟩, trivial⟩
  have h := (canonicalEqual_key_order samplePlatform sampleValue sampleValueReordered
    sampleCanonical sampleCanonical rfl rfl).2.2 hs
  exact ⟨hs, h.2.2.1, h.2.2.2⟩

/-- C32 fails at the sentinel object itself: `{"__fv_absent": true}` is a value `canonicalize`
accepts (it is its own canonical form), and on every platform `hashValueOrAbsent(ABSENT)`
is the hash of that object. -/
theorem hashValueOrAbsent_sentinel_collides :
    canonicalize absentSentinel = .ok absentSentinel ∧
    ∀ P : Platform, hashValueOrAbsent P none = hashValueOrAbsent P (some absentSentinel) :=
  ⟨rfl, fun _ => rfl⟩

/-- C32, amended: for a supported value `v` whose canonical form `c` is not the reserved
sentinel object, both hashes are computed, from different byte strings: `hashValueOrAbsent(v)`
is the SHA-256 of `serialize(c)` and `hashValueOrAbsent(ABSENT)` that of the serialized
sentinel, and these bytes differ; so the two hashes differ whenever SHA-256 does not collide
on these two texts. -/
theorem hashValueOrAbsent_absent (P : Platform) (v c : Value) (hc : canonicalize v = .ok c)
    (hne : c ≠ absentSentinel) :
    hashValueOrAbsent P none
      = .ok (String.mk (hexOfBytes (P.sha256 (jsonStringify absentSentinel)))) ∧
    hashValueOrAbsent P (some v) = .ok (String.mk (hexOfBytes (P.sha256 (jsonStringify c)))) ∧
    jsonStringify c ≠ jsonStringify absentSentinel ∧
    serialize c ≠ serialize absentSentinel ∧
    (hexOfBytes (P.sha256 (jsonStringify c))
        ≠ hexOfBytes (P.sha256 (jsonStringify absentSentinel)) →
      hashValueOrAbsent P none ≠ hashValueOrAbsent P (some v)) := by
  have hcc : Canonical c := canonicalize_idem v c hc
  have hsc : Canonical absentSentinel := rfl
  have hj : jsonStringify c ≠ jsonStringify absentSentinel :=
    fun h => hne (jsonStringify_injective hcc hsc h)
  have h1 : hashValueOrAbsent P none
      = .ok (String.mk (hexOfBytes (P.sha256 (jsonStringify absentSentinel)))) := rfl
  have h2 : hashValueOrAbsent P (some v)
      = .ok (String.mk (hexOfBytes (P.sha256 (jsonStringify c)))) := by
    simp only [hashValueOrAbsent, hashCanonical, hc]
  refine ⟨h1, h2, hj, fun h => hj ((jsonStringify_eq_iff_serialize hcc hsc).2 h), ?_⟩
  intro hd he
  rw [h1, h2] at he
  injection he with he
  injection he with he
  exact hd he.symm

/-- C32 (amended) at `null`. -/
theorem hashValueOrAbsent_absent_witness :
    jsonStringify .null ≠ jsonStringify absentSentinel ∧
    serialize .null ≠ serialize absentSentinel :=
  have h := hashValueOrAbsent_absent samplePlatform .null .null rfl (by simp [absentSentinel])
  ⟨h.2.2.1, h.2.2.2.1⟩

/-- C33: payloads with `canonicalEqual(a, b)` have the same `stableUUID` under every prefix,
and the identifier of a payload with canonical form `c` is `uuidV5` of the text
`prefix + ":" + JSON.stringify(c)`. -/
theorem stableUUID_canonicalEqual (P : Platform) (pre : String) (a b : Value)
    (h : canonicalEqual a b = .ok true) :
    stableUUID P pre a = stableUUID P pre b ∧
    ∃ c u, canonicalize a = .ok c ∧ uuidV5 P (pre ++ ":" ++ jsonStringify c) = .ok u ∧
      stableUUID P pre a = .ok u := by
  obtain ⟨ca, cb, ha, hb, hj⟩ := canonicalEqual_true h
  obtain ⟨u, hu, _⟩ := uuidV5_ok P (pre ++ ":" ++ jsonStringify ca)
  have h1 : stableUUID P pre a = uuidV5 P (pre ++ ":" ++ jsonStringify ca) := by
    simp only [stableUUID, ha]
  have h2 : stableUUID P pre b = uuidV5 P (pre ++ ":" ++ jsonStringify cb) := by
    simp only [stableUUID, hb]
  exact ⟨by rw [h1, h2, hj], ca, u, ha, hu, h1.trans hu⟩

/-- C33 at two payloads that differ in key order, in the letter case of a UUID and in the
offset form of a timestamp. -/
theorem stableUUID_canonicalEqual_witness :
    canonicalEqual sampleValue sampleValueRespelled = .ok true ∧
    stableUUID samplePlatform "conflict" sampleValue
      = stableUUID samplePlatform "conflict" sampleValueRespelled :=
  ⟨rfl, (stableUUID_canonicalEqual samplePlatform "conflict" sampleValue sampleValueRespelled
    rfl).1⟩

/-- C34: when the SHA-1 digest of the namespace bytes followed by the UTF-8 bytes of the name
has at least sixteen bytes, `uuidV5(name)` returns a string of 36 characters, lower-case
hexadecimal digits in groups of 8, 4, 4, 4 and 12 separated by hyphens, whose 13th digit
(index 14) is `5` and whose 17th digit (index 19) is one of `8`, `9`, `a`, `b`; its sixteen
bytes are those of the digest except for the high nibble of byte 6 and the top two bits of
byte 8 (`uuidV5Byte`).  And `uuidToBytes(bytesToUuid(b)) = b` for every array `b` of sixteen
bytes. -/
theorem uuidV5_well_formed (P : Platform) (name : String) (ns : List Nat)
    (hns : uuidToBytes UUID_NAMESPACE_DNS = .ok ns)
    (hP : 16 ≤ (P.sha1 (ns ++ utf8Bytes name)).length) :
    (∃ u, uuidV5 P name = .ok u ∧ u.length = 36 ∧ matchShape lowerUuidShape u.toList = true ∧
      u.toList.get? 14 = some '5' ∧
      (∃ c, u.toList.get? 19 = some c ∧ c ∈ ['8', '9', 'a', 'b']) ∧
      ∃ bytes : List Nat, uuidToBytes u = .ok bytes ∧ bytes.length = 16 ∧
        ∀ i x, i < 16 → (P.sha1 (ns ++ utf8Bytes name)).get? i = some x →
          bytes.get? i = some (uuidV5Byte i x)) ∧
    ∀ b : List Nat, b.length = 16 → (∀ x ∈ b, x < 256) → uuidToBytes (bytesToUuid b) = .ok b := by
  constructor
  · obtain ⟨bytes, hb, hl, hlt, hget, h5, hv⟩ := uuidV5_bytes (P.sha1 (ns ++ utf8Bytes name)) hP
    refine ⟨bytesToUuid bytes, ?_, bytesToUuid_length bytes hl, bytesToUuid_shape bytes hl, ?_,
      ?_, bytes, ?_, hl, hget⟩
    · simp only [uuidV5, hns, hb]
    · rw [bytesToUuid_get_14 bytes hl, h5]
    · rw [bytesToUuid_get_19 bytes hl]
      exact hv
    · rw [uuidToBytes_bytesToUuid bytes hl, map_mod_of_lt hlt]
  · intro b hl hlt
    rw [uuidToBytes_bytesToUuid b hl, map_mod_of_lt hlt]

/-- C34 at the name `a` on the sample platform, whose SHA-1 digest is twenty zero bytes. -/
theorem uuidV5_well_formed_witness :
    uuidV5 samplePlatform "a" = .ok "00000000-0000-5000-8000-000000000000" ∧
    ∃ u, uuidV5 samplePlatform "a" = .ok u ∧ u.length = 36 ∧
      u.toList.get? 14 = some '5' :=
  have h := (uuidV5_well_formed samplePlatform "a"
    [0x6b, 0xa7, 0xb8, 0x10, 0x9d, 0xad, 0x11, 0xd1, 0x80, 0xb4, 0x00, 0xc0, 0x4f, 0xd4, 0x30, 0xc8]
    rfl (by decide)).1
  ⟨rfl, h.imp (fun _ hu => ⟨hu.1, hu.2.1, hu.2.2.2.1⟩)⟩

end FlowVersion


namespace FlowVersion

/-! ## The graph normalizer, element by element -/

/-- A property of the canonical form of an object is the canonical form of the property. -/
theorem getProp_of_canonicalize {props : Props} {m : Value}
    (h : canonicalize (.obj props) = .ok m) (k : String) (hk : k ≠ "__proto__") :
    (∀ v, lookupProp k props = some v → isUndefined v = false →
      ∃ y, canonicalize v = .ok y ∧ getProp m k = y) ∧
    (∀ v, lookupProp k props = some v → isUndefined v = true → getProp m k = .undefined) ∧
    (lookupProp k props = none → getProp m k = .undefined) := by
  rw [canonicalize_obj] at h
  cases hR : canonicalizeObject props with
  | error e => rw [hR] at h; cases h
  | ok R =>
    rw [hR] at h
    simp only [okObj, Except.ok.injEq] at h
    subst h
    have hl := lookupProp_canonicalizeObject hR k hk
    have hnoerr := (canonicalizeObjectLoop_ok _ _ _ _ hR).2
    refine ⟨fun v hv hu => ?_, fun v hv hu => ?_, fun hv => ?_⟩
    · rw [hv] at hl
      simp only [hu, Bool.false_eq_true, if_false] at hl
      cases hc : canonicalize v with
      | error e =>
        exfalso
        apply hnoerr k (mem_sortStrings.2 (List.mem_map_of_mem Prod.fst (lookupProp_mem hv))) e
        rw [lookupProp_canonicalizeEntries, hv]
        simp [hu, hc]
      | ok y =>
        rw [hc] at hl
        simp only at hl
        exact ⟨y, rfl, by simp [getProp, hl]⟩
    · rw [hv] at hl
      simp only [hu, if_true] at hl
      simp [getProp, hl]
    · rw [hv] at hl
      simp only at hl
      simp [getProp, hl]

theorem canonical_elements {xs : List Value} (h : Canonical (.arr xs)) :
    ∀ x ∈ xs, Canonical x := by
  have h1 : canonicalizeArray xs = .ok xs := by
    unfold Canonical at h
    simp only [canonicalize] at h
    cases hc : canonicalizeArray xs with
    | error e => rw [hc] at h; cases h
    | ok ys =>
      rw [hc] at h
      simp only [okArr, Except.ok.injEq, Value.arr.injEq] at h
      rw [h]
  clear h
  induction xs with
  | nil => intro x hx; cases hx
  | cons a as ih =>
    simp only [canonicalizeArray] at h1
    cases ha : canonicalize a with
    | error e => rw [ha] at h1; cases h1
    | ok b =>
      rw [ha] at h1
      cases hs : canonicalizeArray as with
      | error e => rw [hs] at h1; cases h1
      | ok bs =>
        rw [hs] at h1
        simp only [Except.ok.injEq, List.cons.injEq] at h1
        obtain ⟨rfl, rfl⟩ := h1
        intro x hx
        rcases List.mem_cons.1 hx with rfl | hx
        · exact ha
        · exact ih hs x hx

theorem canonical_getProp {R : Props} (h : Canonical (.obj R)) (k : String)
    (hk : k ≠ "__proto__") :
    getProp (.obj R) k = .undefined ∨ Canonical (getProp (.obj R) k) := by
  obtain ⟨h1, h2, h3⟩ := getProp_of_canonicalize h k hk
  cases hv : lookupProp k R with
  | none => exact Or.inl (h3 hv)
  | some v =>
    by_cases hu : isUndefined v = true
    · exact Or.inl (h2 v hv hu)
    · obtain ⟨y, hy, hg⟩ := h1 v hv (by simpa using hu)
      right
      have hgv : getProp (.obj R) k = v := by simp [getProp, hv]
      rw [hgv] at hg ⊢
      rw [← hg] at hy
      exact hy

/-! ### `arr.map(f)` -/

theorem mapM'_ok {f : Value → Except JSError Value} {xs ys : List Value}
    (h : mapM' f xs = .ok ys) : List.Forall₂ (fun x y => f x = .ok y) xs ys := by
  induction xs generalizing ys with
  | nil =>
    simp only [mapM', Except.ok.injEq] at h
    subst h
    exact List.Forall₂.nil
  | cons x xs ih =>
    simp only [mapM'] at h
    cases hx : f x with
    | error e => rw [hx] at h; cases h
    | ok y =>
      rw [hx] at h
      cases hs : mapM' f xs with
      | error e => rw [hs] at h; cases h
      | ok zs =>
        rw [hs] at h
        simp only [Except.ok.injEq] at h
        subst h
        exact List.Forall₂.cons hx (ih hs)

theorem mapM'_of_forall {f : Value → Except JSError Value} {xs : List Value}
    (h : ∀ x ∈ xs, ∃ y, f x = .ok y) : ∃ ys, mapM' f xs = .ok ys := by
  induction xs with
  | nil => exact ⟨[], rfl⟩
  | cons x xs ih =>
    obtain ⟨y, hy⟩ := h x (List.mem_cons_self _ _)
    obtain ⟨ys, hys⟩ := ih (fun z hz => h z (List.mem_cons_of_mem _ hz))
    exact ⟨y :: ys, by simp [mapM', hy, hys]⟩

/-- `arr.map(f)` throws when `f` throws on an element, and what it throws is what `f` throws
on the first such element. -/
theorem mapM'_error {f : Value → Except JSError Value} {xs : List Value}
    (h : ∃ x ∈ xs, ∃ e, f x = .error e) :
    ∃ e, mapM' f xs = .error e ∧ ∃ x ∈ xs, f x = .error e := by
  induction xs with
  | nil =>
    obtain ⟨x, hx, _⟩ := h
    cases hx
  | cons a as ih =>
    cases ha : f a with
    | error e => exact ⟨e, by simp [mapM', ha], a, List.mem_cons_self _ _, ha⟩
    | ok b =>
      have h' : ∃ x ∈ as, ∃ e, f x = .error e := by
        obtain ⟨x, hx, e, he⟩ := h
        rcases List.mem_cons.1 hx with rfl | hx
        · rw [ha] at he; cases he
        · exact ⟨x, hx, e, he⟩
      obtain ⟨e, he, x, hx, hxe⟩ := ih h'
      exact ⟨e, by simp [mapM', ha, he], x, List.mem_cons_of_mem _ hx, hxe⟩

theorem forall₂_mem_right {α β : Type} {R : α → β → Prop} {xs : List α} {ys : List β}
    (h : List.Forall₂ R xs ys) : ∀ y ∈ ys, ∃ x ∈ xs, R x y := by
  induction h with
  | nil => intro y hy; cases hy
  | cons hr _ ih =>
    intro y hy
    rcases List.mem_cons.1 hy with rfl | hy
    · exact ⟨_, List.mem_cons_self _ _, hr⟩
    · obtain ⟨x, hx, hxy⟩ := ih y hy
      exact ⟨x, List.mem_cons_of_mem _ hx, hxy⟩

theorem forall₂_mem_left {α β : Type} {R : α → β → Prop} {xs : List α} {ys : List β}
    (h : List.Forall₂ R xs ys) : ∀ x ∈ xs, ∃ y ∈ ys, R x y := by
  induction h with
  | nil => intro y hy; cases hy
  | cons hr _ ih =>
    intro x hx
    rcases List.mem_cons.1 hx with rfl | hx
    · exact ⟨_, List.mem_cons_self _ _, hr⟩
    · obtain ⟨y, hy, hxy⟩ := ih x hx
      exact ⟨y, List.mem_cons_of_mem _ hy, hxy⟩

theorem mem_sortWith {α : Type} (cmp : α → α → Int) (xs : List α) (x : α) :
    x ∈ sortWith cmp xs ↔ x ∈ xs :=
  (List.perm_insertionSort _ xs).mem_iff

theorem sortWith_perm {α : Type} (cmp : α → α → Int) (xs : List α) :
    (sortWith cmp xs).Perm xs :=
  List.perm_insertionSort _ xs

end FlowVersion


namespace FlowVersion

/-! ## The ops of `diff` -/

/-- The final `canonicalize` of `diff` turns an op into its record. -/
theorem canonicalize_op (o : DiffOp) (hop : PlainString o.op) (hatom : PlainString o.atom)
    (hb : ∀ v, o.before = some v → Canonical v) (ha : ∀ v, o.after = some v → Canonical v) :
    canonicalize o.toValue = .ok (opRecord o) := by
  obtain ⟨op, atom, before, after⟩ := o
  have h1 : canonicalize (.str op) = .ok (.str op) := canonicalize_str_plain hop
  have h2 : canonicalize (.str atom) = .ok (.str atom) := canonicalize_str_plain hatom
  have hs : ∀ s, isUndefined (.str s) = false := fun _ => rfl
  cases before with
  | none =>
    cases after with
    | none =>
      have hk : sortStrings ["op", "atom"] = ["atom", "op"] := by decide
      rw [DiffOp.toValue, canonicalize_obj]
      unfold canonicalizeObject
      simp only [List.append_nil, List.map, hk, canonicalizeEntries, hs, h1, h2]
      rfl
    | some a =>
      have hca : canonicalize a = .ok a := ha a rfl
      have hua : isUndefined a = false := canonicalize_not_undefined hca
      have hk : sortStrings ["op", "atom", "after"] = ["after", "atom", "op"] := by decide
      rw [DiffOp.toValue, canonicalize_obj]
      unfold canonicalizeObject
      simp only [List.append_nil, List.cons_append, List.nil_append, List.map, hk,
        canonicalizeEntries, hs, h1, h2, hca, hua]
      rfl
  | some b =>
    have hcb : canonicalize b = .ok b := hb b rfl
    have hub : isUndefined b = false := canonicalize_not_undefined hcb
    cases after with
    | none =>
      have hk : sortStrings ["op", "atom", "before"] = ["atom", "before", "op"] := by decide
      rw [DiffOp.toValue, canonicalize_obj]
      unfold canonicalizeObject
      simp only [List.append_nil, List.cons_append, List.nil_append, List.map, hk,
        canonicalizeEntries, hs, h1, h2, hcb, hub]
      rfl
    | some a =>
      have hca : canonicalize a = .ok a := ha a rfl
      have hua : isUndefined a = false := canonicalize_not_undefined hca
      have hk : sortStrings ["op", "atom", "before", "after"] = ["after", "atom", "before", "op"] := by
        decide
      rw [DiffOp.toValue, canonicalize_obj]
      unfold canonicalizeObject
      simp only [List.append_nil, List.cons_append, List.nil_append, List.map, hk,
        canonicalizeEntries, hs, h1, h2, hcb, hub, hca, hua]
      rfl

theorem canonical_opRecord (o : DiffOp) (hop : PlainString o.op) (hatom : PlainString o.atom)
    (hb : ∀ v, o.before = some v → Canonical v) (ha : ∀ v, o.after = some v → Canonical v) :
    Canonical (opRecord o) :=
  canonicalize_idem _ _ (canonicalize_op o hop hatom hb ha)

/-- The final `canonicalize` of `diff` on a list of ops. -/
theorem canonicalize_ops (ops : List DiffOp)
    (h : ∀ o ∈ ops, PlainString o.op ∧ PlainString o.atom ∧
      (∀ v, o.before = some v → Canonical v) ∧ (∀ v, o.after = some v → Canonical v)) :
    canonicalize (.arr (ops.map DiffOp.toValue)) = .ok (.arr (ops.map opRecord)) := by
  have key : canonicalizeArray (ops.map DiffOp.toValue) = .ok (ops.map opRecord) := by
    induction ops with
    | nil => rfl
    | cons o os ih =>
      obtain ⟨h1, h2, h3, h4⟩ := h o (List.mem_cons_self _ _)
      simp only [List.map_cons, canonicalizeArray, canonicalize_op o h1 h2 h3 h4,
        ih (fun x hx => h x (List.mem_cons_of_mem _ hx))]
  simp only [canonicalize, key, okArr]

theorem plain_replace : PlainString "replace" := by unfold PlainString; rfl
theorem plain_root : PlainString "value:root" := by unfold PlainString; rfl

/-- The `diff` of two values of which one is no graph. -/
theorem diff_opaque (P : Platform) {a b f t : Value} (hf : canonicalizeDomain P a = .ok f)
    (ht : canonicalizeDomain P b = .ok t)
    (h : looksLikeGraph f = false ∨ looksLikeGraph t = false) :
    diff P a b = .ok (.arr [.obj [("after", t), ("atom", .str "value:root"), ("before", f),
      ("op", .str "replace")]]) := by
  have hc : (!looksLikeGraph f || !looksLikeGraph t) = true := by
    rcases h with h | h <;> simp [h]
  have hcf : Canonical f := canonical_of_canonicalizeDomain P a f hf
  have hct : Canonical t := canonical_of_canonicalizeDomain P b t ht
  simp only [diff, hf, ht, hc, if_true]
  have := canonicalize_ops
    [{ op := "replace", atom := "value:root", before := some f, after := some t }]
    (by
      intro o ho
      simp only [List.mem_singleton] at ho
      subst ho
      refine ⟨plain_replace, plain_root, ?_, ?_⟩
      · intro v hv; cases hv; exact hcf
      · intro v hv; cases hv; exact hct)
  exact this

end FlowVersion


namespace FlowVersion

/-! ## Values that are not graphs, and conflict ids (C26) -/

theorem rootSpec_plain : rootSpec.Plain := by
  refine ⟨rfl, rfl, rfl, rfl, ?_, ?_⟩
  · intro s hs
    simp only [rootSpec, List.mem_cons, List.mem_singleton, List.not_mem_nil, or_false] at hs
    rcases hs with rfl | rfl | rfl <;> rfl
  · intro d hd
    cases hd

theorem bne_json_of_ne {x y : Value} (hx : Canonical x) (hy : Canonical y) (h : x ≠ y) :
    (jsonStringify x != jsonStringify y) = true := by
  simp only [bne_iff_ne, ne_eq]
  exact fun he => h (jsonStringify_injective hx hy he)

theorem mergeOpaque_same (P : Platform) (b l : Value) (hl : Canonical l) :
    mergeOpaque P b l l = .ok (.obj [("conflicts", .arr []), ("merged", l)]) := by
  have h : (jsonStringify l != jsonStringify l) = false := by simp
  simp only [mergeOpaque, h, Bool.false_eq_true, if_false]
  exact canonicalize_mergeResult l [] hl (fun c hc => by cases hc)

theorem mergeOpaque_left_unchanged (P : Platform) (l r : Value) (hl : Canonical l)
    (hr : Canonical r) (hlr : l ≠ r) :
    mergeOpaque P l l r = .ok (.obj [("conflicts", .arr []), ("merged", r)]) := by
  have h : (jsonStringify l != jsonStringify l) = false := by simp
  have h2 : (jsonStringify l == jsonStringify l) = true := by simp
  simp only [mergeOpaque, bne_json_of_ne hl hr hlr, h, h2, Bool.false_and, Bool.false_eq_true,
    if_false, if_true]
  exact canonicalize_mergeResult r [] hr (fun c hc => by cases hc)

theorem mergeOpaque_right_unchanged (P : Platform) (l r : Value) (hl : Canonical l)
    (hr : Canonical r) (hlr : l ≠ r) :
    mergeOpaque P r l r = .ok (.obj [("conflicts", .arr []), ("merged", l)]) := by
  have h : (jsonStringify r != jsonStringify r) = false := by simp
  have h3 : (jsonStringify r == jsonStringify l) = false := by
    have := bne_json_of_ne hl hr hlr
    simp only [bne_iff_ne, ne_eq] at this
    simp only [beq_eq_false_iff_ne, ne_eq]
    exact fun he => this he.symm
  simp only [mergeOpaque, bne_json_of_ne hl hr hlr, h, h3, Bool.and_false, Bool.false_eq_true,
    if_false, if_true]
  exact canonicalize_mergeResult l [] hl (fun c hc => by cases hc)

theorem mergeOpaque_conflict (P : Platform) (b l r : Value) (hb : Canonical b) (hl : Canonical l)
    (hr : Canonical r) (hlr : l ≠ r) (hbl : b ≠ l) (hbr : b ≠ r) :
    ∃ cid, makeConflict P rootSpec b l r = .ok (conflictRecord rootSpec cid) ∧
      mergeOpaque P b l r = .ok (.obj [("conflicts", .arr [conflictRecord rootSpec cid]),
        ("merged", b)]) := by
  obtain ⟨cid, hc⟩ := makeConflict_ok P rootSpec b l r rootSpec_plain (Or.inr hb) (Or.inr hl)
    (Or.inr hr)
  have hcc : Canonical (conflictRecord rootSpec cid) := makeConflict_canonical hc
  refine ⟨cid, hc, ?_⟩
  have hc' : makeConflict P
      { type := "edit_edit", selector := "value:root", severity := "error",
        reason := "Both sides edited value:root differently",
        allowed_resolutions := ["take_left", "take_right", "take_base"],
        default_resolution := none } b l r = .ok (conflictRecord rootSpec cid) := hc
  simp only [mergeOpaque, bne_json_of_ne hl hr hlr, bne_json_of_ne hb hl hbl,
    bne_json_of_ne hb hr hbr, Bool.and_self, if_true, hc']
  exact canonicalize_mergeResult b [conflictRecord rootSpec cid] hb (fun c hc1 => by
    simp only [List.mem_singleton] at hc1
    subst hc1
    exact hcc)

theorem merge_of_opaque (P : Platform) {b l r b1 l1 r1 : Value}
    (hb : canonicalizeDomain P b = .ok b1) (hl : canonicalizeDomain P l = .ok l1)
    (hr : canonicalizeDomain P r = .ok r1)
    (hg : looksLikeGraph b1 = false ∨ looksLikeGraph l1 = false ∨ looksLikeGraph r1 = false) :
    merge P b l r = mergeOpaque P b1 l1 r1 := by
  have hc : (!looksLikeGraph b1 || !looksLikeGraph l1 || !looksLikeGraph r1) = true := by
    rcases hg with h | h | h <;> simp [h]
  simp only [merge, hb, hl, hr, hc, if_true]

/-! ### Conflict ids -/

theorem kind_selector_ne_root (kind id : String) (hk : kind = "node" ∨ kind = "edge") :
    kind ++ ":" ++ id ≠ "value:root" := by
  intro h
  have h1 := congrArg String.toList h
  rcases hk with rfl | rfl
  · rw [String.append_assoc, String.toList_append'] at h1
    cases h1
  · rw [String.append_assoc, String.toList_append'] at h1
    cases h1

theorem mergeSpec_eq {s1 s2 : ConflictSpec} (h1 : IsMergeSpec s1) (h2 : IsMergeSpec s2)
    (ht : s1.type = s2.type) (hs : s1.selector = s2.selector) : s1 = s2 := by
  have hne : ("add_add" : String) ≠ "delete_edit" ∧ ("add_add" : String) ≠ "edit_delete" ∧
      ("add_add" : String) ≠ "edit_edit" ∧ ("delete_edit" : String) ≠ "edit_delete" ∧
      ("delete_edit" : String) ≠ "edit_edit" ∧ ("edit_delete" : String) ≠ "edit_edit" := by
    decide
  obtain ⟨n1, n2, n3, n4, n5, n6⟩ := hne
  rcases h1 with ⟨k1, i1, hk1, h1 | h1 | h1 | h1⟩ | h1 <;>
    rcases h2 with ⟨k2, i2, hk2, h2 | h2 | h2 | h2⟩ | h2 <;>
    subst h1 <;> subst h2 <;>
    simp only [addAddSpec, deleteEditSpec, editDeleteSpec, editEditSpec, rootSpec] at ht hs ⊢ <;>
    first
    | exact absurd ht n1
    | exact absurd ht n2
    | exact absurd ht n3
    | exact absurd ht n4
    | exact absurd ht n5
    | exact absurd ht n6
    | exact absurd ht.symm n1
    | exact absurd ht.symm n2
    | exact absurd ht.symm n3
    | exact absurd ht.symm n4
    | exact absurd ht.symm n5
    | exact absurd ht.symm n6
    | exact absurd hs (kind_selector_ne_root _ _ hk1)
    | exact absurd hs.symm (kind_selector_ne_root _ _ hk2)
    | rfl
    | (rw [hs])

theorem isUndefined_nullish (x : Value) : isUndefined (nullish x .null) = false := by
  cases x <;> rfl

theorem canonicalize_eq_of_canonicalEqual {x y : Value} (h : canonicalEqual x y = .ok true) :
    canonicalize x = canonicalize y := by
  obtain ⟨cx, cy, hx, hy, hj⟩ := canonicalEqual_true h
  rw [hx, hy, jsonStringify_injective (canonicalize_idem x cx hx) (canonicalize_idem y cy hy) hj]

/-- The conflict record depends on the three values only through the canonical forms of
`base ?? null`, `left ?? null` and `right ?? null`. -/
theorem makeConflict_congr (P : Platform) (spec : ConflictSpec) {b1 l1 r1 b2 l2 r2 : Value}
    (hb : canonicalize (nullish b1 .null) = canonicalize (nullish b2 .null))
    (hl : canonicalize (nullish l1 .null) = canonicalize (nullish l2 .null))
    (hr : canonicalize (nullish r1 .null) = canonicalize (nullish r2 .null)) :
    makeConflict P spec b1 l1 r1 = makeConflict P spec b2 l2 r2 := by
  have hp : canonicalize (.obj [("spec", spec.toValue), ("base", nullish b1 .null),
      ("left", nullish l1 .null), ("right", nullish r1 .null)])
      = canonicalize (.obj [("spec", spec.toValue), ("base", nullish b2 .null),
      ("left", nullish l2 .null), ("right", nullish r2 .null)]) := by
    rw [canonicalize_obj, canonicalize_obj]
    unfold canonicalizeObject
    simp only [canonicalizeEntries, isUndefined_nullish, hb, hl, hr, List.map]
  have hu : stableUUID P "conflict" (.obj [("spec", spec.toValue), ("base", nullish b1 .null),
      ("left", nullish l1 .null), ("right", nullish r1 .null)])
      = stableUUID P "conflict" (.obj [("spec", spec.toValue), ("base", nullish b2 .null),
      ("left", nullish l2 .null), ("right", nullish r2 .null)]) := by
    unfold stableUUID
    rw [hp]
  unfold makeConflict
  simp only [hu]

/-- A conflict of `threeWayAtomMerge` is the record `makeConflict` builds from one of the four
specs, with the selector and the three values of the atom. -/
theorem threeWayAtomMerge_conflict (P : Platform) (b l r : Value) (sel : String) (res : AtomMerge)
    (h : threeWayAtomMerge P b l r sel = .ok res) (hc : truthy res.conflict = true) :
    ∃ spec, (spec = addAddSpec sel ∨ spec = deleteEditSpec sel ∨ spec = editDeleteSpec sel
      ∨ spec = editEditSpec sel) ∧ makeConflict P spec b l r = .ok res.conflict := by
  have hnull : ∀ v : Value, res = ⟨v, .null⟩ → False := by
    intro v hv
    rw [hv] at hc
    cases hc
  unfold threeWayAtomMerge at h
  simp only at h
  split_ifs at h
  all_goals first
    | (injection h with h; exact absurd h.symm (fun h' => hnull _ h'))
    | skip
  · cases hm : makeConflict P (addAddSpec sel) b l r with
    | error e =>
      have hm' := hm
      unfold addAddSpec at hm'
      rw [hm'] at h
      cases h
    | ok c =>
      have hm' := hm
      unfold addAddSpec at hm'
      rw [hm'] at h
      injection h with h
      subst h
      exact ⟨_, Or.inl rfl, hm⟩
  · cases hm : makeConflict P (deleteEditSpec sel) b l r with
    | error e =>
      have hm' := hm
      unfold deleteEditSpec at hm'
      rw [hm'] at h
      cases h
    | ok c =>
      have hm' := hm
      unfold deleteEditSpec at hm'
      rw [hm'] at h
      injection h with h
      subst h
      exact ⟨_, Or.inr (Or.inl rfl), hm⟩
  · cases hm : makeConflict P (editDeleteSpec sel) b l r with
    | error e =>
      have hm' := hm
      unfold editDeleteSpec at hm'
      rw [hm'] at h
      cases h
    | ok c =>
      have hm' := hm
      unfold editDeleteSpec at hm'
      rw [hm'] at h
      injection h with h
      subst h
      exact ⟨_, Or.inr (Or.inr (Or.inl rfl)), hm⟩
  · cases hm : makeConflict P (editEditSpec sel) b l r with
    | error e =>
      have hm' := hm
      unfold editEditSpec at hm'
      rw [hm'] at h
      cases h
    | ok c =>
      have hm' := hm
      unfold editEditSpec at hm'
      rw [hm'] at h
      injection h with h
      subst h
      exact ⟨_, Or.inr (Or.inr (Or.inr rfl)), hm⟩

/-- The result of `merge` depends on its inputs only through their normalized forms. -/
theorem merge_congr (P : Platform) {b l r b' l' r' : Value}
    (hb : canonicalizeDomain P b = canonicalizeDomain P b')
    (hl : canonicalizeDomain P l = canonicalizeDomain P l')
    (hr : canonicalizeDomain P r = canonicalizeDomain P r') :
    merge P b l r = merge P b' l' r' := by
  unfold merge
  rw [hb, hl, hr]

/-- C26: two calls of `makeConflict` with specs of `merge` (`IsMergeSpec`) of the same type and
selector, on base, left and right values that are canonically equal once an absent value is
read as `null`, give the same result, hence records with the same `conflict_id`; every
conflict of `threeWayAtomMerge` at the selector of a node or an edge is such a record, built
from the three values of the atom; and `merge` depends on its inputs only through their
normalized forms, so equal inputs give equal outputs, conflict ids included. -/
theorem conflict_id_pure (P : Platform) (s1 s2 : ConflictSpec) (b1 l1 r1 b2 l2 r2 : Value)
    (h1 : IsMergeSpec s1) (h2 : IsMergeSpec s2)
    (ht : s1.type = s2.type) (hsel : s1.selector = s2.selector)
    (hb : canonicalEqual (nullish b1 .null) (nullish b2 .null) = .ok true)
    (hl : canonicalEqual (nullish l1 .null) (nullish l2 .null) = .ok true)
    (hr : canonicalEqual (nullish r1 .null) (nullish r2 .null) = .ok true) :
    makeConflict P s1 b1 l1 r1 = makeConflict P s2 b2 l2 r2 ∧
    (∀ c1 c2, makeConflict P s1 b1 l1 r1 = .ok c1 → makeConflict P s2 b2 l2 r2 = .ok c2 →
      getProp c1 "conflict_id" = getProp c2 "conflict_id") ∧
    (∀ kind id res, kind = "node" ∨ kind = "edge" →
      threeWayAtomMerge P b1 l1 r1 (kind ++ ":" ++ id) = .ok res → truthy res.conflict = true →
      ∃ spec, IsMergeSpec spec ∧ spec.selector = kind ++ ":" ++ id ∧
        makeConflict P spec b1 l1 r1 = .ok res.conflict) ∧
    (∀ b l r b' l' r', canonicalizeDomain P b = canonicalizeDomain P b' →
      canonicalizeDomain P l = canonicalizeDomain P l' →
      canonicalizeDomain P r = canonicalizeDomain P r' → merge P b l r = merge P b' l' r') := by
  have hs : s1 = s2 := mergeSpec_eq h1 h2 ht hsel
  subst hs
  have hm := makeConflict_congr P s1 (canonicalize_eq_of_canonicalEqual hb)
    (canonicalize_eq_of_canonicalEqual hl) (canonicalize_eq_of_canonicalEqual hr)
  refine ⟨hm, ?_, ?_, fun _ _ _ _ _ _ hb' hl' hr' => merge_congr P hb' hl' hr'⟩
  · intro c1 c2 hc1 hc2
    rw [hm, hc2] at hc1
    injection hc1 with hc1
    rw [hc1]
  · intro kind id res hk hres hc
    obtain ⟨spec, hspec, hmk⟩ := threeWayAtomMerge_conflict P b1 l1 r1 _ res hres hc
    refine ⟨spec, Or.inl ⟨kind, id, hk, hspec⟩, ?_, hmk⟩
    rcases hspec with rfl | rfl | rfl | rfl <;> rfl

/-- C26 at the `edit_edit` conflict of node `A`: the labels differ on the two sides, and the
values of the second call spell the same values with other key orders. -/
theorem conflict_id_pure_witness :
    makeConflict samplePlatform (editEditSpec "node:A") (sampleNode "base") (sampleNode "left")
        (sampleNode "right")
      = makeConflict samplePlatform (editEditSpec "node:A")
        (.obj [("type", .str "task"), ("label", .str "base"), ("id", .str "A"),
          ("config", .obj [])])
        (.obj [("label", .str "left"), ("config", .obj []), ("id", .str "A"),
          ("type", .str "task")])
        (sampleNode "right") ∧
    ∃ cid, makeConflict samplePlatform (editEditSpec "node:A") (sampleNode "base")
        (sampleNode "left") (sampleNode "right") = .ok (conflictRecord (editEditSpec "node:A") cid) :=
  ⟨(conflict_id_pure samplePlatform (editEditSpec "node:A") (editEditSpec "node:A")
      (sampleNode "base") (sampleNode "left") (sampleNode "right")
      (.obj [("type", .str "task"), ("label", .str "base"), ("id", .str "A"),
        ("config", .obj [])])
      (.obj [("label", .str "left"), ("config", .obj []), ("id", .str "A"),
        ("type", .str "task")])
      (sampleNode "right")
      (Or.inl ⟨"node", "A", Or.inl rfl, Or.inr (Or.inr (Or.inr rfl))⟩)
      (Or.inl ⟨"node", "A", Or.inl rfl, Or.inr (Or.inr (Or.inr rfl))⟩) rfl rfl rfl rfl rfl).1,
    ⟨_, rfl⟩⟩

end FlowVersion


namespace FlowVersion

/-! ## `trim` and the strings `canonicalizeString` returns -/

theorem trim_toList (s : String) :
    (trim s).toList = List.rdropWhile isJsWhitespace (s.toList.dropWhile isJsWhitespace) := rfl

theorem trimmed_iff_list (s : String) :
    Trimmed s ↔ List.rdropWhile isJsWhitespace (s.toList.dropWhile isJsWhitespace) = s.toList := by
  unfold Trimmed
  constructor
  · intro h
    have := congrArg String.toList h
    rwa [trim_toList] at this
  · intro h
    apply String.ext
    exact h

/-- A list is trimmed when neither its first nor its last element is white space. -/
theorem trimList_eq_self_iff (l : List Char) :
    List.rdropWhile isJsWhitespace (l.dropWhile isJsWhitespace) = l ↔
      (∀ c, l.head? = some c → isJsWhitespace c = false) ∧
      (∀ c, l.getLast? = some c → isJsWhitespace c = false) := by
  constructor
  · intro h
    have hp : List.rdropWhile isJsWhitespace (l.dropWhile isJsWhitespace)
        <+: l.dropWhile isJsWhitespace := List.rdropWhile_prefix _ _
    have hs : l.dropWhile isJsWhitespace <:+ l := List.dropWhile_suffix _
    have hd : l.dropWhile isJsWhitespace = l := by
      apply hs.eq_of_length
      have h1 := hp.length_le
      have h2 := hs.length_le
      rw [h] at h1
      omega
    rw [hd] at h
    constructor
    · intro c hc
      cases l with
      | nil => cases hc
      | cons a m =>
        simp only [List.head?_cons, Option.some.injEq] at hc
        subst hc
        have := (List.dropWhile_eq_self_iff).1 hd (by simp)
        simpa using this
    · intro c hc
      cases hl : l with
      | nil => rw [hl] at hc; cases hc
      | cons a m =>
        have hne : l ≠ [] := by rw [hl]; simp
        have := (List.rdropWhile_eq_self_iff).1 h hne
        rw [List.getLast?_eq_getLast _ hne, Option.some.injEq] at hc
        rw [hc] at this
        simpa using this
  · rintro ⟨h1, h2⟩
    have hd : l.dropWhile isJsWhitespace = l := by
      cases l with
      | nil => rfl
      | cons a m =>
        have := h1 a rfl
        simp [List.dropWhile, this]
    rw [hd, List.rdropWhile_eq_self_iff]
    intro hl
    have := h2 _ (List.getLast?_eq_getLast _ hl)
    simp [this]

theorem trimmed_trim (s : String) : Trimmed (trim s) := by
  rw [trimmed_iff_list, trimList_eq_self_iff, trim_toList]
  constructor
  · intro c hc
    have hp : List.rdropWhile isJsWhitespace (s.toList.dropWhile isJsWhitespace)
        <+: s.toList.dropWhile isJsWhitespace := List.rdropWhile_prefix _ _
    obtain ⟨t, ht⟩ := hp
    cases hr : List.rdropWhile isJsWhitespace (s.toList.dropWhile isJsWhitespace) with
    | nil => rw [hr] at hc; cases hc
    | cons a m =>
      rw [hr] at hc ht
      simp only [List.head?_cons, Option.some.injEq] at hc
      subst hc
      have hid : List.dropWhile isJsWhitespace (s.toList.dropWhile isJsWhitespace)
          = s.toList.dropWhile isJsWhitespace := List.dropWhile_idempotent _ _
      rw [← ht] at hid
      have := (List.dropWhile_eq_self_iff).1 hid (by simp)
      simpa using this
  · intro c hc
    cases hr : List.rdropWhile isJsWhitespace (s.toList.dropWhile isJsWhitespace) with
    | nil => rw [hr] at hc; cases hc
    | cons a m =>
      have hne : List.rdropWhile isJsWhitespace (s.toList.dropWhile isJsWhitespace) ≠ [] := by
        rw [hr]; simp
      have := List.rdropWhile_last_not isJsWhitespace (s.toList.dropWhile isJsWhitespace) hne
      rw [List.getLast?_eq_getLast _ hne, Option.some.injEq] at hc
      rw [hc] at this
      simpa using this

theorem mem_dropWhile_of_not {p : Char → Bool} {l : List Char} {c : Char} (hc : c ∈ l)
    (hp : p c = false) : c ∈ l.dropWhile p := by
  induction l with
  | nil => cases hc
  | cons a m ih =>
    by_cases ha : p a = true
    · rw [List.dropWhile_cons_of_pos ha]
      rcases List.mem_cons.1 hc with rfl | h
      · rw [hp] at ha; cases ha
      · exact ih h
    · rw [List.dropWhile_cons_of_neg ha]
      exact hc

theorem mem_trim {s : String} {c : Char} (hc : c ∈ s.toList) (hw : isJsWhitespace c = false) :
    c ∈ (trim s).toList := by
  rw [trim_toList, List.rdropWhile, List.mem_reverse]
  exact mem_dropWhile_of_not (List.mem_reverse.2 (mem_dropWhile_of_not hc hw)) hw

theorem isJsWhitespace_lowerChar (c : Char) :
    isJsWhitespace (lowerChar c) = isJsWhitespace c := by
  have h := lowerChar_toNat c
  by_cases hc : 65 ≤ c.toNat ∧ c.toNat ≤ 90
  · rw [if_pos hc] at h
    have h1 : isJsWhitespace (lowerChar c) = false := by
      simp only [isJsWhitespace, h]
      simp only [Bool.or_eq_false_iff, beq_eq_false_iff_ne, Bool.and_eq_false_imp,
        decide_eq_true_eq, decide_eq_false_iff_not]
      omega
    have h2 : isJsWhitespace c = false := by
      simp only [isJsWhitespace]
      simp only [Bool.or_eq_false_iff, beq_eq_false_iff_ne, Bool.and_eq_false_imp,
        decide_eq_true_eq, decide_eq_false_iff_not]
      omega
    rw [h1, h2]
  · rw [if_neg hc] at h
    rw [char_eq_of_toNat_eq h]

theorem trimmed_toLowerCase {s : String} (h : Trimmed s) : Trimmed (toLowerCase s) := by
  rw [trimmed_iff_list, trimList_eq_self_iff] at h ⊢
  rw [toLowerCase_toList]
  obtain ⟨h1, h2⟩ := h
  constructor
  · intro c hc
    rw [List.head?_map] at hc
    cases hh : s.toList.head? with
    | none => rw [hh] at hc; cases hc
    | some a =>
      rw [hh] at hc
      simp only [Option.map_some', Option.some.injEq] at hc
      rw [← hc, isJsWhitespace_lowerChar]
      exact h1 a hh
  · intro c hc
    rw [List.getLast?_map] at hc
    cases hh : s.toList.getLast? with
    | none => rw [hh] at hc; cases hc
    | some a =>
      rw [hh] at hc
      simp only [Option.map_some', Option.some.injEq] at hc
      rw [← hc, isJsWhitespace_lowerChar]
      exact h2 a hh

theorem isJsWhitespace_of_isDigit {c : Char} (h : isDigit c = true) :
    isJsWhitespace c = false := by
  rw [isDigit_iff] at h
  simp only [isJsWhitespace]
  simp only [Bool.or_eq_false_iff, beq_eq_false_iff_ne, Bool.and_eq_false_imp,
    decide_eq_true_eq, decide_eq_false_iff_not]
  omega

theorem isoYearDigits_head (y : Int) :
    ∃ a rest, isoYearDigits y = a :: rest ∧ isJsWhitespace a = false := by
  unfold isoYearDigits
  split_ifs
  · obtain ⟨a, b, c, d, h⟩ := padDigits_four y.toNat
    exact ⟨a, _, h, isJsWhitespace_of_isDigit (padDigits_all_digit 4 _ a (by rw [h]; simp))⟩
  · exact ⟨'-', _, rfl, by decide⟩
  · exact ⟨'+', _, rfl, by decide⟩

theorem trimmed_timestampText (t : Int) : Trimmed (timestampText t) := by
  rw [trimmed_iff_list, trimList_eq_self_iff, timestampText_toList]
  obtain ⟨a, rest, hy, ha⟩ := isoYearDigits_head (utcFields t).year
  constructor
  · intro c hc
    unfold isoSecondsText at hc
    rw [hy] at hc
    simp only [List.cons_append, List.head?_cons, Option.some.injEq] at hc
    rw [← hc]
    exact ha
  · intro c hc
    have hl : ∀ (pre : List Char), (pre ++ (if utcMilliseconds t = 0 then ['Z']
        else '.' :: (padDigits 3 (utcFields t).ms ++ ['Z']))).getLast? = some 'Z' := by
      intro pre
      split_ifs
      · exact List.getLast?_concat _
      · have he : pre ++ '.' :: (padDigits 3 (utcFields t).ms ++ ['Z'])
            = (pre ++ '.' :: padDigits 3 (utcFields t).ms) ++ ['Z'] := by simp
        rw [he]
        exact List.getLast?_concat _
    rw [hl] at hc
    simp only [Option.some.injEq] at hc
    rw [← hc]
    decide

/-- What `canonicalizeString` makes of a trimmed string is trimmed. -/
theorem canonicalizeString_trimmed {s s' : String} (h : canonicalizeString s = .ok s')
    (ht : Trimmed s) : Trimmed s' := by
  unfold canonicalizeString at h
  by_cases h1 : uuidPatternTest s = true
  · rw [if_pos h1] at h
    cases h
    exact trimmed_toLowerCase ht
  · rw [if_neg h1] at h
    by_cases h2 : isoPatternTest s = true
    · rw [if_pos h2] at h
      obtain ⟨t, _, rfl⟩ := normalizeTimestamp_text s s' h
      exact trimmed_timestampText t
    · rw [if_neg h2] at h
      by_cases h3 : hashPatternTest s = true
      · rw [if_pos h3] at h
        cases h
        exact trimmed_toLowerCase ht
      · rw [if_neg h3] at h
        cases h
        exact ht

/-! ### Strings with the character `>` match no pattern -/

theorem matchShape_mem {shape : List (Char → Bool)} {cs : List Char}
    (h : matchShape shape cs = true) : ∀ c ∈ cs, ∃ p ∈ shape, p c = true := by
  induction shape generalizing cs with
  | nil =>
    cases cs with
    | nil => intro c hc; cases hc
    | cons d ds => simp [matchShape] at h
  | cons q qs ih =>
    cases cs with
    | nil => intro c hc; cases hc
    | cons d ds =>
      simp only [matchShape, Bool.and_eq_true] at h
      intro c hc
      rcases List.mem_cons.1 hc with rfl | hc
      · exact ⟨q, List.mem_cons_self _ _, h.1⟩
      · obtain ⟨p, hp, hpc⟩ := ih h.2 c hc
        exact ⟨p, List.mem_cons_of_mem _ hp, hpc⟩

theorem uuidShape_mem {p : Char → Bool} (hp : p ∈ uuidShape) : p = isHexDigit ∨ p = isHyphen := by
  simp only [uuidShape, List.mem_append, List.mem_replicate, List.mem_singleton] at hp
  rcases hp with ((((((((h | h) | h) | h) | h) | h) | h) | h) | h)
  all_goals first
    | exact Or.inl h.2
    | exact Or.inr h

theorem readDigits_no_gt {n : Nat} {cs : List Char} {v : Nat} {rest : List Char}
    (h : readDigits n cs = some (v, rest)) (hr : '>' ∉ rest) : '>' ∉ cs := by
  induction n generalizing cs v rest with
  | zero =>
    simp only [readDigits, Option.some.injEq, Prod.mk.injEq] at h
    rw [h.2]
    exact hr
  | succ n ih =>
    cases cs with
    | nil => simp
    | cons d ds =>
      simp only [readDigits] at h
      by_cases hd : isDigit d = true
      · simp only [hd, if_true] at h
        cases hq : readDigits n ds with
        | none => simp [hq] at h
        | some p =>
          obtain ⟨v', rest'⟩ := p
          simp only [hq, Option.some.injEq, Prod.mk.injEq] at h
          have := ih hq (h.2 ▸ hr)
          intro hmem
          rcases List.mem_cons.1 hmem with hE | hE
          · rw [← hE] at hd
            exact absurd hd (by decide)
          · exact this hE
      · simp [hd] at h

theorem expectChar_no_gt {x : Char} {cs rest : List Char} (h : expectChar x cs = some rest)
    (hx : x ≠ '>') (hr : '>' ∉ rest) : '>' ∉ cs := by
  cases cs with
  | nil => simp
  | cons d ds =>
    simp only [expectChar] at h
    by_cases hd : d = x
    · simp only [hd, if_true, Option.some.injEq] at h
      subst h
      intro hmem
      rcases List.mem_cons.1 hmem with hE | hE
      · exact hx (hd ▸ hE.symm)
      · exact hr hE
    · simp [hd] at h

theorem readSep2_no_gt {x : Char} {cs : List Char} {v : Nat} {rest : List Char}
    (h : readSep2 x cs = some (v, rest)) (hx : x ≠ '>') (hr : '>' ∉ rest) : '>' ∉ cs := by
  unfold readSep2 at h
  cases he : expectChar x cs with
  | none => simp [he] at h
  | some r =>
    simp only [he] at h
    exact expectChar_no_gt he hx (readDigits_no_gt h hr)

theorem isoZone_no_gt {cs : List Char} {z : Bool × Bool × Nat × Nat}
    (h : isoZone cs = some z) : '>' ∉ cs := by
  unfold isoZone at h
  split at h
  · decide
  · next sign rest _ =>
    by_cases hs : sign = '+' ∨ sign = '-'
    · rw [if_pos hs] at h
      cases h1 : readDigits 2 rest with
      | none => simp [h1] at h
      | some p =>
        obtain ⟨oh, r1⟩ := p
        simp only [h1] at h
        cases h2 : expectChar ':' r1 with
        | none => simp [h2] at h
        | some r2 =>
          simp only [h2] at h
          cases h3 : readDigits 2 r2 with
          | none => simp [h3] at h
          | some q =>
            obtain ⟨om, r3⟩ := q
            cases r3 with
            | nil =>
              have := readDigits_no_gt h1 (expectChar_no_gt h2 (by decide)
                (readDigits_no_gt h3 (by simp)))
              intro hmem
              rcases List.mem_cons.1 hmem with hE | hE
              · rcases hs with hs | hs <;> rw [hs] at hE <;> exact absurd hE (by decide)
              · exact this hE
            | cons c cs' => simp [h3] at h
    · rw [if_neg hs] at h
      cases h
  · cases h

theorem spanDigits_no_gt (cs : List Char) (h : '>' ∉ (spanDigits cs).2) : '>' ∉ cs := by
  induction cs with
  | nil => simp
  | cons c cs ih =>
    simp only [spanDigits] at h
    by_cases hd : isDigit c = true
    · simp only [hd, if_true] at h
      intro hmem
      rcases List.mem_cons.1 hmem with hE | hE
      · rw [← hE] at hd
        exact absurd hd (by decide)
      · exact ih h hE
    · simp only [hd, Bool.false_eq_true, if_false] at h
      exact h

theorem isoFractionZone_no_gt {cs : List Char} {x : List Char × Bool × Bool × Nat × Nat}
    (h : isoFractionZone cs = some x) : '>' ∉ cs := by
  have hplain : ∀ l : List Char, (isoZone l).map (fun z => (([] : List Char), z)) = some x →
      '>' ∉ l := by
    intro l hl
    cases hz : isoZone l with
    | none => simp [hz] at hl
    | some z => exact isoZone_no_gt hz
  cases cs with
  | nil => exact hplain [] h
  | cons c rest =>
    by_cases hc : c = '.'
    · subst hc
      simp only [isoFractionZone] at h
      cases hsp : spanDigits rest with
      | mk ds r =>
        rw [hsp] at h
        cases ds with
        | nil => cases h
        | cons d ds =>
          simp only at h
          cases hz : isoZone r with
          | none => simp [hz] at h
          | some z =>
            have h1 : '>' ∉ (spanDigits rest).2 := by
              rw [hsp]
              exact isoZone_no_gt hz
            have := spanDigits_no_gt rest h1
            intro hmem
            rcases List.mem_cons.1 hmem with hE | hE
            · exact absurd hE (by decide)
            · exact this hE
    · unfold isoFractionZone at h
      split at h
      · next rest' heq =>
        simp only [List.cons.injEq] at heq
        exact absurd heq.1 hc
      · exact hplain _ h

theorem isoFields_no_gt {cs : List Char} {f : IsoFields} (h : isoFields cs = some f) :
    '>' ∉ cs := by
  unfold isoFields at h
  cases hd : isoDate cs with
  | none => simp [hd] at h
  | some p =>
    obtain ⟨ymd, r1⟩ := p
    simp only [hd] at h
    cases ht : isoTime r1 with
    | none => simp [ht] at h
    | some q =>
      obtain ⟨hms, r2⟩ := q
      simp only [ht] at h
      cases hz : isoFractionZone r2 with
      | none => simp [hz] at h
      | some z =>
        have h2 : '>' ∉ r2 := isoFractionZone_no_gt hz
        have h1 : '>' ∉ r1 := by
          unfold isoTime at ht
          cases a1 : readSep2 'T' r1 with
          | none => simp [a1] at ht
          | some x1 =>
            obtain ⟨v1, s1⟩ := x1
            simp only [a1] at ht
            cases a2 : readSep2 ':' s1 with
            | none => simp [a2] at ht
            | some x2 =>
              obtain ⟨v2, s2⟩ := x2
              simp only [a2] at ht
              cases a3 : readSep2 ':' s2 with
              | none => simp [a3] at ht
              | some x3 =>
                obtain ⟨v3, s3⟩ := x3
                simp only [a3, Option.some.injEq, Prod.mk.injEq] at ht
                have e3 : s3 = r2 := ht.2
                subst e3
                exact readSep2_no_gt a1 (by decide) (readSep2_no_gt a2 (by decide)
                  (readSep2_no_gt a3 (by decide) h2))
        unfold isoDate at hd
        cases a1 : readDigits 4 cs with
        | none => simp [a1] at hd
        | some x1 =>
          obtain ⟨v1, s1⟩ := x1
          simp only [a1] at hd
          cases a2 : readSep2 '-' s1 with
          | none => simp [a2] at hd
          | some x2 =>
            obtain ⟨v2, s2⟩ := x2
            simp only [a2] at hd
            cases a3 : readSep2 '-' s2 with
            | none => simp [a3] at hd
            | some x3 =>
              obtain ⟨v3, s3⟩ := x3
              simp only [a3, Option.some.injEq, Prod.mk.injEq] at hd
              have e3 : s3 = r1 := hd.2
              subst e3
              exact readDigits_no_gt a1 (readSep2_no_gt a2 (by decide)
                (readSep2_no_gt a3 (by decide) h1))

/-- A string with the character `>` matches none of the three patterns. -/
theorem canonicalizeString_of_gt {s : String} (h : '>' ∈ s.toList) :
    canonicalizeString s = .ok s := by
  have h1 : uuidPatternTest s = false := by
    cases hu : uuidPatternTest s with
    | false => rfl
    | true =>
      obtain ⟨p, hp, hpc⟩ := matchShape_mem hu '>' h
      rcases uuidShape_mem hp with rfl | rfl <;> exact absurd hpc (by decide)
  have h2 : hashPatternTest s = false := by
    cases hu : hashPatternTest s with
    | false => rfl
    | true =>
      obtain ⟨p, hp, hpc⟩ := matchShape_mem hu '>' h
      rw [mem_replicate_eq hp] at hpc
      exact absurd hpc (by decide)
  have h3 : isoPatternTest s = false := by
    unfold isoPatternTest
    cases hf : isoFields s.toList with
    | none => rfl
    | some f => exact absurd h (isoFields_no_gt hf)
  exact canonicalizeString_other h1 h2 h3

end FlowVersion


namespace FlowVersion

/-! ## The shape of normalized nodes, edges and graphs -/

theorem asString_ok {x : Value} {field s : String} (h : asString x field = .ok s) : x = .str s := by
  cases x <;> simp [asString] at h
  rw [h]

theorem trimmedOr_cases (x : Value) (dflt : String) :
    trimmedOr x dflt = dflt ∨ ∃ s, x = .str s ∧ trimmedOr x dflt = trim s ∧ trim s ≠ "" := by
  cases x with
  | str s =>
    by_cases h : trim s = ""
    · left; simp [trimmedOr, h]
    · right; exact ⟨s, rfl, by simp [trimmedOr, h], h⟩
  | _ => left; rfl

theorem trimmed_literal_task : Trimmed "task" := by unfold Trimmed; rfl
theorem trimmed_literal_flow : Trimmed "flow" := by unfold Trimmed; rfl

theorem trimmed_trimmedOr (x : Value) (dflt : String) (hd : Trimmed dflt) :
    Trimmed (trimmedOr x dflt) := by
  rcases trimmedOr_cases x dflt with h | ⟨s, _, h, _⟩
  · rw [h]; exact hd
  · rw [h]; exact trimmed_trim s

theorem canonicalize_str_ok {s : String} {y : Value} (h : canonicalize (.str s) = .ok y) :
    ∃ s', canonicalizeString s = .ok s' ∧ y = .str s' := by
  rw [canonicalize_str] at h
  cases hs : canonicalizeString s with
  | error e => rw [hs] at h; cases h
  | ok s' =>
    rw [hs] at h
    simp only [okStr, Except.ok.injEq] at h
    exact ⟨s', rfl, h.symm⟩

theorem canonicalize_obj_ok {props : Props} {m : Value} (h : canonicalize (.obj props) = .ok m) :
    isPlainObject m = true := by
  rw [canonicalize_obj] at h
  cases hR : canonicalizeObject props with
  | error e => rw [hR] at h; cases h
  | ok R =>
    rw [hR] at h
    simp only [okObj, Except.ok.injEq] at h
    subst h
    rfl

/-- A string property of an object literal, after `canonicalize`. -/
theorem getProp_str_of_canonicalize {props : Props} {m : Value}
    (h : canonicalize (.obj props) = .ok m) (k : String) (hk : k ≠ "__proto__") (s : String)
    (hl : lookupProp k props = some (.str s)) :
    ∃ s', canonicalizeString s = .ok s' ∧ getProp m k = .str s' := by
  obtain ⟨y, hy, hg⟩ := (getProp_of_canonicalize h k hk).1 (.str s) hl rfl
  obtain ⟨s', hs', rfl⟩ := canonicalize_str_ok hy
  exact ⟨s', hs', hg⟩

/-- What `normalizeNode` computes when it returns. -/
theorem normalizeNode_ok {n m : Value} (h : normalizeNode n = .ok m) :
    isPlainObject n = true ∧ ∃ id, getProp n "id" = .str id ∧
      canonicalize (.obj [("config",
          if isPlainObject (getProp n "config") then getProp n "config" else .obj []),
        ("id", .str id), ("label", stringOrUndefined (getProp n "label")),
        ("meta", objectOrUndefined (getProp n "meta")),
        ("type", .str (trimmedOr (getProp n "type") "task"))]) = .ok m := by
  unfold normalizeNode at h
  by_cases hp : (!isPlainObject n) = true
  · rw [if_pos hp] at h
    cases h
  · rw [if_neg hp] at h
    cases hid : asString (getProp n "id") "node.id" with
    | error e => rw [hid] at h; cases h
    | ok id =>
      rw [hid] at h
      exact ⟨by simpa using hp, id, asString_ok hid, h⟩

/-- What `normalizeEdge` computes when it returns. -/
theorem normalizeEdge_ok {e m : Value} (h : normalizeEdge e = .ok m) :
    isPlainObject e = true ∧ ∃ f t, getProp e "from" = .str f ∧ getProp e "to" = .str t ∧
      canonicalize (.obj [("condition", objectOrUndefined (getProp e "condition")),
        ("from", .str f), ("id", .str (trimmedOr (getProp e "id") (f ++ "->" ++ t))),
        ("label", stringOrUndefined (getProp e "label")),
        ("meta", objectOrUndefined (getProp e "meta")), ("to", .str t),
        ("type", .str (trimmedOr (getProp e "type") "flow"))]) = .ok m := by
  unfold normalizeEdge at h
  by_cases hp : (!isPlainObject e) = true
  · rw [if_pos hp] at h
    cases h
  · rw [if_neg hp] at h
    cases hf : asString (getProp e "from") "edge.from" with
    | error err => rw [hf] at h; cases h
    | ok f =>
      rw [hf] at h
      cases ht : asString (getProp e "to") "edge.to" with
      | error err => simp only [ht] at h; cases h
      | ok t =>
        simp only [ht] at h
        exact ⟨by simpa using hp, f, t, asString_ok hf, asString_ok ht, h⟩

theorem normalizeNode_out {n m : Value} (h : normalizeNode n = .ok m) : NodeOut m := by
  obtain ⟨_, id, _, hc⟩ := normalizeNode_ok h
  obtain ⟨s, _, hs⟩ := getProp_str_of_canonicalize hc "id" (by decide) id rfl
  obtain ⟨t, ht, hgt⟩ := getProp_str_of_canonicalize hc "type" (by decide)
    (trimmedOr (getProp n "type") "task") rfl
  exact ⟨canonicalize_obj_ok hc, canonicalize_idem _ _ hc, ⟨s, hs⟩, t, hgt,
    canonicalizeString_trimmed ht (trimmed_trimmedOr _ _ trimmed_literal_task)⟩

theorem gt_mem_default (f t : String) : '>' ∈ (f ++ "->" ++ t).toList := by
  simp [String.toList_append']

theorem isJsWhitespace_gt : isJsWhitespace '>' = false := by decide

theorem normalizeEdge_out {e m : Value} (h : normalizeEdge e = .ok m) : EdgeOut m := by
  obtain ⟨_, f, t, _, _, hc⟩ := normalizeEdge_ok h
  obtain ⟨f', _, hf'⟩ := getProp_str_of_canonicalize hc "from" (by decide) f rfl
  obtain ⟨t', _, ht'⟩ := getProp_str_of_canonicalize hc "to" (by decide) t rfl
  obtain ⟨s, hs, hgs⟩ := getProp_str_of_canonicalize hc "id" (by decide)
    (trimmedOr (getProp e "id") (f ++ "->" ++ t)) rfl
  obtain ⟨ty, hty, hgty⟩ := getProp_str_of_canonicalize hc "type" (by decide)
    (trimmedOr (getProp e "type") "flow") rfl
  refine ⟨canonicalize_obj_ok hc, canonicalize_idem _ _ hc, ⟨f', hf'⟩, ⟨t', ht'⟩, ⟨s, hgs, ?_⟩, ty,
    hgty, canonicalizeString_trimmed hty (trimmed_trimmedOr _ _ trimmed_literal_flow)⟩
  rcases trimmedOr_cases (getProp e "id") (f ++ "->" ++ t) with hd | ⟨x, _, hx, _⟩
  · right
    rw [hd] at hs
    rw [canonicalizeString_of_gt (gt_mem_default f t)] at hs
    injection hs with hs
    rw [← hs]
    exact gt_mem_default f t
  · left
    rw [hx] at hs
    exact canonicalizeString_trimmed hs (trimmed_trim x)

/-! ### Normalizing a normalized value again -/

theorem canonical_keys_nodup {R : Props} (h : Canonical (.obj R)) : (R.map Prod.fst).Nodup := by
  unfold Canonical at h
  rw [canonicalize_obj] at h
  cases hR : canonicalizeObject R with
  | error e => rw [hR] at h; cases h
  | ok R' =>
    rw [hR] at h
    simp only [okObj, Except.ok.injEq, Value.obj.injEq] at h
    subst h
    have := canonicalizeObject_ok hR
    rw [this]
    exact assignAll_nodup [] _ (by simp)

theorem canonical_prop {m : Value} (hc : Canonical m) (k : String) (hk : k ≠ "__proto__")
    (hu : isUndefined (getProp m k) = false) : Canonical (getProp m k) := by
  cases m with
  | obj R =>
    rcases canonical_getProp hc k hk with h | h
    · rw [h] at hu; cases hu
    · exact h
  | _ => cases hu

theorem canonical_stringOrUndefined {m : Value} (hc : Canonical m) (k : String)
    (hk : k ≠ "__proto__") (hu : isUndefined (stringOrUndefined (getProp m k)) = false) :
    Canonical (stringOrUndefined (getProp m k)) := by
  cases hg : getProp m k with
  | str s =>
    have := canonical_prop hc k hk (by rw [hg]; rfl)
    rw [hg] at this
    exact this
  | _ => rw [hg] at hu; cases hu

theorem canonical_objectOrUndefined {m : Value} (hc : Canonical m) (k : String)
    (hk : k ≠ "__proto__") (hu : isUndefined (objectOrUndefined (getProp m k)) = false) :
    Canonical (objectOrUndefined (getProp m k)) := by
  cases hg : getProp m k with
  | obj ps =>
    have := canonical_prop hc k hk (by rw [hg]; rfl)
    rw [hg] at this
    exact this
  | _ => rw [hg] at hu; cases hu

theorem canonical_config {m : Value} (hc : Canonical m) :
    Canonical (if isPlainObject (getProp m "config") then getProp m "config" else .obj []) := by
  by_cases h : isPlainObject (getProp m "config") = true
  · rw [if_pos h]
    apply canonical_prop hc "config" (by decide)
    cases hg : getProp m "config" <;> rw [hg] at h <;> first | rfl | cases h
  · rw [if_neg h]
    rfl

theorem canonical_trimmedOr_of_trimmed {t dflt : String} (hc : Canonical (.str t))
    (ht : Trimmed t) (hd : Canonical (.str dflt)) :
    Canonical (.str (trimmedOr (.str t) dflt)) := by
  unfold Trimmed at ht
  unfold trimmedOr
  simp only [ht]
  split_ifs
  · exact hd
  · exact hc

theorem canonical_str_of_gt {s : String} (h : '>' ∈ s.toList) : Canonical (.str s) := by
  unfold Canonical
  rw [canonicalize_str, canonicalizeString_of_gt h]
  rfl

theorem canonical_edge_id {s dflt : String} (hc : Canonical (.str s))
    (hs : Trimmed s ∨ '>' ∈ s.toList) (hd : '>' ∈ dflt.toList) :
    Canonical (.str (trimmedOr (.str s) dflt)) := by
  rcases trimmedOr_cases (.str s) dflt with h | ⟨x, hx, h, _⟩
  · rw [h]
    exact canonical_str_of_gt hd
  · rw [h]
    injection hx with hx
    subst hx
    rcases hs with hs | hs
    · unfold Trimmed at hs
      rw [hs]
      exact hc
    · exact canonical_str_of_gt (mem_trim hs isJsWhitespace_gt)

/-- An object literal whose defined properties are canonical has a canonical form. -/
theorem canonicalize_obj_succeeds (props : Props)
    (h : ∀ kv ∈ props, isUndefined kv.2 = false → Canonical kv.2) :
    ∃ m, canonicalize (.obj props) = .ok m := by
  obtain ⟨R, hR⟩ := canonicalizeObject_succeeds props (fun k v hk hu =>
    ⟨v, h (k, v) (lookupProp_mem hk) hu⟩)
  exact ⟨.obj R, by rw [canonicalize_obj, hR]; rfl⟩

theorem normalizeNode_of_out {m : Value} (h : NodeOut m) : ∃ m', normalizeNode m = .ok m' := by
  obtain ⟨hp, hc, ⟨s, hs⟩, t, ht, htr⟩ := h
  have hcs : Canonical (.str s) := by
    rw [← hs]; exact canonical_prop hc "id" (by decide) (by rw [hs]; rfl)
  have hct : Canonical (.str t) := by
    rw [← ht]; exact canonical_prop hc "type" (by decide) (by rw [ht]; rfl)
  unfold normalizeNode
  simp only [hp, Bool.not_true, Bool.false_eq_true, if_false, hs, asString, ht]
  apply canonicalize_obj_succeeds
  intro kv hkv hu
  simp only [List.mem_cons, List.mem_singleton, List.not_mem_nil, or_false] at hkv
  rcases hkv with rfl | rfl | rfl | rfl | rfl
  · exact canonical_config hc
  · exact hcs
  · exact canonical_stringOrUndefined hc "label" (by decide) hu
  · exact canonical_objectOrUndefined hc "meta" (by decide) hu
  · exact canonical_trimmedOr_of_trimmed hct htr rfl

theorem normalizeEdge_of_out {m : Value} (h : EdgeOut m) : ∃ m', normalizeEdge m = .ok m' := by
  obtain ⟨hp, hc, ⟨f, hf⟩, ⟨t, ht⟩, ⟨s, hs, hsd⟩, ty, hty, htr⟩ := h
  have hcf : Canonical (.str f) := by
    rw [← hf]; exact canonical_prop hc "from" (by decide) (by rw [hf]; rfl)
  have hct : Canonical (.str t) := by
    rw [← ht]; exact canonical_prop hc "to" (by decide) (by rw [ht]; rfl)
  have hcs : Canonical (.str s) := by
    rw [← hs]; exact canonical_prop hc "id" (by decide) (by rw [hs]; rfl)
  have hcty : Canonical (.str ty) := by
    rw [← hty]; exact canonical_prop hc "type" (by decide) (by rw [hty]; rfl)
  unfold normalizeEdge
  simp only [hp, Bool.not_true, Bool.false_eq_true, if_false, hf, ht, asString, hs, hty]
  apply canonicalize_obj_succeeds
  intro kv hkv hu
  simp only [List.mem_cons, List.mem_singleton, List.not_mem_nil, or_false] at hkv
  rcases hkv with rfl | rfl | rfl | rfl | rfl | rfl | rfl
  · exact canonical_objectOrUndefined hc "condition" (by decide) hu
  · exact hcf
  · exact canonical_edge_id hcs hsd (gt_mem_default f t)
  · exact canonical_stringOrUndefined hc "label" (by decide) hu
  · exact canonical_objectOrUndefined hc "meta" (by decide) hu
  · exact hct
  · exact canonical_trimmedOr_of_trimmed hcty htr rfl

/-! ### `normalizeGraph` -/

theorem mapM'_mem {f : Value → Except JSError Value} {xs ys : List Value}
    (h : mapM' f xs = .ok ys) : (∀ y ∈ ys, ∃ x ∈ xs, f x = .ok y) ∧
      (∀ x ∈ xs, ∃ y ∈ ys, f x = .ok y) := by
  have hf := mapM'_ok h
  constructor
  · intro y hy
    exact forall₂_mem_right hf y hy
  · intro x hx
    exact forall₂_mem_left hf x hx

/-- What `normalizeGraph` computes when it returns. -/
theorem normalizeGraph_items (P : Platform) {g G : Value} (h : normalizeGraph P g = .ok G) :
    ∃ ns es, mapM' normalizeNode (propItems g "nodes") = .ok ns ∧
      mapM' normalizeEdge (propItems g "edges") = .ok es ∧
      getProp G "nodes" = .arr (sortWith (compareById P) ns) ∧
      getProp G "edges" = .arr (sortWith (compareById P) es) ∧
      getProp G "kind" = .str "workflow_graph@1" ∧
      canonicalize (.obj [("edges", .arr (sortWith (compareById P) es)),
        ("kind", .str "workflow_graph@1"), ("meta", objectOrUndefined (getProp g "meta")),
        ("name", stringOrUndefined (getProp g "name")),
        ("nodes", .arr (sortWith (compareById P) ns))]) = .ok G := by
  cases hn : mapM' normalizeNode (propItems g "nodes") with
  | error e => simp [normalizeGraph, hn] at h
  | ok ns =>
    cases he : mapM' normalizeEdge (propItems g "edges") with
    | error e => simp [normalizeGraph, hn, he] at h
    | ok es =>
      rw [normalizeGraph_of_atoms P hn he] at h
      have hcn : Canonical (.arr (sortWith (compareById P) ns)) := by
        apply canonical_arr
        intro c hc
        rw [mem_sortWith] at hc
        obtain ⟨x, _, hx⟩ := (mapM'_mem hn).1 c hc
        exact (normalizeNode_out hx).2.1
      have hce : Canonical (.arr (sortWith (compareById P) es)) := by
        apply canonical_arr
        intro c hc
        rw [mem_sortWith] at hc
        obtain ⟨x, _, hx⟩ := (mapM'_mem he).1 c hc
        exact (normalizeEdge_out hx).2.1
      refine ⟨ns, es, rfl, rfl, ?_, ?_, ?_, h⟩
      · obtain ⟨y, hy, hg⟩ := (getProp_of_canonicalize h "nodes" (by decide)).1 _ rfl rfl
        rw [hg, ← Except.ok.inj (hcn.symm.trans hy)]
      · obtain ⟨y, hy, hg⟩ := (getProp_of_canonicalize h "edges" (by decide)).1 _ rfl rfl
        rw [hg, ← Except.ok.inj (hce.symm.trans hy)]
      · obtain ⟨y, hy, hg⟩ := (getProp_of_canonicalize h "kind" (by decide)).1 _ rfl rfl
        have hk : canonicalize (.str "workflow_graph@1") = .ok (.str "workflow_graph@1") := rfl
        rw [hg, ← Except.ok.inj (hk.symm.trans hy)]

theorem normalizeGraph_out (P : Platform) {g G : Value} (h : normalizeGraph P g = .ok G) :
    GraphOut G := by
  obtain ⟨ns, es, hn, he, hgn, hge, hk, hc⟩ := normalizeGraph_items P h
  refine ⟨canonicalize_obj_ok hc, canonicalize_idem _ _ hc, hk, ⟨_, hgn, ?_⟩, ⟨_, hge, ?_⟩,
    ?_, ?_⟩
  · intro c hc'
    rw [mem_sortWith] at hc'
    obtain ⟨x, _, hx⟩ := (mapM'_mem hn).1 c hc'
    exact normalizeNode_out hx
  · intro c hc'
    rw [mem_sortWith] at hc'
    obtain ⟨x, _, hx⟩ := (mapM'_mem he).1 c hc'
    exact normalizeEdge_out hx
  · obtain ⟨h1, h2, _⟩ := getProp_of_canonicalize hc "name" (by decide)
    cases hg : getProp g "name" with
    | str s =>
      obtain ⟨y, hy, hgy⟩ := h1 (.str s) (by simp [lookupProp, hg, stringOrUndefined]) rfl
      obtain ⟨s', _, rfl⟩ := canonicalize_str_ok hy
      exact Or.inr ⟨s', hgy⟩
    | _ => exact Or.inl (h2 .undefined (by simp [lookupProp, hg, stringOrUndefined]) rfl)
  · obtain ⟨h1, h2, _⟩ := getProp_of_canonicalize hc "meta" (by decide)
    cases hg : getProp g "meta" with
    | obj ps =>
      obtain ⟨y, hy, hgy⟩ := h1 (.obj ps) (by simp [lookupProp, hg, objectOrUndefined]) rfl
      have hp := canonicalize_obj_ok hy
      cases y with
      | obj qs => exact Or.inr ⟨qs, hgy⟩
      | _ => cases hp
    | _ => exact Or.inl (h2 .undefined (by simp [lookupProp, hg, objectOrUndefined]) rfl)

theorem looksLikeGraph_of_out {G : Value} (h : GraphOut G) : looksLikeGraph G = true := by
  obtain ⟨hp, _, _, ⟨ns, hn, _⟩, _⟩ := h
  simp [looksLikeGraph, hp, hn, isArray]

/-- `normalizeGraph` returns when `normalizeNode` and `normalizeEdge` return on every element
and the `meta` and `name` it keeps are canonical. -/
theorem normalizeGraph_succeeds (P : Platform) (g : Value)
    (hn : ∀ n ∈ propItems g "nodes", ∃ m, normalizeNode n = .ok m)
    (he : ∀ e ∈ propItems g "edges", ∃ m, normalizeEdge e = .ok m)
    (hm : isUndefined (objectOrUndefined (getProp g "meta")) = false →
      Canonical (objectOrUndefined (getProp g "meta")))
    (hname : isUndefined (stringOrUndefined (getProp g "name")) = false →
      Canonical (stringOrUndefined (getProp g "name"))) :
    ∃ G, normalizeGraph P g = .ok G := by
  obtain ⟨ns, hns⟩ := mapM'_of_forall hn
  obtain ⟨es, hes⟩ := mapM'_of_forall he
  rw [normalizeGraph_of_atoms P hns hes]
  apply canonicalize_obj_succeeds
  intro kv hkv hu
  simp only [List.mem_cons, List.mem_singleton, List.not_mem_nil, or_false] at hkv
  rcases hkv with rfl | rfl | rfl | rfl | rfl
  · apply canonical_arr
    intro c hc
    rw [mem_sortWith] at hc
    obtain ⟨x, _, hx⟩ := (mapM'_mem hes).1 c hc
    exact (normalizeEdge_out hx).2.1
  · rfl
  · exact hm hu
  · exact hname hu
  · apply canonical_arr
    intro c hc
    rw [mem_sortWith] at hc
    obtain ⟨x, _, hx⟩ := (mapM'_mem hns).1 c hc
    exact (normalizeNode_out hx).2.1

theorem propItems_of_getProp {g : Value} {k : String} {xs : List Value}
    (h : getProp g k = .arr xs) : propItems g k = xs := by
  simp [propItems, h]

/-- A normalized graph can be normalized again. -/
theorem normalizeGraph_of_out (P : Platform) {G : Value} (h : GraphOut G) :
    ∃ G', normalizeGraph P G = .ok G' := by
  obtain ⟨_, hc, _, ⟨ns, hn, hns⟩, ⟨es, he, hes⟩, _⟩ := h
  apply normalizeGraph_succeeds
  · rw [propItems_of_getProp hn]
    exact fun n hn' => normalizeNode_of_out (hns n hn')
  · rw [propItems_of_getProp he]
    exact fun e he' => normalizeEdge_of_out (hes e he')
  · exact canonical_objectOrUndefined hc "meta" (by decide)
  · exact canonical_stringOrUndefined hc "name" (by decide)

/-- A graph-shaped result of `canonicalizeDomain` is a normalized graph. -/
theorem graphOut_of_canonicalizeDomain (P : Platform) {x G : Value}
    (h : canonicalizeDomain P x = .ok G) (hg : looksLikeGraph G = true) : GraphOut G := by
  unfold canonicalizeDomain at h
  by_cases hx : looksLikeGraph x = true
  · rw [if_pos hx] at h
    exact normalizeGraph_out P h
  · rw [if_neg hx] at h
    rw [looksLikeGraph_canonicalize h (by simpa using hx)] at hg
    cases hg

theorem canonicalizeDomain_of_out (P : Platform) {G : Value} (h : GraphOut G) :
    ∃ G', canonicalizeDomain P G = .ok G' ∧ GraphOut G' := by
  obtain ⟨G', hG'⟩ := normalizeGraph_of_out P h
  refine ⟨G', ?_, normalizeGraph_out P hG'⟩
  unfold canonicalizeDomain
  rw [if_pos (looksLikeGraph_of_out h), hG']

end FlowVersion


namespace FlowVersion

/-! ## Defaults and input errors of `normalizeGraph` (C21, C22) -/

theorem trimmedOr_default {x : Value} {dflt : String}
    (h : ∀ s, x = .str s → trim s = "") : trimmedOr x dflt = dflt := by
  cases x with
  | str s => simp [trimmedOr, h s rfl]
  | _ => rfl

theorem normalizeNode_type_default {n m : Value} (h : normalizeNode n = .ok m)
    (ht : ∀ s, getProp n "type" = .str s → trim s = "") : getProp m "type" = .str "task" := by
  obtain ⟨_, id, _, hc⟩ := normalizeNode_ok h
  rw [trimmedOr_default ht] at hc
  obtain ⟨s', hs', hg⟩ := getProp_str_of_canonicalize hc "type" (by decide) "task" rfl
  have : canonicalizeString "task" = .ok "task" := rfl
  rw [this] at hs'
  injection hs' with hs'
  rw [hg, ← hs']

theorem normalizeEdge_type_default {e m : Value} (h : normalizeEdge e = .ok m)
    (ht : ∀ s, getProp e "type" = .str s → trim s = "") : getProp m "type" = .str "flow" := by
  obtain ⟨_, f, t, _, _, hc⟩ := normalizeEdge_ok h
  rw [trimmedOr_default ht] at hc
  obtain ⟨s', hs', hg⟩ := getProp_str_of_canonicalize hc "type" (by decide) "flow" rfl
  have : canonicalizeString "flow" = .ok "flow" := rfl
  rw [this] at hs'
  injection hs' with hs'
  rw [hg, ← hs']

theorem normalizeEdge_id_default {e m : Value} (h : normalizeEdge e = .ok m)
    (hi : ∀ s, getProp e "id" = .str s → trim s = "") :
    ∃ f t f' t', getProp e "from" = .str f ∧ getProp e "to" = .str t ∧
      getProp m "id" = .str (f ++ "->" ++ t) ∧
      canonicalizeString f = .ok f' ∧ getProp m "from" = .str f' ∧
      canonicalizeString t = .ok t' ∧ getProp m "to" = .str t' := by
  obtain ⟨_, f, t, hf, ht, hc⟩ := normalizeEdge_ok h
  rw [trimmedOr_default hi] at hc
  obtain ⟨f', hf', hgf⟩ := getProp_str_of_canonicalize hc "from" (by decide) f rfl
  obtain ⟨t', ht', hgt⟩ := getProp_str_of_canonicalize hc "to" (by decide) t rfl
  obtain ⟨s', hs', hgs⟩ := getProp_str_of_canonicalize hc "id" (by decide) (f ++ "->" ++ t) rfl
  rw [canonicalizeString_of_gt (gt_mem_default f t)] at hs'
  injection hs' with hs'
  exact ⟨f, t, f', t', hf, ht, by rw [hgs, ← hs'], hf', hgf, ht', hgt⟩

theorem normalizeGraph_atoms (P : Platform) {g G : Value} (h : normalizeGraph P g = .ok G) :
    (∀ m ∈ propItems G "nodes", ∃ n ∈ propItems g "nodes", normalizeNode n = .ok m) ∧
    (∀ n ∈ propItems g "nodes", ∃ m ∈ propItems G "nodes", normalizeNode n = .ok m) ∧
    (∀ m ∈ propItems G "edges", ∃ e ∈ propItems g "edges", normalizeEdge e = .ok m) ∧
    (∀ e ∈ propItems g "edges", ∃ m ∈ propItems G "edges", normalizeEdge e = .ok m) := by
  obtain ⟨ns, es, hn, he, hgn, hge, _, _⟩ := normalizeGraph_items P h
  rw [propItems_of_getProp hgn, propItems_of_getProp hge]
  refine ⟨?_, ?_, ?_, ?_⟩
  · intro m hm
    rw [mem_sortWith] at hm
    exact (mapM'_mem hn).1 m hm
  · intro n hn'
    obtain ⟨m, hm, hnm⟩ := (mapM'_mem hn).2 n hn'
    exact ⟨m, (mem_sortWith _ _ _).2 hm, hnm⟩
  · intro m hm
    rw [mem_sortWith] at hm
    exact (mapM'_mem he).1 m hm
  · intro e he'
    obtain ⟨m, hm, hem⟩ := (mapM'_mem he).2 e he'
    exact ⟨m, (mem_sortWith _ _ _).2 hm, hem⟩

/-- C21 fails for an edge without id whose `from` is an upper-case UUID: the normalized edge
has the `from` in lower case, and its id is built from the `from` as given. -/
theorem normalizeGraph_default_id_raw :
    (∀ P : Platform, normalizeGraph P uuidEdgeGraph = .ok uuidEdgeGraphNormal) ∧
    ∃ m, propItems uuidEdgeGraphNormal "edges" = [m] ∧
      getProp m "from" = .str "a1b2c3d4-e5f6-7890-abcd-ef1234567890" ∧
      getProp m "to" = .str "b" ∧
      getProp m "id" = .str "A1B2C3D4-E5F6-7890-ABCD-EF1234567890->b" ∧
      getProp m "id" ≠ .str ("a1b2c3d4-e5f6-7890-abcd-ef1234567890" ++ "->" ++ "b") :=
  ⟨fun _ => rfl, _, rfl, rfl, rfl, rfl, fun h => by
    have h1 : ("A1B2C3D4-E5F6-7890-ABCD-EF1234567890->b" : String)
        = "a1b2c3d4-e5f6-7890-abcd-ef1234567890" ++ "->" ++ "b" := Value.str.inj h
    revert h1
    decide⟩

/-- C21, amended: the nodes and edges of a normalized graph are the results of `normalizeNode`
and `normalizeEdge` on the elements of the input; a node whose input has no string type, or a
blank one, gets the type `task`, an edge the type `flow`; and an edge whose input has no
string id, or a blank one, gets the id `from + "->" + to` built from the `from` and `to` of
the input, while its own `from` and `to` are the canonical forms of these: the id is its own
`from`, `->` and its own `to` when the canonicalizer leaves both strings unchanged. -/
theorem normalizeGraph_defaults (P : Platform) (g G : Value) (h : normalizeGraph P g = .ok G) :
    ((∀ m ∈ propItems G "nodes", ∃ n ∈ propItems g "nodes", normalizeNode n = .ok m) ∧
      (∀ n ∈ propItems g "nodes", ∃ m ∈ propItems G "nodes", normalizeNode n = .ok m) ∧
      (∀ m ∈ propItems G "edges", ∃ e ∈ propItems g "edges", normalizeEdge e = .ok m) ∧
      (∀ e ∈ propItems g "edges", ∃ m ∈ propItems G "edges", normalizeEdge e = .ok m)) ∧
    (∀ n m, normalizeNode n = .ok m → (∀ s, getProp n "type" = .str s → trim s = "") →
      getProp m "type" = .str "task") ∧
    (∀ e m, normalizeEdge e = .ok m → (∀ s, getProp e "type" = .str s → trim s = "") →
      getProp m "type" = .str "flow") ∧
    (∀ e m, normalizeEdge e = .ok m → (∀ s, getProp e "id" = .str s → trim s = "") →
      ∃ f t f' t', getProp e "from" = .str f ∧ getProp e "to" = .str t ∧
        getProp m "id" = .str (f ++ "->" ++ t) ∧
        canonicalizeString f = .ok f' ∧ getProp m "from" = .str f' ∧
        canonicalizeString t = .ok t' ∧ getProp m "to" = .str t' ∧
        (PlainString f → PlainString t → getProp m "id" = .str (f' ++ "->" ++ t'))) := by
  refine ⟨normalizeGraph_atoms P h, fun n m hn ht => normalizeNode_type_default hn ht,
    fun e m he ht => normalizeEdge_type_default he ht, ?_⟩
  intro e m he hi
  obtain ⟨f, t, f', t', h1, h2, h3, h4, h5, h6, h7⟩ := normalizeEdge_id_default he hi
  refine ⟨f, t, f', t', h1, h2, h3, h4, h5, h6, h7, ?_⟩
  intro pf pt
  unfold PlainString at pf pt
  rw [pf] at h4
  rw [pt] at h6
  injection h4 with h4
  injection h6 with h6
  rw [h3, h4, h6]

/-- C21 (amended) at the graph whose only edge has no id and an upper-case UUID as `from`. -/
theorem normalizeGraph_defaults_witness :
    normalizeGraph samplePlatform uuidEdgeGraph = .ok uuidEdgeGraphNormal ∧
    ∀ e ∈ propItems uuidEdgeGraph "edges", ∃ m ∈ propItems uuidEdgeGraphNormal "edges",
      normalizeEdge e = .ok m :=
  ⟨rfl, (normalizeGraph_defaults samplePlatform uuidEdgeGraph uuidEdgeGraphNormal rfl).1.2.2.2⟩

/-! ### Ids that are no strings -/

theorem asString_error {x : Value} (field : String) (h : ∀ s, x ≠ .str s) :
    asString x field = .error (.expectedString field) := by
  cases x with
  | str s => exact absurd rfl (h s)
  | _ => rfl

theorem normalizeNode_bad_id {n : Value} (h : ∀ s, getProp n "id" ≠ .str s) :
    ∃ err, normalizeNode n = .error err ∧ err.isInputShape = true := by
  unfold normalizeNode
  by_cases hp : (!isPlainObject n) = true
  · rw [if_pos hp]
    exact ⟨_, rfl, rfl⟩
  · rw [if_neg hp, asString_error "node.id" h]
    exact ⟨_, rfl, rfl⟩

theorem normalizeEdge_bad_end {e : Value}
    (h : (∀ s, getProp e "from" ≠ .str s) ∨ (∀ s, getProp e "to" ≠ .str s)) :
    ∃ err, normalizeEdge e = .error err ∧ err.isInputShape = true := by
  unfold normalizeEdge
  by_cases hp : (!isPlainObject e) = true
  · rw [if_pos hp]
    exact ⟨_, rfl, rfl⟩
  · rw [if_neg hp]
    cases hf : asString (getProp e "from") "edge.from" with
    | error err =>
      refine ⟨err, rfl, ?_⟩
      cases hg : getProp e "from" <;> rw [hg] at hf <;> simp only [asString] at hf <;>
        first
        | (injection hf with hf; rw [← hf]; rfl)
        | cases hf
    | ok f =>
      rcases h with h | h
      · exact absurd (asString_ok hf) (h f)
      · simp only [asString_error "edge.to" h]
        exact ⟨_, rfl, rfl⟩

theorem normalizeGraph_error_of_node (P : Platform) {g : Value}
    (h : ∃ n ∈ propItems g "nodes", ∃ err, normalizeNode n = .error err) :
    ∃ err, normalizeGraph P g = .error err ∧
      ∃ n ∈ propItems g "nodes", normalizeNode n = .error err := by
  obtain ⟨err, he, hx⟩ := mapM'_error h
  exact ⟨err, by simp [normalizeGraph, he], hx⟩

theorem normalizeGraph_error_of_edge (P : Platform) {g : Value}
    (h : ∃ e ∈ propItems g "edges", ∃ err, normalizeEdge e = .error err) :
    ∃ err, normalizeGraph P g = .error err ∧
      ((∃ n ∈ propItems g "nodes", normalizeNode n = .error err) ∨
        ∃ e ∈ propItems g "edges", normalizeEdge e = .error err) := by
  cases hn : mapM' normalizeNode (propItems g "nodes") with
  | error err =>
    refine ⟨err, by simp [normalizeGraph, hn], Or.inl ?_⟩
    by_contra hno
    have hall : ∀ x ∈ propItems g "nodes", ∃ y, normalizeNode x = .ok y := by
      intro x hx
      cases hnx : normalizeNode x with
      | ok y => exact ⟨y, rfl⟩
      | error e' =>
        obtain ⟨e2, he2, _⟩ := mapM'_error ⟨x, hx, e', hnx⟩
        rw [hn] at he2
        injection he2 with he2
        subst he2
        obtain ⟨e3, he3, x3, hx3, hx3e⟩ := mapM'_error ⟨x, hx, e', hnx⟩
        rw [hn] at he3
        injection he3 with he3
        subst he3
        exact absurd ⟨x3, hx3, hx3e⟩ hno
    obtain ⟨ys, hys⟩ := mapM'_of_forall hall
    rw [hn] at hys
    cases hys
  | ok ns =>
    obtain ⟨err, he, hx⟩ := mapM'_error h
    exact ⟨err, by simp [normalizeGraph, hn, he], Or.inr hx⟩

/-- C22 fails when an element before the offending one cannot be canonicalized: the first node
of `fractionGraph` holds the number 0.5 and its second node has a number as id; the error is
the one of the first node, `Non-integer numbers are not allowed`. -/
theorem normalizeGraph_other_error_first :
    looksLikeGraph fractionGraph = true ∧
    (∃ n ∈ propItems fractionGraph "nodes", ∀ s, getProp n "id" ≠ .str s) ∧
    (∀ P : Platform,
      normalizeGraph P fractionGraph = .error (.nonIntegerNumber (.finite (1 / 2)))) ∧
    (JSError.nonIntegerNumber (.finite (1 / 2))).isInputShape = false :=
  ⟨rfl, ⟨.obj [("id", .num (.finite 5))], by simp [fractionGraph, propItems, getProp, lookupProp],
    fun s h => by cases h⟩, fun _ => by with_unfolding_all rfl, rfl⟩

/-- C22, amended: a graph-shaped input with a node whose id is no string, or an edge whose
`from` or `to` is no string, makes `normalizeGraph` fail, and with it `canonicalizeDomain` and
`validate`, and `diff` and `merge` wherever the input stands; the error is the one
`normalizeNode` or `normalizeEdge` raises on an element of the input (the first that fails,
nodes before edges), so it is an input-shape error when the elements fail with no other
error. -/
theorem normalizeGraph_bad_id (P : Platform) (g : Value) (hg : looksLikeGraph g = true)
    (hbad : (∃ n ∈ propItems g "nodes", ∀ s, getProp n "id" ≠ .str s) ∨
      (∃ e ∈ propItems g "edges",
        (∀ s, getProp e "from" ≠ .str s) ∨ (∀ s, getProp e "to" ≠ .str s))) :
    ∃ err, normalizeGraph P g = .error err ∧ canonicalizeDomain P g = .error err ∧
      validate P g = .error err ∧
      (∀ x, diff P g x = .error err) ∧ (∀ x, ∃ e', diff P x g = .error e') ∧
      (∀ x y, merge P g x y = .error err) ∧ (∀ x y, ∃ e', merge P x g y = .error e') ∧
      (∀ x y, ∃ e', merge P x y g = .error e') ∧
      ((∃ n ∈ propItems g "nodes", normalizeNode n = .error err) ∨
        (∃ e ∈ propItems g "edges", normalizeEdge e = .error err)) ∧
      ((∀ n ∈ propItems g "nodes", ∀ e', normalizeNode n = .error e' → e'.isInputShape = true) →
        (∀ e ∈ propItems g "edges", ∀ e', normalizeEdge e = .error e' →
          e'.isInputShape = true) →
        err.isInputShape = true) := by
  have key : ∃ err, normalizeGraph P g = .error err ∧
      ((∃ n ∈ propItems g "nodes", normalizeNode n = .error err) ∨
        ∃ e ∈ propItems g "edges", normalizeEdge e = .error err) := by
    rcases hbad with ⟨n, hn, hid⟩ | ⟨e, he, hends⟩
    · obtain ⟨err, herr, _⟩ := normalizeNode_bad_id hid
      obtain ⟨err', h1, h2⟩ := normalizeGraph_error_of_node P ⟨n, hn, err, herr⟩
      exact ⟨err', h1, Or.inl h2⟩
    · obtain ⟨err, herr, _⟩ := normalizeEdge_bad_end hends
      exact normalizeGraph_error_of_edge P ⟨e, he, err, herr⟩
  obtain ⟨err, hng, hfrom⟩ := key
  have hcd : canonicalizeDomain P g = .error err := by
    unfold canonicalizeDomain
    rw [if_pos hg, hng]
  refine ⟨err, hng, hcd, ?_, ?_, ?_, ?_, ?_, ?_, hfrom, ?_⟩
  · simp only [validate, hcd]
  · intro x
    simp only [diff, hcd]
  · intro x
    cases hx : canonicalizeDomain P x with
    | error e' => exact ⟨e', by simp only [diff, hx]⟩
    | ok y => exact ⟨err, by simp only [diff, hx, hcd]⟩
  · intro x y
    simp only [merge, hcd]
  · intro x y
    cases hx : canonicalizeDomain P x with
    | error e' => exact ⟨e', by simp only [merge, hx]⟩
    | ok x' => exact ⟨err, by simp only [merge, hx, hcd]⟩
  · intro x y
    cases hx : canonicalizeDomain P x with
    | error e' => exact ⟨e', by simp only [merge, hx]⟩
    | ok x' =>
      cases hy : canonicalizeDomain P y with
      | error e' => exact ⟨e', by simp only [merge, hx, hy]⟩
      | ok y' => exact ⟨err, by simp only [merge, hx, hy, hcd]⟩
  · intro h1 h2
    rcases hfrom with ⟨n, hn, hne⟩ | ⟨e, he, hee⟩
    · exact h1 n hn err hne
    · exact h2 e he err hee

/-- C22 (amended) at the graph whose only node has a number as id. -/
theorem normalizeGraph_bad_id_witness :
    normalizeGraph samplePlatform numberIdGraph = .error (.expectedString "node.id") ∧
    ∃ err, validate samplePlatform numberIdGraph = .error err ∧
      ∀ x, diff samplePlatform numberIdGraph x = .error err :=
  have h := normalizeGraph_bad_id samplePlatform numberIdGraph rfl
    (Or.inl ⟨.obj [("id", .num (.finite 5))],
      by simp [numberIdGraph, propItems, getProp, lookupProp], fun s h => by cases h⟩)
  ⟨rfl, h.imp (fun _ he => ⟨he.2.2.1, he.2.2.2.1⟩)⟩

end FlowVersion


namespace FlowVersion

/-! ## The maps `new Map(atoms.map((n) => [n.id, n]))` -/

theorem lookupProp_append {β : Type} (k : String) (ps qs : List (String × β)) :
    lookupProp k (ps ++ qs) = (lookupProp k ps).orElse (fun _ => lookupProp k qs) := by
  induction ps with
  | nil => rfl
  | cons p ps ih =>
    obtain ⟨k', v⟩ := p
    simp only [List.cons_append, lookupProp]
    split_ifs
    · rfl
    · exact ih

theorem lookupProp_mapSet {β : Type} (m : List (String × β)) (k : String) (v : β) (k' : String) :
    lookupProp k' (mapSet m k v) = if k' = k then some v else lookupProp k' m := by
  unfold mapSet
  by_cases h : hasProp k m = true
  · rw [if_pos h, lookupProp_replaceProp]
    simp [h]
  · rw [if_neg h, lookupProp_append]
    have hn : lookupProp k m = none := by
      unfold hasProp at h
      cases hl : lookupProp k m with
      | none => rfl
      | some x => rw [hl] at h; simp at h
    by_cases hk : k' = k
    · subst hk
      simp [hn, lookupProp]
    · have hk' : ¬ k = k' := fun e => hk e.symm
      simp only [lookupProp, hk, hk', if_false]
      cases lookupProp k' m <;> rfl

/-- The last element with the id `k`. -/
theorem lookupProp_foldl_mapSet (xs : List Value) (m : List (String × Value)) (k : String) :
    lookupProp k (xs.foldl (fun m n => mapSet m (propString n "id") n) m)
      = match xs.reverse.find? (fun x => decide (propString x "id" = k)) with
        | some x => some x
        | none => lookupProp k m := by
  induction xs generalizing m with
  | nil => rfl
  | cons x xs ih =>
    simp only [List.foldl_cons, ih, List.reverse_cons, List.find?_append, lookupProp_mapSet]
    cases hf : xs.reverse.find? (fun x => decide (propString x "id" = k)) with
    | some y => rfl
    | none =>
      simp only [Option.none_or, List.find?_cons, List.find?_nil]
      by_cases hk : propString x "id" = k
      · simp [hk]
      · have hk' : ¬ k = propString x "id" := fun e => hk e.symm
        simp [hk, hk']

theorem lookupProp_mapById (xs : List Value) (k : String) :
    lookupProp k (mapById xs) = xs.reverse.find? (fun x => decide (propString x "id" = k)) := by
  unfold mapById
  rw [lookupProp_foldl_mapSet]
  cases xs.reverse.find? (fun x => decide (propString x "id" = k)) <;> rfl

theorem mapGet_mapById (xs : List Value) (k : String) :
    mapGet (mapById xs) k
      = match xs.reverse.find? (fun x => decide (propString x "id" = k)) with
        | some x => x
        | none => .undefined := by
  unfold mapGet
  rw [lookupProp_mapById]
  all_goals (cases xs.reverse.find? (fun x => decide (propString x "id" = k)) <;> rfl)

/-- A value of the map is an element of the list, with the id it is stored under. -/
theorem mapGet_mem (xs : List Value) (k : String) :
    mapGet (mapById xs) k = .undefined ∨
      (mapGet (mapById xs) k ∈ xs ∧ propString (mapGet (mapById xs) k) "id" = k) := by
  rw [mapGet_mapById]
  cases hf : xs.reverse.find? (fun x => decide (propString x "id" = k)) with
  | none => exact Or.inl rfl
  | some x =>
    right
    have h1 := List.find?_some hf
    have h2 := List.mem_of_find?_eq_some hf
    exact ⟨List.mem_reverse.1 h2, by simpa using h1⟩

theorem mapGet_of_not_mem (xs : List Value) (k : String)
    (h : ∀ x ∈ xs, propString x "id" ≠ k) : mapGet (mapById xs) k = .undefined := by
  rw [mapGet_mapById]
  cases hf : xs.reverse.find? (fun x => decide (propString x "id" = k)) with
  | none => rfl
  | some x =>
    have h1 := List.find?_some hf
    have h2 := List.mem_of_find?_eq_some hf
    exact absurd (by simpa using h1) (h x (List.mem_reverse.1 h2))

theorem mapGet_of_mem (xs : List Value) (hnd : (xs.map (fun n => propString n "id")).Nodup)
    (x : Value) (hx : x ∈ xs) : mapGet (mapById xs) (propString x "id") = x := by
  rw [mapGet_mapById]
  cases hf : xs.reverse.find? (fun y => decide (propString y "id" = propString x "id")) with
  | none =>
    have := List.find?_eq_none.1 hf x (List.mem_reverse.2 hx)
    simp at this
  | some y =>
    have h1 : propString y "id" = propString x "id" := by simpa using List.find?_some hf
    have h2 : y ∈ xs := List.mem_reverse.1 (List.mem_of_find?_eq_some hf)
    exact List.inj_on_of_nodup_map hnd h2 hx h1

theorem keys_mapById (xs : List Value) :
    (mapById xs).map Prod.fst = setOf (xs.map (fun n => propString n "id")) := by
  unfold mapById setOf
  rw [keys_foldl_mapSet]
  rfl

theorem mem_keys_mapById (xs : List Value) (k : String) :
    k ∈ (mapById xs).map Prod.fst ↔ ∃ x ∈ xs, propString x "id" = k := by
  rw [← hasProp_iff]
  unfold hasProp
  rw [lookupProp_mapById, List.find?_isSome]
  simp

theorem setOf_nodup (ks : List String) : (setOf ks).Nodup := by
  unfold setOf
  have key : ∀ (ks s : List String), s.Nodup → (ks.foldl setAdd s).Nodup := by
    intro ks
    induction ks with
    | nil => exact fun s hs => hs
    | cons k ks ih =>
      intro s hs
      apply ih
      unfold setAdd
      split_ifs with h
      · exact hs
      · exact List.Nodup.append hs (List.nodup_singleton k) (by simpa using h)
  exact key ks [] List.nodup_nil

theorem mem_setOf (ks : List String) (k : String) : k ∈ setOf ks ↔ k ∈ ks := by
  unfold setOf
  have key : ∀ (ks s : List String), k ∈ ks.foldl setAdd s ↔ k ∈ s ∨ k ∈ ks := by
    intro ks
    induction ks with
    | nil => intro s; simp
    | cons x ks ih =>
      intro s
      simp only [List.foldl_cons, ih, mem_setAdd, List.mem_cons]
      constructor
      · rintro ((h | h) | h)
        · exact Or.inl h
        · exact Or.inr (Or.inl h)
        · exact Or.inr (Or.inr h)
      · rintro (h | h | h)
        · exact Or.inl (Or.inl h)
        · exact Or.inl (Or.inr h)
        · exact Or.inr h
  simpa using key ks []

end FlowVersion


namespace FlowVersion

/-! ## The ops of `diff` on two graphs -/

theorem selector_injective {kind a b : String} (h : kind ++ ":" ++ a = kind ++ ":" ++ b) :
    a = b := by
  have h1 := congrArg String.data h
  simp only [String.data_append] at h1
  exact String.ext (List.append_cancel_left h1)

theorem node_selector_ne_edge (a b : String) : "node" ++ ":" ++ a ≠ "edge" ++ ":" ++ b := by
  intro h
  have h1 := congrArg String.data h
  simp only [String.data_append] at h1
  cases h1

theorem diffAtoms_cons (K A R U : String) (fm tm : List (String × Value)) (id : String)
    (ids : List String) :
    diffAtoms K A R U fm tm (id :: ids)
      = diffAtoms K A R U fm tm [id] ++ diffAtoms K A R U fm tm ids := by
  simp only [diffAtoms]
  split_ifs <;> rfl

/-- The op of one id. -/
theorem diffAtoms_single (K A R U : String) (fm tm : List (String × Value)) (id : String) :
    (truthy (mapGet fm id) = false → truthy (mapGet tm id) = true →
      diffAtoms K A R U fm tm [id] = [⟨A, K ++ ":" ++ id, none, some (mapGet tm id)⟩]) ∧
    (truthy (mapGet fm id) = true → truthy (mapGet tm id) = false →
      diffAtoms K A R U fm tm [id] = [⟨R, K ++ ":" ++ id, some (mapGet fm id), none⟩]) ∧
    (truthy (mapGet fm id) = true → truthy (mapGet tm id) = true →
      jsonStringify (mapGet fm id) ≠ jsonStringify (mapGet tm id) →
      diffAtoms K A R U fm tm [id]
        = [⟨U, K ++ ":" ++ id, some (mapGet fm id), some (mapGet tm id)⟩]) ∧
    (truthy (mapGet fm id) = true → truthy (mapGet tm id) = true →
      jsonStringify (mapGet fm id) = jsonStringify (mapGet tm id) →
      diffAtoms K A R U fm tm [id] = []) ∧
    (truthy (mapGet fm id) = false → truthy (mapGet tm id) = false →
      diffAtoms K A R U fm tm [id] = []) := by
  refine ⟨?_, ?_, ?_, ?_, ?_⟩
  · intro h1 h2; simp [diffAtoms, h1, h2]
  · intro h1 h2; simp [diffAtoms, h1, h2]
  · intro h1 h2 h3; simp [diffAtoms, h1, h2, h3]
  · intro h1 h2 h3; simp [diffAtoms, h1, h2, h3]
  · intro h1 h2; simp [diffAtoms, h1, h2]

/-- What an op of the loop holds. -/
theorem diffAtoms_single_op (K A R U : String) (fm tm : List (String × Value)) (id : String) :
    ∀ o ∈ diffAtoms K A R U fm tm [id], o.atom = K ++ ":" ++ id ∧
      (o.op = A ∨ o.op = R ∨ o.op = U) ∧
      (∀ v, o.before = some v → v = mapGet fm id ∧ truthy v = true) ∧
      (∀ v, o.after = some v → v = mapGet tm id ∧ truthy v = true) := by
  intro o ho
  obtain ⟨h1, h2, h3, h4, h5⟩ := diffAtoms_single K A R U fm tm id
  cases ha : truthy (mapGet fm id) <;> cases hb : truthy (mapGet tm id)
  · rw [h5 ha hb] at ho; cases ho
  · rw [h1 ha hb, List.mem_singleton] at ho
    subst ho
    refine ⟨rfl, Or.inl rfl, fun v hv => (by cases hv), fun v hv => ?_⟩
    cases hv
    exact ⟨rfl, hb⟩
  · rw [h2 ha hb, List.mem_singleton] at ho
    subst ho
    refine ⟨rfl, Or.inr (Or.inl rfl), fun v hv => ?_, fun v hv => (by cases hv)⟩
    cases hv
    exact ⟨rfl, ha⟩
  · by_cases hj : jsonStringify (mapGet fm id) = jsonStringify (mapGet tm id)
    · rw [h4 ha hb hj] at ho; cases ho
    · rw [h3 ha hb hj, List.mem_singleton] at ho
      subst ho
      refine ⟨rfl, Or.inr (Or.inr rfl), fun v hv => ?_, fun v hv => ?_⟩
      · cases hv; exact ⟨rfl, ha⟩
      · cases hv; exact ⟨rfl, hb⟩

theorem diffAtoms_op (K A R U : String) (fm tm : List (String × Value)) (ids : List String) :
    ∀ o ∈ diffAtoms K A R U fm tm ids, ∃ id ∈ ids, o.atom = K ++ ":" ++ id ∧
      (o.op = A ∨ o.op = R ∨ o.op = U) ∧
      (∀ v, o.before = some v → v = mapGet fm id ∧ truthy v = true) ∧
      (∀ v, o.after = some v → v = mapGet tm id ∧ truthy v = true) := by
  induction ids with
  | nil => intro o ho; cases ho
  | cons id ids ih =>
    intro o ho
    rw [diffAtoms_cons, List.mem_append] at ho
    rcases ho with ho | ho
    · exact ⟨id, List.mem_cons_self _ _, diffAtoms_single_op K A R U fm tm id o ho⟩
    · obtain ⟨id', hid', h⟩ := ih o ho
      exact ⟨id', List.mem_cons_of_mem _ hid', h⟩

theorem diffAtoms_filter (K A R U : String) (fm tm : List (String × Value)) (ids : List String)
    (hnd : ids.Nodup) (id0 : String) :
    (diffAtoms K A R U fm tm ids).filter (fun o => o.atom == K ++ ":" ++ id0)
      = if id0 ∈ ids then diffAtoms K A R U fm tm [id0] else [] := by
  induction ids with
  | nil => rfl
  | cons id ids ih =>
    rw [List.nodup_cons] at hnd
    rw [diffAtoms_cons, List.filter_append, ih hnd.2]
    by_cases h : id = id0
    · subst h
      rw [if_neg hnd.1, if_pos (List.mem_cons_self _ _), List.append_nil]
      apply List.filter_eq_self.2
      intro o ho
      rw [(diffAtoms_single_op K A R U fm tm id o ho).1]
      simp
    · have hno : (diffAtoms K A R U fm tm [id]).filter (fun o => o.atom == K ++ ":" ++ id0) = [] := by
        apply List.filter_eq_nil_iff.2
        intro o ho
        rw [(diffAtoms_single_op K A R U fm tm id o ho).1]
        simp only [beq_iff_eq]
        exact fun e => h (selector_injective e)
      rw [hno, List.nil_append]
      have hiff : id0 ∈ id :: ids ↔ id0 ∈ ids := by
        simp only [List.mem_cons]
        constructor
        · rintro (e | e)
          · exact absurd e.symm h
          · exact e
        · exact Or.inr
      by_cases hm : id0 ∈ ids
      · rw [if_pos hm, if_pos (hiff.2 hm)]
      · rw [if_neg hm, if_neg (fun e => hm (hiff.1 e))]

theorem diffAtoms_filter_other (K A R U : String) (fm tm : List (String × Value))
    (ids : List String) (sel : String) (h : ∀ id, K ++ ":" ++ id ≠ sel) :
    (diffAtoms K A R U fm tm ids).filter (fun o => o.atom == sel) = [] := by
  apply List.filter_eq_nil_iff.2
  intro o ho
  obtain ⟨id, _, hat, _⟩ := diffAtoms_op K A R U fm tm ids o ho
  rw [hat]
  simp only [beq_iff_eq]
  exact h id

theorem diffIds_nodup (a b : List (String × Value)) : (diffIds a b).Nodup :=
  (sortStrings_perm _).nodup_iff.2 (setOf_nodup _)

theorem mem_diffIds (a b : List (String × Value)) (k : String) :
    k ∈ diffIds a b ↔ k ∈ a.map Prod.fst ∨ k ∈ b.map Prod.fst := by
  unfold diffIds
  rw [mem_sortStrings, mem_setOf, List.mem_append]

theorem propIs_opRecord_atom (o : DiffOp) (sel : String) :
    propIs (opRecord o) "atom" sel = (o.atom == sel) := by
  obtain ⟨op, atom, before, after⟩ := o
  cases before <;> cases after <;> rfl

theorem opsAt_map_opRecord (sel : String) (l : List DiffOp) :
    opsAt sel (l.map opRecord) = (l.filter (fun o => o.atom == sel)).map opRecord := by
  unfold opsAt
  rw [List.filter_map]
  congr 1
  apply List.filter_congr
  intro o _
  exact propIs_opRecord_atom o sel

theorem filter_sortWith {α : Type} (cmp : α → α → Int) (p : α → Bool) (l : List α)
    (h : (l.filter p).length ≤ 1) : (sortWith cmp l).filter p = l.filter p := by
  have hp : ((sortWith cmp l).filter p).Perm (l.filter p) := (sortWith_perm cmp l).filter p
  cases hl : l.filter p with
  | nil =>
    rw [hl] at hp
    exact List.perm_nil.1 hp
  | cons x xs =>
    cases xs with
    | nil =>
      rw [hl] at hp
      exact List.perm_singleton.1 hp
    | cons y ys =>
      rw [hl] at h
      simp at h

theorem diffAtoms_single_length (K A R U : String) (fm tm : List (String × Value)) (id : String) :
    (diffAtoms K A R U fm tm [id]).length ≤ 1 := by
  obtain ⟨h1, h2, h3, h4, h5⟩ := diffAtoms_single K A R U fm tm id
  cases ha : truthy (mapGet fm id) <;> cases hb : truthy (mapGet tm id)
  · rw [h5 ha hb]; simp
  · rw [h1 ha hb]; simp
  · rw [h2 ha hb]; simp
  · by_cases hj : jsonStringify (mapGet fm id) = jsonStringify (mapGet tm id)
    · rw [h4 ha hb hj]; simp
    · rw [h3 ha hb hj]; simp

/-- The ops of the sorted list at the selector of a node. -/
theorem graphOps_node (f t : Value) (cmp : DiffOp → DiffOp → Int) (id0 : String) :
    opsAt ("node" ++ ":" ++ id0) ((sortWith cmp (graphOps f t)).map opRecord)
      = (if id0 ∈ diffIds (mapById (propItems f "nodes")) (mapById (propItems t "nodes")) then
          diffAtoms "node" "add_node" "remove_node" "update_node"
            (mapById (propItems f "nodes")) (mapById (propItems t "nodes")) [id0]
        else []).map opRecord := by
  have hfil : (graphOps f t).filter (fun o => o.atom == "node" ++ ":" ++ id0)
      = if id0 ∈ diffIds (mapById (propItems f "nodes")) (mapById (propItems t "nodes")) then
          diffAtoms "node" "add_node" "remove_node" "update_node"
            (mapById (propItems f "nodes")) (mapById (propItems t "nodes")) [id0]
        else [] := by
    unfold graphOps
    simp only [List.filter_append]
    rw [diffAtoms_filter _ _ _ _ _ _ _ (diffIds_nodup _ _),
      diffAtoms_filter_other "edge" _ _ _ _ _ _ _
        (fun id e => node_selector_ne_edge id0 id e.symm), List.append_nil]
  rw [opsAt_map_opRecord, filter_sortWith, hfil]
  rw [hfil]
  split_ifs
  · exact diffAtoms_single_length _ _ _ _ _ _ _
  · simp

/-- The ops of the sorted list at the selector of an edge. -/
theorem graphOps_edge (f t : Value) (cmp : DiffOp → DiffOp → Int) (id0 : String) :
    opsAt ("edge" ++ ":" ++ id0) ((sortWith cmp (graphOps f t)).map opRecord)
      = (if id0 ∈ diffIds (mapById (propItems f "edges")) (mapById (propItems t "edges")) then
          diffAtoms "edge" "add_edge" "remove_edge" "update_edge"
            (mapById (propItems f "edges")) (mapById (propItems t "edges")) [id0]
        else []).map opRecord := by
  have hfil : (graphOps f t).filter (fun o => o.atom == "edge" ++ ":" ++ id0)
      = if id0 ∈ diffIds (mapById (propItems f "edges")) (mapById (propItems t "edges")) then
          diffAtoms "edge" "add_edge" "remove_edge" "update_edge"
            (mapById (propItems f "edges")) (mapById (propItems t "edges")) [id0]
        else [] := by
    unfold graphOps
    simp only [List.filter_append]
    rw [diffAtoms_filter _ _ _ _ _ _ _ (diffIds_nodup _ _),
      diffAtoms_filter_other "node" _ _ _ _ _ _ _
        (fun id e => node_selector_ne_edge id id0 e), List.nil_append]
  rw [opsAt_map_opRecord, filter_sortWith, hfil]
  rw [hfil]
  split_ifs
  · exact diffAtoms_single_length _ _ _ _ _ _ _
  · simp

/-! ### `diff` on two graphs -/

theorem truthy_of_plain {m : Value} (h : isPlainObject m = true) : truthy m = true := by
  cases m <;> first | rfl | cases h

theorem not_undefined_of_truthy {m : Value} (h : truthy m = true) : m ≠ .undefined := by
  intro e
  subst e
  cases h

theorem nodes_of_out {g : Value} (h : GraphOut g) : ∀ n ∈ propItems g "nodes", NodeOut n := by
  obtain ⟨_, _, _, ⟨ns, hn, hns⟩, _⟩ := h
  rw [propItems_of_getProp hn]
  exact hns

theorem edges_of_out {g : Value} (h : GraphOut g) : ∀ e ∈ propItems g "edges", EdgeOut e := by
  obtain ⟨_, _, _, _, ⟨es, he, hes⟩, _⟩ := h
  rw [propItems_of_getProp he]
  exact hes

theorem canonical_mapGet (xs : List Value) (hc : ∀ x ∈ xs, Canonical x) (k : String)
    (h : truthy (mapGet (mapById xs) k) = true) : Canonical (mapGet (mapById xs) k) := by
  rcases mapGet_mem xs k with hu | ⟨hm, _⟩
  · exact absurd hu (not_undefined_of_truthy h)
  · exact hc _ hm

theorem plain_kind_selector (K id : String) (hK : K = "node" ∨ K = "edge") :
    PlainString (K ++ ":" ++ id) := by
  rcases hK with rfl | rfl
  · exact plain_node id
  · exact plain_edge id

theorem diffAtoms_good (K A R U : String) (hK : K = "node" ∨ K = "edge") (hA : PlainString A)
    (hR : PlainString R) (hU : PlainString U) (xs ys : List Value)
    (hx : ∀ x ∈ xs, Canonical x) (hy : ∀ y ∈ ys, Canonical y) (ids : List String) :
    ∀ o ∈ diffAtoms K A R U (mapById xs) (mapById ys) ids,
      PlainString o.op ∧ PlainString o.atom ∧
      (∀ v, o.before = some v → Canonical v) ∧ (∀ v, o.after = some v → Canonical v) := by
  intro o ho
  obtain ⟨id, _, hat, hop, hb, ha⟩ := diffAtoms_op K A R U _ _ ids o ho
  refine ⟨?_, ?_, ?_, ?_⟩
  · rcases hop with h | h | h <;> rw [h] <;> assumption
  · rw [hat]
    exact plain_kind_selector K id hK
  · intro v hv
    obtain ⟨h1, h2⟩ := hb v hv
    subst h1
    exact canonical_mapGet xs hx id h2
  · intro v hv
    obtain ⟨h1, h2⟩ := ha v hv
    subst h1
    exact canonical_mapGet ys hy id h2

theorem plain_literal_ops : PlainString "add_node" ∧ PlainString "remove_node" ∧
    PlainString "update_node" ∧ PlainString "add_edge" ∧ PlainString "remove_edge" ∧
    PlainString "update_edge" := by
  unfold PlainString
  exact ⟨rfl, rfl, rfl, rfl, rfl, rfl⟩

theorem graphOps_good {f t : Value} (hf : GraphOut f) (ht : GraphOut t) :
    ∀ o ∈ graphOps f t, PlainString o.op ∧ PlainString o.atom ∧
      (∀ v, o.before = some v → Canonical v) ∧ (∀ v, o.after = some v → Canonical v) := by
  obtain ⟨p1, p2, p3, p4, p5, p6⟩ := plain_literal_ops
  intro o ho
  unfold graphOps at ho
  simp only [List.mem_append] at ho
  rcases ho with ho | ho
  · exact diffAtoms_good "node" _ _ _ (Or.inl rfl) p1 p2 p3 _ _
      (fun x hx => (nodes_of_out hf x hx).2.1) (fun y hy => (nodes_of_out ht y hy).2.1) _ o ho
  · exact diffAtoms_good "edge" _ _ _ (Or.inr rfl) p4 p5 p6 _ _
      (fun x hx => (edges_of_out hf x hx).2.1) (fun y hy => (edges_of_out ht y hy).2.1) _ o ho

/-- The result of `diff` on two graphs: the records of the sorted ops. -/
theorem diff_graph (P : Platform) {a b f t : Value} (hf : canonicalizeDomain P a = .ok f)
    (ht : canonicalizeDomain P b = .ok t) (gf : looksLikeGraph f = true)
    (gt : looksLikeGraph t = true) :
    diff P a b = .ok (.arr ((sortWith (compareOps P) (graphOps f t)).map opRecord)) := by
  have of := graphOut_of_canonicalizeDomain P hf gf
  have ot := graphOut_of_canonicalizeDomain P ht gt
  simp only [diff, hf, ht, gf, gt, Bool.not_true, Bool.or_self, Bool.false_eq_true, if_false]
  apply canonicalize_ops
  intro o ho
  rw [mem_sortWith] at ho
  exact graphOps_good of ot o ho

/-- The ops at the atoms of one kind, from the ops at each selector. -/
theorem diffOpsFor_of (K A R U : String) (hA : A = "add_" ++ K) (hR : R = "remove_" ++ K)
    (hU : U = "update_" ++ K) (xs ys : List Value)
    (hx : (xs.map (fun n => propString n "id")).Nodup)
    (hy : (ys.map (fun n => propString n "id")).Nodup)
    (tx : ∀ x ∈ xs, truthy x = true ∧ Canonical x)
    (ty : ∀ y ∈ ys, truthy y = true ∧ Canonical y) (ops : List Value)
    (hops : ∀ id0, opsAt (K ++ ":" ++ id0) ops
      = (if id0 ∈ diffIds (mapById xs) (mapById ys) then
          diffAtoms K A R U (mapById xs) (mapById ys) [id0] else []).map opRecord) :
    DiffOpsFor K xs ys ops := by
  intro id
  obtain ⟨h1, h2, h3, h4, _⟩ := diffAtoms_single K A R U (mapById xs) (mapById ys) id
  have hmemx : ∀ x ∈ xs, propString x "id" = id → id ∈ diffIds (mapById xs) (mapById ys) :=
    fun x hx' he => (mem_diffIds _ _ _).2 (Or.inl ((mem_keys_mapById xs id).2 ⟨x, hx', he⟩))
  have hmemy : ∀ y ∈ ys, propString y "id" = id → id ∈ diffIds (mapById xs) (mapById ys) :=
    fun y hy' he => (mem_diffIds _ _ _).2 (Or.inr ((mem_keys_mapById ys id).2 ⟨y, hy', he⟩))
  have hgx : ∀ x ∈ xs, propString x "id" = id → mapGet (mapById xs) id = x :=
    fun x hx' he => by rw [← he]; exact mapGet_of_mem xs hx x hx'
  have hgy : ∀ y ∈ ys, propString y "id" = id → mapGet (mapById ys) id = y :=
    fun y hy' he => by rw [← he]; exact mapGet_of_mem ys hy y hy'
  refine ⟨?_, ?_, ?_⟩
  · intro y hy' he hno
    have ha : mapGet (mapById xs) id = .undefined := mapGet_of_not_mem xs id hno
    have hb := hgy y hy' he
    rw [hops, if_pos (hmemy y hy' he), h1 (by rw [ha]; rfl) (by rw [hb]; exact (ty y hy').1), hb,
      hA]
    rfl
  · intro x hx' he hno
    have hb : mapGet (mapById ys) id = .undefined := mapGet_of_not_mem ys id hno
    have ha := hgx x hx' he
    rw [hops, if_pos (hmemx x hx' he), h2 (by rw [ha]; exact (tx x hx').1) (by rw [hb]; rfl), ha,
      hR]
    rfl
  · intro x hx' y hy' hex hey
    have ha := hgx x hx' hex
    have hb := hgy y hy' hey
    have hiff := jsonStringify_eq_iff_serialize (tx x hx').2 (ty y hy').2
    constructor
    · intro hne
      rw [hops, if_pos (hmemx x hx' hex),
        h3 (by rw [ha]; exact (tx x hx').1) (by rw [hb]; exact (ty y hy').1)
          (by rw [ha, hb]; exact fun e => hne (hiff.1 e)), ha, hb, hU]
      rfl
    · intro heq
      rw [hops, if_pos (hmemx x hx' hex),
        h4 (by rw [ha]; exact (tx x hx').1) (by rw [hb]; exact (ty y hy').1)
          (by rw [ha, hb]; exact hiff.2 heq)]
      rfl

end FlowVersion


namespace FlowVersion

/-! ## `diff` on graphs (C23, C24, C39) -/

/-- C23: for graph-shaped normalized inputs `f` and `t`, each with distinct node ids and
distinct edge ids, `diff` returns a list `ops` that holds, at the selector `node:<id>`, exactly
the op `add_node` with the node of `t` as `after` when the id is only in `t`, exactly the op
`remove_node` with the node of `f` as `before` when it is only in `f`, exactly the op
`update_node` with both nodes when the id is in both and the canonical bytes of the two nodes
differ, and no op when they are the same; and likewise for edges, with `add_edge`,
`remove_edge`, `update_edge` and the selector `edge:<id>` (`DiffOpsFor`). -/
theorem diff_ops_per_id (P : Platform) (a b f t : Value)
    (hf : canonicalizeDomain P a = .ok f) (ht : canonicalizeDomain P b = .ok t)
    (gf : looksLikeGraph f = true) (gt : looksLikeGraph t = true)
    (dfn : ((propItems f "nodes").map (fun n => propString n "id")).Nodup)
    (dtn : ((propItems t "nodes").map (fun n => propString n "id")).Nodup)
    (dfe : ((propItems f "edges").map (fun n => propString n "id")).Nodup)
    (dte : ((propItems t "edges").map (fun n => propString n "id")).Nodup) :
    ∃ ops, diff P a b = .ok (.arr ops) ∧
      DiffOpsFor "node" (propItems f "nodes") (propItems t "nodes") ops ∧
      DiffOpsFor "edge" (propItems f "edges") (propItems t "edges") ops := by
  have of := graphOut_of_canonicalizeDomain P hf gf
  have ot := graphOut_of_canonicalizeDomain P ht gt
  refine ⟨_, diff_graph P hf ht gf gt, ?_, ?_⟩
  · exact diffOpsFor_of "node" "add_node" "remove_node" "update_node" rfl rfl rfl _ _ dfn dtn
      (fun x hx => ⟨truthy_of_plain (nodes_of_out of x hx).1, (nodes_of_out of x hx).2.1⟩)
      (fun y hy => ⟨truthy_of_plain (nodes_of_out ot y hy).1, (nodes_of_out ot y hy).2.1⟩) _
      (graphOps_node f t _)
  · exact diffOpsFor_of "edge" "add_edge" "remove_edge" "update_edge" rfl rfl rfl _ _ dfe dte
      (fun x hx => ⟨truthy_of_plain (edges_of_out of x hx).1, (edges_of_out of x hx).2.1⟩)
      (fun y hy => ⟨truthy_of_plain (edges_of_out ot y hy).1, (edges_of_out ot y hy).2.1⟩) _
      (graphOps_edge f t _)

/-- C23 at the graphs with the nodes `A`, `B` and `B`, `C`: node `A` is removed, node `C` is
added, and there is no op for node `B`. -/
theorem diff_ops_per_id_witness :
    diff samplePlatform (rawNodes ["A", "B"]) (rawNodes ["B", "C"])
      = .ok (.arr [
          .obj [("atom", .str "node:A"),
            ("before", .obj [("config", .obj []), ("id", .str "A"), ("type", .str "task")]),
            ("op", .str "remove_node")],
          .obj [("after", .obj [("config", .obj []), ("id", .str "C"), ("type", .str "task")]),
            ("atom", .str "node:C"), ("op", .str "add_node")]]) ∧
    ∃ ops, diff samplePlatform (rawNodes ["A", "B"]) (rawNodes ["B", "C"]) = .ok (.arr ops) ∧
      DiffOpsFor "node" (propItems (nodesOnly ["A", "B"]) "nodes")
        (propItems (nodesOnly ["B", "C"]) "nodes") ops :=
  ⟨rfl, (diff_ops_per_id samplePlatform (rawNodes ["A", "B"]) (rawNodes ["B", "C"])
    (nodesOnly ["A", "B"]) (nodesOnly ["B", "C"]) rfl rfl rfl rfl (by decide) (by decide)
    (by decide) (by decide)).imp (fun _ h => ⟨h.1, h.2.1⟩)⟩

/-! ### The order of the ops (C24) and the order of atoms that collate equal (C39) -/

theorem sortWith_keep {α : Type} (cmp : α → α → Int) (a b : α) (h : cmp a b ≤ 0) :
    sortWith cmp [a, b] = [a, b] := by
  simp [sortWith, List.insertionSort, List.orderedInsert, h]

theorem sortWith_flip {α : Type} (cmp : α → α → Int) (a b : α) (h : 0 < cmp a b) :
    sortWith cmp [a, b] = [b, a] := by
  have h1 : ¬ cmp a b ≤ 0 := by omega
  simp [sortWith, List.insertionSort, List.orderedInsert, h1]

theorem canonicalizeDomain_rawNodes (P : Platform) (x y : String) :
    canonicalizeDomain P (rawNodes [x, y]) = normalizeGraph P (rawNodes [x, y]) := rfl

/-- The normal form of a graph of two nodes given by ids that the canonicalizer keeps. -/
theorem canonicalizeDomain_two_nodes (P : Platform) (x y : String) (c d : Value)
    (hx : normalizeNode (.obj [("id", .str x)])
      = .ok (.obj [("config", .obj []), ("id", .str x), ("type", .str "task")]))
    (hy : normalizeNode (.obj [("id", .str y)])
      = .ok (.obj [("config", .obj []), ("id", .str y), ("type", .str "task")]))
    (hs : sortWith (compareById P)
      [.obj [("config", .obj []), ("id", .str x), ("type", .str "task")],
        .obj [("config", .obj []), ("id", .str y), ("type", .str "task")]] = [c, d]) :
    canonicalizeDomain P (rawNodes [x, y]) = canonicalize (.obj [("edges", .arr []),
      ("kind", .str "workflow_graph@1"), ("meta", .undefined), ("name", .undefined),
      ("nodes", .arr [c, d])]) := by
  have hn : mapM' normalizeNode (propItems (rawNodes [x, y]) "nodes")
      = .ok [.obj [("config", .obj []), ("id", .str x), ("type", .str "task")],
        .obj [("config", .obj []), ("id", .str y), ("type", .str "task")]] := by
    have : propItems (rawNodes [x, y]) "nodes" = [.obj [("id", .str x)], .obj [("id", .str y)]] :=
      rfl
    rw [this]
    simp only [mapM', hx, hy]
  rw [canonicalizeDomain_rawNodes, normalizeGraph_of_atoms P hn rfl, hs]
  rfl

/-- C24 (evaluation). On a platform whose `localeCompare` puts `node:a` before `node:B`
(`"node:B".localeCompare("node:a")` is positive, as with the collation of the engine), the
diff of the empty graph and the graph with the nodes `B`, `a` lists the op at `node:a` before
the op at `node:B`, although `node:B` is below `node:a` in the order of strings (`B` is the
code unit 66, `a` is 97). -/
theorem diff_locale_order (P : Platform) (h : 0 < P.localeCompare "node:B" "node:a") :
    diff P emptyGraph (rawNodes ["B", "a"])
      = .ok (.arr [
          .obj [("after", .obj [("config", .obj []), ("id", .str "a"), ("type", .str "task")]),
            ("atom", .str "node:a"), ("op", .str "add_node")],
          .obj [("after", .obj [("config", .obj []), ("id", .str "B"), ("type", .str "task")]),
            ("atom", .str "node:B"), ("op", .str "add_node")]]) ∧
    strLt "node:B" "node:a" = true := by
  refine ⟨?_, by decide⟩
  have hops : ∀ t, t = nodesOnly ["B", "a"] ∨ t = nodesOnly ["a", "B"] →
      (sortWith (compareOps P) (graphOps (edgesOnly []) t)).map opRecord
        = [.obj [("after", .obj [("config", .obj []), ("id", .str "a"), ("type", .str "task")]),
            ("atom", .str "node:a"), ("op", .str "add_node")],
          .obj [("after", .obj [("config", .obj []), ("id", .str "B"), ("type", .str "task")]),
            ("atom", .str "node:B"), ("op", .str "add_node")]] := by
    intro t ht
    have hg : graphOps (edgesOnly []) t
        = [⟨"add_node", "node:B", none,
            some (.obj [("config", .obj []), ("id", .str "B"), ("type", .str "task")])⟩,
          ⟨"add_node", "node:a", none,
            some (.obj [("config", .obj []), ("id", .str "a"), ("type", .str "task")])⟩] := by
      rcases ht with rfl | rfl <;> rfl
    rw [hg, sortWith_flip (compareOps P) _ _ (by simpa [compareOps] using h)]
    rfl
  have hcases : canonicalizeDomain P (rawNodes ["B", "a"]) = .ok (nodesOnly ["B", "a"]) ∨
      canonicalizeDomain P (rawNodes ["B", "a"]) = .ok (nodesOnly ["a", "B"]) := by
    rcases sortWith_pair (compareById P)
      (.obj [("config", .obj []), ("id", .str "B"), ("type", .str "task")])
      (.obj [("config", .obj []), ("id", .str "a"), ("type", .str "task")]) with hs | hs
    · left
      rw [canonicalizeDomain_two_nodes P "B" "a" _ _ rfl rfl hs]
      rfl
    · right
      rw [canonicalizeDomain_two_nodes P "B" "a" _ _ rfl rfl hs]
      rfl
  rcases hcases with ht | ht
  · rw [diff_graph P (canonicalizeDomain_empty P) ht rfl rfl, hops _ (Or.inl rfl)]
  · rw [diff_graph P (canonicalizeDomain_empty P) ht rfl rfl, hops _ (Or.inr rfl)]

/-- C24 (evaluation) on the platform that collates letters without regard to case first. -/
theorem diff_locale_order_witness :
    0 < collatingPlatform.localeCompare "node:B" "node:a" ∧
    strLt "node:B" "node:a" = true ∧
    ∃ ops, diff collatingPlatform emptyGraph (rawNodes ["B", "a"]) = .ok (.arr ops) ∧
      ops.map (fun o => propString o "atom") = ["node:a", "node:B"] :=
  ⟨by decide, by decide, _, (diff_locale_order collatingPlatform (by decide)).1, rfl⟩

theorem diffAtoms_same (K A R U : String) (m : List (String × Value)) (ids : List String) :
    diffAtoms K A R U m m ids = [] := by
  induction ids with
  | nil => rfl
  | cons id ids ih =>
    rw [diffAtoms_cons, ih, List.append_nil]
    obtain ⟨_, _, _, h4, h5⟩ := diffAtoms_single K A R U m m id
    cases ha : truthy (mapGet m id)
    · exact h5 ha ha
    · exact h4 ha ha rfl

/-- The `diff` of two graphs with the same normalized nodes and edges is empty. -/
theorem diff_same_atoms (P : Platform) {a b f t : Value} (hf : canonicalizeDomain P a = .ok f)
    (ht : canonicalizeDomain P b = .ok t) (gf : looksLikeGraph f = true)
    (gt : looksLikeGraph t = true) (hn : propItems f "nodes" = propItems t "nodes")
    (he : propItems f "edges" = propItems t "edges") : diff P a b = .ok (.arr []) := by
  rw [diff_graph P hf ht gf gt]
  have : graphOps f t = [] := by
    unfold graphOps
    simp only [hn, he, diffAtoms_same, List.append_nil]
  rw [this]
  rfl

/-- C39 (evaluation). Two graphs with the same normalized nodes and edges have an empty diff,
whatever their names and meta are.  But on a platform whose `localeCompare` takes the two
spellings of the letter e with an acute accent (U+00E9, and `e` followed by U+0301) as equal, as the collation of the engine does,
the graphs that list two nodes with these ids in the two orders keep the order of their input
when normalized: the ids are distinct, the diff is empty, and the normalized node lists
differ. -/
theorem diff_empty_with_tie (P : Platform) (h1 : P.localeCompare "\u00e9" "e\u0301" ≤ 0)
    (h2 : P.localeCompare "e\u0301" "\u00e9" ≤ 0) :
    (∀ a b f t, canonicalizeDomain P a = .ok f → canonicalizeDomain P b = .ok t →
      looksLikeGraph f = true → looksLikeGraph t = true →
      propItems f "nodes" = propItems t "nodes" → propItems f "edges" = propItems t "edges" →
      diff P a b = .ok (.arr [])) ∧
    canonicalizeDomain P (rawNodes ["\u00e9", "e\u0301"]) = .ok (nodesOnly ["\u00e9", "e\u0301"]) ∧
    canonicalizeDomain P (rawNodes ["e\u0301", "\u00e9"]) = .ok (nodesOnly ["e\u0301", "\u00e9"]) ∧
    diff P (rawNodes ["\u00e9", "e\u0301"]) (rawNodes ["e\u0301", "\u00e9"]) = .ok (.arr []) ∧
    ("\u00e9" : String) ≠ "e\u0301" ∧
    propItems (nodesOnly ["\u00e9", "e\u0301"]) "nodes"
      ≠ propItems (nodesOnly ["e\u0301", "\u00e9"]) "nodes" := by
  have hf : canonicalizeDomain P (rawNodes ["\u00e9", "e\u0301"])
      = .ok (nodesOnly ["\u00e9", "e\u0301"]) := by
    rw [canonicalizeDomain_two_nodes P "\u00e9" "e\u0301" _ _ rfl rfl
      (sortWith_keep (compareById P) _ _ h1)]
    rfl
  have ht : canonicalizeDomain P (rawNodes ["e\u0301", "\u00e9"])
      = .ok (nodesOnly ["e\u0301", "\u00e9"]) := by
    rw [canonicalizeDomain_two_nodes P "e\u0301" "\u00e9" _ _ rfl rfl
      (sortWith_keep (compareById P) _ _ h2)]
    rfl
  refine ⟨fun a b f t hf' ht' gf gt hn he => diff_same_atoms P hf' ht' gf gt hn he, hf, ht, ?_,
    by decide, ?_⟩
  · rw [diff_graph P hf ht rfl rfl]
    rfl
  · intro h
    have h3 : (propItems (nodesOnly ["\u00e9", "e\u0301"]) "nodes").map (fun n => propString n "id")
        = (propItems (nodesOnly ["e\u0301", "\u00e9"]) "nodes").map (fun n => propString n "id") := by
      rw [h]
    revert h3
    decide

/-- C39 (evaluation) on the platform that compares strings up to the spelling of U+00E9. -/
theorem diff_empty_with_tie_witness :
    equivalencePlatform.localeCompare "\u00e9" "e\u0301" = 0 ∧
    equivalencePlatform.localeCompare "e\u0301" "\u00e9" = 0 ∧
    diff equivalencePlatform (rawNodes ["\u00e9", "e\u0301"]) (rawNodes ["e\u0301", "\u00e9"])
      = .ok (.arr []) ∧
    propItems (nodesOnly ["\u00e9", "e\u0301"]) "nodes"
      ≠ propItems (nodesOnly ["e\u0301", "\u00e9"]) "nodes" :=
  have h := diff_empty_with_tie equivalencePlatform (by decide) (by decide)
  ⟨by decide, by decide, h.2.2.2.1, h.2.2.2.2.2⟩

end FlowVersion


namespace FlowVersion

/-! ## The atoms of the graph merge -/

theorem nullish_of_truthy {x : Value} (y : Value) (h : truthy x = true) : nullish x y = x := by
  cases x <;> first | rfl | cases h

theorem threeWayAtomMerge_none (P : Platform) (b l r : Value) (sel : String)
    (hb : truthy b = false) (hl : truthy l = false) (hr : truthy r = false) :
    threeWayAtomMerge P b l r sel = .ok ⟨.null, .null⟩ := by
  simp [threeWayAtomMerge, hb, hl, hr]

theorem threeWayAtomMerge_left_only (P : Platform) (l : Value) (sel : String)
    (hl : truthy l = true) :
    threeWayAtomMerge P .undefined l .undefined sel = .ok ⟨l, .null⟩ := by
  have tu : truthy .undefined = false := rfl
  simp [threeWayAtomMerge, hl, tu, nullish_of_truthy _ hl]

theorem threeWayAtomMerge_right_only (P : Platform) (r : Value) (sel : String)
    (hr : truthy r = true) :
    threeWayAtomMerge P .undefined .undefined r sel = .ok ⟨r, .null⟩ := by
  have tu : truthy .undefined = false := rfl
  have nu : ∀ y : Value, nullish .undefined y = y := fun _ => rfl
  simp [threeWayAtomMerge, hr, tu, nu, nullish_of_truthy _ hr]

theorem propString_conflictRecord (spec : ConflictSpec) (cid : String) :
    propString (conflictRecord spec cid) "selector" = spec.selector ∧
    propString (conflictRecord spec cid) "type" = spec.type := by
  obtain ⟨ty, sel, sev, reason, allowed, dflt⟩ := spec
  cases dflt <;> exact ⟨rfl, rfl⟩

theorem truthy_conflictRecord (spec : ConflictSpec) (cid : String) :
    truthy (conflictRecord spec cid) = true := rfl

/-- The result of merging an atom, and of merging it with left and right exchanged. -/
theorem threeWayAtomMerge_swap (P : Platform) (b l r : Value) (sel : String)
    (hsel : PlainString sel)
    (hb : b = .undefined ∨ (truthy b = true ∧ Canonical b))
    (hl : l = .undefined ∨ (truthy l = true ∧ Canonical l))
    (hr : r = .undefined ∨ (truthy r = true ∧ Canonical r)) :
    ∃ res res', threeWayAtomMerge P b l r sel = .ok res ∧
      threeWayAtomMerge P b r l sel = .ok res' ∧
      (res.value = .null ∨ res.value = b ∨ res.value = l ∨ res.value = r) ∧
      ((res.conflict = .null ∧ res'.conflict = .null ∧ res.value = res'.value) ∨
        (∃ cid cid', res.conflict = conflictRecord (addAddSpec sel) cid ∧
          res'.conflict = conflictRecord (addAddSpec sel) cid' ∧
          Canonical res.conflict ∧ Canonical res'.conflict) ∨
        (∃ cid cid', res.conflict = conflictRecord (deleteEditSpec sel) cid ∧
          res'.conflict = conflictRecord (editDeleteSpec sel) cid' ∧
          Canonical res.conflict ∧ Canonical res'.conflict ∧ res.value = res'.value) ∨
        (∃ cid cid', res.conflict = conflictRecord (editDeleteSpec sel) cid ∧
          res'.conflict = conflictRecord (deleteEditSpec sel) cid' ∧
          Canonical res.conflict ∧ Canonical res'.conflict ∧ res.value = res'.value) ∨
        (∃ cid cid', res.conflict = conflictRecord (editEditSpec sel) cid ∧
          res'.conflict = conflictRecord (editEditSpec sel) cid' ∧
          Canonical res.conflict ∧ Canonical res'.conflict ∧ res.value = res'.value)) := by
  have tu : truthy .undefined = false := rfl
  rcases hb with rfl | ⟨tb, cb⟩
  · rcases hl with rfl | ⟨tl, cl⟩
    · rcases hr with rfl | ⟨tr, cr⟩
      · exact ⟨_, _, threeWayAtomMerge_none P _ _ _ sel tu tu tu,
          threeWayAtomMerge_none P _ _ _ sel tu tu tu, Or.inl rfl, Or.inl ⟨rfl, rfl, rfl⟩⟩
      · exact ⟨_, _, threeWayAtomMerge_right_only P r sel tr,
          threeWayAtomMerge_left_only P r sel tr, Or.inr (Or.inr (Or.inr rfl)),
          Or.inl ⟨rfl, rfl, rfl⟩⟩
    · rcases hr with rfl | ⟨tr, cr⟩
      · exact ⟨_, _, threeWayAtomMerge_left_only P l sel tl,
          threeWayAtomMerge_right_only P l sel tl, Or.inr (Or.inr (Or.inl rfl)),
          Or.inl ⟨rfl, rfl, rfl⟩⟩
      · by_cases he : jsonStringify l = jsonStringify r
        · have hlr : l = r := jsonStringify_injective cl cr he
          subst hlr
          exact ⟨_, _, threeWayAtomMerge_add_same P _ l l sel tu tl tl rfl,
            threeWayAtomMerge_add_same P _ l l sel tu tl tl rfl, Or.inr (Or.inr (Or.inl rfl)),
            Or.inl ⟨rfl, rfl, rfl⟩⟩
        · obtain ⟨c1, hc1, h1⟩ := threeWayAtomMerge_add_add P .undefined l r sel tu tl tr
            (Or.inl rfl) cl cr hsel he
          obtain ⟨c2, hc2, h2⟩ := threeWayAtomMerge_add_add P .undefined r l sel tu tr tl
            (Or.inl rfl) cr cl hsel (fun e => he e.symm)
          exact ⟨_, _, h1, h2, Or.inr (Or.inr (Or.inl rfl)),
            Or.inr (Or.inl ⟨c1, c2, rfl, rfl, hc1, hc2⟩)⟩
  · obtain ⟨u1, u2, u3, u4, u5, u6⟩ := threeWayAtomMerge_uncontested P b l r sel tb
    obtain ⟨v1, v2, v3, v4, v5, v6⟩ := threeWayAtomMerge_uncontested P b r l sel tb
    rcases hl with rfl | ⟨tl, cl⟩
    · rcases hr with rfl | ⟨tr, cr⟩
      · exact ⟨_, _, u5 tu tu, v5 tu tu, Or.inl rfl, Or.inl ⟨rfl, rfl, rfl⟩⟩
      · by_cases he : jsonStringify r = jsonStringify b
        · exact ⟨_, _, u4 tr he tu, v2 tr he tu, Or.inl rfl, Or.inl ⟨rfl, rfl, rfl⟩⟩
        · obtain ⟨c1, hc1, h1⟩ := threeWayAtomMerge_delete_edit P b .undefined r sel tb tu tr
            cb (Or.inl rfl) cr hsel he
          obtain ⟨c2, hc2, h2⟩ := threeWayAtomMerge_edit_delete P b r .undefined sel tb tr tu
            cb cr (Or.inl rfl) hsel he
          exact ⟨_, _, h1, h2, Or.inr (Or.inl rfl),
            Or.inr (Or.inr (Or.inl ⟨c1, c2, rfl, rfl, hc1, hc2, rfl⟩))⟩
    · rcases hr with rfl | ⟨tr, cr⟩
      · by_cases he : jsonStringify l = jsonStringify b
        · exact ⟨_, _, u2 tl he tu, v4 tl he tu, Or.inl rfl, Or.inl ⟨rfl, rfl, rfl⟩⟩
        · obtain ⟨c1, hc1, h1⟩ := threeWayAtomMerge_edit_delete P b l .undefined sel tb tl tu
            cb cl (Or.inl rfl) hsel he
          obtain ⟨c2, hc2, h2⟩ := threeWayAtomMerge_delete_edit P b .undefined l sel tb tu tl
            cb (Or.inl rfl) cl hsel he
          exact ⟨_, _, h1, h2, Or.inr (Or.inl rfl),
            Or.inr (Or.inr (Or.inr (Or.inl ⟨c1, c2, rfl, rfl, hc1, hc2, rfl⟩)))⟩
      · by_cases hlr : jsonStringify l = jsonStringify r
        · have e : l = r := jsonStringify_injective cl cr hlr
          subst e
          exact ⟨_, _, u6 tl tl rfl, v6 tl tl rfl, Or.inr (Or.inr (Or.inl rfl)),
            Or.inl ⟨rfl, rfl, rfl⟩⟩
        · by_cases hlb : jsonStringify l = jsonStringify b
          · exact ⟨_, _, u1 tl cl hlb tr cr, v3 tl cl hlb tr cr, Or.inr (Or.inr (Or.inr rfl)),
              Or.inl ⟨rfl, rfl, rfl⟩⟩
          · by_cases hrb : jsonStringify r = jsonStringify b
            · exact ⟨_, _, u3 tr cr hrb tl cl, v1 tr cr hrb tl cl, Or.inr (Or.inr (Or.inl rfl)),
                Or.inl ⟨rfl, rfl, rfl⟩⟩
            · obtain ⟨c1, hc1, h1⟩ := threeWayAtomMerge_edit_edit P b l r sel tb tl tr cb cl cr
                hsel hlb hrb hlr
              obtain ⟨c2, hc2, h2⟩ := threeWayAtomMerge_edit_edit P b r l sel tb tr tl cb cr cl
                hsel hrb hlb (fun e => hlr e.symm)
              exact ⟨_, _, h1, h2, Or.inr (Or.inl rfl),
                Or.inr (Or.inr (Or.inr (Or.inr ⟨c1, c2, rfl, rfl, hc1, hc2, rfl⟩)))⟩

theorem mergeAtoms_cons (P : Platform) (K : String) (bm lm rm : List (String × Value))
    (id : String) (ids : List String) (res : AtomMerge) (vs cs : List Value)
    (h1 : threeWayAtomMerge P (mapGet bm id) (mapGet lm id) (mapGet rm id) (K ++ ":" ++ id)
      = .ok res)
    (h2 : mergeAtoms P K bm lm rm ids = .ok (vs, cs)) :
    mergeAtoms P K bm lm rm (id :: ids)
      = .ok ((if truthy res.value then res.value :: vs else vs),
          (if truthy res.conflict then res.conflict :: cs else cs)) := by
  simp only [mergeAtoms, h1, h2]

theorem swapType_literals : swapType "add_add" = "add_add" ∧
    swapType "delete_edit" = "edit_delete" ∧ swapType "edit_delete" = "delete_edit" ∧
    swapType "edit_edit" = "edit_edit" := by decide

theorem conflictsMirror_cons (spec spec' : ConflictSpec) (cid cid' : String)
    (cs cs' : List Value) (h : ConflictsMirror cs cs') (hsel : spec'.selector = spec.selector)
    (hty : spec'.type = swapType spec.type) :
    ConflictsMirror (conflictRecord spec cid :: cs) (conflictRecord spec' cid' :: cs') := by
  unfold ConflictsMirror at h ⊢
  simp only [List.map_cons, h, (propString_conflictRecord spec cid).1,
    (propString_conflictRecord spec cid).2, (propString_conflictRecord spec' cid').1,
    (propString_conflictRecord spec' cid').2, hsel, hty]

/-- The loop over the atoms of one kind, and the same loop with left and right exchanged. -/
theorem mergeAtoms_swap (P : Platform) (K : String) (hK : K = "node" ∨ K = "edge")
    (bm lm rm : List (String × Value))
    (hbm : ∀ id, mapGet bm id = .undefined ∨
      (truthy (mapGet bm id) = true ∧ Canonical (mapGet bm id)))
    (hlm : ∀ id, mapGet lm id = .undefined ∨
      (truthy (mapGet lm id) = true ∧ Canonical (mapGet lm id)))
    (hrm : ∀ id, mapGet rm id = .undefined ∨
      (truthy (mapGet rm id) = true ∧ Canonical (mapGet rm id)))
    (ids : List String) :
    ∃ vs cs vs' cs', mergeAtoms P K bm lm rm ids = .ok (vs, cs) ∧
      mergeAtoms P K bm rm lm ids = .ok (vs', cs') ∧
      (∀ v ∈ vs, truthy v = true ∧
        ∃ id, v = mapGet bm id ∨ v = mapGet lm id ∨ v = mapGet rm id) ∧
      (∀ c ∈ cs, Canonical c ∧ ∃ id spec cid, c = conflictRecord spec cid ∧
        (spec = addAddSpec (K ++ ":" ++ id) ∨ spec = deleteEditSpec (K ++ ":" ++ id) ∨
          spec = editDeleteSpec (K ++ ":" ++ id) ∨ spec = editEditSpec (K ++ ":" ++ id))) ∧
      ConflictsMirror cs cs' ∧
      ((∀ c ∈ cs, propString c "type" ≠ "add_add") → vs = vs') := by
  induction ids with
  | nil =>
    exact ⟨[], [], [], [], rfl, rfl, fun v hv => (by cases hv), fun c hc => (by cases hc), rfl,
      fun _ => rfl⟩
  | cons id ids ih =>
    obtain ⟨vs, cs, vs', cs', h1, h2, hv, hc, hmir, hval⟩ := ih
    obtain ⟨res, res', e1, e2, hmem, hrel⟩ := threeWayAtomMerge_swap P (mapGet bm id)
      (mapGet lm id) (mapGet rm id) (K ++ ":" ++ id) (plain_kind_selector K id hK)
      (hbm id) (hlm id) (hrm id)
    obtain ⟨s1, s2, s3, s4⟩ := swapType_literals
    have hvs : ∀ v ∈ (if truthy res.value then res.value :: vs else vs), truthy v = true ∧
        ∃ id, v = mapGet bm id ∨ v = mapGet lm id ∨ v = mapGet rm id := by
      intro v hv'
      by_cases ht : truthy res.value = true
      · rw [if_pos ht] at hv'
        rcases List.mem_cons.1 hv' with rfl | hv'
        · refine ⟨ht, id, ?_⟩
          rcases hmem with h | h | h | h
          · rw [h] at ht; cases ht
          · exact Or.inl h
          · exact Or.inr (Or.inl h)
          · exact Or.inr (Or.inr h)
        · exact hv v hv'
      · rw [if_neg ht] at hv'
        exact hv v hv'
    refine ⟨_, _, _, _, mergeAtoms_cons P K bm lm rm id ids res vs cs e1 h1,
      mergeAtoms_cons P K bm rm lm id ids res' vs' cs' e2 h2, hvs, ?_, ?_, ?_⟩
    · intro c hc'
      rcases hrel with ⟨hn, _, _⟩ | ⟨c1, c2, hr1, hr2, k1, k2⟩ | ⟨c1, c2, hr1, hr2, k1, k2, _⟩ |
        ⟨c1, c2, hr1, hr2, k1, k2, _⟩ | ⟨c1, c2, hr1, hr2, k1, k2, _⟩
      · rw [hn] at hc'
        exact hc c hc'
      all_goals
        rw [hr1] at hc' k1
        simp only [truthy_conflictRecord, if_true] at hc'
        rcases List.mem_cons.1 hc' with rfl | hc'
        · first
          | exact ⟨k1, id, _, c1, rfl, Or.inl rfl⟩
          | exact ⟨k1, id, _, c1, rfl, Or.inr (Or.inl rfl)⟩
          | exact ⟨k1, id, _, c1, rfl, Or.inr (Or.inr (Or.inl rfl))⟩
          | exact ⟨k1, id, _, c1, rfl, Or.inr (Or.inr (Or.inr rfl))⟩
        · exact hc c hc'
    · rcases hrel with ⟨hn, hn', _⟩ | ⟨c1, c2, hr1, hr2, _⟩ | ⟨c1, c2, hr1, hr2, _⟩ |
        ⟨c1, c2, hr1, hr2, _⟩ | ⟨c1, c2, hr1, hr2, _⟩
      · rw [hn, hn']
        exact hmir
      all_goals
        rw [hr1, hr2]
        simp only [truthy_conflictRecord, if_true]
        first
        | exact conflictsMirror_cons _ _ _ _ _ _ hmir rfl s1.symm
        | exact conflictsMirror_cons _ _ _ _ _ _ hmir rfl s2.symm
        | exact conflictsMirror_cons _ _ _ _ _ _ hmir rfl s3.symm
        | exact conflictsMirror_cons _ _ _ _ _ _ hmir rfl s4.symm
    · intro hno
      rcases hrel with ⟨hn, hn', hve⟩ | ⟨c1, c2, hr1, hr2, _⟩ | ⟨c1, c2, hr1, hr2, _, _, hve⟩ |
        ⟨c1, c2, hr1, hr2, _, _, hve⟩ | ⟨c1, c2, hr1, hr2, _, _, hve⟩
      · rw [hn] at hno
        rw [← hve, hval hno]
      · exfalso
        rw [hr1] at hno
        simp only [truthy_conflictRecord, if_true] at hno
        exact hno _ (List.mem_cons_self _ _) (propString_conflictRecord _ _).2
      all_goals
        rw [hr1] at hno
        simp only [truthy_conflictRecord, if_true] at hno
        rw [← hve, hval (fun c hc' => hno c (List.mem_cons_of_mem _ hc'))]

/-- The sorted ids of the three maps do not depend on the order of the maps. -/
theorem atomIds_swap (b l r : List (String × Value)) : atomIds b l r = atomIds b r l := by
  unfold atomIds
  apply sortStrings_eq_of_perm_sorted _ (sortStrings_sorted _)
  refine List.Perm.trans ?_ (sortStrings_perm _).symm
  apply (List.perm_ext_iff_of_nodup (setOf_nodup _) (setOf_nodup _)).2
  intro a
  simp only [mem_setOf, List.mem_append]
  constructor
  · rintro ((h | h) | h)
    · exact Or.inl (Or.inl h)
    · exact Or.inr h
    · exact Or.inl (Or.inr h)
  · rintro ((h | h) | h)
    · exact Or.inl (Or.inl h)
    · exact Or.inr h
    · exact Or.inl (Or.inr h)

/-! ### The merged graph -/

theorem atomVal_mapGet (xs : List Value) (h : ∀ x ∈ xs, truthy x = true ∧ Canonical x)
    (id : String) : mapGet (mapById xs) id = .undefined ∨
      (truthy (mapGet (mapById xs) id) = true ∧ Canonical (mapGet (mapById xs) id)) := by
  rcases mapGet_mem xs id with hu | ⟨hm, _⟩
  · exact Or.inl hu
  · exact Or.inr (h _ hm)

theorem nodes_truthy_canonical {g : Value} (h : GraphOut g) :
    ∀ x ∈ propItems g "nodes", truthy x = true ∧ Canonical x :=
  fun x hx => ⟨truthy_of_plain (nodes_of_out h x hx).1, (nodes_of_out h x hx).2.1⟩

theorem edges_truthy_canonical {g : Value} (h : GraphOut g) :
    ∀ x ∈ propItems g "edges", truthy x = true ∧ Canonical x :=
  fun x hx => ⟨truthy_of_plain (edges_of_out h x hx).1, (edges_of_out h x hx).2.1⟩

theorem mem_of_truthy_mapGet (xs : List Value) (id : String) (v : Value)
    (hv : v = mapGet (mapById xs) id) (ht : truthy v = true) : v ∈ xs := by
  subst hv
  rcases mapGet_mem xs id with hu | ⟨hm, _⟩
  · rw [hu] at ht; cases ht
  · exact hm

/-- The properties of the object `{ ...base, nodes, edges }`. -/
theorem getProp_mergedInput {R : Props} (hnd : (R.map Prod.fst).Nodup) (ns es : List Value)
    (k : String) :
    getProp (.obj (setProp (setProp R "nodes" (.arr ns)) "edges" (.arr es))) k
      = if k = "edges" then .arr es else if k = "nodes" then .arr ns else getProp (.obj R) k := by
  simp only [getProp]
  rw [lookupProp_setProp _ _ _ (by decide) (setProp_nodup R "nodes" (.arr ns) hnd),
    lookupProp_setProp _ _ _ (by decide) hnd]
  by_cases h1 : k = "edges"
  · simp [h1]
  · by_cases h2 : k = "nodes"
    · simp [h2]
    · simp [h1, h2]

/-- The object `{ ...base, nodes, edges }` of normalized nodes and edges is normalized to a
graph with the name and the meta of the base. -/
theorem mergedInput_normalizes (P : Platform) {b : Value} (hb : GraphOut b) (ns es : List Value)
    (hns : ∀ n ∈ ns, NodeOut n) (hes : ∀ e ∈ es, EdgeOut e) :
    ∃ M, canonicalizeDomain P
        (.obj (setProp (setProp (ownProps b) "nodes" (.arr ns)) "edges" (.arr es))) = .ok M ∧
      GraphOut M ∧ getProp M "name" = getProp b "name" ∧ getProp M "meta" = getProp b "meta" := by
  obtain ⟨hp, hc, _, _, _, hname, hmeta⟩ := hb
  cases b with
  | obj R =>
    have hnd := canonical_keys_nodup hc
    have hg := getProp_mergedInput hnd ns es
    have hX : ownProps (.obj R) = R := rfl
    rw [hX]
    have gn : getProp (.obj (setProp (setProp R "nodes" (.arr ns)) "edges" (.arr es))) "nodes"
        = .arr ns := by rw [hg]; simp
    have ge : getProp (.obj (setProp (setProp R "nodes" (.arr ns)) "edges" (.arr es))) "edges"
        = .arr es := by rw [hg]; simp
    have gname : getProp (.obj (setProp (setProp R "nodes" (.arr ns)) "edges" (.arr es))) "name"
        = getProp (.obj R) "name" := by rw [hg]; simp
    have gmeta : getProp (.obj (setProp (setProp R "nodes" (.arr ns)) "edges" (.arr es))) "meta"
        = getProp (.obj R) "meta" := by rw [hg]; simp
    have hlook : looksLikeGraph (.obj (setProp (setProp R "nodes" (.arr ns)) "edges" (.arr es)))
        = true := by
      simp [looksLikeGraph, isPlainObject, gn, isArray]
    obtain ⟨M, hM⟩ := normalizeGraph_succeeds P
      (.obj (setProp (setProp R "nodes" (.arr ns)) "edges" (.arr es)))
      (by rw [propItems_of_getProp gn]; exact fun n hn => normalizeNode_of_out (hns n hn))
      (by rw [propItems_of_getProp ge]; exact fun e he => normalizeEdge_of_out (hes e he))
      (by rw [gmeta]; exact canonical_objectOrUndefined hc "meta" (by decide))
      (by rw [gname]; exact canonical_stringOrUndefined hc "name" (by decide))
    refine ⟨M, by unfold canonicalizeDomain; rw [if_pos hlook, hM], normalizeGraph_out P hM, ?_, ?_⟩
    · obtain ⟨_, _, _, _, _, _, _, hcan⟩ := normalizeGraph_items P hM
      rw [gname, gmeta] at hcan
      obtain ⟨h1, h2, _⟩ := getProp_of_canonicalize hcan "name" (by decide)
      rcases hname with hu | ⟨s, hs⟩
      · rw [hu]
        exact h2 .undefined (by simp [lookupProp, hu, stringOrUndefined]) rfl
      · obtain ⟨y, hy, hgy⟩ := h1 (.str s) (by simp [lookupProp, hs, stringOrUndefined]) rfl
        have hcs : Canonical (.str s) := by
          rw [← hs]; exact canonical_prop hc "name" (by decide) (by rw [hs]; rfl)
        rw [hgy, hs, ← Except.ok.inj (hcs.symm.trans hy)]
    · obtain ⟨_, _, _, _, _, _, _, hcan⟩ := normalizeGraph_items P hM
      rw [gname, gmeta] at hcan
      obtain ⟨h1, h2, _⟩ := getProp_of_canonicalize hcan "meta" (by decide)
      rcases hmeta with hu | ⟨ps, hs⟩
      · rw [hu]
        exact h2 .undefined (by simp [lookupProp, hu, objectOrUndefined]) rfl
      · obtain ⟨y, hy, hgy⟩ := h1 (.obj ps) (by simp [lookupProp, hs, objectOrUndefined]) rfl
        have hcs : Canonical (.obj ps) := by
          rw [← hs]; exact canonical_prop hc "meta" (by decide) (by rw [hs]; rfl)
        rw [hgy, hs, ← Except.ok.inj (hcs.symm.trans hy)]
  | _ => cases hp

theorem conflictsMirror_append {a a' b b' : List Value} (h1 : ConflictsMirror a a')
    (h2 : ConflictsMirror b b') : ConflictsMirror (a ++ b) (a' ++ b') := by
  unfold ConflictsMirror at h1 h2 ⊢
  simp only [List.map_append, h1, h2]

/-- The merge of three normalized graphs, and the merge with left and right exchanged. -/
theorem mergeGraphs_spec (P : Platform) {b l r : Value} (hb : GraphOut b) (hl : GraphOut l)
    (hr : GraphOut r) :
    ∃ cs cs' M M', mergeGraphs P b l r = .ok (.obj [("conflicts", .arr cs), ("merged", M)]) ∧
      mergeGraphs P b r l = .ok (.obj [("conflicts", .arr cs'), ("merged", M')]) ∧
      GraphOut M ∧ getProp M "name" = getProp b "name" ∧ getProp M "meta" = getProp b "meta" ∧
      (∀ c ∈ cs, Canonical c ∧ ∃ kind id spec cid, (kind = "node" ∨ kind = "edge") ∧
        c = conflictRecord spec cid ∧
        (spec = addAddSpec (kind ++ ":" ++ id) ∨ spec = deleteEditSpec (kind ++ ":" ++ id) ∨
          spec = editDeleteSpec (kind ++ ":" ++ id) ∨ spec = editEditSpec (kind ++ ":" ++ id))) ∧
      ConflictsMirror cs cs' ∧
      ((∀ c ∈ cs, propString c "type" ≠ "add_add") → M = M') := by
  obtain ⟨ns, nc, ns', nc', hn1, hn2, hnv, hnc, hnm, hne⟩ := mergeAtoms_swap P "node" (Or.inl rfl)
    (mapById (propItems b "nodes")) (mapById (propItems l "nodes"))
    (mapById (propItems r "nodes"))
    (atomVal_mapGet _ (nodes_truthy_canonical hb)) (atomVal_mapGet _ (nodes_truthy_canonical hl))
    (atomVal_mapGet _ (nodes_truthy_canonical hr))
    (atomIds (mapById (propItems b "nodes")) (mapById (propItems l "nodes"))
      (mapById (propItems r "nodes")))
  obtain ⟨es, ec, es', ec', he1, he2, hev, hec, hem, hee⟩ := mergeAtoms_swap P "edge" (Or.inr rfl)
    (mapById (propItems b "edges")) (mapById (propItems l "edges"))
    (mapById (propItems r "edges"))
    (atomVal_mapGet _ (edges_truthy_canonical hb)) (atomVal_mapGet _ (edges_truthy_canonical hl))
    (atomVal_mapGet _ (edges_truthy_canonical hr))
    (atomIds (mapById (propItems b "edges")) (mapById (propItems l "edges"))
      (mapById (propItems r "edges")))
  have nodeOut : ∀ vs : List Value, (∀ v ∈ vs, truthy v = true ∧
      ∃ id, v = mapGet (mapById (propItems b "nodes")) id ∨
        v = mapGet (mapById (propItems l "nodes")) id ∨
        v = mapGet (mapById (propItems r "nodes")) id) → ∀ v ∈ vs, NodeOut v := by
    intro vs h v hv
    obtain ⟨ht, id, h1 | h1 | h1⟩ := h v hv
    · exact nodes_of_out hb v (mem_of_truthy_mapGet _ id v h1 ht)
    · exact nodes_of_out hl v (mem_of_truthy_mapGet _ id v h1 ht)
    · exact nodes_of_out hr v (mem_of_truthy_mapGet _ id v h1 ht)
  have edgeOut : ∀ vs : List Value, (∀ v ∈ vs, truthy v = true ∧
      ∃ id, v = mapGet (mapById (propItems b "edges")) id ∨
        v = mapGet (mapById (propItems l "edges")) id ∨
        v = mapGet (mapById (propItems r "edges")) id) → ∀ v ∈ vs, EdgeOut v := by
    intro vs h v hv
    obtain ⟨ht, id, h1 | h1 | h1⟩ := h v hv
    · exact edges_of_out hb v (mem_of_truthy_mapGet _ id v h1 ht)
    · exact edges_of_out hl v (mem_of_truthy_mapGet _ id v h1 ht)
    · exact edges_of_out hr v (mem_of_truthy_mapGet _ id v h1 ht)
  obtain ⟨M, hM, hMo, hMn, hMm⟩ := mergedInput_normalizes P hb ns es (nodeOut ns hnv)
    (edgeOut es hev)
  -- the swapped merge: its values are atoms of the three graphs as well
  obtain ⟨ns2, nc2, _, _, hn3, _, hnv2, hnc2, _, _⟩ := mergeAtoms_swap P "node" (Or.inl rfl)
    (mapById (propItems b "nodes")) (mapById (propItems r "nodes"))
    (mapById (propItems l "nodes"))
    (atomVal_mapGet _ (nodes_truthy_canonical hb)) (atomVal_mapGet _ (nodes_truthy_canonical hr))
    (atomVal_mapGet _ (nodes_truthy_canonical hl))
    (atomIds (mapById (propItems b "nodes")) (mapById (propItems l "nodes"))
      (mapById (propItems r "nodes")))
  obtain ⟨es2, ec2, _, _, he3, _, hev2, hec2, _, _⟩ := mergeAtoms_swap P "edge" (Or.inr rfl)
    (mapById (propItems b "edges")) (mapById (propItems r "edges"))
    (mapById (propItems l "edges"))
    (atomVal_mapGet _ (edges_truthy_canonical hb)) (atomVal_mapGet _ (edges_truthy_canonical hr))
    (atomVal_mapGet _ (edges_truthy_canonical hl))
    (atomIds (mapById (propItems b "edges")) (mapById (propItems l "edges"))
      (mapById (propItems r "edges")))
  rw [hn2] at hn3
  rw [he2] at he3
  have en : ns' = ns2 ∧ nc' = nc2 := by
    injection hn3 with h
    exact ⟨congrArg Prod.fst h, congrArg Prod.snd h⟩
  have ee : es' = es2 ∧ ec' = ec2 := by
    injection he3 with h
    exact ⟨congrArg Prod.fst h, congrArg Prod.snd h⟩
  have hnv' : ∀ v ∈ ns', NodeOut v := by
    rw [en.1]
    intro v hv
    obtain ⟨ht, id, h1 | h1 | h1⟩ := hnv2 v hv
    · exact nodes_of_out hb v (mem_of_truthy_mapGet _ id v h1 ht)
    · exact nodes_of_out hr v (mem_of_truthy_mapGet _ id v h1 ht)
    · exact nodes_of_out hl v (mem_of_truthy_mapGet _ id v h1 ht)
  have hev' : ∀ v ∈ es', EdgeOut v := by
    rw [ee.1]
    intro v hv
    obtain ⟨ht, id, h1 | h1 | h1⟩ := hev2 v hv
    · exact edges_of_out hb v (mem_of_truthy_mapGet _ id v h1 ht)
    · exact edges_of_out hr v (mem_of_truthy_mapGet _ id v h1 ht)
    · exact edges_of_out hl v (mem_of_truthy_mapGet _ id v h1 ht)
  obtain ⟨M', hM', hMo', _, _⟩ := mergedInput_normalizes P hb ns' es' hnv' hev'
  have hcan : ∀ c ∈ nc ++ ec, Canonical c := by
    intro c hc
    rcases List.mem_append.1 hc with h | h
    · exact (hnc c h).1
    · exact (hec c h).1
  have hcan' : ∀ c ∈ nc' ++ ec', Canonical c := by
    rw [en.2, ee.2]
    intro c hc
    rcases List.mem_append.1 hc with h | h
    · exact (hnc2 c h).1
    · exact (hec2 c h).1
  refine ⟨nc ++ ec, nc' ++ ec', M, M', ?_, ?_, hMo, hMn, hMm, ?_, conflictsMirror_append hnm hem,
    ?_⟩
  · rw [mergeGraphs_of_atoms P hn1 he1 hM]
    exact canonicalize_mergeResult M _ hMo.2.1 hcan
  · rw [atomIds_swap] at hn2 he2
    rw [mergeGraphs_of_atoms P hn2 he2 hM']
    exact canonicalize_mergeResult M' _ hMo'.2.1 hcan'
  · intro c hc
    rcases List.mem_append.1 hc with h | h
    · obtain ⟨h1, id, spec, cid, h2, h3⟩ := hnc c h
      exact ⟨h1, "node", id, spec, cid, Or.inl rfl, h2, h3⟩
    · obtain ⟨h1, id, spec, cid, h2, h3⟩ := hec c h
      exact ⟨h1, "edge", id, spec, cid, Or.inr rfl, h2, h3⟩
  · intro hno
    have e1 : ns = ns' := hne (fun c hc => hno c (List.mem_append_left _ hc))
    have e2 : es = es' := hee (fun c hc => hno c (List.mem_append_right _ hc))
    rw [← e1, ← e2] at hM'
    rw [hM] at hM'
    exact Except.ok.inj hM'

end FlowVersion


namespace FlowVersion

/-! ## The graph merge (C36, C37) -/

/-- The merge of three inputs whose normal forms are graphs is the merge of the normalized
graphs, which are normalized graphs again. -/
theorem merge_of_normalized (P : Platform) {b l r b1 l1 r1 : Value}
    (hb : canonicalizeDomain P b = .ok b1) (hl : canonicalizeDomain P l = .ok l1)
    (hr : canonicalizeDomain P r = .ok r1) (gb : looksLikeGraph b1 = true)
    (gl : looksLikeGraph l1 = true) (gr : looksLikeGraph r1 = true) :
    merge P b l r = mergeGraphs P b1 l1 r1 ∧ merge P b r l = mergeGraphs P b1 r1 l1 ∧
      GraphOut b1 ∧ GraphOut l1 ∧ GraphOut r1 :=
  ⟨merge_of_graphs P hb hl hr gb gl gr, merge_of_graphs P hb hr hl gb gr gl,
    graphOut_of_canonicalizeDomain P hb gb, graphOut_of_canonicalizeDomain P hl gl,
    graphOut_of_canonicalizeDomain P hr gr⟩

/-- C36: when the three inputs normalize to graphs `b1`, `l1`, `r1`, `merge` returns, the
`name` and the `meta` of its `merged` graph are those of `b1` (absent when absent in `b1`),
whatever `l1` and `r1` hold, and every conflict it reports has the selector of a node or of an
edge. -/
theorem merge_keeps_base_name_meta (P : Platform) (b l r b1 l1 r1 : Value)
    (hb : canonicalizeDomain P b = .ok b1) (hl : canonicalizeDomain P l = .ok l1)
    (hr : canonicalizeDomain P r = .ok r1) (gb : looksLikeGraph b1 = true)
    (gl : looksLikeGraph l1 = true) (gr : looksLikeGraph r1 = true) :
    ∃ cs M, merge P b l r = .ok (.obj [("conflicts", .arr cs), ("merged", M)]) ∧
      getProp M "name" = getProp b1 "name" ∧ getProp M "meta" = getProp b1 "meta" ∧
      ∀ c ∈ cs, ∃ kind id, (kind = "node" ∨ kind = "edge") ∧
        propString c "selector" = kind ++ ":" ++ id := by
  obtain ⟨hm, _, ob, ol, or'⟩ := merge_of_normalized P hb hl hr gb gl gr
  obtain ⟨cs, _, M, _, h, _, _, hn, hmeta, hcs, _⟩ := mergeGraphs_spec P ob ol or'
  refine ⟨cs, M, hm.trans h, hn, hmeta, ?_⟩
  intro c hc
  obtain ⟨_, kind, id, spec, cid, hk, rfl, hspec⟩ := hcs c hc
  refine ⟨kind, id, hk, ?_⟩
  rw [(propString_conflictRecord spec cid).1]
  rcases hspec with rfl | rfl | rfl | rfl <;> rfl

/-- C36 at a base named `base`, a left named `left` with one more node, and a right without
name: the merged graph has the name of the base. -/
theorem merge_keeps_base_name_meta_witness :
    ∃ cs M, merge samplePlatform
        (.obj [("name", .str "base"), ("nodes", .arr [])])
        (.obj [("name", .str "left"), ("nodes", .arr [.obj [("id", .str "A")]])])
        (.obj [("nodes", .arr [])])
      = .ok (.obj [("conflicts", .arr cs), ("merged", M)]) ∧
      getProp M "name" = .str "base" :=
  (merge_keeps_base_name_meta samplePlatform
    (.obj [("name", .str "base"), ("nodes", .arr [])])
    (.obj [("name", .str "left"), ("nodes", .arr [.obj [("id", .str "A")]])])
    (.obj [("nodes", .arr [])])
    (.obj [("edges", .arr []), ("kind", .str "workflow_graph@1"), ("name", .str "base"),
      ("nodes", .arr [])])
    (.obj [("edges", .arr []), ("kind", .str "workflow_graph@1"), ("name", .str "left"),
      ("nodes", .arr [.obj [("config", .obj []), ("id", .str "A"), ("type", .str "task")]])])
    (nodesOnly []) rfl rfl rfl rfl rfl rfl).imp
    (fun _ h => h.imp (fun _ h' => ⟨h'.1, h'.2.1⟩))

/-- C37: when the three inputs normalize to graphs, `merge(base, left, right)` and
`merge(base, right, left)` both return; their conflicts have the same selectors in the same
order, with the types `delete_edit` and `edit_delete` exchanged and the other types kept
(`ConflictsMirror`); and when the first reports no `add_add` conflict, the two merged graphs
are equal. -/
theorem merge_left_right_symmetry (P : Platform) (b l r b1 l1 r1 : Value)
    (hb : canonicalizeDomain P b = .ok b1) (hl : canonicalizeDomain P l = .ok l1)
    (hr : canonicalizeDomain P r = .ok r1) (gb : looksLikeGraph b1 = true)
    (gl : looksLikeGraph l1 = true) (gr : looksLikeGraph r1 = true) :
    ∃ cs cs' M M', merge P b l r = .ok (.obj [("conflicts", .arr cs), ("merged", M)]) ∧
      merge P b r l = .ok (.obj [("conflicts", .arr cs'), ("merged", M')]) ∧
      ConflictsMirror cs cs' ∧
      ((∀ c ∈ cs, propString c "type" ≠ "add_add") → M = M') := by
  obtain ⟨hm, hm', ob, ol, or'⟩ := merge_of_normalized P hb hl hr gb gl gr
  obtain ⟨cs, cs', M, M', h, h', _, _, _, _, hmir, heq⟩ := mergeGraphs_spec P ob ol or'
  exact ⟨cs, cs', M, M', hm.trans h, hm'.trans h', hmir, heq⟩

/-- C37 at a base with the node `A`, a left without it and a right that labels it: the one
conflict is `delete_edit` at `node:A`, it is `edit_delete` at `node:A` with the sides
exchanged, and the merged graphs are the same. -/
theorem merge_left_right_symmetry_witness :
    (∃ cs cs' M M', merge samplePlatform
        (.obj [("nodes", .arr [sampleNode "base"])]) (nodesOnly [])
        (.obj [("nodes", .arr [sampleNode "right"])])
        = .ok (.obj [("conflicts", .arr cs), ("merged", M)]) ∧
      merge samplePlatform
        (.obj [("nodes", .arr [sampleNode "base"])])
        (.obj [("nodes", .arr [sampleNode "right"])]) (nodesOnly [])
        = .ok (.obj [("conflicts", .arr cs'), ("merged", M')]) ∧
      ConflictsMirror cs cs' ∧
      ((∀ c ∈ cs, propString c "type" ≠ "add_add") → M = M')) ∧
    ∃ cs M, merge samplePlatform
        (.obj [("nodes", .arr [sampleNode "base"])]) (nodesOnly [])
        (.obj [("nodes", .arr [sampleNode "right"])])
        = .ok (.obj [("conflicts", .arr cs), ("merged", M)]) ∧
      cs.map (fun c => (propString c "selector", propString c "type"))
        = [("node:A", "delete_edit")] :=
  ⟨merge_left_right_symmetry samplePlatform
    (.obj [("nodes", .arr [sampleNode "base"])]) (nodesOnly [])
    (.obj [("nodes", .arr [sampleNode "right"])])
    (.obj [("edges", .arr []), ("kind", .str "workflow_graph@1"),
      ("nodes", .arr [sampleNode "base"])]) (nodesOnly [])
    (.obj [("edges", .arr []), ("kind", .str "workflow_graph@1"),
      ("nodes", .arr [sampleNode "right"])]) rfl rfl rfl rfl rfl rfl,
    _, _, rfl, rfl⟩

end FlowVersion


namespace FlowVersion

/-! ## The calls of `dfs` and the walk of `reconstructCycle` -/

/-- Without its log the loop over the neighbours is `dfsNeighbours`. -/
theorem dfsNeighboursLog_fst
    (call : String → DfsState → Option (DfsState × Option (List String)))
    (callLog : String → DfsState → Option (DfsState × Option (List String) × List String))
    (h : ∀ v s, (callLog v s).map (fun r => (r.1, r.2.1)) = call v s) (u : String) :
    ∀ (vs : List String) (st : DfsState),
      (dfsNeighboursLog callLog u vs st).map (fun r => (r.1, r.2.1))
        = dfsNeighbours call u vs st := by
  intro vs
  induction vs with
  | nil => intro st; rfl
  | cons v vs ih =>
    intro st
    unfold dfsNeighboursLog dfsNeighbours
    by_cases h1 : v ∈ st.visited
    · rw [if_pos h1, if_pos h1]
      exact ih st
    · rw [if_neg h1, if_neg h1]
      by_cases h2 : v ∈ st.visiting
      · rw [if_pos h2, if_pos h2]
        rfl
      · rw [if_neg h2, if_neg h2]
        have hc := h v { st with parent := mapSet st.parent v u }
        cases hl : callLog v { st with parent := mapSet st.parent v u } with
        | none =>
          rw [hl] at hc
          rw [← hc]
          rfl
        | some r =>
          obtain ⟨st1, res, log⟩ := r
          rw [hl] at hc
          rw [← hc]
          cases res with
          | some c => rfl
          | none =>
            have hi := ih st1
            show Option.map (fun r => (r.1, r.2.1))
                (match dfsNeighboursLog callLog u vs st1 with
                  | none => none
                  | some (st2, res, log2) => some (st2, res, log ++ log2))
              = dfsNeighbours call u vs st1
            rw [← hi]
            cases dfsNeighboursLog callLog u vs st1 with
            | none => rfl
            | some r2 => rfl

/-- Without its log `dfsLog` is `dfs`. -/
theorem dfsLog_fst (succ : String → List String) :
    ∀ (n : Nat) (u : String) (st : DfsState),
      (dfsLog succ n u st).map (fun r => (r.1, r.2.1)) = dfs succ n u st := by
  intro n
  induction n with
  | zero => intro u st; rfl
  | succ n ih =>
    intro u st
    unfold dfsLog dfs
    have h := dfsNeighboursLog_fst (dfs succ n) (dfsLog succ n) ih u (succ u)
      { st with visiting := setAdd st.visiting u }
    rw [← h]
    cases dfsNeighboursLog (dfsLog succ n) u (succ u)
        { st with visiting := setAdd st.visiting u } with
    | none => rfl
    | some r =>
      obtain ⟨st1, res, log⟩ := r
      cases res <;> rfl

/-- Without its log the loop over the node ids is `findCycleLoop`. -/
theorem findCycleLoopLog_fst (succ : String → List String) (fuel : Nat) :
    ∀ (ids : List String) (st : DfsState),
      (findCycleLoopLog succ fuel ids st).map Prod.fst = findCycleLoop succ fuel ids st := by
  intro ids
  induction ids with
  | nil => intro st; rfl
  | cons id ids ih =>
    intro st
    unfold findCycleLoopLog findCycleLoop
    by_cases h1 : id ∈ st.visited
    · rw [if_pos h1, if_pos h1]
      exact ih st
    · rw [if_neg h1, if_neg h1]
      have h := dfsLog_fst succ fuel id st
      rw [← h]
      cases dfsLog succ fuel id st with
      | none => rfl
      | some r =>
        obtain ⟨st1, res, log⟩ := r
        cases res with
        | some c => rfl
        | none =>
          have hi := ih st1
          show Option.map Prod.fst
              (match findCycleLoopLog succ fuel ids st1 with
                | none => none
                | some (res, log2) => some (res, log ++ log2))
            = findCycleLoop succ fuel ids st1
          rw [← hi]
          cases findCycleLoopLog succ fuel ids st1 with
          | none => rfl
          | some r2 => rfl

/-- Without its log `findCycleLog` is `findCycle`. -/
theorem findCycleLog_fst (ids : List String) (edges : List (String × String)) :
    (findCycleLog ids edges).map Prod.fst = findCycle ids edges :=
  findCycleLoopLog_fst _ _ _ _

/-- The loop of `reconstructCycle` along the parents: it pushes the ids of the walk until the
start is reached or the bound is used up. -/
theorem reconstructLoop_walk (start : String) (parent : List (String × String)) :
    ∀ (walk : List String) (cur : String), ParentChain parent start cur walk →
      ∀ (n : Nat) (path : List String),
        reconstructLoop start parent n (some cur) path = path ++ walk.take n := by
  intro walk
  induction walk with
  | nil =>
    intro cur h n path
    have hc : cur = start := h
    cases n with
    | zero => simp [reconstructLoop]
    | succ n => simp [reconstructLoop, hc]
  | cons c rest ih =>
    intro cur h n path
    obtain ⟨h1, h2, next, h3, h4⟩ := h
    cases n with
    | zero => simp [reconstructLoop]
    | succ n =>
      unfold reconstructLoop
      simp only [if_neg h1, h3]
      rw [ih next h4 n (path ++ [cur]), h2]
      simp

/-- The path returned for a walk along the parents. -/
theorem reconstructCycle_walk {start stop : String} {parent : List (String × String)}
    {walk : List String} (h : ParentChain parent start stop walk) :
    reconstructCycle start stop parent = (walk.take 10000).reverse ++ [start, start] := by
  unfold reconstructCycle
  rw [reconstructLoop_walk start parent walk stop h]
  simp

/-- Along the ids in progress, from the last one back to `v`, the parents lead to `v`, and the
edges lead from `v` to the last one. -/
theorem parentChain_of_links {succ : String → List String}
    {parent parent1 : List (String × String)} {v : String} {tail : List String} :
    ∀ (w : List String) (cur : String) (rest : List String), cur :: rest = w ++ v :: tail →
      List.Chain (fun b a => Step succ a b ∧ lookupProp b parent = some a) cur rest →
      v ∉ w → (∀ b ∈ w, lookupProp b parent1 = lookupProp b parent) →
      ParentChain parent1 v cur w ∧
        ∀ x, Step succ cur x → List.Chain (fun a b => Step succ b a) x (w ++ [v]) := by
  intro w
  induction w with
  | nil =>
    intro cur rest he _ _ _
    simp only [List.nil_append, List.cons.injEq] at he
    refine ⟨he.1, fun x hx => ?_⟩
    rw [← he.1]
    exact List.Chain.cons hx List.Chain.nil
  | cons c w ih =>
    intro cur rest he hch hv hag
    simp only [List.cons_append, List.cons.injEq] at he
    obtain ⟨hc, hrest⟩ := he
    subst hc
    cases rest with
    | nil => cases w <;> cases hrest
    | cons next rest1 =>
      rw [List.chain_cons] at hch
      obtain ⟨⟨hs, hl⟩, hch1⟩ := hch
      have hv1 : v ∉ w := fun h => hv (List.mem_cons_of_mem _ h)
      have hne : cur ≠ v := fun h => hv (h ▸ List.mem_cons_self _ _)
      obtain ⟨i1, i2⟩ := ih next rest1 hrest hch1 hv1
        (fun b hb => hag b (List.mem_cons_of_mem _ hb))
      refine ⟨⟨hne, rfl, next, ?_, i1⟩, fun x hx => ?_⟩
      · rw [hag cur (List.mem_cons_self _ _)]
        exact hl
      · exact List.Chain.cons hx (i2 cur hs)

/-- The ids in progress keep their links when the parents of none of them change. -/
theorem chain_links_congr {succ : String → List String} {parent parent1 : List (String × String)}
    {l : List String} (h : ∀ b ∈ l, lookupProp b parent1 = lookupProp b parent)
    (hl : List.Chain' (fun b a => Step succ a b ∧ lookupProp b parent = some a) l) :
    List.Chain' (fun b a => Step succ a b ∧ lookupProp b parent1 = some a) l := by
  rw [List.Chain'.iff_mem] at hl
  refine hl.imp ?_
  rintro a b ⟨ha, _, hs, hp⟩
  exact ⟨hs, (h a ha).trans hp⟩

/-- The invariant holds again after a call that returned no path. -/
theorem stackInv_of_same {succ : String → List String} {st st1 : DfsState} {log : List String}
    (hinv : StackInv succ st) (h1 : st1.visiting = st.visiting)
    (h2 : ∀ a, a ∈ st1.visited ↔ a ∈ st.visited ∨ a ∈ log)
    (h3 : ∀ x ∈ log, x ∉ st.visiting)
    (h4 : ∀ b ∈ st.visiting, lookupProp b st1.parent = lookupProp b st.parent) :
    StackInv succ st1 := by
  refine ⟨h1 ▸ hinv.nodup, ?_, ?_⟩
  · intro a ha hv
    rw [h1] at ha
    rcases (h2 a).1 hv with hv | hv
    · exact hinv.disjoint a ha hv
    · exact h3 a hv ha
  · rw [h1]
    exact chain_links_congr (fun b hb => h4 b (List.mem_reverse.1 hb)) hinv.links

/-- The invariant when the id `v`, neither finished nor in progress, gets the last id in
progress as its parent and is entered. -/
theorem stackInv_enter {succ : String → List String} {st : DfsState} {pre : List String}
    {u v : String} (hinv : StackInv succ st) (hu : st.visiting = pre ++ [u]) (hv : v ∈ succ u)
    (h1 : v ∉ st.visited) (h2 : v ∉ st.visiting) :
    StackInv succ { st with visiting := st.visiting ++ [v], parent := mapSet st.parent v u } := by
  refine ⟨?_, ?_, ?_⟩
  · show (st.visiting ++ [v]).Nodup
    rw [List.nodup_append]
    refine ⟨hinv.nodup, List.nodup_singleton _, ?_⟩
    intro a ha hb
    rw [List.mem_singleton] at hb
    exact h2 (hb ▸ ha)
  · intro a ha
    show a ∉ st.visited
    have ha1 : a ∈ st.visiting ++ [v] := ha
    rcases List.mem_append.1 ha1 with ha1 | ha1
    · exact hinv.disjoint a ha1
    · rw [List.mem_singleton] at ha1
      rw [ha1]
      exact h1
  · show List.Chain' (fun b a => Step succ a b ∧ lookupProp b (mapSet st.parent v u) = some a)
      (st.visiting ++ [v]).reverse
    have hl : List.Chain' (fun b a => Step succ a b ∧ lookupProp b (mapSet st.parent v u) = some a)
        st.visiting.reverse := by
      apply chain_links_congr _ hinv.links
      intro b hb
      rw [lookupProp_mapSet, if_neg]
      intro e
      exact h2 (e ▸ List.mem_reverse.1 hb)
    rw [List.reverse_append, List.reverse_singleton, List.singleton_append]
    rw [hu, List.reverse_append, List.reverse_singleton, List.singleton_append] at hl ⊢
    refine List.Chain'.cons ⟨hv, ?_⟩ hl
    rw [lookupProp_mapSet, if_pos rfl]

/-- The loop over the neighbours of `u`, the last id in progress, given that the recursive call
meets its spec. -/
theorem dfsNeighboursLog_spec (succ : String → List String)
    (call : String → DfsState → Option (DfsState × Option (List String) × List String))
    (hcall : DfsLogSpec succ call) (u : String) :
    ∀ (vs : List String) (st st1 : DfsState) (res : Option (List String)) (log : List String),
      dfsNeighboursLog call u vs st = some (st1, res, log) → (∀ v ∈ vs, v ∈ succ u) →
      StackInv succ st → (∃ pre, st.visiting = pre ++ [u]) →
      log.Nodup ∧ (∀ x ∈ log, x ∉ st.visited ∧ x ∉ st.visiting) ∧
      (∀ c, res = some c → WalkOut succ c) ∧
      (res = none → st1.visiting = st.visiting ∧
        (∀ a, a ∈ st1.visited ↔ a ∈ st.visited ∨ a ∈ log) ∧
        ∀ b ∈ st.visiting, lookupProp b st1.parent = lookupProp b st.parent) := by
  intro vs
  induction vs with
  | nil =>
    intro st st1 res log h _ _ _
    simp only [dfsNeighboursLog, Option.some.injEq, Prod.mk.injEq] at h
    obtain ⟨h1, h2, h3⟩ := h
    subst h1 h2 h3
    refine ⟨List.nodup_nil, fun x hx => (by cases hx), fun c hc => (by cases hc), fun _ => ?_⟩
    exact ⟨rfl, fun a => by simp, fun b _ => rfl⟩
  | cons v vs ih =>
    intro st st1 res log h hvs hinv hu
    have hv : v ∈ succ u := hvs v (List.mem_cons_self _ _)
    have hvs1 : ∀ x ∈ vs, x ∈ succ u := fun x hx => hvs x (List.mem_cons_of_mem _ hx)
    unfold dfsNeighboursLog at h
    by_cases h1 : v ∈ st.visited
    · rw [if_pos h1] at h
      exact ih st st1 res log h hvs1 hinv hu
    · rw [if_neg h1] at h
      by_cases h2 : v ∈ st.visiting
      · rw [if_pos h2] at h
        simp only [Option.some.injEq, Prod.mk.injEq] at h
        obtain ⟨_, hres, hlog⟩ := h
        subst hlog
        subst hres
        refine ⟨List.nodup_nil, fun x hx => (by cases hx), fun c hc => ?_,
          fun hn => (by cases hn)⟩
        cases hc
        obtain ⟨pre, hpre⟩ := hu
        have hrev : st.visiting.reverse = u :: pre.reverse := by
          rw [hpre, List.reverse_append, List.reverse_singleton, List.singleton_append]
        have hmem : v ∈ st.visiting.reverse := List.mem_reverse.2 h2
        obtain ⟨w, tail, hsplit⟩ := List.append_of_mem hmem
        have hnd : (w ++ v :: tail).Nodup := hsplit ▸ List.nodup_reverse.2 hinv.nodup
        have hvw : v ∉ w := by
          intro hw
          have := (List.nodup_append.1 hnd).2.2
          exact this hw (List.mem_cons_self _ _) 
        have hlinks : List.Chain (fun b a => Step succ a b ∧ lookupProp b st.parent = some a)
            u pre.reverse := by
          have := hinv.links
          rw [hrev] at this
          exact this
        obtain ⟨p1, p2⟩ := @parentChain_of_links succ st.parent (mapSet st.parent v u) v tail w u pre.reverse
          (hrev ▸ hsplit) hlinks hvw
          (by
            intro b hb
            rw [lookupProp_mapSet, if_neg]
            intro e
            exact hvw (e ▸ hb))
        refine ⟨v, u, mapSet st.parent v u, w, rfl, p1, ?_, p2 v hv⟩
        rw [List.nodup_cons]
        refine ⟨hvw, (List.nodup_append.1 hnd).1⟩
      · rw [if_neg h2] at h
        obtain ⟨pre, hpre⟩ := hu
        have hinv1 := stackInv_enter hinv hpre hv h1 h2
        have hinv0 : StackInv succ { st with parent := mapSet st.parent v u } := by
          refine ⟨hinv.nodup, hinv.disjoint, ?_⟩
          apply chain_links_congr _ hinv.links
          intro b hb
          rw [lookupProp_mapSet, if_neg]
          intro e
          exact h2 (e ▸ List.mem_reverse.1 hb)
        have hkeep : ∀ b ∈ st.visiting,
            lookupProp b (mapSet st.parent v u) = lookupProp b st.parent := by
          intro b hb
          rw [lookupProp_mapSet, if_neg]
          intro e
          exact h2 (e ▸ hb)
        cases hl : call v { st with parent := mapSet st.parent v u } with
        | none => rw [hl] at h; cases h
        | some r =>
          obtain ⟨st2, res2, log2⟩ := r
          rw [hl] at h
          obtain ⟨c1, c2, c3, c4⟩ := hcall v _ st2 res2 log2 hl h2 hinv1
          cases res2 with
          | some c =>
            simp only [Option.some.injEq, Prod.mk.injEq] at h
            obtain ⟨_, hres, hlog⟩ := h
            subst hres hlog
            exact ⟨c1, c2, c3, fun hn => (by cases hn)⟩
          | none =>
            obtain ⟨d1, d2, d3⟩ := c4 rfl
            have d1' : st2.visiting = st.visiting := d1
            have d2' : ∀ a, a ∈ st2.visited ↔ a ∈ st.visited ∨ a ∈ log2 := d2
            have c2' : ∀ x ∈ log2, x ∉ st.visited ∧ x ∉ st.visiting := c2
            have hinv2 : StackInv succ st2 :=
              stackInv_of_same hinv0 d1 d2 (fun x hx => (c2 x hx).2) d3
            cases hl2 : dfsNeighboursLog call u vs st2 with
            | none => simp only [hl2] at h; cases h
            | some r2 =>
              obtain ⟨st3, res3, log3⟩ := r2
              simp only [hl2, Option.some.injEq, Prod.mk.injEq] at h
              obtain ⟨hst, hres, hlog⟩ := h
              subst hst hres hlog
              obtain ⟨e1, e2, e3, e4⟩ := ih st2 st3 res3 log3 hl2 hvs1 hinv2
                ⟨pre, d1'.trans hpre⟩
              refine ⟨?_, ?_, e3, fun hn => ?_⟩
              · rw [List.nodup_append]
                refine ⟨c1, e1, ?_⟩
                intro x hx hx3
                exact (e2 x hx3).1 ((d2' x).2 (Or.inr hx))
              · intro x hx
                rcases List.mem_append.1 hx with hx | hx
                · exact c2' x hx
                · refine ⟨fun hv => (e2 x hx).1 ((d2' x).2 (Or.inl hv)), ?_⟩
                  rw [← d1']
                  exact (e2 x hx).2
              · obtain ⟨f1, f2, f3⟩ := e4 hn
                refine ⟨f1.trans d1', fun a => ?_, fun b hb => ?_⟩
                · rw [f2 a, d2' a, List.mem_append, or_assoc]
                · rw [f3 b (d1' ▸ hb)]
                  exact (d3 b hb).trans (hkeep b hb)

/-- A call `dfs(u)` meets its spec, whatever the depth bound. -/
theorem dfsLog_spec (succ : String → List String) : ∀ n, DfsLogSpec succ (dfsLog succ n) := by
  intro n
  induction n with
  | zero =>
    intro u st st1 res log h _ _
    cases h
  | succ n ih =>
    intro u st st1 res log h hu hinv
    unfold dfsLog at h
    have hadd : setAdd st.visiting u = st.visiting ++ [u] := setAdd_of_not_mem hu
    rw [hadd] at h
    have hu1 : u ∉ st.visited := hinv.disjoint u (List.mem_append_right _ (List.mem_singleton_self _))
    cases hl : dfsNeighboursLog (dfsLog succ n) u (succ u)
        { st with visiting := st.visiting ++ [u] } with
    | none => rw [hl] at h; cases h
    | some r =>
      obtain ⟨st2, res2, log2⟩ := r
      rw [hl] at h
      obtain ⟨c1, c2, c3, c4⟩ := dfsNeighboursLog_spec succ (dfsLog succ n) ih u (succ u) _ st2
        res2 log2 hl (fun v hv => hv) hinv ⟨st.visiting, rfl⟩
      have c2' : ∀ x ∈ log2, x ∉ st.visited ∧ x ∉ st.visiting ++ [u] := c2
      have hlog : (u :: log2).Nodup := by
        rw [List.nodup_cons]
        exact ⟨fun hx => (c2' u hx).2 (List.mem_append_right _ (List.mem_singleton_self _)), c1⟩
      have hnew : ∀ x ∈ u :: log2, x ∉ st.visited ∧ x ∉ st.visiting := by
        intro x hx
        rcases List.mem_cons.1 hx with rfl | hx
        · exact ⟨hu1, hu⟩
        · exact ⟨(c2' x hx).1, fun hv => (c2' x hx).2 (List.mem_append_left _ hv)⟩
      cases res2 with
      | some c =>
        simp only [Option.some.injEq, Prod.mk.injEq] at h
        obtain ⟨_, hres, hlg⟩ := h
        subst hres hlg
        exact ⟨hlog, hnew, c3, fun hn => (by cases hn)⟩
      | none =>
        simp only [Option.some.injEq, Prod.mk.injEq] at h
        obtain ⟨hst, hres, hlg⟩ := h
        subst hst hres hlg
        obtain ⟨d1, d2, d3⟩ := c4 rfl
        have d1' : st2.visiting = st.visiting ++ [u] := d1
        have d2' : ∀ a, a ∈ st2.visited ↔ a ∈ st.visited ∨ a ∈ log2 := d2
        refine ⟨hlog, hnew, fun c hc => (by cases hc), fun _ => ⟨?_, fun a => ?_, fun b hb => ?_⟩⟩
        · show st2.visiting.erase u = st.visiting
          rw [d1']
          exact erase_append_self hu
        · show a ∈ setAdd st2.visited u ↔ a ∈ st.visited ∨ a ∈ u :: log2
          rw [mem_setAdd, d2' a, List.mem_cons]
          tauto
        · exact d3 b (List.mem_append_left _ hb)

/-- The loop over the node ids: the calls of `dfs` are distinct and of ids not finished
before, and a returned path comes from a back edge. -/
theorem findCycleLoopLog_spec (succ : String → List String) (fuel : Nat) :
    ∀ (ids : List String) (st : DfsState) (res : Option (List String)) (log : List String),
      findCycleLoopLog succ fuel ids st = some (res, log) → st.visiting = [] →
      log.Nodup ∧ (∀ x ∈ log, x ∉ st.visited) ∧ ∀ c, res = some c → WalkOut succ c := by
  intro ids
  induction ids with
  | nil =>
    intro st res log h _
    simp only [findCycleLoopLog, Option.some.injEq, Prod.mk.injEq] at h
    obtain ⟨h1, h2⟩ := h
    subst h1 h2
    exact ⟨List.nodup_nil, fun x hx => (by cases hx), fun c hc => (by cases hc)⟩
  | cons id ids ih =>
    intro st res log h hv
    unfold findCycleLoopLog at h
    by_cases h1 : id ∈ st.visited
    · rw [if_pos h1] at h
      exact ih st res log h hv
    · rw [if_neg h1] at h
      cases hl : dfsLog succ fuel id st with
      | none => rw [hl] at h; cases h
      | some r =>
        obtain ⟨st2, res2, log2⟩ := r
        rw [hl] at h
        have hinv : StackInv succ { st with visiting := st.visiting ++ [id] } := by
          refine ⟨?_, ?_, ?_⟩
          · show (st.visiting ++ [id]).Nodup
            rw [hv]
            exact List.nodup_singleton _
          · intro a ha
            have ha1 : a ∈ st.visiting ++ [id] := ha
            rw [hv, List.nil_append, List.mem_singleton] at ha1
            rw [ha1]
            exact h1
          · show List.Chain' _ (st.visiting ++ [id]).reverse
            rw [hv]
            exact List.chain'_singleton _
        obtain ⟨c1, c2, c3, c4⟩ := dfsLog_spec succ fuel id st st2 res2 log2 hl
          (by rw [hv]; exact List.not_mem_nil _) hinv
        cases res2 with
        | some c =>
          simp only [Option.some.injEq, Prod.mk.injEq] at h
          obtain ⟨hres, hlg⟩ := h
          subst hres hlg
          exact ⟨c1, fun x hx => (c2 x hx).1, c3⟩
        | none =>
          obtain ⟨d1, d2, _⟩ := c4 rfl
          cases hl2 : findCycleLoopLog succ fuel ids st2 with
          | none => simp only [hl2] at h; cases h
          | some r2 =>
            obtain ⟨res3, log3⟩ := r2
            simp only [hl2, Option.some.injEq, Prod.mk.injEq] at h
            obtain ⟨hres, hlg⟩ := h
            subst hres hlg
            obtain ⟨e1, e2, e3⟩ := ih st2 res3 log3 hl2 (d1.trans hv)
            refine ⟨?_, ?_, e3⟩
            · rw [List.nodup_append]
              refine ⟨c1, e1, ?_⟩
              intro x hx hx3
              exact e2 x hx3 ((d2 x).2 (Or.inr hx))
            · intro x hx
              rcases List.mem_append.1 hx with hx | hx
              · exact (c2 x hx).1
              · exact fun hx1 => e2 x hx ((d2 x).2 (Or.inl hx1))

/-- The calls of `dfs` that `findCycle` makes are of distinct ids, and a returned path comes from
a back edge. -/
theorem findCycleLog_spec {ids : List String} {edges : List (String × String)}
    {res : Option (List String)} {log : List String}
    (h : findCycleLog ids edges = some (res, log)) :
    log.Nodup ∧ ∀ c, res = some c → WalkOut (successors ids edges) c := by
  obtain ⟨h1, _, h3⟩ := findCycleLoopLog_spec _ _ ids _ res log h rfl
  exact ⟨h1, h3⟩

/-- Every element of a chain is related to the one before it. -/
theorem chain_pred {R : String → String → Prop} :
    ∀ (l : List String) (a : String), List.Chain R a l → ∀ b ∈ l, ∃ a1, R a1 b := by
  intro l
  induction l with
  | nil => intro a _ b hb; cases hb
  | cons x l ih =>
    intro a h b hb
    rw [List.chain_cons] at h
    rcases List.mem_cons.1 hb with rfl | hb
    · exact ⟨a, h.1⟩
    · exact ih x h.2 b hb

/-- The walk behind a returned path is shorter than the list of node ids. -/
theorem walkOut_length {ids : List String} {edges : List (String × String)}
    {start : String} {walk : List String} (hn : (start :: walk).Nodup)
    (hc : List.Chain (fun a b => Step (successors ids edges) b a) start (walk ++ [start])) :
    walk.length < ids.length := by
  have hsub : start :: walk ⊆ ids := by
    intro x hx
    have hx1 : x ∈ walk ++ [start] := by
      rcases List.mem_cons.1 hx with rfl | hx
      · exact List.mem_append_right _ (List.mem_singleton_self _)
      · exact List.mem_append_left _ hx
    obtain ⟨a1, ha1⟩ := chain_pred _ _ hc x hx1
    exact (mem_successors.1 ha1).1
  have := (List.Nodup.subperm hn hsub).length_le
  simpa using this

/-- The set `seen` of `reachableFrom` never gets an id twice. -/
theorem reachableLoop_nodup (edges : List (String × String)) :
    ∀ (n : Nat) (stack seen r : List String), reachableLoop edges n stack seen = some r →
      seen.Nodup → r.Nodup := by
  intro n
  induction n with
  | zero =>
    intro stack seen r h hs
    cases stack with
    | nil =>
      simp only [reachableLoop, Option.some.injEq] at h
      exact h ▸ hs
    | cons cur stack => simp [reachableLoop] at h
  | succ n ih =>
    intro stack seen r h hs
    cases stack with
    | nil =>
      simp only [reachableLoop, Option.some.injEq] at h
      exact h ▸ hs
    | cons cur stack =>
      unfold reachableLoop at h
      by_cases hc : cur ∈ seen
      · rw [if_pos hc] at h
        exact ih _ _ _ h hs
      · rw [if_neg hc] at h
        refine ih _ _ _ h ?_
        rw [List.nodup_append]
        refine ⟨hs, List.nodup_singleton _, ?_⟩
        intro a ha hb
        rw [List.mem_singleton] at hb
        exact hc (hb ▸ ha)

/-- The traversals of the validator: `findCycle` returns, its calls of `dfs` are of distinct
ids, a returned path is the walk along the parents from the end of a back edge, cut off after
10000 ids, and the walk is shorter than the list of node ids; `reachableFrom` returns a set
to which each id was added once. -/
theorem traversals_spec (ids : List String) (edges : List (String × String))
    (startId : String) :
    (∃ r log, findCycle ids edges = some r ∧ findCycleLog ids edges = some (r, log) ∧
      log.Nodup ∧
      ∀ c, r = some c → ∃ (start stop : String) (parent : List (String × String))
        (walk : List String),
        c = reconstructCycle start stop parent ∧ ParentChain parent start stop walk ∧
        walk.length < ids.length ∧
        reconstructLoop start parent 10000 (some stop) [start] = start :: walk.take 10000) ∧
    ∃ seen, reachableFrom startId edges = some seen ∧ seen.Nodup := by
  constructor
  · obtain ⟨r, hr, _⟩ := findCycle_spec ids edges
    have hfst := findCycleLog_fst ids edges
    rw [hr] at hfst
    cases hl : findCycleLog ids edges with
    | none => rw [hl] at hfst; cases hfst
    | some p =>
      obtain ⟨r1, log⟩ := p
      rw [hl] at hfst
      simp only [Option.map_some', Option.some.injEq] at hfst
      subst hfst
      obtain ⟨h1, h2⟩ := findCycleLog_spec hl
      refine ⟨r1, log, hr, rfl, h1, fun c hc => ?_⟩
      obtain ⟨start, stop, parent, walk, w1, w2, w3, w4⟩ := h2 c hc
      refine ⟨start, stop, parent, walk, w1, w2, walkOut_length w3 w4, ?_⟩
      rw [reconstructLoop_walk start parent walk stop w2]
      rfl
  · obtain ⟨seen, hs⟩ := reachableFrom_total startId edges
    exact ⟨seen, hs, reachableLoop_nodup edges _ _ _ _ hs List.nodup_nil⟩

end FlowVersion


namespace FlowVersion

/-! ## `findCycle` on a ring -/

theorem ringName_injective {i j : Nat} (h : ringName i = ringName j) : i = j := by
  have h1 := congrArg (fun s : String => s.data.length) h
  simpa [ringName] using h1

theorem mem_ringNames {i k : Nat} : ringName i ∈ (List.range k).map ringName ↔ i < k := by
  rw [List.mem_map]
  constructor
  · rintro ⟨j, hj, e⟩
    rw [← ringName_injective e]
    exact List.mem_range.1 hj
  · intro h
    exact ⟨i, List.mem_range.2 h, rfl⟩

theorem filter_ringName (i : Nat) :
    ∀ N, (List.range N).filter (fun j => ringName j == ringName i) = if i < N then [i] else [] := by
  intro N
  induction N with
  | zero => rfl
  | succ N ih =>
    rw [List.range_succ, List.filter_append, ih]
    by_cases h : i < N
    · have hne : ¬ ringName N = ringName i := fun e => by
        have := ringName_injective e
        omega
      have h1 : i < N + 1 := by omega
      simp [h, h1, hne]
    · by_cases h2 : i = N
      · subst h2
        simp
      · have hne : ¬ ringName N = ringName i := fun e => h2 (ringName_injective e).symm
        have h1 : ¬ i < N + 1 := by omega
        simp [h, h1, hne]

/-- On the ring each node has one edge, to the next node. -/
theorem successors_ring {N i : Nat} (h : i < N) :
    successors (ringIds N) (ringEdges N) (ringName i) = [ringName ((i + 1) % N)] := by
  unfold successors ringIds
  rw [if_pos (mem_ringNames.2 h)]
  unfold targetsOf ringEdges
  rw [List.filter_map]
  have hf : (List.range N).filter
      ((fun e : String × String => e.1 == ringName i) ∘
        fun j => (ringName j, ringName ((j + 1) % N))) = [i] := by
    have := filter_ringName i N
    rw [if_pos h] at this
    exact this
  rw [hf]
  rfl

/-- The calls of `dfs` go down the ring: entered at node `i` with the nodes before it in progress,
each with the node before it as its parent, `dfs` returns the path of the back edge from the last
node to node 0. -/
theorem dfs_ring (N : Nat) :
    ∀ (d i fuel : Nat) (st : DfsState), i + d + 1 = N → d < fuel → st.visited = [] →
      st.visiting = (List.range i).map ringName →
      (∀ j, j < i → lookupProp (ringName (j + 1)) st.parent = some (ringName j)) →
      ∃ st1 parent1, dfs (successors (ringIds N) (ringEdges N)) fuel (ringName i) st
          = some (st1, some (reconstructCycle (ringName 0) (ringName (N - 1)) parent1)) ∧
        ∀ j, j + 1 < N → lookupProp (ringName (j + 1)) parent1 = some (ringName j) := by
  intro d
  induction d with
  | zero =>
    intro i fuel st hi hf hvd hvg hp
    obtain ⟨f, rfl⟩ : ∃ f, fuel = f + 1 := ⟨fuel - 1, by omega⟩
    have hiN : i < N := by omega
    have hnot : ringName i ∉ st.visiting := by
      rw [hvg, mem_ringNames]
      omega
    have hmod : (i + 1) % N = 0 := by
      have : i + 1 = N := by omega
      rw [this, Nat.mod_self]
    have hin : ringName 0 ∈ st.visiting ++ [ringName i] := by
      have : st.visiting ++ [ringName i] = (List.range (i + 1)).map ringName := by
        rw [hvg, List.range_succ, List.map_append]
        rfl
      rw [this, mem_ringNames]
      omega
    refine ⟨⟨st.visiting ++ [ringName i], st.visited,
      mapSet st.parent (ringName 0) (ringName i)⟩,
      mapSet st.parent (ringName 0) (ringName i), ?_, ?_⟩
    · unfold dfs
      rw [successors_ring hiN, hmod, setAdd_of_not_mem hnot]
      unfold dfsNeighbours
      have hv0 : ringName 0 ∉ st.visited := by rw [hvd]; exact List.not_mem_nil _
      rw [if_neg hv0, if_pos hin]
      have hN : N - 1 = i := by omega
      rw [hN]
    · intro j hj
      rw [lookupProp_mapSet, if_neg]
      · exact hp j (by omega)
      · intro e
        have := ringName_injective e
        omega
  | succ d ih =>
    intro i fuel st hi hf hvd hvg hp
    obtain ⟨f, rfl⟩ : ∃ f, fuel = f + 1 := ⟨fuel - 1, by omega⟩
    have hiN : i < N := by omega
    have hnot : ringName i ∉ st.visiting := by
      rw [hvg, mem_ringNames]
      omega
    have hmod : (i + 1) % N = i + 1 := Nat.mod_eq_of_lt (by omega)
    have hvis : st.visiting ++ [ringName i] = (List.range (i + 1)).map ringName := by
      rw [hvg, List.range_succ, List.map_append]
      rfl
    have hout : ringName (i + 1) ∉ st.visiting ++ [ringName i] := by
      rw [hvis, mem_ringNames]
      omega
    have hv0 : ringName (i + 1) ∉ st.visited := by rw [hvd]; exact List.not_mem_nil _
    obtain ⟨st1, parent1, e1, e2⟩ := ih (i + 1) f
      { visiting := st.visiting ++ [ringName i], visited := st.visited,
        parent := mapSet st.parent (ringName (i + 1)) (ringName i) }
      (by omega) (by omega) hvd hvis
      (by
        intro j hj
        show lookupProp (ringName (j + 1)) (mapSet st.parent (ringName (i + 1)) (ringName i))
          = some (ringName j)
        rw [lookupProp_mapSet]
        by_cases hji : j = i
        · subst hji
          rw [if_pos rfl]
        · rw [if_neg]
          · exact hp j (by omega)
          · intro e
            have := ringName_injective e
            omega)
    refine ⟨st1, parent1, ?_, e2⟩
    unfold dfs
    rw [successors_ring hiN, hmod, setAdd_of_not_mem hnot]
    unfold dfsNeighbours
    rw [if_neg hv0, if_neg hout]
    simp only [e1]

/-- The parents set on the way down the ring lead from node `k` back to node 0. -/
theorem parentChain_ring {parent : List (String × String)} {N : Nat}
    (hp : ∀ j, j + 1 < N → lookupProp (ringName (j + 1)) parent = some (ringName j)) :
    ∀ k, k < N → ParentChain parent (ringName 0) (ringName k)
      ((List.range k).map (fun j => ringName (j + 1))).reverse := by
  intro k
  induction k with
  | zero => intro _; rfl
  | succ k ih =>
    intro hk
    rw [List.range_succ, List.map_append, List.reverse_append]
    refine ⟨?_, rfl, ringName k, hp k hk, ih (by omega)⟩
    intro e
    have := ringName_injective e
    omega

/-- The path `findCycle` returns on the ring of `m + 2` nodes. -/
theorem findCycle_ring (m : Nat) :
    findCycle (ringIds (m + 2)) (ringEdges (m + 2))
      = some (some ((((List.range (m + 1)).map (fun j => ringName (j + 1))).reverse.take
          10000).reverse ++ [ringName 0, ringName 0])) := by
  have hids : ringIds (m + 2) = ringName 0 :: (List.range (m + 1)).map (fun j => ringName (j + 1)) := by
    unfold ringIds
    rw [List.range_succ_eq_map, List.map_cons, List.map_map]
    rfl
  obtain ⟨st1, parent1, e1, e2⟩ := dfs_ring (m + 2) (m + 1) 0
    ((ringIds (m + 2)).length + (ringEdges (m + 2)).length + 1) ⟨[], [], []⟩ (by omega)
    (by simp only [ringIds, ringEdges, List.length_map, List.length_range]; omega) rfl rfl
    (fun j hj => by omega)
  have hc := reconstructCycle_walk (parentChain_ring e2 (m + 1) (by omega))
  have hm : m + 2 - 1 = m + 1 := by omega
  rw [hm] at e1
  rw [hc] at e1
  unfold findCycle
  rw [hids] at e1 ⊢
  unfold findCycleLoop
  rw [if_neg (List.not_mem_nil _)]
  simp only [e1]

/-- The first `m` ids of the walk back from node `m + 1`, in the order of the path. -/
theorem ring_walk_cut (m : Nat) :
    (((List.range (m + 1)).map (fun j => ringName (j + 1))).reverse.take m).reverse
      = (List.range m).map (fun j => ringName (j + 2)) := by
  rw [List.range_succ_eq_map, List.map_cons, List.reverse_cons, List.map_map]
  have hl : ((List.range m).map ((fun j => ringName (j + 1)) ∘ Nat.succ)).reverse.length = m := by
    simp
  rw [List.take_append_of_le_length (by omega), List.take_of_length_le (by omega),
    List.reverse_reverse]
  rfl

end FlowVersion


namespace FlowVersion

/-! ## Termination of the traversals -/

/-- C40 fails for the walk of `reconstructCycle` on a long cycle.  On the ring of 10002 nodes,
where the only edge that leaves node 0 goes to node 1, `findCycle` goes down the ring (10002
nested calls of `dfs`, for which the engine has to have the call stack), meets the back edge
from the last node to node 0, and the walk along the parents is cut off by
`path.length > 10000` after 10000 ids, at node 2: the returned path is the nodes 2 to 10001 and
then node 0 twice, without node 1.  The walk has ended before the cycle start. -/
theorem findCycle_walk_cut_off :
    successors (ringIds 10002) (ringEdges 10002) (ringName 0) = [ringName 1] ∧
    findCycle (ringIds 10002) (ringEdges 10002)
      = some (some ((List.range 10000).map (fun j => ringName (j + 2))
          ++ [ringName 0, ringName 0])) ∧
    ringName 1 ∉ (List.range 10000).map (fun j => ringName (j + 2))
      ++ [ringName 0, ringName 0] := by
  refine ⟨successors_ring (by omega), ?_, ?_⟩
  · have h := findCycle_ring 10000
    rw [ring_walk_cut 10000] at h
    exact h
  · intro h
    rcases List.mem_append.1 h with h | h
    · obtain ⟨j, _, e⟩ := List.mem_map.1 h
      have := ringName_injective e
      omega
    · have e : ringName 1 = ringName 0 := by
        rcases List.mem_cons.1 h with h | h
        · exact h
        · exact List.mem_singleton.1 h
      have := ringName_injective e
      omega

/-- C40, amended: the traversals of the validator end on every finite graph, cyclic or not.
`findCycle` returns; the calls of `dfs` it makes (the log of `findCycleLog`, which is
`findCycle` with that log) are of distinct ids, so each node is entered at most once; a
returned path is `reconstructCycle(start, stop, parent)` for a back edge whose parents lead
from `stop` to `start` along a walk of fewer ids than there are nodes, and the loop of
`reconstructCycle` follows that walk until it reaches `start` or has pushed 10000 ids,
whichever comes first; `reachableFrom` returns, and each id was added to its set `seen`, that
is expanded, once. -/
theorem traversals_terminate (ids : List String) (edges : List (String × String))
    (startId : String) :
    (∃ r log, findCycle ids edges = some r ∧ findCycleLog ids edges = some (r, log) ∧
      log.Nodup ∧
      ∀ c, r = some c → ∃ (start stop : String) (parent : List (String × String))
        (walk : List String),
        c = reconstructCycle start stop parent ∧ ParentChain parent start stop walk ∧
        walk.length < ids.length ∧
        reconstructLoop start parent 10000 (some stop) [start] = start :: walk.take 10000) ∧
    ∃ seen, reachableFrom startId edges = some seen ∧ seen.Nodup :=
  traversals_spec ids edges startId

end FlowVersion


namespace FlowVersion

/-! ## A canonical form whose prototype is replaced (C13, C25, C27, C28)

`canonicalizeObject` assigns `result[key] = canonicalize(value)` for every own key of its
input.  For the key `__proto__` this assignment defines no own property: it replaces the
prototype of `result`.  The canonical form of `{"__proto__": {"nodes": [], "edges": []}}`
is an object without own properties that inherits `nodes` and `edges`, and the reads
`value.nodes` and `value.edges` of `looksLikeGraph`, `normalizeGraph`, `diff`, `merge` and
`validate` follow the prototype.  The theorems evaluate the steps of the code on such inputs. -/

/-- C13 (evaluation). The input `JSON.parse('{"__proto__":{"nodes":[],"edges":[]}}')` is not
graph-shaped, so `canonicalizeDomain` returns its base canonical form: an object without own
properties, to which the assignment of `__proto__` has given the prototype
`{edges: [], nodes: []}`, a graph-shaped object.  Through it `validate` reads no nodes and no
edges, and its rules on no nodes and no edges report two issues of severity `error`, the
missing start node and the missing end node, so that `valid` is `false`. -/
theorem validate_inherited_graph_invalid (P : Platform) :
    jsonParse "\x7b\"__proto__\":\x7b\"nodes\":[],\"edges\":[]\x7d\x7d" = some protoGraphInput ∧
    looksLikeGraph protoGraphInput = false ∧
    canonicalizeDomain P protoGraphInput = .ok (.obj []) ∧
    assignedPrototype protoGraphInput = some (.obj [("edges", .arr []), ("nodes", .arr [])]) ∧
    looksLikeGraph (.obj [("edges", .arr []), ("nodes", .arr [])]) = true ∧
    (graphIssues (.obj [("edges", .arr []), ("nodes", .arr [])])).map
        (List.map (fun s => (s.code, s.severity, s.atoms)))
      = some [("MISSING_OR_AMBIGUOUS_START_NODE", "error", ["workflow:root"]),
          ("MISSING_END_NODE", "error", ["workflow:root"])] :=
  ⟨rfl, rfl, rfl, rfl, rfl, rfl⟩

/-- C25 (evaluation). For the input `x = JSON.parse('{"__proto__":{"nodes":[],"edges":[]}}')`,
which is not graph-shaped, `diff(x, x)` normalizes both sides to an object without own
properties whose prototype, given by the assignment of `__proto__`, is the graph-shaped object
`{edges: [], nodes: []}`.  The ops of the graph branch of `diff` for no nodes and no edges on
both sides are none, and their canonical form is the empty list, not the one `replace` op. -/
theorem diff_inherited_graph_no_ops (P : Platform) :
    looksLikeGraph protoGraphInput = false ∧
    canonicalizeDomain P protoGraphInput = .ok (.obj []) ∧
    (assignedPrototype protoGraphInput).map looksLikeGraph = some true ∧
    (assignedPrototype protoGraphInput).map (fun p => graphOps p p) = some [] ∧
    (assignedPrototype protoGraphInput).map (fun p =>
        canonicalize (.arr ((sortWith (compareOps P) (graphOps p p)).map DiffOp.toValue)))
      = some (.ok (.arr [])) :=
  ⟨rfl, rfl, rfl, rfl, rfl⟩

/-- C27 (evaluation). For the input `x = JSON.parse('{"__proto__":{"nodes":[],"edges":[]}}')`,
which is not graph-shaped, `merge(x, x, x)` normalizes base, left and right to an object without
own properties whose prototype is the graph-shaped object `{edges: [], nodes: []}`.  The graph
branch of `merge` on three objects without own properties, read as having no nodes and no
edges, returns no conflict and as `merged` the empty workflow graph, which is not the canonical
form of `x`. -/
theorem merge_inherited_graph_branch (P : Platform) :
    looksLikeGraph protoGraphInput = false ∧
    canonicalizeDomain P protoGraphInput = .ok (.obj []) ∧
    (assignedPrototype protoGraphInput).map looksLikeGraph = some true ∧
    (assignedPrototype protoGraphInput).map (fun p => (propItems p "nodes", propItems p "edges"))
      = some ([], []) ∧
    mergeGraphs P (.obj []) (.obj []) (.obj [])
      = .ok (.obj [("conflicts", .arr []), ("merged", .obj [("edges", .arr []),
          ("kind", .str "workflow_graph@1"), ("nodes", .arr [])])]) ∧
    Value.obj [("edges", .arr []), ("kind", .str "workflow_graph@1"), ("nodes", .arr [])]
      ≠ .obj [] := by
  refine ⟨rfl, rfl, rfl, rfl, rfl, fun h => ?_⟩
  injection h with h
  cases h

/-- C28 (evaluation). The input `x = JSON.parse('{"__proto__":{"nodes":[{"id":5}]}}')` is not
graph-shaped, and `S = canonicalizeDomain(x)` is an object without own properties to which the
assignment of `__proto__` has given the prototype `{nodes: [{id: 5}]}`, so `S` is an output of
`canonicalizeDomain` that `looksLikeGraph` accepts.  `validate(S)` and `merge(S, S, S)` normalize
`S` as a graph, reading the nodes through the prototype, and `normalizeGraph` on these nodes
throws `Expected string for node.id`. -/
theorem validate_inherited_graph_throws (P : Platform) :
    jsonParse "\x7b\"__proto__\":\x7b\"nodes\":[\x7b\"id\":5\x7d]\x7d\x7d"
      = some protoNumberIdInput ∧
    looksLikeGraph protoNumberIdInput = false ∧
    canonicalizeDomain P protoNumberIdInput = .ok (.obj []) ∧
    assignedPrototype protoNumberIdInput
      = some (.obj [("nodes", .arr [.obj [("id", .num (.finite 5))]])]) ∧
    looksLikeGraph (.obj [("nodes", .arr [.obj [("id", .num (.finite 5))]])]) = true ∧
    normalizeGraph P (.obj [("nodes", .arr [.obj [("id", .num (.finite 5))]])])
      = .error (.expectedString "node.id") :=
  ⟨by with_unfolding_all rfl, rfl, rfl, rfl, rfl, rfl⟩

end FlowVersion
